import Mathlib

/-!
# go-json: string unescaping, compaction and the map / pointer / text decoders

A shallow embedding of the decoding and compaction routines of the repository.
Bytes are natural numbers (a byte is a number below 256), byte slices are lists,
cursors are natural numbers.  Loops are written with an explicit fuel argument;
each theorem that states a result shows that the fuel supplied is enough.
-/

namespace GoJson

/-! ## Go standard library: unicode/utf8 and unicode/utf16 -/

/-- The rune utf8.RuneError, equal to unicode.ReplacementChar (U+FFFD). -/
def RuneError : Nat := 0xFFFD

/-- The table utf8.first: information about the first byte of a UTF-8 sequence.
The value 0xF0 marks ASCII, 0xF1 an invalid first byte; otherwise the low three
bits give the size and the high four bits index acceptRanges. -/
def first (b : Nat) : Nat :=
  if b < 0x80 then 0xF0
  else if b < 0xC2 then 0xF1
  else if b < 0xE0 then 0x02
  else if b = 0xE0 then 0x13
  else if b < 0xED then 0x03
  else if b = 0xED then 0x23
  else if b < 0xF0 then 0x03
  else if b = 0xF0 then 0x34
  else if b < 0xF4 then 0x04
  else if b = 0xF4 then 0x44
  else 0xF1

/-- The table utf8.acceptRanges: the accepted range of the second byte. -/
def acceptRanges (i : Nat) : Nat × Nat :=
  match i with
  | 0 => (0x80, 0xBF)
  | 1 => (0xA0, 0xBF)
  | 2 => (0x80, 0x9F)
  | 3 => (0x90, 0xBF)
  | 4 => (0x80, 0x8F)
  | _ => (0, 0)

/-- The function utf8.DecodeRune: the first rune of p and its width in bytes;
(RuneError, 0) for empty input and (RuneError, 1) for an invalid encoding. -/
def DecodeRune (p : List Nat) : Nat × Nat :=
  match p with
  | [] => (RuneError, 0)
  | p0 :: rest =>
    let x := first p0
    if x ≥ 0xF0 then
      if x = 0xF0 then (p0, 1) else (RuneError, 1)
    else
      let sz := x &&& 7
      let accept := acceptRanges (x >>> 4)
      if p.length < sz then (RuneError, 1)
      else
        let b1 := rest.getD 0 0
        if b1 < accept.1 ∨ accept.2 < b1 then (RuneError, 1)
        else if sz ≤ 2 then (((p0 &&& 0x1F) <<< 6) ||| (b1 &&& 0x3F), 2)
        else
          let b2 := rest.getD 1 0
          if b2 < 0x80 ∨ 0xBF < b2 then (RuneError, 1)
          else if sz ≤ 3 then
            (((p0 &&& 0x0F) <<< 12) ||| ((b1 &&& 0x3F) <<< 6) ||| (b2 &&& 0x3F), 3)
          else
            let b3 := rest.getD 2 0
            if b3 < 0x80 ∨ 0xBF < b3 then (RuneError, 1)
            else
              (((p0 &&& 0x07) <<< 18) ||| ((b1 &&& 0x3F) <<< 12) ||| ((b2 &&& 0x3F) <<< 6)
                ||| (b3 &&& 0x3F), 4)

/-- The function utf8.EncodeRune, returning the bytes it writes (their number is
the returned width).  Every call site passes a rune that is not negative, so the
conversion uint32(r) is the identity. -/
def EncodeRune (r : Nat) : List Nat :=
  if r ≤ 0x7F then [r % 256]
  else if r ≤ 0x7FF then [0xC0 ||| ((r >>> 6) % 256), 0x80 ||| ((r % 256) &&& 0x3F)]
  else if r > 0x10FFFF ∨ (0xD800 ≤ r ∧ r ≤ 0xDFFF) then
    [0xE0 ||| ((RuneError >>> 12) % 256), 0x80 ||| (((RuneError >>> 6) % 256) &&& 0x3F),
      0x80 ||| ((RuneError % 256) &&& 0x3F)]
  else if r ≤ 0xFFFF then
    [0xE0 ||| ((r >>> 12) % 256), 0x80 ||| (((r >>> 6) % 256) &&& 0x3F),
      0x80 ||| ((r % 256) &&& 0x3F)]
  else
    [0xF0 ||| ((r >>> 18) % 256), 0x80 ||| (((r >>> 12) % 256) &&& 0x3F),
      0x80 ||| (((r >>> 6) % 256) &&& 0x3F), 0x80 ||| ((r % 256) &&& 0x3F)]

/-- The function utf16.IsSurrogate. -/
def IsSurrogate (r : Int) : Bool :=
  decide (0xD800 ≤ r ∧ r < 0xE000)

/-- The function utf16.DecodeRune: the code point of a surrogate pair, or
U+FFFD when the pair is not valid. -/
def utf16DecodeRune (r1 r2 : Int) : Nat :=
  if 0xD800 ≤ r1 ∧ r1 < 0xDC00 ∧ 0xDC00 ≤ r2 ∧ r2 < 0xE000 then
    (((r1 - 0xD800).toNat <<< 10) ||| (r2 - 0xDC00).toNat) + 0x10000
  else RuneError

/-! ## decode_unmarshal_text.go: getu4 and unquoteBytes -/

/-- The loop of getu4 over the four bytes s[2:6], with r the value so far. -/
def getu4Loop : List Nat → Int → Int
  | [], r => r
  | c :: cs, r =>
    if 48 ≤ c ∧ c ≤ 57 then getu4Loop cs (r * 16 + ((c - 48 : Nat) : Int))
    else if 97 ≤ c ∧ c ≤ 102 then getu4Loop cs (r * 16 + ((c - 97 + 10 : Nat) : Int))
    else if 65 ≤ c ∧ c ≤ 70 then getu4Loop cs (r * 16 + ((c - 65 + 10 : Nat) : Int))
    else -1

/-- The function getu4: the value of the four hexadecimal digits of a leading
backslash-u escape, or -1. -/
def getu4 (s : List Nat) : Int :=
  if s.length < 6 ∨ s.getD 0 0 ≠ 92 ∨ s.getD 1 0 ≠ 117 then -1
  else getu4Loop ((s.drop 2).take 4) 0

/-- The result of unquoteBytes: the pair (t, true), the pair (nil, false), or
the marker that the fuel of the embedding ran out. -/
inductive Unquoted where
  | ok (t : List Nat)
  | notOk
  | outOfFuel
  deriving DecidableEq, Repr

/-- The first loop of unquoteBytes over the unread suffix rest = s[r:]: the
index r at which the loop stops. -/
def scanUnusual : Nat → List Nat → Nat → Option Nat
  | _, [], r => some r
  | 0, _ :: _, _ => none
  | fuel + 1, c :: tl, r =>
    if c = 92 ∨ c = 34 ∨ c < 32 then some r
    else if c < 0x80 then scanUnusual fuel tl (r + 1)
    else
      let d := DecodeRune (c :: tl)
      if d.1 = RuneError ∧ d.2 = 1 then some r
      else scanUnusual fuel ((c :: tl).drop d.2) (r + d.2)

/-- The length of the work buffer after the out-of-room test at the head of
the second loop of unquoteBytes: w is the write index, blen is len(b). -/
def growLen (w blen : Nat) : Nat :=
  if w ≥ blen - 2 * 4 then (blen + 4) * 2 else blen

/-- The second loop of unquoteBytes.  The state is the unread suffix
rest = s[r:], the bytes written so far b[0:w] and the buffer length len(b). -/
def unquoteLoop : Nat → List Nat → List Nat → Nat → Unquoted
  | _, [], b, _ => .ok b
  | 0, _ :: _, _, _ => .outOfFuel
  | fuel + 1, c :: tl, b, blen =>
    let blen := growLen b.length blen
    if c = 92 then
      match tl with
      | [] => .notOk
      | e :: tl2 =>
        if e = 34 ∨ e = 92 ∨ e = 47 ∨ e = 39 then unquoteLoop fuel tl2 (b ++ [e]) blen
        else if e = 98 then unquoteLoop fuel tl2 (b ++ [8]) blen
        else if e = 102 then unquoteLoop fuel tl2 (b ++ [12]) blen
        else if e = 110 then unquoteLoop fuel tl2 (b ++ [10]) blen
        else if e = 114 then unquoteLoop fuel tl2 (b ++ [13]) blen
        else if e = 116 then unquoteLoop fuel tl2 (b ++ [9]) blen
        else if e = 117 then
          let rr := getu4 (c :: tl)
          if rr < 0 then .notOk
          else if IsSurrogate rr then
            let rr1 := getu4 ((c :: tl).drop 6)
            let dec := utf16DecodeRune rr rr1
            if dec ≠ RuneError then
              unquoteLoop fuel ((c :: tl).drop 12) (b ++ EncodeRune dec) blen
            else unquoteLoop fuel ((c :: tl).drop 6) (b ++ EncodeRune RuneError) blen
          else unquoteLoop fuel ((c :: tl).drop 6) (b ++ EncodeRune rr.toNat) blen
        else .notOk
    else if c = 34 ∨ c < 32 then .notOk
    else if c < 0x80 then unquoteLoop fuel tl (b ++ [c]) blen
    else
      let d := DecodeRune (c :: tl)
      unquoteLoop fuel ((c :: tl).drop d.2) (b ++ EncodeRune d.1) blen

/-- The function unquoteBytes. -/
def unquoteBytes (s : List Nat) : Unquoted :=
  let length := s.length
  if length < 2 ∨ s.getD 0 0 ≠ 34 ∨ s.getD (length - 1) 0 ≠ 34 then .notOk
  else
    let s := (s.drop 1).take (length - 2)
    let length := length - 2
    match scanUnusual length s 0 with
    | none => .outOfFuel
    | some r =>
      if r = length then .ok s
      else unquoteLoop length (s.drop r) (s.take r) (length + 2 * 4)

/-! ## JSON quoting, the input of the unescape round trip -/

/-- The table hex of the encoder: the sixteen lower-case hexadecimal digits. -/
def hex (i : Nat) : Nat :=
  [48, 49, 50, 51, 52, 53, 54, 55, 56, 57, 97, 98, 99, 100, 101, 102].getD i 0

/-- Modelled from the spec: the JSON quoting of one byte.  The quote and the
backslash are escaped with a backslash; a control character below 0x20 is
written in its two-byte short form when it has one and short selects it, and as
a backslash-u escape with four hexadecimal digits otherwise; every other byte
stands for itself. -/
def quoteByte (short : Nat → Bool) (c : Nat) : List Nat :=
  if c = 34 then [92, 34]
  else if c = 92 then [92, 92]
  else if c < 32 then
    if short c = true ∧ c = 8 then [92, 98]
    else if short c = true ∧ c = 9 then [92, 116]
    else if short c = true ∧ c = 10 then [92, 110]
    else if short c = true ∧ c = 12 then [92, 102]
    else if short c = true ∧ c = 13 then [92, 114]
    else [92, 117, 48, 48, hex (c / 16), hex (c % 16)]
  else [c]

/-- Modelled from the spec: the JSON quoting of a byte string, its escaped
bytes between two double quotes. -/
def quote (short : Nat → Bool) (s : List Nat) : List Nat :=
  34 :: (s.flatMap (quoteByte short) ++ [34])

/-- A byte below 0x80 that the first loop of unquoteBytes steps over: not a
control character, not the quote and not the backslash. -/
def plainAscii (c : Nat) : Bool := decide (32 ≤ c ∧ c < 128 ∧ c ≠ 34 ∧ c ≠ 92)

/-- The code point of a UTF-16 surrogate pair with high half hi and low half
lo, as the Unicode standard defines it. -/
def surrogatePairCodePoint (hi lo : Nat) : Nat :=
  0x10000 + (hi - 0xD800) * 0x400 + (lo - 0xDC00)

/-- The four-byte UTF-8 encoding of a code point from U+10000 to U+10FFFF, as
the Unicode standard defines it. -/
def utf8Bytes4 (cp : Nat) : List Nat :=
  [0xF0 + cp / 0x40000, 0x80 + cp / 0x1000 % 0x40, 0x80 + cp / 0x40 % 0x40, 0x80 + cp % 0x40]

/-- The interior of the JSON quoting of a byte string. -/
def quoteBody (short : Nat → Bool) (s : List Nat) : List Nat :=
  s.flatMap (quoteByte short)

/-- Four hexadecimal digits as they appear in a backslash-u escape: the value
of each digit and whether a letter digit is written in upper case. -/
structure Hex4 where
  a1 : Nat
  a2 : Nat
  a3 : Nat
  a4 : Nat
  u1 : Bool
  u2 : Bool
  u3 : Bool
  u4 : Bool
  deriving DecidableEq, Repr

/-- The ASCII byte of one hexadecimal digit. -/
def hexDigitByte (upper : Bool) (a : Nat) : Nat :=
  if a < 10 then 48 + a else if upper then 55 + a else 87 + a

/-- Every digit of the four is below sixteen. -/
def Hex4.valid (d : Hex4) : Prop := d.a1 < 16 ∧ d.a2 < 16 ∧ d.a3 < 16 ∧ d.a4 < 16

instance (d : Hex4) : Decidable d.valid := by unfold Hex4.valid; infer_instance

/-- The UTF-16 code unit the four digits denote. -/
def Hex4.value (d : Hex4) : Nat := ((d.a1 * 16 + d.a2) * 16 + d.a3) * 16 + d.a4

/-- The six bytes of the escape: backslash, u and the four digits. -/
def Hex4.bytes (d : Hex4) : List Nat :=
  [92, 117, hexDigitByte d.u1 d.a1, hexDigitByte d.u2 d.a2, hexDigitByte d.u3 d.a3,
    hexDigitByte d.u4 d.a4]

/-- The bytes rest begin with a backslash-u escape of a low surrogate
(U+DC00 to U+DFFF). -/
def startsWithLowSurrogate (rest : List Nat) : Prop :=
  ∃ (l : Hex4) (tl : List Nat), l.valid ∧ 0xDC00 ≤ l.value ∧ l.value ≤ 0xDFFF ∧
    rest = l.bytes ++ tl

/-! ## Go standard library: strconv.ParseFloat

Compact validates a number token with strconv.ParseFloat(token, 64) and only
looks at the error.  The token starts with a minus sign or a digit and goes on
with bytes of floatTable, so only decimal floating-point text matters here: an
optional sign, digits with at most one point and at least one digit, and an
optional exponent (e or E, an optional sign, at least one digit).  For such text
ParseFloat reports a range error exactly when the value rounds to an infinity,
that is when its magnitude is at least 2^1024 - 2^970. -/

/-- The longest prefix of decimal digits of s, and what follows it. -/
def spanDigits : List Nat → List Nat × List Nat
  | [] => ([], [])
  | c :: tl =>
    if 48 ≤ c ∧ c ≤ 57 then ((c :: (spanDigits tl).1), (spanDigits tl).2)
    else ([], c :: tl)

/-- The number a string of decimal digits denotes. -/
def natOfDigits (ds : List Nat) : Nat :=
  ds.foldl (fun n c => n * 10 + (c - 48)) 0

/-- The exponent as strconv reads it: digits are accumulated while the value
is below 10000. -/
def expOfDigits (ds : List Nat) : Nat :=
  ds.foldl (fun e c => if e < 10000 then e * 10 + (c - 48) else e) 0

/-- The text without a leading sign. -/
def dropSign : List Nat → List Nat
  | 43 :: tl => tl
  | 45 :: tl => tl
  | s => s

/-- The mantissa digits (the point removed) and the decimal exponent of decimal
floating-point text; none when the text is not of that form. -/
def parseDecimal (s : List Nat) : Option (Nat × Int) :=
  let s1 := dropSign s
  let ip := (spanDigits s1).1
  let r1 := (spanDigits s1).2
  let fp := match r1 with
    | 46 :: t => (spanDigits t).1
    | _ => []
  let r2 := match r1 with
    | 46 :: t => (spanDigits t).2
    | _ => r1
  if ip = [] ∧ fp = [] then none
  else
    match r2 with
    | [] => some (natOfDigits (ip ++ fp), -(fp.length : Int))
    | c :: t =>
      if c = 101 ∨ c = 69 then
        let neg := decide (t.head? = some 45)
        let ed := (spanDigits (dropSign t)).1
        let r3 := (spanDigits (dropSign t)).2
        if ed = [] ∨ r3 ≠ [] then none
        else
          let e : Int := if neg then -(expOfDigits ed : Int) else (expOfDigits ed : Int)
          some (natOfDigits (ip ++ fp), e - (fp.length : Int))
      else none

/-- The least magnitude that rounds to an infinity in float64: the largest
finite value 2^1024 - 2^971 plus half a unit in the last place. -/
def float64Overflow : Nat := 2 ^ 1024 - 2 ^ 970

/-- The call strconv.ParseFloat(s, 64) returns no error: s is decimal
floating-point text and its value m * 10^e does not round to an infinity. -/
def parseFloatOk (s : List Nat) : Bool :=
  match parseDecimal s with
  | none => false
  | some (m, e) =>
    if 0 ≤ e then decide (m * 10 ^ e.toNat < float64Overflow)
    else decide (m < float64Overflow * 10 ^ (-e).toNat)

/-! ## internal/encoder/compact.go -/

/-- The table isWhiteSpace: space, line feed, tab and carriage return. -/
def isWhiteSpace (c : Nat) : Bool :=
  decide (c = 32 ∨ c = 10 ∨ c = 9 ∨ c = 13)

/-- The table isHTMLEscapeChar: the bytes of the less-than sign, the
greater-than sign and the ampersand. -/
def isHTMLEscapeChar (c : Nat) : Bool :=
  decide (c = 60 ∨ c = 62 ∨ c = 38)

/-- Modelled from the spec: the table floatTable of the character-class scan
of a number, declared outside compact.go: the digits, the point, e, E, the plus
sign and the minus sign. -/
def floatTable (c : Nat) : Bool :=
  decide ((48 ≤ c ∧ c ≤ 57) ∨ c = 46 ∨ c = 101 ∨ c = 69 ∨ c = 43 ∨ c = 45)

/-- The errors Compact returns, named after the constructors of internal/errors
that build them, each with the offset it is given; the error of
strconv.ParseFloat; the two run-time panics of indexing and slicing; and the
marker that the fuel of the embedding ran out. -/
inductive CompactError where
  | unexpectedEnd (offset : Nat)
  | synErr (offset : Nat)
  | expected (offset : Nat)
  | invalidCharacter (c : Nat) (offset : Nat)
  | parseFloat
  | indexOutOfRange
  | sliceOutOfRange
  | outOfFuel
  deriving DecidableEq, Repr

instance instDecidableEqExcept {ε α : Type} [DecidableEq ε] [DecidableEq α] :
    DecidableEq (Except ε α)
  | .ok a, .ok b =>
    if h : a = b then isTrue (congrArg _ h) else isFalse (fun h1 => h (Except.ok.inj h1))
  | .error a, .error b =>
    if h : a = b then isTrue (congrArg _ h) else isFalse (fun h1 => h (Except.error.inj h1))
  | .ok _, .error _ => isFalse (fun h => Except.noConfusion h)
  | .error _, .ok _ => isFalse (fun h => Except.noConfusion h)

/-- The index expression buf[i]; it panics when i is out of range. -/
def byteAt (buf : List Nat) (i : Nat) : Except CompactError Nat :=
  match buf[i]? with
  | some c => .ok c
  | none => .error .indexOutOfRange

/-- The slice expression buf[lo:hi]; it panics when lo is above hi or hi is
above the length. -/
def slice (buf : List Nat) (lo hi : Nat) : Except CompactError (List Nat) :=
  if lo ≤ hi ∧ hi ≤ buf.length then .ok ((buf.take hi).drop lo)
  else .error .sliceOutOfRange

/-- The function skipWhiteSpace of compact.go. -/
def skipWhiteSpace : Nat → List Nat → Nat → Except CompactError Nat
  | 0, _, _ => .error .outOfFuel
  | fuel + 1, buf, cursor =>
    match byteAt buf cursor with
    | .error e => .error e
    | .ok c => if isWhiteSpace c then skipWhiteSpace fuel buf (cursor + 1) else .ok cursor

/-- The block of compactString that runs when escape is set, for the byte c at
cursor: the new values of dst, start and cursor. -/
def escapeBlock (src : List Nat) (escape : Bool) (dst : List Nat) (start cursor c : Nat) :
    Except CompactError (List Nat × Nat × Nat) :=
  if escape then
    if isHTMLEscapeChar c then
      match slice src start cursor with
      | .error e => .error e
      | .ok span =>
        .ok (dst ++ span ++ [92, 117, 48, 48] ++ [hex (c >>> 4), hex (c &&& 0xF)],
          cursor + 1, cursor)
    else if c = 0xE2 ∧ cursor + 2 < src.length ∧ src.getD (cursor + 1) 0 = 0x80 ∧
        (src.getD (cursor + 2) 0) &&& 0xFE = 0xA8 then
      match slice src start cursor with
      | .error e => .error e
      | .ok span =>
        .ok (dst ++ span ++ [92, 117, 50, 48, 50] ++ [hex (src.getD (cursor + 2) 0 &&& 0xF)],
          (cursor + 2) + 3, cursor + 2)
    else .ok (dst, start, cursor)
  else .ok (dst, start, cursor)

/-- The loop of compactString; cursor is the index read last. -/
def compactStringLoop (src : List Nat) (escape : Bool) :
    Nat → List Nat → Nat → Nat → Except CompactError (List Nat × Nat)
  | 0, _, _, _ => .error .outOfFuel
  | fuel + 1, dst, start, cursor =>
    match byteAt src (cursor + 1) with
    | .error e => .error e
    | .ok c =>
      match escapeBlock src escape dst start (cursor + 1) c with
      | .error e => .error e
      | .ok (dst, start, cursor) =>
        if c = 92 then
          match byteAt src (cursor + 1) with
          | .error e => .error e
          | .ok c2 =>
            if c2 = 0 then .error (.unexpectedEnd src.length)
            else compactStringLoop src escape fuel dst start (cursor + 1)
        else if c = 34 then
          match slice src start (cursor + 1) with
          | .error e => .error e
          | .ok span => .ok (dst ++ span, cursor + 1)
        else if c = 0 then .error (.unexpectedEnd src.length)
        else compactStringLoop src escape fuel dst start cursor

/-- The function compactString. -/
def compactString (src : List Nat) (escape : Bool) (fuel : Nat) (dst : List Nat) (cursor : Nat) :
    Except CompactError (List Nat × Nat) :=
  match byteAt src cursor with
  | .error e => .error e
  | .ok c =>
    if c ≠ 34 then .error (.invalidCharacter c cursor)
    else compactStringLoop src escape fuel dst cursor cursor

/-- The loop of compactNumber: the first index after cursor whose byte is not
in floatTable. -/
def compactNumberLoop (src : List Nat) : Nat → Nat → Except CompactError Nat
  | 0, _ => .error .outOfFuel
  | fuel + 1, cursor =>
    match byteAt src (cursor + 1) with
    | .error e => .error e
    | .ok c => if floatTable c then compactNumberLoop src fuel (cursor + 1) else .ok (cursor + 1)

/-- The function compactNumber. -/
def compactNumber (src : List Nat) (fuel : Nat) (dst : List Nat) (cursor : Nat) :
    Except CompactError (List Nat × Nat) :=
  match compactNumberLoop src fuel cursor with
  | .error e => .error e
  | .ok stop =>
    match slice src cursor stop with
    | .error e => .error e
    | .ok num => if parseFloatOk num then .ok (dst ++ num, stop) else .error .parseFloat

/-- The common shape of compactTrue, compactFalse and compactNull for the
literal lit. -/
def compactLiteral (lit : List Nat) (src dst : List Nat) (cursor : Nat) :
    Except CompactError (List Nat × Nat) :=
  if cursor + (lit.length - 1) ≥ src.length then .error (.unexpectedEnd cursor)
  else
    match slice src cursor (cursor + lit.length) with
    | .error e => .error e
    | .ok bytes =>
      if bytes ≠ lit then .error (.invalidCharacter (src.getD cursor 0) cursor)
      else .ok (dst ++ lit, cursor + lit.length)

/-- The function compactTrue. -/
def compactTrue (src dst : List Nat) (cursor : Nat) : Except CompactError (List Nat × Nat) :=
  compactLiteral [116, 114, 117, 101] src dst cursor

/-- The function compactFalse. -/
def compactFalse (src dst : List Nat) (cursor : Nat) : Except CompactError (List Nat × Nat) :=
  compactLiteral [102, 97, 108, 115, 101] src dst cursor

/-- The function compactNull. -/
def compactNull (src dst : List Nat) (cursor : Nat) : Except CompactError (List Nat × Nat) :=
  compactLiteral [110, 117, 108, 108] src dst cursor

mutual

/-- The function compactValue. -/
def compactValue (src : List Nat) (escape : Bool) :
    Nat → List Nat → Nat → Except CompactError (List Nat × Nat)
  | 0, _, _ => .error .outOfFuel
  | fuel + 1, dst, cursor =>
    match byteAt src cursor with
    | .error e => .error e
    | .ok c =>
      if c = 32 ∨ c = 9 ∨ c = 10 ∨ c = 13 then compactValue src escape fuel dst (cursor + 1)
      else if c = 123 then compactObject src escape fuel dst cursor
      else if c = 125 then .error (.synErr cursor)
      else if c = 91 then compactArray src escape fuel dst cursor
      else if c = 93 then .error (.synErr cursor)
      else if c = 34 then compactString src escape fuel dst cursor
      else if c = 45 ∨ (48 ≤ c ∧ c ≤ 57) then compactNumber src fuel dst cursor
      else if c = 116 then compactTrue src dst cursor
      else if c = 102 then compactFalse src dst cursor
      else if c = 110 then compactNull src dst cursor
      else .error (.synErr cursor)
termination_by structural fuel => fuel

/-- The function compactObject up to its loop. -/
def compactObject (src : List Nat) (escape : Bool) :
    Nat → List Nat → Nat → Except CompactError (List Nat × Nat)
  | 0, _, _ => .error .outOfFuel
  | fuel + 1, dst, cursor =>
    match byteAt src cursor with
    | .error e => .error e
    | .ok c =>
      if c = 110 then compactNull src dst cursor
      else if c = 123 then
        match skipWhiteSpace fuel src (cursor + 1) with
        | .error e => .error e
        | .ok cursor =>
          match byteAt src cursor with
          | .error e => .error e
          | .ok c1 =>
            if c1 = 125 then .ok (dst ++ [123] ++ [125], cursor + 1)
            else compactObjectLoop src escape fuel (dst ++ [123]) cursor
      else .error (.expected cursor)
termination_by structural fuel => fuel

/-- The loop of compactObject. -/
def compactObjectLoop (src : List Nat) (escape : Bool) :
    Nat → List Nat → Nat → Except CompactError (List Nat × Nat)
  | 0, _, _ => .error .outOfFuel
  | fuel + 1, dst, cursor =>
    match skipWhiteSpace fuel src cursor with
    | .error e => .error e
    | .ok cursor =>
      match compactString src escape fuel dst cursor with
      | .error e => .error e
      | .ok (dst, cursor) =>
        match skipWhiteSpace fuel src cursor with
        | .error e => .error e
        | .ok cursor =>
          match byteAt src cursor with
          | .error e => .error e
          | .ok c =>
            if c ≠ 58 then .error (.expected cursor)
            else
              match compactValue src escape fuel (dst ++ [58]) (cursor + 1) with
              | .error e => .error e
              | .ok (dst, cursor) =>
                match skipWhiteSpace fuel src cursor with
                | .error e => .error e
                | .ok cursor =>
                  match byteAt src cursor with
                  | .error e => .error e
                  | .ok c =>
                    if c = 125 then .ok (dst ++ [125], cursor + 1)
                    else if c = 44 then compactObjectLoop src escape fuel (dst ++ [44]) (cursor + 1)
                    else .error (.expected cursor)
termination_by structural fuel => fuel

/-- The function compactArray up to its loop. -/
def compactArray (src : List Nat) (escape : Bool) :
    Nat → List Nat → Nat → Except CompactError (List Nat × Nat)
  | 0, _, _ => .error .outOfFuel
  | fuel + 1, dst, cursor =>
    match byteAt src cursor with
    | .error e => .error e
    | .ok c =>
      if c = 110 then compactNull src dst cursor
      else if c = 91 then
        match skipWhiteSpace fuel src (cursor + 1) with
        | .error e => .error e
        | .ok cursor =>
          match byteAt src cursor with
          | .error e => .error e
          | .ok c1 =>
            if c1 = 93 then .ok (dst ++ [91] ++ [93], cursor + 1)
            else compactArrayLoop src escape fuel (dst ++ [91]) cursor
      else .error (.expected cursor)
termination_by structural fuel => fuel

/-- The loop of compactArray. -/
def compactArrayLoop (src : List Nat) (escape : Bool) :
    Nat → List Nat → Nat → Except CompactError (List Nat × Nat)
  | 0, _, _ => .error .outOfFuel
  | fuel + 1, dst, cursor =>
    match compactValue src escape fuel dst cursor with
    | .error e => .error e
    | .ok (dst, cursor) =>
      match skipWhiteSpace fuel src cursor with
      | .error e => .error e
      | .ok cursor =>
        match byteAt src cursor with
        | .error e => .error e
        | .ok c =>
          if c = 93 then .ok (dst ++ [93], cursor + 1)
          else if c = 44 then compactArrayLoop src escape fuel (dst ++ [44]) (cursor + 1)
          else .error (.expected cursor)
termination_by structural fuel => fuel

end

/-- The function compact: src gets a terminating nul byte and compactValue runs
from index 0; the cursor it returns is dropped.  The fuel is enough for every
input: between two bytes read the functions call each other at most three times
(compactValue, compactArray and the loop of compactArray at a bracket). -/
def compact (dst src : List Nat) (escape : Bool) : Except CompactError (List Nat) :=
  match compactValue (src ++ [0]) escape (3 * src.length + 4) dst 0 with
  | .error e => .error e
  | .ok (buf, _) => .ok buf

/-- The function Compact: the bytes written to buf, or the error. -/
def Compact (src : List Nat) (escape : Bool) : Except CompactError (List Nat) :=
  if src.length = 0 then .error (.unexpectedEnd 0)
  else compact [] src escape

/-! ## The JSON grammar (RFC 8259) over bytes, and the expected output of Compact -/

/-- A run of JSON whitespace: spaces, tabs, line feeds and carriage returns. -/
def IsWs (w : List Nat) : Prop := ∀ c ∈ w, isWhiteSpace c = true

instance (w : List Nat) : Decidable (IsWs w) := by unfold IsWs; infer_instance

/-- Every byte is a decimal digit. -/
def AllDigits (ds : List Nat) : Prop := ∀ c ∈ ds, 48 ≤ c ∧ c ≤ 57

instance (ds : List Nat) : Decidable (AllDigits ds) := by unfold AllDigits; infer_instance

/-- The byte is a hexadecimal digit. -/
def IsHexDigit (c : Nat) : Prop := (48 ≤ c ∧ c ≤ 57) ∨ (97 ≤ c ∧ c ≤ 102) ∨ (65 ≤ c ∧ c ≤ 70)

/-- A JSON number token: an optional minus sign, an integer part without a
superfluous leading zero, an optional fraction and an optional exponent. -/
inductive IsNumber : List Nat → Prop where
  | mk (sign ip frac exp : List Nat) :
      (sign = [] ∨ sign = [45]) →
      AllDigits ip → ip ≠ [] → (ip.head? = some 48 → ip = [48]) →
      (frac = [] ∨ ∃ fd, fd ≠ [] ∧ AllDigits fd ∧ frac = 46 :: fd) →
      (exp = [] ∨ ∃ e s ed, (e = 101 ∨ e = 69) ∧ (s = [] ∨ s = [43] ∨ s = [45]) ∧ ed ≠ [] ∧
        AllDigits ed ∧ exp = e :: (s ++ ed)) →
      IsNumber (sign ++ ip ++ frac ++ exp)

/-- The bytes between the quotes of a JSON string literal: unescaped bytes
(0x20 and above, neither the quote nor the backslash; bytes of 0x80 and above
are not constrained, so every UTF-8 encoded text is covered), two-byte escapes,
and backslash-u escapes with four hexadecimal digits. -/
inductive IsStringBody : List Nat → Prop where
  | nil : IsStringBody []
  | plain (c : Nat) (tl : List Nat) :
      32 ≤ c → c ≠ 34 → c ≠ 92 → IsStringBody tl → IsStringBody (c :: tl)
  | esc (e : Nat) (tl : List Nat) :
      (e = 34 ∨ e = 92 ∨ e = 47 ∨ e = 98 ∨ e = 102 ∨ e = 110 ∨ e = 114 ∨ e = 116) →
      IsStringBody tl → IsStringBody (92 :: e :: tl)
  | uni (h1 h2 h3 h4 : Nat) (tl : List Nat) :
      IsHexDigit h1 → IsHexDigit h2 → IsHexDigit h3 → IsHexDigit h4 →
      IsStringBody tl → IsStringBody (92 :: 117 :: h1 :: h2 :: h3 :: h4 :: tl)

/-- The bytes begin with the UTF-8 encoding of U+2028 or U+2029 (E2 80 A8 or
E2 80 A9). -/
def lineSepAt : List Nat → Bool
  | c0 :: c1 :: c2 :: _ => decide (c0 = 0xE2 ∧ c1 = 0x80 ∧ (c2 = 0xA8 ∨ c2 = 0xA9))
  | _ => false

/-- The bytes nowhere contain the UTF-8 encoding of U+2028 or U+2029. -/
def noLineSep : List Nat → Bool
  | [] => true
  | c :: tl => !lineSepAt (c :: tl) && noLineSep tl

/-- The three kinds of text the grammar of values is made of. -/
inductive Kind where
  | value
  | elements
  | members
  deriving DecidableEq, Repr

/-- The grammar of JSON values, of the elements of a non-empty array (after the
whitespace that follows the bracket) and of the members of a non-empty object
(after the whitespace that follows the brace).  The predicate numOk is required
of every number token and strOk of the bytes between the quotes of every string
literal, keys included. -/
inductive Wf (numOk strOk : List Nat → Prop) : Kind → List Nat → Prop where
  | litNull : Wf numOk strOk .value [110, 117, 108, 108]
  | litTrue : Wf numOk strOk .value [116, 114, 117, 101]
  | litFalse : Wf numOk strOk .value [102, 97, 108, 115, 101]
  | number (t : List Nat) : IsNumber t → numOk t → Wf numOk strOk .value t
  | string (body : List Nat) :
      IsStringBody body → strOk body → Wf numOk strOk .value (34 :: body ++ [34])
  | emptyArray (w : List Nat) : IsWs w → Wf numOk strOk .value (91 :: w ++ [93])
  | array (w es : List Nat) :
      IsWs w → Wf numOk strOk .elements es → Wf numOk strOk .value (91 :: w ++ es ++ [93])
  | emptyObject (w : List Nat) : IsWs w → Wf numOk strOk .value (123 :: w ++ [125])
  | object (w ms : List Nat) :
      IsWs w → Wf numOk strOk .members ms → Wf numOk strOk .value (123 :: w ++ ms ++ [125])
  | lastElement (v w : List Nat) :
      Wf numOk strOk .value v → IsWs w → Wf numOk strOk .elements (v ++ w)
  | element (v w1 w2 es : List Nat) :
      Wf numOk strOk .value v → IsWs w1 → IsWs w2 → Wf numOk strOk .elements es →
      Wf numOk strOk .elements (v ++ w1 ++ 44 :: w2 ++ es)
  | lastMember (k w1 w2 v w3 : List Nat) :
      IsStringBody k → strOk k → IsWs w1 → IsWs w2 → Wf numOk strOk .value v → IsWs w3 →
      Wf numOk strOk .members (34 :: k ++ 34 :: w1 ++ 58 :: w2 ++ v ++ w3)
  | member (k w1 w2 v w3 w4 ms : List Nat) :
      IsStringBody k → strOk k → IsWs w1 → IsWs w2 → Wf numOk strOk .value v → IsWs w3 →
      IsWs w4 → Wf numOk strOk .members ms →
      Wf numOk strOk .members (34 :: k ++ 34 :: w1 ++ 58 :: w2 ++ v ++ w3 ++ 44 :: w4 ++ ms)

/-- A JSON text: one value between two runs of whitespace. -/
def IsJsonText (numOk strOk : List Nat → Prop) (src : List Nat) : Prop :=
  ∃ w1 v w2, IsWs w1 ∧ Wf numOk strOk .value v ∧ IsWs w2 ∧ src = w1 ++ v ++ w2

/-- A well-formed JSON text, with no further condition on numbers and
strings. -/
def WellFormed (src : List Nat) : Prop :=
  IsJsonText (fun _ => True) (fun _ => True) src

/-- The position of a byte of a JSON text: outside every string literal, inside
one, or inside one right after a backslash. -/
inductive Position where
  | outside
  | inString
  | afterBackslash
  deriving DecidableEq, Repr

/-- The six bytes that stand for the less-than sign, the greater-than sign or
the ampersand in HTML-safe output; any other byte stands for itself. -/
def htmlEscape (c : Nat) : List Nat :=
  if c = 60 then [92, 117, 48, 48, 51, 99]
  else if c = 62 then [92, 117, 48, 48, 51, 101]
  else if c = 38 then [92, 117, 48, 48, 50, 54]
  else [c]

/-- The expected output of Compact, read off the input byte by byte: a
whitespace byte outside a string literal is dropped; when escape is set, a
less-than sign, greater-than sign or ampersand inside a string literal is
replaced by its six-byte escape; every other byte is kept. -/
def minifyFrom (escape : Bool) : Position → List Nat → List Nat
  | _, [] => []
  | .outside, c :: tl =>
    if isWhiteSpace c then minifyFrom escape .outside tl
    else if c = 34 then c :: minifyFrom escape .inString tl
    else c :: minifyFrom escape .outside tl
  | .inString, c :: tl =>
    if c = 34 then c :: minifyFrom escape .outside tl
    else if c = 92 then c :: minifyFrom escape .afterBackslash tl
    else if escape then htmlEscape c ++ minifyFrom escape .inString tl
    else c :: minifyFrom escape .inString tl
  | .afterBackslash, c :: tl => c :: minifyFrom escape .inString tl

/-- The expected output of Compact on a whole text. -/
def minify (escape : Bool) (src : List Nat) : List Nat :=
  minifyFrom escape .outside src

/-- The bytes between the quotes of a string literal as the loop of
compactString reads them: a byte that is neither the quote, the backslash nor
nul, or a backslash followed by a byte that is not nul. -/
inductive LooseBody : List Nat → Prop where
  | nil : LooseBody []
  | plain (c : Nat) (tl : List Nat) :
      c ≠ 34 → c ≠ 92 → c ≠ 0 → LooseBody tl → LooseBody (c :: tl)
  | esc (e : Nat) (tl : List Nat) : e ≠ 0 → LooseBody tl → LooseBody (92 :: e :: tl)

/-- The condition on the bytes between the quotes of a string literal under
which the escape block of compactString leaves U+2028 and U+2029 alone: with
escape set, the bytes are below 256 and nowhere hold the encoding of U+2028 or
U+2029; without escape, nothing is required. -/
def StrOkFor (escape : Bool) (body : List Nat) : Prop :=
  escape = true → noLineSep body = true ∧ ∀ c ∈ body, c < 256

/-- What the three recursive functions of Compact do on text of each kind that
stands at index i of src after a run of whitespace w: they append the expected
output to dst and return the index after the text (after the closing bracket or
brace, for elements and members). -/
def CompactSpec (src : List Nat) (escape : Bool) : Kind → List Nat → Prop
  | .value, x =>
    ∀ (w : List Nat) (fuel : Nat) (dst : List Nat) (i : Nat) (rest : List Nat),
      IsWs w → src.drop i = w ++ x ++ rest → (∃ c tl, rest = c :: tl ∧ floatTable c = false) →
      w.length + 2 * x.length ≤ fuel →
      compactValue src escape fuel dst i =
        .ok (dst ++ minifyFrom escape .outside x, i + w.length + x.length)
  | .elements, x =>
    ∀ (w : List Nat) (fuel : Nat) (dst : List Nat) (i : Nat) (rest : List Nat),
      IsWs w → src.drop i = w ++ x ++ 93 :: rest → w.length + 2 * x.length + 1 ≤ fuel →
      compactArrayLoop src escape fuel dst i =
        .ok (dst ++ minifyFrom escape .outside x ++ [93], i + w.length + x.length + 1)
  | .members, x =>
    ∀ (w : List Nat) (fuel : Nat) (dst : List Nat) (i : Nat) (rest : List Nat),
      IsWs w → src.drop i = w ++ x ++ 125 :: rest → w.length + 2 * x.length + 1 ≤ fuel →
      compactObjectLoop src escape fuel dst i =
        .ok (dst ++ minifyFrom escape .outside x ++ [125], i + w.length + x.length + 1)

/-- The expected output of a text followed by more text is the expected output
of the text followed by that of what follows: the text ends outside every
string literal. -/
def MinifySplits (escape : Bool) (x : List Nat) : Prop :=
  ∀ rest, minifyFrom escape .outside (x ++ rest) =
    minifyFrom escape .outside x ++ minifyFrom escape .outside rest

/-! ## Text that breaks off where a value is due -/

/-- Text of each kind up to the place where, after the colon of a key and
whitespace, a value is due: the key with its colon, possibly after complete
members, in an object that may itself stand as a value inside further objects
and arrays, after complete members and elements. -/
inductive Broken (numOk strOk : List Nat → Prop) : Kind → List Nat → Prop where
  | key (k w1 w2 : List Nat) :
      IsStringBody k → strOk k → IsWs w1 → IsWs w2 →
      Broken numOk strOk .members (34 :: k ++ 34 :: w1 ++ 58 :: w2)
  | inMember (k w1 w2 v : List Nat) :
      IsStringBody k → strOk k → IsWs w1 → IsWs w2 → Broken numOk strOk .value v →
      Broken numOk strOk .members (34 :: k ++ 34 :: w1 ++ 58 :: w2 ++ v)
  | afterMember (k w1 w2 v w3 w4 ms : List Nat) :
      IsStringBody k → strOk k → IsWs w1 → IsWs w2 → Wf numOk strOk .value v → IsWs w3 →
      IsWs w4 → Broken numOk strOk .members ms →
      Broken numOk strOk .members (34 :: k ++ 34 :: w1 ++ 58 :: w2 ++ v ++ w3 ++ 44 :: w4 ++ ms)
  | object (w ms : List Nat) :
      IsWs w → Broken numOk strOk .members ms → Broken numOk strOk .value (123 :: w ++ ms)
  | array (w es : List Nat) :
      IsWs w → Broken numOk strOk .elements es → Broken numOk strOk .value (91 :: w ++ es)
  | inElement (v : List Nat) : Broken numOk strOk .value v → Broken numOk strOk .elements v
  | afterElement (v w1 w2 es : List Nat) :
      Wf numOk strOk .value v → IsWs w1 → IsWs w2 → Broken numOk strOk .elements es →
      Broken numOk strOk .elements (v ++ w1 ++ 44 :: w2 ++ es)

/-- What the three recursive functions of Compact do on text of each kind that
breaks off before a closing brace, standing at index i of src after a run of
whitespace w: they return the syntax error with the index of the brace. -/
def BrokenSpec (src : List Nat) (escape : Bool) : Kind → List Nat → Prop
  | .value, x =>
    ∀ (w : List Nat) (fuel : Nat) (dst : List Nat) (i : Nat) (rest : List Nat),
      IsWs w → src.drop i = w ++ x ++ 125 :: rest → w.length + 3 * x.length + 3 ≤ fuel →
      compactValue src escape fuel dst i = .error (.synErr (i + w.length + x.length))
  | .elements, x =>
    ∀ (w : List Nat) (fuel : Nat) (dst : List Nat) (i : Nat) (rest : List Nat),
      IsWs w → src.drop i = w ++ x ++ 125 :: rest → w.length + 3 * x.length + 4 ≤ fuel →
      compactArrayLoop src escape fuel dst i = .error (.synErr (i + w.length + x.length))
  | .members, x =>
    ∀ (w : List Nat) (fuel : Nat) (dst : List Nat) (i : Nat) (rest : List Nat),
      IsWs w → src.drop i = w ++ x ++ 125 :: rest → w.length + 3 * x.length + 4 ≤ fuel →
      compactObjectLoop src escape fuel dst i = .error (.synErr (i + w.length + x.length))

/-! ## The grammar Compact checks -/

/-- The grammar that Compact checks while it copies: the literals spelled in
full; a number token that starts with a minus sign or a digit, goes on with
bytes of floatTable and is accepted by strconv.ParseFloat; a string literal
closed by an unescaped quote, with no nul byte inside; arrays and objects with
their brackets, commas, colons and string keys.  It is the grammar Wf with the
number tokens and string bodies not examined further. -/
inductive Loose : Kind → List Nat → Prop where
  | litNull : Loose .value [110, 117, 108, 108]
  | litTrue : Loose .value [116, 114, 117, 101]
  | litFalse : Loose .value [102, 97, 108, 115, 101]
  | number (c : Nat) (tl : List Nat) :
      (c = 45 ∨ (48 ≤ c ∧ c ≤ 57)) → (∀ x ∈ tl, floatTable x = true) →
      parseFloatOk (c :: tl) = true → Loose .value (c :: tl)
  | string (body : List Nat) : LooseBody body → Loose .value (34 :: body ++ [34])
  | emptyArray (w : List Nat) : IsWs w → Loose .value (91 :: w ++ [93])
  | array (w es : List Nat) : IsWs w → Loose .elements es → Loose .value (91 :: w ++ es ++ [93])
  | emptyObject (w : List Nat) : IsWs w → Loose .value (123 :: w ++ [125])
  | object (w ms : List Nat) : IsWs w → Loose .members ms → Loose .value (123 :: w ++ ms ++ [125])
  | lastElement (v w : List Nat) : Loose .value v → IsWs w → Loose .elements (v ++ w)
  | element (v w1 w2 es : List Nat) :
      Loose .value v → IsWs w1 → IsWs w2 → Loose .elements es →
      Loose .elements (v ++ w1 ++ 44 :: w2 ++ es)
  | lastMember (k w1 w2 v w3 : List Nat) :
      LooseBody k → IsWs w1 → IsWs w2 → Loose .value v → IsWs w3 →
      Loose .members (34 :: k ++ 34 :: w1 ++ 58 :: w2 ++ v ++ w3)
  | member (k w1 w2 v w3 w4 ms : List Nat) :
      LooseBody k → IsWs w1 → IsWs w2 → Loose .value v → IsWs w3 → IsWs w4 →
      Loose .members ms →
      Loose .members (34 :: k ++ 34 :: w1 ++ 58 :: w2 ++ v ++ w3 ++ 44 :: w4 ++ ms)

/-- What a successful call of one of the recursive functions of Compact tells:
from index i the function, called as g, has read whitespace, text of the kind
and the closing bytes (none after a value, the closing bracket after elements,
the closing brace after members) up to the index j it returns; and without
escaping it has appended the text without its whitespace outside strings, and
the closing bytes, to dst. -/
def Accepts (src : List Nat) (escape : Bool) (k : Kind) (closing : List Nat)
    (g : List Nat → Nat → Except CompactError (List Nat × Nat)) : Prop :=
  ∀ (dst : List Nat) (i : Nat) (out : List Nat) (j : Nat), g dst i = .ok (out, j) →
    ∃ w x, IsWs w ∧ Loose k x ∧ src.drop i = w ++ x ++ closing ++ src.drop j ∧
      (escape = false → out = dst ++ minifyFrom false .outside x ++ closing)

/-! ## The inputs unquoteBytes rejects -/

/-- The byte after the backslash of a two-byte escape that unquoteBytes
accepts: the quote, the backslash, the slash, the apostrophe, b, f, n, r, t. -/
def IsSimpleEscape (e : Nat) : Prop :=
  e = 34 ∨ e = 92 ∨ e = 47 ∨ e = 39 ∨ e = 98 ∨ e = 102 ∨ e = 110 ∨ e = 114 ∨ e = 116

instance (e : Nat) : Decidable (IsSimpleEscape e) := by unfold IsSimpleEscape; infer_instance

instance (c : Nat) : Decidable (IsHexDigit c) := by unfold IsHexDigit; infer_instance

/-- The bytes begin with four hexadecimal digits. -/
def FourHex : List Nat → Prop
  | h1 :: h2 :: h3 :: h4 :: _ => IsHexDigit h1 ∧ IsHexDigit h2 ∧ IsHexDigit h3 ∧ IsHexDigit h4
  | _ => False

instance : (l : List Nat) → Decidable (FourHex l)
  | [] => isFalse (fun h => h)
  | [_] => isFalse (fun h => h)
  | [_, _] => isFalse (fun h => h)
  | [_, _, _] => isFalse (fun h => h)
  | h1 :: h2 :: h3 :: h4 :: _ =>
    inferInstanceAs (Decidable (IsHexDigit h1 ∧ IsHexDigit h2 ∧ IsHexDigit h3 ∧ IsHexDigit h4))

/-- The interior of a quoted input, read from left to right with escapes taken
as units, contains an unescaped quote, a byte below 0x20, a backslash that is
its last byte, a backslash followed by a byte that is neither the byte of a
two-byte escape nor u, or a backslash and u not followed by four hexadecimal
digits.  The units read over are a byte of 0x20 or above that is neither the
quote nor the backslash, a two-byte escape, and a backslash-u escape with its
four digits. -/
inductive HasFlaw : List Nat → Prop where
  | quote (tl : List Nat) : HasFlaw (34 :: tl)
  | control (c : Nat) (tl : List Nat) : c < 32 → HasFlaw (c :: tl)
  | lastBackslash : HasFlaw [92]
  | badEscape (e : Nat) (tl : List Nat) : ¬ IsSimpleEscape e → e ≠ 117 → HasFlaw (92 :: e :: tl)
  | badHex (tl : List Nat) : ¬ FourHex tl → HasFlaw (92 :: 117 :: tl)
  | afterByte (c : Nat) (tl : List Nat) :
      32 ≤ c → c ≠ 34 → c ≠ 92 → HasFlaw tl → HasFlaw (c :: tl)
  | afterEscape (e : Nat) (tl : List Nat) : IsSimpleEscape e → HasFlaw tl → HasFlaw (92 :: e :: tl)
  | afterHex (h1 h2 h3 h4 : Nat) (tl : List Nat) :
      FourHex [h1, h2, h3, h4] → HasFlaw tl → HasFlaw (92 :: 117 :: h1 :: h2 :: h3 :: h4 :: tl)

/-! ## The second loop of unquoteBytes, one iteration at a time -/

/-- One iteration of the second loop of unquoteBytes, from the state at its
head: c is the byte s[r], tl the bytes after it, b the bytes written so far and
blen the length of the work buffer.  The result is the state at the head of the
next iteration, the unread bytes, the bytes written and the length of the work
buffer, or none when the function returns (nil, false). -/
def unquoteStep (c : Nat) (tl b : List Nat) (blen : Nat) : Option (List Nat × List Nat × Nat) :=
  let blen := growLen b.length blen
  if c = 92 then
    match tl with
    | [] => none
    | e :: tl2 =>
      if e = 34 ∨ e = 92 ∨ e = 47 ∨ e = 39 then some (tl2, b ++ [e], blen)
      else if e = 98 then some (tl2, b ++ [8], blen)
      else if e = 102 then some (tl2, b ++ [12], blen)
      else if e = 110 then some (tl2, b ++ [10], blen)
      else if e = 114 then some (tl2, b ++ [13], blen)
      else if e = 116 then some (tl2, b ++ [9], blen)
      else if e = 117 then
        let rr := getu4 (c :: tl)
        if rr < 0 then none
        else if IsSurrogate rr then
          let rr1 := getu4 ((c :: tl).drop 6)
          let dec := utf16DecodeRune rr rr1
          if dec ≠ RuneError then some ((c :: tl).drop 12, b ++ EncodeRune dec, blen)
          else some ((c :: tl).drop 6, b ++ EncodeRune RuneError, blen)
        else some ((c :: tl).drop 6, b ++ EncodeRune rr.toNat, blen)
      else none
  else if c = 34 ∨ c < 32 then none
  else if c < 0x80 then some (tl, b ++ [c], blen)
  else
    let d := DecodeRune (c :: tl)
    some ((c :: tl).drop d.2, b ++ EncodeRune d.1, blen)

/-- The states at the head of the iterations of the second loop that follow
the state start. -/
inductive UnquoteReaches (start : List Nat × List Nat × Nat) :
    List Nat × List Nat × Nat → Prop where
  | refl : UnquoteReaches start start
  | step (c : Nat) (tl b : List Nat) (blen : Nat) (next : List Nat × List Nat × Nat) :
      UnquoteReaches start (c :: tl, b, blen) → unquoteStep c tl b blen = some next →
      UnquoteReaches start next

/-- The bytes are valid UTF-8, as utf8.Valid defines it: decoded rune by rune,
no position yields the error rune of width 1. -/
inductive ValidUTF8 : List Nat → Prop where
  | nil : ValidUTF8 []
  | rune (c : Nat) (tl : List Nat) :
      DecodeRune (c :: tl) ≠ (RuneError, 1) →
      ValidUTF8 ((c :: tl).drop (DecodeRune (c :: tl)).2) → ValidUTF8 (c :: tl)

/-! ## The decoders: shared model

A decoder writes a value into target storage and returns a cursor or an error.
Here a decoder is a function from the buffer, the cursor, the depth and the
contents of the target before the call to an outcome: the contents of the target
after the call, the decoders and hooks the call invoked itself, in order, and
the returned cursor or error. -/

/-- The errors the decoders return, named after the constructors that build
them, each with the offset it is given; the error of a hook or of a helper
declared elsewhere; the run-time panic of indexing; and the marker that the fuel
of the embedding ran out. -/
inductive DecodeError where
  | exceededMaxDepth (c : Nat) (offset : Nat)
  | expectedMapBraces (offset : Nat)
  | expectedMapStart (offset : Nat)
  | expectedColon (offset : Nat)
  | expectedComma (offset : Nat)
  | unexpectedEnd (offset : Nat)
  | invalidCharacter (c : Nat) (offset : Nat)
  | unmarshalTypeArray (offset : Nat)
  | unmarshalTypeObject (offset : Nat)
  | unmarshalTypeString (offset : Nat)
  | other (code : Nat)
  | indexOutOfRange
  | outOfFuel
  deriving DecidableEq, Repr

/-- An invocation a decoder makes: of its key decoder or value decoder (with
the cursor and the depth passed), of its inner decoder, or of the UnmarshalText
hook (with the bytes passed). -/
inductive Call where
  | key (cursor depth : Nat)
  | value (cursor depth : Nat)
  | inner (cursor : Nat)
  | hook (bytes : List Nat)
  deriving DecidableEq, Repr

/-- The depth passed in an invocation of a key or value decoder. -/
def Call.depth? : Call → Option Nat
  | .key _ d => some d
  | .value _ d => some d
  | _ => none

/-- What a buffer-mode decode leaves behind. -/
structure Outcome (τ : Type) where
  target : τ
  calls : List Call
  result : Except DecodeError Nat

/-- The buffer-mode operation of a decoder of the decoder package, for the
path of the context, the buffer, the cursor, the depth and the target. -/
abbrev Decoder (π τ : Type) := π → List Nat → Nat → Nat → τ → Outcome τ

/-- A Go map as a finite partial function. -/
abbrev GoMap (κ ν : Type) := κ → Option ν

/-- The result of makemap: the empty map. -/
def makemap {κ ν : Type} : GoMap κ ν := fun _ => none

/-- The runtime function mapassign: m[k] = v. -/
def mapassign {κ ν : Type} [DecidableEq κ] (m : GoMap κ ν) (k : κ) (v : ν) : GoMap κ ν :=
  fun x => if x = k then some v else m x

/-- The whitespace loop over the unread suffix buf[cursor:]; none when it runs
off the end of the buffer. -/
def skipWhiteSpaceFrom : List Nat → Nat → Option Nat
  | [], _ => none
  | c :: tl, cursor => if isWhiteSpace c then skipWhiteSpaceFrom tl (cursor + 1) else some cursor

/-- Modelled from the spec: the function skipWhiteSpace of the decoders,
declared outside the excerpt; it advances the cursor over spaces, tabs, line
feeds and carriage returns, as the function of that name in compact.go does. -/
def decoderSkipWhiteSpace (buf : List Nat) (cursor : Nat) : Option Nat :=
  skipWhiteSpaceFrom (buf.drop cursor) cursor

/-- Modelled from the spec: the function validateNull of the decoder package,
declared outside the excerpt; it checks the four characters of null one by one,
as the check written out in ptrDecoder.decode does. -/
def validateNull (buf : List Nat) (cursor : Nat) : Option DecodeError :=
  if cursor + 3 ≥ buf.length then some (.unexpectedEnd cursor)
  else if buf.getD (cursor + 1) 0 ≠ 117 then
    some (.invalidCharacter (buf.getD (cursor + 1) 0) cursor)
  else if buf.getD (cursor + 2) 0 ≠ 108 then
    some (.invalidCharacter (buf.getD (cursor + 2) 0) cursor)
  else if buf.getD (cursor + 3) 0 ≠ 108 then
    some (.invalidCharacter (buf.getD (cursor + 3) 0) cursor)
  else none

/-! ## internal/decoder/map.go -/

/-- The struct mapDecoder: its key decoder and value decoder; the method
decodeByte of the key decoder when that is a string decoder (the type assertion
of DecodePath), which returns the key bytes and the cursor after the key; and,
declared outside the excerpt, the functions skipValue and skipObject, the
lookup Field of a path, which returns the child path when the key matches, and
strings.ToLower. -/
structure mapDecoder (π κ ν : Type) where
  keyDecoder : Decoder π κ
  valueDecoder : Decoder π ν
  stringKey : Option (List Nat → Nat → Except DecodeError (List Nat × Nat))
  skipValue : List Nat → Nat → Nat → Except DecodeError Nat
  skipObject : List Nat → Nat → Nat → Except DecodeError Nat
  pathField : π → List Nat → Except DecodeError (Option π)
  toLower : List Nat → List Nat

/-- The contents of the target when Decode returns an error from its loop: the
target is written on success only, but a map that the target already held is
the map the loop assigns into. -/
def aliased {κ ν : Type} (p : Option (GoMap κ ν)) (mapValue : GoMap κ ν) :
    Option (GoMap κ ν) :=
  match p with
  | none => none
  | some _ => some mapValue

/-- The loop of mapDecoder.Decode; depth is the incremented depth, p the target
before the call, mapValue the map assigned into, calls the invocations so far. -/
def mapDecoder.decodeLoop {π κ ν : Type} [DecidableEq κ] [Inhabited κ] [Inhabited ν]
    (d : mapDecoder π κ ν) (path : π) (buf : List Nat) (depth : Nat) (p : Option (GoMap κ ν)) :
    Nat → GoMap κ ν → Nat → List Call → Outcome (Option (GoMap κ ν))
  | 0, mapValue, _, calls => ⟨aliased p mapValue, calls, .error .outOfFuel⟩
  | fuel + 1, mapValue, cursor, calls =>
    let k := d.keyDecoder path buf cursor depth default
    let calls := calls ++ [.key cursor depth]
    match k.result with
    | .error e => ⟨aliased p mapValue, calls, .error e⟩
    | .ok keyCursor =>
      match decoderSkipWhiteSpace buf keyCursor with
      | none => ⟨aliased p mapValue, calls, .error .indexOutOfRange⟩
      | some cursor =>
        match buf[cursor]? with
        | none => ⟨aliased p mapValue, calls, .error .indexOutOfRange⟩
        | some c =>
          if c ≠ 58 then ⟨aliased p mapValue, calls, .error (.expectedColon cursor)⟩
          else
            let v := d.valueDecoder path buf (cursor + 1) depth default
            let calls := calls ++ [.value (cursor + 1) depth]
            match v.result with
            | .error e => ⟨aliased p mapValue, calls, .error e⟩
            | .ok valueCursor =>
              let mapValue := mapassign mapValue k.target v.target
              match decoderSkipWhiteSpace buf valueCursor with
              | none => ⟨aliased p mapValue, calls, .error .indexOutOfRange⟩
              | some cursor =>
                match buf[cursor]? with
                | none => ⟨aliased p mapValue, calls, .error .indexOutOfRange⟩
                | some c =>
                  if c = 125 then ⟨some mapValue, calls, .ok (cursor + 1)⟩
                  else if c ≠ 44 then
                    ⟨aliased p mapValue, calls, .error (.expectedComma cursor)⟩
                  else d.decodeLoop path buf depth p fuel mapValue (cursor + 1) calls

/-- The method mapDecoder.Decode; the constant maxDecodeNestingDepth, declared
outside the excerpt, is a parameter. -/
def mapDecoder.Decode {π κ ν : Type} [DecidableEq κ] [Inhabited κ] [Inhabited ν]
    (maxDecodeNestingDepth : Nat) (d : mapDecoder π κ ν) (fuel : Nat) :
    Decoder π (Option (GoMap κ ν)) :=
  fun path buf cursor depth p =>
    let depth := depth + 1
    if depth > maxDecodeNestingDepth then
      match buf[cursor]? with
      | none => ⟨p, [], .error .indexOutOfRange⟩
      | some c => ⟨p, [], .error (.exceededMaxDepth c cursor)⟩
    else
      match decoderSkipWhiteSpace buf cursor with
      | none => ⟨p, [], .error .indexOutOfRange⟩
      | some cursor =>
        if buf.length < 2 then ⟨p, [], .error (.expectedMapBraces cursor)⟩
        else
          match buf[cursor]? with
          | none => ⟨p, [], .error .indexOutOfRange⟩
          | some c =>
            if c = 110 then
              match validateNull buf cursor with
              | some e => ⟨p, [], .error e⟩
              | none => ⟨none, [], .ok (cursor + 4)⟩
            else if c = 123 then
              match decoderSkipWhiteSpace buf (cursor + 1) with
              | none => ⟨p, [], .error .indexOutOfRange⟩
              | some cursor =>
                let mapValue := p.getD makemap
                match buf[cursor]? with
                | none => ⟨p, [], .error .indexOutOfRange⟩
                | some c1 =>
                  if c1 = 125 then ⟨some mapValue, [], .ok (cursor + 1)⟩
                  else d.decodeLoop path buf depth p fuel mapValue cursor []
            else ⟨p, [], .error (.expectedMapStart cursor)⟩

/-- The loop of mapDecoder.DecodePath; keyDecoder is the method decodeByte of
the string key decoder. -/
def mapDecoder.decodePathLoop {π κ ν : Type} (d : mapDecoder π κ ν)
    (keyDecoder : List Nat → Nat → Except DecodeError (List Nat × Nat)) (path : π)
    (buf : List Nat) (depth : Nat) : Nat → ν → Nat → List Call → Outcome ν
  | 0, p, _, calls => ⟨p, calls, .error .outOfFuel⟩
  | fuel + 1, p, cursor, calls =>
    match keyDecoder buf cursor with
    | .error e => ⟨p, calls, .error e⟩
    | .ok (key, keyCursor) =>
      match decoderSkipWhiteSpace buf keyCursor with
      | none => ⟨p, calls, .error .indexOutOfRange⟩
      | some cursor =>
        match buf[cursor]? with
        | none => ⟨p, calls, .error .indexOutOfRange⟩
        | some c =>
          if c ≠ 58 then ⟨p, calls, .error (.expectedColon cursor)⟩
          else
            match d.pathField path (d.toLower key) with
            | .error e => ⟨p, calls, .error e⟩
            | .ok (some child) =>
              let v := d.valueDecoder child buf (cursor + 1) depth p
              let calls := calls ++ [.value (cursor + 1) depth]
              match v.result with
              | .error e => ⟨v.target, calls, .error e⟩
              | .ok c1 => ⟨v.target, calls, d.skipObject buf c1 depth⟩
            | .ok none =>
              match d.skipValue buf (cursor + 1) depth with
              | .error e => ⟨p, calls, .error e⟩
              | .ok c1 =>
                match decoderSkipWhiteSpace buf c1 with
                | none => ⟨p, calls, .error .indexOutOfRange⟩
                | some cursor =>
                  match buf[cursor]? with
                  | none => ⟨p, calls, .error .indexOutOfRange⟩
                  | some c =>
                    if c = 125 then ⟨p, calls, .ok (cursor + 1)⟩
                    else if c ≠ 44 then ⟨p, calls, .error (.expectedComma cursor)⟩
                    else d.decodePathLoop keyDecoder path buf depth fuel p (cursor + 1) calls

/-- The method mapDecoder.DecodePath; the target is the storage that the value
decoder of the matching key decodes into. -/
def mapDecoder.DecodePath {π κ ν : Type} (maxDecodeNestingDepth : Nat) (d : mapDecoder π κ ν)
    (fuel : Nat) : Decoder π ν :=
  fun path buf cursor depth p =>
    let depth := depth + 1
    if depth > maxDecodeNestingDepth then
      match buf[cursor]? with
      | none => ⟨p, [], .error .indexOutOfRange⟩
      | some c => ⟨p, [], .error (.exceededMaxDepth c cursor)⟩
    else
      match decoderSkipWhiteSpace buf cursor with
      | none => ⟨p, [], .error .indexOutOfRange⟩
      | some cursor =>
        if buf.length < 2 then ⟨p, [], .error (.expectedMapBraces cursor)⟩
        else
          match buf[cursor]? with
          | none => ⟨p, [], .error .indexOutOfRange⟩
          | some c =>
            if c = 110 then
              match validateNull buf cursor with
              | some e => ⟨p, [], .error e⟩
              | none => ⟨p, [], .ok (cursor + 4)⟩
            else if c = 123 then
              match decoderSkipWhiteSpace buf (cursor + 1) with
              | none => ⟨p, [], .error .indexOutOfRange⟩
              | some cursor =>
                match buf[cursor]? with
                | none => ⟨p, [], .error .indexOutOfRange⟩
                | some c1 =>
                  if c1 = 125 then ⟨p, [], .ok (cursor + 1)⟩
                  else
                    match d.stringKey with
                    | none => ⟨p, [], .error (.unmarshalTypeString cursor)⟩
                    | some keyDecoder => d.decodePathLoop keyDecoder path buf depth fuel p cursor []
            else ⟨p, [], .error (.expectedMapStart cursor)⟩

/-! ## Stream mode -/

/-- The stream of the stream-mode decoders: the working buffer, the cursor
into it, and the state of the byte source that refills the buffer. -/
structure Stream (ρ : Type) where
  buf : List Nat
  cursor : Nat
  reader : ρ

/-- The methods and helpers of the stream, declared outside the excerpt:
skipWhiteSpace returns the byte it stops at, read refills the buffer (equalChar
and skipWhiteSpace may do so too), nullBytes and skipValue return an error or
nil. -/
structure StreamOps (ρ : Type) where
  char : Stream ρ → Nat
  read : Stream ρ → Stream ρ
  skipWhiteSpace : Stream ρ → Stream ρ × Nat
  equalChar : Stream ρ → Nat → Stream ρ × Bool
  nullBytes : Stream ρ → Stream ρ × Option DecodeError
  skipValue : Stream ρ → Stream ρ × Option DecodeError
  totalOffset : Stream ρ → Nat

/-- What a stream-mode decode leaves behind: the stream, the contents of the
target, the invocations it made, and the error or nil. -/
structure StreamOutcome (ρ τ : Type) where
  stream : Stream ρ
  target : τ
  calls : List Call
  result : Option DecodeError

/-- The stream-mode operation of a decoder, for the stream, the depth and the
target. -/
abbrev StreamDecoder (ρ τ : Type) := Stream ρ → Nat → τ → StreamOutcome ρ τ

/-- The loop of mapDecoder.DecodeStream. -/
def mapDecoder.decodeStreamLoop {ρ κ ν : Type} [DecidableEq κ] [Inhabited κ] [Inhabited ν]
    (ops : StreamOps ρ) (keyDecoder : StreamDecoder ρ κ) (valueDecoder : StreamDecoder ρ ν)
    (depth : Nat) (p : Option (GoMap κ ν)) :
    Nat → Stream ρ → GoMap κ ν → List Call → StreamOutcome ρ (Option (GoMap κ ν))
  | 0, s, mapValue, calls => ⟨s, aliased p mapValue, calls, some .outOfFuel⟩
  | fuel + 1, s, mapValue, calls =>
    let s := { s with cursor := s.cursor + 1 }
    let k := keyDecoder s depth default
    let calls := calls ++ [.key s.cursor depth]
    match k.result with
    | some e => ⟨k.stream, aliased p mapValue, calls, some e⟩
    | none =>
      let s := (ops.skipWhiteSpace k.stream).1
      let eq := ops.equalChar s 58
      if eq.2 = false then
        ⟨eq.1, aliased p mapValue, calls, some (.expectedColon (ops.totalOffset eq.1))⟩
      else
        let s := { eq.1 with cursor := eq.1.cursor + 1 }
        let v := valueDecoder s depth default
        let calls := calls ++ [.value s.cursor depth]
        match v.result with
        | some e => ⟨v.stream, aliased p mapValue, calls, some e⟩
        | none =>
          let mapValue := mapassign mapValue k.target v.target
          let s := (ops.skipWhiteSpace v.stream).1
          let eq := ops.equalChar s 125
          if eq.2 = true then
            ⟨{ eq.1 with cursor := eq.1.cursor + 1 }, some mapValue, calls, none⟩
          else
            let eq := ops.equalChar eq.1 44
            if eq.2 = false then
              ⟨eq.1, aliased p mapValue, calls, some (.expectedComma (ops.totalOffset eq.1))⟩
            else decodeStreamLoop ops keyDecoder valueDecoder depth p fuel eq.1 mapValue calls

/-- The method mapDecoder.DecodeStream, for the stream-mode operations of the
key decoder and the value decoder. -/
def mapDecoder.DecodeStream {ρ κ ν : Type} [DecidableEq κ] [Inhabited κ] [Inhabited ν]
    (maxDecodeNestingDepth : Nat) (ops : StreamOps ρ) (keyDecoder : StreamDecoder ρ κ)
    (valueDecoder : StreamDecoder ρ ν) (fuel : Nat) : StreamDecoder ρ (Option (GoMap κ ν)) :=
  fun s depth p =>
    let depth := depth + 1
    if depth > maxDecodeNestingDepth then
      ⟨s, p, [], some (.exceededMaxDepth (ops.char s) s.cursor)⟩
    else
      let sk := ops.skipWhiteSpace s
      if sk.2 = 110 then
        let nb := ops.nullBytes sk.1
        match nb.2 with
        | some e => ⟨nb.1, p, [], some e⟩
        | none => ⟨nb.1, none, [], none⟩
      else if sk.2 = 123 then
        let s := sk.1
        let mapValue := p.getD makemap
        match s.buf[s.cursor + 1]? with
        | none => ⟨s, p, [], some .indexOutOfRange⟩
        | some c1 =>
          if c1 = 125 then ⟨{ s with cursor := s.cursor + 2 }, some mapValue, [], none⟩
          else mapDecoder.decodeStreamLoop ops keyDecoder valueDecoder depth p fuel s mapValue []
      else ⟨sk.1, p, [], some (.expectedMapStart (ops.totalOffset sk.1))⟩

/-! ## decode_ptr.go -/

/-- The buffer-mode operation of a decoder of the root package, for the
buffer, the cursor and the target. -/
abbrev RootDecoder (τ : Type) := List Nat → Nat → τ → Outcome τ

/-- The method ptrDecoder.decode for the inner decoder dec.  The target holds
nil or a pointer to a value; the inner decoder decodes into fresh zeroed
storage that the target points to from then on. -/
def ptrDecoder.decode {τ : Type} [Inhabited τ] (dec : RootDecoder τ) :
    RootDecoder (Option τ) :=
  fun buf cursor p =>
    match decoderSkipWhiteSpace buf cursor with
    | none => ⟨p, [], .error .indexOutOfRange⟩
    | some cursor =>
      match buf[cursor]? with
      | none => ⟨p, [], .error .indexOutOfRange⟩
      | some c =>
        if c = 110 then
          if cursor + 3 ≥ buf.length then ⟨p, [], .error (.unexpectedEnd cursor)⟩
          else if buf.getD (cursor + 1) 0 ≠ 117 then
            ⟨p, [], .error (.invalidCharacter (buf.getD (cursor + 1) 0) cursor)⟩
          else if buf.getD (cursor + 2) 0 ≠ 108 then
            ⟨p, [], .error (.invalidCharacter (buf.getD (cursor + 2) 0) cursor)⟩
          else if buf.getD (cursor + 3) 0 ≠ 108 then
            ⟨p, [], .error (.invalidCharacter (buf.getD (cursor + 3) 0) cursor)⟩
          else ⟨none, [], .ok (cursor + 4)⟩
        else
          let r := dec buf cursor default
          ⟨some r.target, [.inner cursor], r.result⟩

/-- The method ptrDecoder.decodeStream for the stream-mode operation of the
inner decoder; the inner decoder takes no depth. -/
def ptrDecoder.decodeStream {ρ τ : Type} [Inhabited τ] (ops : StreamOps ρ)
    (dec : Stream ρ → τ → StreamOutcome ρ τ) :
    Stream ρ → Option τ → StreamOutcome ρ (Option τ) :=
  fun s p =>
    let s := (ops.skipWhiteSpace s).1
    let s := if ops.char s = 0 then ops.read s else s
    if ops.char s = 110 then
      let nb := ops.nullBytes s
      match nb.2 with
      | some e => ⟨nb.1, p, [], some e⟩
      | none => ⟨nb.1, none, [], none⟩
    else
      let r := dec s default
      ⟨r.stream, some r.target, [.inner s.cursor], r.result⟩

/-! ## decode_unmarshal_text.go: the text-unmarshal decoder -/

/-- The method annotateError: a syntax error gets the cursor as its offset; the
struct and field names it puts into an UnmarshalTypeError are not modelled. -/
def annotateError (cursor : Nat) : DecodeError → DecodeError
  | .expectedMapBraces _ => .expectedMapBraces cursor
  | .expectedMapStart _ => .expectedMapStart cursor
  | .expectedColon _ => .expectedColon cursor
  | .expectedComma _ => .expectedComma cursor
  | .unexpectedEnd _ => .unexpectedEnd cursor
  | .invalidCharacter c _ => .invalidCharacter c cursor
  | e => e

/-- The bytes handed to the hook: the result of unquoteBytes when it is ok,
the raw bytes otherwise. -/
def hookInput (src : List Nat) : List Nat :=
  match unquoteBytes src with
  | .ok t => t
  | _ => src

/-- The method unmarshalTextDecoder.decode, for the function skipValue of the
root package and the UnmarshalText hook of the target type, which returns the
new contents of the target and an error or nil. -/
def unmarshalTextDecoder.decode {τ : Type}
    (skipValue : List Nat → Nat → Except DecodeError Nat)
    (unmarshalText : List Nat → τ → τ × Option DecodeError) : RootDecoder τ :=
  fun buf cursor p =>
    match decoderSkipWhiteSpace buf cursor with
    | none => ⟨p, [], .error .indexOutOfRange⟩
    | some cursor =>
      let start := cursor
      match skipValue buf cursor with
      | .error e => ⟨p, [], .error e⟩
      | .ok stop =>
        if ¬ (start ≤ stop ∧ stop ≤ buf.length) then ⟨p, [], .error .indexOutOfRange⟩
        else
          let src := hookInput ((buf.take stop).drop start)
          let r := unmarshalText src p
          match r.2 with
          | some e => ⟨r.1, [.hook src], .error (annotateError cursor e)⟩
          | none => ⟨r.1, [.hook src], .ok stop⟩

/-- The method unmarshalTextDecoder.decodeStream. -/
def unmarshalTextDecoder.decodeStream {ρ τ : Type} (ops : StreamOps ρ)
    (unmarshalText : List Nat → τ → τ × Option DecodeError) :
    Stream ρ → τ → StreamOutcome ρ τ :=
  fun s p =>
    let s := (ops.skipWhiteSpace s).1
    let start := s.cursor
    let sv := ops.skipValue s
    match sv.2 with
    | some e => ⟨sv.1, p, [], some e⟩
    | none =>
      let s := sv.1
      if ¬ (start ≤ s.cursor ∧ s.cursor ≤ s.buf.length) then ⟨s, p, [], some .indexOutOfRange⟩
      else
        let src := (s.buf.take s.cursor).drop start
        match src.head? with
        | none => ⟨s, p, [], some .indexOutOfRange⟩
        | some c =>
          if c = 91 then ⟨s, p, [], some (.unmarshalTypeArray (ops.totalOffset s))⟩
          else if c = 123 then ⟨s, p, [], some (.unmarshalTypeObject (ops.totalOffset s))⟩
          else
            let dst := hookInput src
            let r := unmarshalText dst p
            match r.2 with
            | some e => ⟨s, r.1, [.hook dst], some (annotateError s.cursor e)⟩
            | none => ⟨s, r.1, [.hook dst], none⟩

/-! ## Decoders that fail on every input

They stand for the children of a decoder in the statements that hold whatever
the children do. -/

/-- A buffer-mode decoder of the decoder package that fails on every input. -/
def failingDecoder {π τ : Type} : Decoder π τ :=
  fun _ _ _ _ p => ⟨p, [], .error (.other 0)⟩

/-- A buffer-mode decoder of the root package that fails on every input. -/
def failingRootDecoder {τ : Type} : RootDecoder τ :=
  fun _ _ p => ⟨p, [], .error (.other 0)⟩

/-- A map decoder whose key decoder, value decoder and helpers fail on every
input. -/
def failingMapDecoder : mapDecoder Unit Nat Nat where
  keyDecoder := failingDecoder
  valueDecoder := failingDecoder
  stringKey := none
  skipValue := fun _ _ _ => .error (.other 0)
  skipObject := fun _ _ _ => .error (.other 0)
  pathField := fun _ _ => .error (.other 0)
  toLower := id

/-! ## Object text as the map decoder reads it -/

/-- The entries of a non-empty object from the cursor c, which stands at the
first key, to the cursor after the closing brace: each key is a span the key
decoder accepts, followed by whitespace and a colon; each value is a span the
value decoder accepts, followed by whitespace and then a comma, after which the
next entry begins, or the closing brace.  The decoders are called as Decode
calls them: at the incremented depth, on fresh zeroed storage. -/
inductive ObjectEntries {π κ ν : Type} [Inhabited κ] [Inhabited ν] (d : mapDecoder π κ ν)
    (path : π) (buf : List Nat) (depth : Nat) : Nat → List (κ × ν) → Nat → Prop where
  | last (c kc vc : Nat) (w1 w2 tl1 tl2 : List Nat) :
      (d.keyDecoder path buf c depth default).result = .ok kc →
      IsWs w1 → buf.drop kc = w1 ++ 58 :: tl1 →
      (d.valueDecoder path buf (kc + w1.length + 1) depth default).result = .ok vc →
      IsWs w2 → buf.drop vc = w2 ++ 125 :: tl2 →
      ObjectEntries d path buf depth c
        [((d.keyDecoder path buf c depth default).target,
          (d.valueDecoder path buf (kc + w1.length + 1) depth default).target)]
        (vc + w2.length + 1)
  | more (c kc vc : Nat) (w1 w2 tl1 tl2 : List Nat) (rest : List (κ × ν)) (stop : Nat) :
      (d.keyDecoder path buf c depth default).result = .ok kc →
      IsWs w1 → buf.drop kc = w1 ++ 58 :: tl1 →
      (d.valueDecoder path buf (kc + w1.length + 1) depth default).result = .ok vc →
      IsWs w2 → buf.drop vc = w2 ++ 44 :: tl2 →
      ObjectEntries d path buf depth (vc + w2.length + 1) rest stop →
      ObjectEntries d path buf depth c
        (((d.keyDecoder path buf c depth default).target,
          (d.valueDecoder path buf (kc + w1.length + 1) depth default).target) :: rest)
        stop

/-- An object at the cursor, after whitespace: an opening brace, whitespace,
and then either the closing brace or entries up to the closing brace; stop is
the cursor after the closing brace. -/
def ObjectText {π κ ν : Type} [Inhabited κ] [Inhabited ν] (d : mapDecoder π κ ν) (path : π)
    (buf : List Nat) (depth cursor : Nat) (entries : List (κ × ν)) (stop : Nat) : Prop :=
  ∃ (w0 w : List Nat) (c : Nat) (tl : List Nat), IsWs w0 ∧ IsWs w ∧
    buf.drop cursor = w0 ++ 123 :: (w ++ c :: tl) ∧ isWhiteSpace c = false ∧
    ((c = 125 ∧ entries = [] ∧ stop = cursor + w0.length + 1 + w.length + 1) ∨
      (c ≠ 125 ∧ ObjectEntries d path buf depth (cursor + w0.length + 1 + w.length) entries stop))

/-- The value of the last entry with key k, if any. -/
def lastValue {κ ν : Type} [DecidableEq κ] : List (κ × ν) → κ → Option ν
  | [], _ => none
  | (k1, v) :: rest, k =>
    match lastValue rest k with
    | some v1 => some v1
    | none => if k = k1 then some v else none

/-- The map m overridden by the entries in order. -/
def assignAll {κ ν : Type} [DecidableEq κ] (m : GoMap κ ν) (entries : List (κ × ν)) : GoMap κ ν :=
  entries.foldl (fun acc kv => mapassign acc kv.1 kv.2) m

/-! ## Two small decoders for the concrete instances -/

/-- A key decoder for keys of one character between quotes: the key is the
byte of the character. -/
def charKeyDecoder {π : Type} : Decoder π Nat :=
  fun _ buf cursor _ p =>
    if buf.getD cursor 0 = 34 ∧ buf.getD (cursor + 2) 0 = 34 ∧ cursor + 2 < buf.length then
      ⟨buf.getD (cursor + 1) 0, [], .ok (cursor + 3)⟩
    else ⟨p, [], .error (.other 1)⟩

/-- A value decoder for numbers of one digit. -/
def digitDecoder {π : Type} : Decoder π Nat :=
  fun _ buf cursor _ p =>
    if 48 ≤ buf.getD cursor 0 ∧ buf.getD cursor 0 ≤ 57 then
      ⟨buf.getD cursor 0 - 48, [], .ok (cursor + 1)⟩
    else ⟨p, [], .error (.other 2)⟩

/-- A map decoder with one-character keys and one-digit values. -/
def smallMapDecoder : mapDecoder Unit Nat Nat where
  keyDecoder := charKeyDecoder
  valueDecoder := digitDecoder
  stringKey := none
  skipValue := fun _ _ _ => .error (.other 0)
  skipObject := fun _ _ _ => .error (.other 0)
  pathField := fun _ _ => .error (.other 0)
  toLower := id

/-! ## Nested objects -/

/-- Entries before the entry at the cursor c1: count entries from the cursor c
on, each a key the key decoder accepts, whitespace, a colon, a value the value
decoder accepts, whitespace and a comma. -/
inductive EntriesBefore {π κ ν : Type} [Inhabited κ] [Inhabited ν] (d : mapDecoder π κ ν)
    (path : π) (buf : List Nat) (depth : Nat) : Nat → Nat → Nat → Prop where
  | none (c : Nat) : EntriesBefore d path buf depth c 0 c
  | cons (c kc vc : Nat) (w1 w2 tl1 tl2 : List Nat) (count c1 : Nat) :
      (d.keyDecoder path buf c depth default).result = .ok kc →
      IsWs w1 → buf.drop kc = w1 ++ 58 :: tl1 →
      (d.valueDecoder path buf (kc + w1.length + 1) depth default).result = .ok vc →
      IsWs w2 → buf.drop vc = w2 ++ 44 :: tl2 →
      EntriesBefore d path buf depth (vc + w2.length + 1) count c1 →
      EntriesBefore d path buf depth c (count + 1) c1

/-- The target of a map decoder whose values are again such maps: nil or a
map from keys to such targets. -/
inductive Nested (κ : Type) where
  | mk (m : Option (κ → Option (Nested κ))) : Nested κ

instance Nested.instInhabited (κ : Type) : Inhabited (Nested κ) := ⟨.mk none⟩

/-- The map pointer held in the target. -/
def Nested.get {κ : Type} : Nested κ → Option (GoMap κ (Nested κ))
  | .mk m => m

/-- A map decoder whose value decoder is again a map decoder of the same
kind, as for a type declared as a map to itself: the method Decode of the map
decoder that has the key decoder and helpers of base and itself as value
decoder.  The recursion of the decoders is unfolded height times; fuel is the
fuel of each loop. -/
def nestedDecoder {π κ : Type} [DecidableEq κ] [Inhabited κ] (maxDecodeNestingDepth : Nat)
    (base : mapDecoder π κ (Nested κ)) (fuel : Nat) : Nat → Decoder π (Nested κ)
  | 0 => fun _ _ _ _ p => ⟨p, [], .error .outOfFuel⟩
  | height + 1 => fun path buf cursor depth p =>
    let o := mapDecoder.Decode maxDecodeNestingDepth
      { base with valueDecoder := nestedDecoder maxDecodeNestingDepth base fuel height } fuel
      path buf cursor depth p.get
    ⟨.mk o.target, o.calls, o.result⟩

/-- The document nests objects from the cursor down to the cursor deepest:
levels objects, each with an entry, possibly after other entries, whose value
starts the next level; h is the number of unfoldings left for the decoder at
the cursor deepest. -/
def NestsTo {π κ : Type} [DecidableEq κ] [Inhabited κ] (maxDecodeNestingDepth : Nat)
    (base : mapDecoder π κ (Nested κ)) (fuel : Nat) (path : π) (buf : List Nat) (h : Nat) :
    Nat → Nat → Nat → Nat → Prop
  | 0, _, cursor, deepest => cursor = deepest ∧ deepest < buf.length
  | levels + 1, depth, cursor, deepest =>
    ∃ (w0 w : List Nat) (c : Nat) (tl : List Nat) (count c1 kc : Nat) (w1 tl1 : List Nat),
      IsWs w0 ∧ IsWs w ∧ buf.drop cursor = w0 ++ 123 :: (w ++ c :: tl) ∧
      isWhiteSpace c = false ∧ c ≠ 125 ∧
      EntriesBefore
        { base with valueDecoder := nestedDecoder maxDecodeNestingDepth base fuel (h + levels + 1) }
        path buf (depth + 1) (cursor + w0.length + 1 + w.length) count c1 ∧
      count < fuel ∧
      (base.keyDecoder path buf c1 (depth + 1) default).result = .ok kc ∧
      IsWs w1 ∧ buf.drop kc = w1 ++ 58 :: tl1 ∧
      NestsTo maxDecodeNestingDepth base fuel path buf h levels (depth + 1)
        (kc + w1.length + 1) deepest

/-- A map decoder with one-character keys for nested maps. -/
def smallNestedBase : mapDecoder Unit Nat (Nested Nat) where
  keyDecoder := charKeyDecoder
  valueDecoder := failingDecoder
  stringKey := none
  skipValue := fun _ _ _ => .error (.other 0)
  skipObject := fun _ _ _ => .error (.other 0)
  pathField := fun _ _ => .error (.other 0)
  toLower := id

/-! ## A stream for the concrete instances -/

/-- A stream over a buffer that holds the whole input, whose method skipValue
moves the cursor to stop; skipWhiteSpace and nullBytes leave the cursor where
it is. -/
def spanStreamOps (stop : Nat) : StreamOps Unit where
  char := fun s => s.buf.getD s.cursor 0
  read := id
  skipWhiteSpace := fun s => (s, s.buf.getD s.cursor 0)
  equalChar := fun s c => (s, decide (s.buf.getD s.cursor 0 = c))
  nullBytes := fun s => (s, none)
  skipValue := fun s => ({ s with cursor := stop }, none)
  totalOffset := fun s => s.cursor

/-- A stream-mode key decoder for keys of one character between quotes, the
stream-mode counterpart of charKeyDecoder. -/
def charKeyStreamDecoder : StreamDecoder Unit Nat :=
  fun s _ p =>
    if s.buf.getD s.cursor 0 = 34 ∧ s.buf.getD (s.cursor + 2) 0 = 34 ∧
        s.cursor + 2 < s.buf.length then
      ⟨{ s with cursor := s.cursor + 3 }, s.buf.getD (s.cursor + 1) 0, [], none⟩
    else ⟨s, p, [], some (.invalidCharacter (s.buf.getD s.cursor 0) s.cursor)⟩

/-- A stream-mode value decoder for numbers of one digit, the stream-mode
counterpart of digitDecoder. -/
def digitStreamDecoder : StreamDecoder Unit Nat :=
  fun s _ p =>
    if 48 ≤ s.buf.getD s.cursor 0 ∧ s.buf.getD s.cursor 0 ≤ 57 then
      ⟨{ s with cursor := s.cursor + 1 }, s.buf.getD s.cursor 0 - 48, [], none⟩
    else ⟨s, p, [], some (.invalidCharacter (s.buf.getD s.cursor 0) s.cursor)⟩

/-! ## Objects as the path-restricted decode reads them -/

/-- The entries of a non-empty object none of whose keys matches the current
path segment, from the cursor c at the first key to the cursor after the closing
brace: each key is a span the string key decoder accepts, followed by whitespace
and a colon; the lower-cased key is not the field of the path; the value is a
span skipValue skips, followed by whitespace and then a comma, after which the
next entry begins, or the closing brace.  The count is the number of entries. -/
inductive UnmatchedEntries {π κ ν : Type} (d : mapDecoder π κ ν)
    (keyDecoder : List Nat → Nat → Except DecodeError (List Nat × Nat)) (path : π)
    (buf : List Nat) (depth : Nat) : Nat → Nat → Nat → Prop where
  | last (c kc vc : Nat) (key w1 w2 tl1 tl2 : List Nat) :
      keyDecoder buf c = .ok (key, kc) →
      IsWs w1 → buf.drop kc = w1 ++ 58 :: tl1 →
      d.pathField path (d.toLower key) = .ok none →
      d.skipValue buf (kc + w1.length + 1) depth = .ok vc →
      IsWs w2 → buf.drop vc = w2 ++ 125 :: tl2 →
      UnmatchedEntries d keyDecoder path buf depth c 1 (vc + w2.length + 1)
  | more (c kc vc : Nat) (key w1 w2 tl1 tl2 : List Nat) (count stop : Nat) :
      keyDecoder buf c = .ok (key, kc) →
      IsWs w1 → buf.drop kc = w1 ++ 58 :: tl1 →
      d.pathField path (d.toLower key) = .ok none →
      d.skipValue buf (kc + w1.length + 1) depth = .ok vc →
      IsWs w2 → buf.drop vc = w2 ++ 44 :: tl2 →
      UnmatchedEntries d keyDecoder path buf depth (vc + w2.length + 1) count stop →
      UnmatchedEntries d keyDecoder path buf depth c (count + 1) stop

/-- An object at the cursor, after whitespace, none of whose keys matches the
current path segment: an opening brace, whitespace, and then either the closing
brace or unmatched entries up to the closing brace; stop is the cursor after the
closing brace. -/
def UnmatchedObject {π κ ν : Type} (d : mapDecoder π κ ν) (path : π) (buf : List Nat)
    (depth cursor count stop : Nat) : Prop :=
  ∃ (w0 w : List Nat) (c : Nat) (tl : List Nat), IsWs w0 ∧ IsWs w ∧
    buf.drop cursor = w0 ++ 123 :: (w ++ c :: tl) ∧ isWhiteSpace c = false ∧
    ((c = 125 ∧ count = 0 ∧ stop = cursor + w0.length + 1 + w.length + 1) ∨
      (c ≠ 125 ∧ ∃ keyDecoder, d.stringKey = some keyDecoder ∧
        UnmatchedEntries d keyDecoder path buf depth (cursor + w0.length + 1 + w.length) count
          stop))

/-! ## Helpers of the path-restricted decode for the concrete instances -/

/-- The method decodeByte of a string key decoder for keys of one character
between quotes: the key bytes and the cursor after the key. -/
def charKeyBytes (buf : List Nat) (cursor : Nat) : Except DecodeError (List Nat × Nat) :=
  if buf.getD cursor 0 = 34 ∧ buf.getD (cursor + 2) 0 = 34 ∧ cursor + 2 < buf.length then
    .ok ([buf.getD (cursor + 1) 0], cursor + 3)
  else .error (.invalidCharacter (buf.getD cursor 0) cursor)

/-- Modelled from the spec: the lookup Field of a path, declared outside the
excerpt, for a path given as the list of its segments: the key is found when it
is the first segment, and the child is the rest of the path. -/
def segmentField (path : List (List Nat)) (key : List Nat) :
    Except DecodeError (Option (List (List Nat))) :=
  match path with
  | [] => .ok none
  | segment :: rest => if key = segment then .ok (some rest) else .ok none

/-- The function strings.ToLower on ASCII bytes. -/
def asciiLower (key : List Nat) : List Nat :=
  key.map (fun c => if 65 ≤ c ∧ c ≤ 90 then c + 32 else c)

/-- Modelled from the spec: the loop over a string that skipValue, skipObject
and skipArray share, declared outside the excerpt, on the unread bytes after the
opening quote, the first of them at the cursor.  A backslash steps over the byte
after it, which must not be the terminator; the quote ends the string; the
terminator is the unexpected end.  The result is what follows the closing quote
and the cursor there. -/
def skipStringFrom : List Nat → Nat → Except DecodeError (List Nat × Nat)
  | [], _ => .error .indexOutOfRange
  | [c], cursor =>
    if c = 92 then .error .indexOutOfRange
    else if c = 34 then .ok ([], cursor + 1)
    else if c = 0 then .error (.unexpectedEnd cursor)
    else .error .indexOutOfRange
  | c :: e :: tl, cursor =>
    if c = 92 then
      if e = 0 then .error (.unexpectedEnd (cursor + 1)) else skipStringFrom tl (cursor + 2)
    else if c = 34 then .ok (e :: tl, cursor + 1)
    else if c = 0 then .error (.unexpectedEnd cursor)
    else skipStringFrom (e :: tl) (cursor + 1)

/-- Modelled from the spec: the loop of the function skipObject, declared
outside the excerpt, over the unread bytes from the cursor on.  It counts the
braces and returns the cursor after the brace that closes the object it started
in; it steps over strings; and it keeps the depth, which an opening brace or
bracket raises and tests against the ceiling and a closing one lowers. -/
def skipObjectFrom (maxDecodeNestingDepth : Nat) :
    Nat → List Nat → Nat → Nat → Int → Except DecodeError Nat
  | 0, _, _, _, _ => .error .outOfFuel
  | _ + 1, [], _, _, _ => .error .indexOutOfRange
  | fuel + 1, c :: tl, cursor, braceCount, depth =>
    if c = 123 then
      if depth + 1 > (maxDecodeNestingDepth : Int) then .error (.exceededMaxDepth c cursor)
      else skipObjectFrom maxDecodeNestingDepth fuel tl (cursor + 1) (braceCount + 1) (depth + 1)
    else if c = 125 then
      if braceCount = 1 then .ok (cursor + 1)
      else skipObjectFrom maxDecodeNestingDepth fuel tl (cursor + 1) (braceCount - 1) (depth - 1)
    else if c = 91 then
      if depth + 1 > (maxDecodeNestingDepth : Int) then .error (.exceededMaxDepth c cursor)
      else skipObjectFrom maxDecodeNestingDepth fuel tl (cursor + 1) braceCount (depth + 1)
    else if c = 93 then
      skipObjectFrom maxDecodeNestingDepth fuel tl (cursor + 1) braceCount (depth - 1)
    else if c = 34 then
      match skipStringFrom tl (cursor + 1) with
      | .error e => .error e
      | .ok (rest, cursor1) =>
        skipObjectFrom maxDecodeNestingDepth fuel rest cursor1 braceCount depth
    else if c = 0 then .error (.unexpectedEnd cursor)
    else skipObjectFrom maxDecodeNestingDepth fuel tl (cursor + 1) braceCount depth

/-- Modelled from the spec: the function skipObject, which skips the rest of
the object that the cursor stands in. -/
def jsonSkipObject (maxDecodeNestingDepth : Nat) (buf : List Nat) (cursor depth : Nat) :
    Except DecodeError Nat :=
  skipObjectFrom maxDecodeNestingDepth buf.length (buf.drop cursor) cursor 1 depth

/-- Modelled from the spec: the loop of the function skipArray, declared
outside the excerpt; it is the loop of skipObject with the brackets counted in
place of the braces. -/
def skipArrayFrom (maxDecodeNestingDepth : Nat) :
    Nat → List Nat → Nat → Nat → Int → Except DecodeError Nat
  | 0, _, _, _, _ => .error .outOfFuel
  | _ + 1, [], _, _, _ => .error .indexOutOfRange
  | fuel + 1, c :: tl, cursor, bracketCount, depth =>
    if c = 91 then
      if depth + 1 > (maxDecodeNestingDepth : Int) then .error (.exceededMaxDepth c cursor)
      else skipArrayFrom maxDecodeNestingDepth fuel tl (cursor + 1) (bracketCount + 1) (depth + 1)
    else if c = 93 then
      if bracketCount = 1 then .ok (cursor + 1)
      else skipArrayFrom maxDecodeNestingDepth fuel tl (cursor + 1) (bracketCount - 1) (depth - 1)
    else if c = 123 then
      if depth + 1 > (maxDecodeNestingDepth : Int) then .error (.exceededMaxDepth c cursor)
      else skipArrayFrom maxDecodeNestingDepth fuel tl (cursor + 1) bracketCount (depth + 1)
    else if c = 125 then
      skipArrayFrom maxDecodeNestingDepth fuel tl (cursor + 1) bracketCount (depth - 1)
    else if c = 34 then
      match skipStringFrom tl (cursor + 1) with
      | .error e => .error e
      | .ok (rest, cursor1) =>
        skipArrayFrom maxDecodeNestingDepth fuel rest cursor1 bracketCount depth
    else if c = 0 then .error (.unexpectedEnd cursor)
    else skipArrayFrom maxDecodeNestingDepth fuel tl (cursor + 1) bracketCount depth

/-- Modelled from the spec: the function skipArray, which skips the rest of
the array that the cursor stands in. -/
def jsonSkipArray (maxDecodeNestingDepth : Nat) (buf : List Nat) (cursor depth : Nat) :
    Except DecodeError Nat :=
  skipArrayFrom maxDecodeNestingDepth buf.length (buf.drop cursor) cursor 1 depth

/-- Modelled from the spec: the function validateTrue of the decoder package,
declared outside the excerpt; it checks the characters of true as validateNull
checks those of null. -/
def validateTrue (buf : List Nat) (cursor : Nat) : Option DecodeError :=
  if cursor + 3 ≥ buf.length then some (.unexpectedEnd cursor)
  else if buf.getD (cursor + 1) 0 ≠ 114 then
    some (.invalidCharacter (buf.getD (cursor + 1) 0) cursor)
  else if buf.getD (cursor + 2) 0 ≠ 117 then
    some (.invalidCharacter (buf.getD (cursor + 2) 0) cursor)
  else if buf.getD (cursor + 3) 0 ≠ 101 then
    some (.invalidCharacter (buf.getD (cursor + 3) 0) cursor)
  else none

/-- Modelled from the spec: the function validateFalse of the decoder package,
declared outside the excerpt; it checks the characters of false. -/
def validateFalse (buf : List Nat) (cursor : Nat) : Option DecodeError :=
  if cursor + 4 ≥ buf.length then some (.unexpectedEnd cursor)
  else if buf.getD (cursor + 1) 0 ≠ 97 then
    some (.invalidCharacter (buf.getD (cursor + 1) 0) cursor)
  else if buf.getD (cursor + 2) 0 ≠ 108 then
    some (.invalidCharacter (buf.getD (cursor + 2) 0) cursor)
  else if buf.getD (cursor + 3) 0 ≠ 115 then
    some (.invalidCharacter (buf.getD (cursor + 3) 0) cursor)
  else if buf.getD (cursor + 4) 0 ≠ 101 then
    some (.invalidCharacter (buf.getD (cursor + 4) 0) cursor)
  else none

/-- The first index at or after the cursor whose byte is not in floatTable. -/
def skipNumberFrom : List Nat → Nat → Nat
  | [], cursor => cursor
  | c :: tl, cursor => if floatTable c then skipNumberFrom tl (cursor + 1) else cursor

/-- Modelled from the spec: the function skipValue, declared outside the
excerpt, which advances past a JSON value without decoding it: after whitespace
it skips an object or an array one level deeper, a string up to its closing
quote, a number as far as the bytes of floatTable reach, or one of the three
literals, whose characters it checks; any other byte is an error. -/
def jsonSkipValue (maxDecodeNestingDepth : Nat) (buf : List Nat) (cursor depth : Nat) :
    Except DecodeError Nat :=
  match decoderSkipWhiteSpace buf cursor with
  | none => .error .indexOutOfRange
  | some cursor =>
    match buf.drop cursor with
    | [] => .error .indexOutOfRange
    | c :: tl =>
      if c = 123 then jsonSkipObject maxDecodeNestingDepth buf (cursor + 1) (depth + 1)
      else if c = 91 then jsonSkipArray maxDecodeNestingDepth buf (cursor + 1) (depth + 1)
      else if c = 34 then
        match skipStringFrom tl (cursor + 1) with
        | .error e => .error e
        | .ok (_, cursor1) => .ok cursor1
      else if c = 45 ∨ (48 ≤ c ∧ c ≤ 57) then .ok (skipNumberFrom tl (cursor + 1))
      else if c = 116 then
        match validateTrue buf cursor with
        | some e => .error e
        | none => .ok (cursor + 4)
      else if c = 102 then
        match validateFalse buf cursor with
        | some e => .error e
        | none => .ok (cursor + 5)
      else if c = 110 then
        match validateNull buf cursor with
        | some e => .error e
        | none => .ok (cursor + 4)
      else .error (.unexpectedEnd cursor)

/-- A map decoder with one-character keys for the path-restricted decode, with
the depth ceiling of its skip functions and the value decoder given. -/
def pathMapDecoder (maxDecodeNestingDepth : Nat)
    (valueDecoder : Decoder (List (List Nat)) Nat) : mapDecoder (List (List Nat)) Nat Nat where
  keyDecoder := charKeyDecoder
  valueDecoder := valueDecoder
  stringKey := some charKeyBytes
  skipValue := jsonSkipValue maxDecodeNestingDepth
  skipObject := jsonSkipObject maxDecodeNestingDepth
  pathField := segmentField
  toLower := asciiLower

/-- The value decoder of the concrete instances: with no path segment left it
decodes a number of one digit; otherwise it is the path-restricted decode of a
map with such a value decoder again, the recursion unfolded height times. -/
def pathValueDecoder (maxDecodeNestingDepth fuel : Nat) : Nat → Decoder (List (List Nat)) Nat
  | 0 => digitDecoder
  | height + 1 => fun path buf cursor depth p =>
    match path with
    | [] => digitDecoder path buf cursor depth p
    | _ :: _ =>
      mapDecoder.DecodePath maxDecodeNestingDepth
        (pathMapDecoder maxDecodeNestingDepth
          (pathValueDecoder maxDecodeNestingDepth fuel height)) fuel path buf cursor depth p

/-! ## Theorems: unquoteBytes -/

theorem getu4_cons6 (a b c d e f : Nat) (tl : List Nat) :
    getu4 (a :: b :: c :: d :: e :: f :: tl) = getu4 [a, b, c, d, e, f] := by
  have h : ¬ (tl.length + 1 + 1 + 1 + 1 + 1 + 1 < 6) := by omega
  simp [getu4, h]

theorem unquoteLoop_nil (f : Nat) (b : List Nat) (blen : Nat) :
    unquoteLoop f [] b blen = .ok b := by
  cases f <;> rfl

theorem unquoteLoop_bs (f e : Nat) (tl b : List Nat) (blen : Nat) :
    unquoteLoop (f + 1) (92 :: e :: tl) b blen =
      if e = 34 ∨ e = 92 ∨ e = 47 ∨ e = 39 then
        unquoteLoop f tl (b ++ [e]) (growLen b.length blen)
      else if e = 98 then unquoteLoop f tl (b ++ [8]) (growLen b.length blen)
      else if e = 102 then unquoteLoop f tl (b ++ [12]) (growLen b.length blen)
      else if e = 110 then unquoteLoop f tl (b ++ [10]) (growLen b.length blen)
      else if e = 114 then unquoteLoop f tl (b ++ [13]) (growLen b.length blen)
      else if e = 116 then unquoteLoop f tl (b ++ [9]) (growLen b.length blen)
      else if e = 117 then
        if getu4 (92 :: e :: tl) < 0 then .notOk
        else if IsSurrogate (getu4 (92 :: e :: tl)) = true then
          if utf16DecodeRune (getu4 (92 :: e :: tl)) (getu4 ((92 :: e :: tl).drop 6)) ≠ RuneError then
            unquoteLoop f ((92 :: e :: tl).drop 12)
              (b ++ EncodeRune (utf16DecodeRune (getu4 (92 :: e :: tl)) (getu4 ((92 :: e :: tl).drop 6))))
              (growLen b.length blen)
          else unquoteLoop f ((92 :: e :: tl).drop 6) (b ++ EncodeRune RuneError) (growLen b.length blen)
        else unquoteLoop f ((92 :: e :: tl).drop 6) (b ++ EncodeRune (getu4 (92 :: e :: tl)).toNat)
          (growLen b.length blen)
      else .notOk := by
  rfl

theorem unquoteLoop_nbs (f c : Nat) (tl b : List Nat) (blen : Nat) (h : c ≠ 92) :
    unquoteLoop (f + 1) (c :: tl) b blen =
      if c = 34 ∨ c < 32 then .notOk
      else if c < 0x80 then unquoteLoop f tl (b ++ [c]) (growLen b.length blen)
      else unquoteLoop f ((c :: tl).drop (DecodeRune (c :: tl)).2)
        (b ++ EncodeRune (DecodeRune (c :: tl)).1) (growLen b.length blen) := by
  show (if c = 92 then _ else _) = _
  rw [if_neg h]

theorem unquoteLoop_plain (f c : Nat) (tl b : List Nat) (blen : Nat)
    (h1 : 32 ≤ c) (h2 : c < 128) (h3 : c ≠ 34) (h4 : c ≠ 92) :
    unquoteLoop (f + 1) (c :: tl) b blen = unquoteLoop f tl (b ++ [c]) (growLen b.length blen) := by
  rw [unquoteLoop_nbs _ _ _ _ _ h4]
  have h5 : ¬ (c = 34 ∨ c < 32) := by omega
  simp only [if_neg h5, if_pos h2]

theorem getu4_ctrl (a b : Nat) (ha : a < 2) (hb : b < 16) :
    getu4 [92, 117, 48, 48, hex a, hex b] = ((a * 16 + b : Nat) : Int) := by
  interval_cases a <;> interval_cases b <;> decide

theorem unquoteLoop_u_low (f v : Nat) (d1 d2 d3 d4 : Nat) (tl b : List Nat) (blen : Nat)
    (hv : getu4 [92, 117, d1, d2, d3, d4] = (v : Int)) (hlow : v < 0xD800) :
    unquoteLoop (f + 1) (92 :: 117 :: d1 :: d2 :: d3 :: d4 :: tl) b blen =
      unquoteLoop f tl (b ++ EncodeRune v) (growLen b.length blen) := by
  rw [unquoteLoop_bs]
  have h0 : ¬ ((v : Int) < 0) := by omega
  have hs : IsSurrogate (v : Int) = false := by
    simp only [IsSurrogate, decide_eq_false_iff_not]; omega
  simp [getu4_cons6, hv, h0, hs]

theorem unquoteLoop_quoteByte (short : Nat → Bool) (c : Nat) (hc : c < 128) (rest b : List Nat)
    (blen f : Nat) :
    unquoteLoop (f + 1) (quoteByte short c ++ rest) b blen
      = unquoteLoop f rest (b ++ [c]) (growLen b.length blen) := by
  by_cases h32 : c < 32
  · have hu : unquoteLoop (f + 1) ([92, 117, 48, 48, hex (c / 16), hex (c % 16)] ++ rest) b blen
        = unquoteLoop f rest (b ++ [c]) (growLen b.length blen) := by
      have hv := getu4_ctrl (c / 16) (c % 16) (by omega) (by omega)
      have hcc : c / 16 * 16 + c % 16 = c := by omega
      rw [hcc] at hv
      have he : EncodeRune c = [c] := by
        have : c % 256 = c := by omega
        simp [EncodeRune, this]; omega
      have := unquoteLoop_u_low f c 48 48 (hex (c / 16)) (hex (c % 16)) rest b blen hv (by omega)
      rw [he] at this
      simpa using this
    simp only [quoteByte]
    split_ifs <;> first | exact hu | (simp_all [unquoteLoop_bs])
  · by_cases h34 : c = 34
    · subst h34; simp [quoteByte, unquoteLoop_bs]
    · by_cases h92 : c = 92
      · subst h92; simp [quoteByte, unquoteLoop_bs]
      · simp only [quoteByte, if_neg h34, if_neg h92, if_neg h32]
        exact unquoteLoop_plain f c rest b blen (by omega) hc h34 h92

theorem quoteByte_length_pos (short : Nat → Bool) (c : Nat) : 1 ≤ (quoteByte short c).length := by
  simp only [quoteByte]; split_ifs <;> simp

/-- The copy loop of unquoteBytes undoes the quoting of an ASCII string. -/
theorem unquoteLoop_quoted (short : Nat → Bool) (t : List Nat) (ht : ∀ c ∈ t, c < 128) :
    ∀ (f : Nat) (b : List Nat) (blen : Nat), (t.flatMap (quoteByte short)).length ≤ f →
      unquoteLoop f (t.flatMap (quoteByte short)) b blen = .ok (b ++ t) := by
  induction t with
  | nil => intro f b blen _; simp [unquoteLoop_nil]
  | cons c t ih =>
    intro f b blen hf
    have hq := quoteByte_length_pos short c
    simp only [List.flatMap_cons, List.length_append] at hf ⊢
    obtain ⟨f', rfl⟩ : ∃ f', f = f' + 1 := ⟨f - 1, by omega⟩
    rw [unquoteLoop_quoteByte short c (ht c (by simp))]
    rw [ih (fun x hx => ht x (by simp [hx])) f' _ _ (by omega)]
    simp

theorem scanUnusual_plain (p : List Nat) (hp : ∀ c ∈ p, plainAscii c = true) :
    ∀ (t : List Nat) (f r : Nat), (∀ c ∈ t.head?, c = 92 ∨ c = 34 ∨ c < 32) → (p ++ t).length ≤ f →
      scanUnusual f (p ++ t) r = some (r + p.length) := by
  induction p with
  | nil =>
    intro t f r ht hf
    cases t with
    | nil => cases f <;> rfl
    | cons c tl =>
      obtain ⟨f', rfl⟩ : ∃ f', f = f' + 1 := ⟨f - 1, by simp at hf; omega⟩
      have := ht c (by simp)
      simp [scanUnusual, this]
  | cons c p ih =>
    intro t f r ht hf
    obtain ⟨f', rfl⟩ : ∃ f', f = f' + 1 := ⟨f - 1, by simp at hf; omega⟩
    have hc := hp c (by simp)
    simp only [plainAscii, decide_eq_true_eq] at hc
    have h1 : ¬ (c = 92 ∨ c = 34 ∨ c < 32) := by omega
    have h2 : c < 0x80 := by omega
    simp only [List.cons_append, scanUnusual, if_neg h1, if_pos h2]
    show scanUnusual f' (p ++ t) (r + 1) = _
    rw [ih (fun x hx => hp x (by simp [hx])) t f' (r + 1) ht (by simp at hf ⊢; omega)]
    simp; omega

theorem quoteByte_plain (short : Nat → Bool) (c : Nat) (hc : plainAscii c = true) :
    quoteByte short c = [c] := by
  simp only [plainAscii, decide_eq_true_eq] at hc
  simp only [quoteByte]
  rw [if_neg (by omega), if_neg (by omega), if_neg (by omega)]

theorem flatMap_quoteByte_plain (short : Nat → Bool) (p : List Nat)
    (hp : ∀ c ∈ p, plainAscii c = true) : p.flatMap (quoteByte short) = p := by
  induction p with
  | nil => rfl
  | cons c p ih =>
    simp only [List.flatMap_cons, quoteByte_plain short c (hp c (by simp))]
    rw [ih (fun x hx => hp x (by simp [hx]))]; rfl

theorem quoteByte_head (short : Nat → Bool) (c : Nat) (hc : plainAscii c = false) (hlt : c < 128) :
    ∀ x ∈ (quoteByte short c).head?, x = 92 ∨ x = 34 ∨ x < 32 := by
  simp only [plainAscii, decide_eq_false_iff_not] at hc
  intro x hx
  simp only [quoteByte] at hx
  split_ifs at hx <;> simp at hx <;> omega

set_option maxRecDepth 100000 in
theorem or_0x80 : ∀ z, z < 256 → 0x80 ||| (z &&& 0x3F) = 0x80 + z % 64 := by decide
theorem or_0xF0 : ∀ z, z < 8 → 0xF0 ||| (z % 256) = 0xF0 + z := by decide

theorem EncodeRune_four (r : Nat) (h1 : 0x10000 ≤ r) (h2 : r ≤ 0x10FFFF) :
    EncodeRune r = utf8Bytes4 r := by
  have e1 : ¬ r ≤ 0x7F := by omega
  have e2 : ¬ r ≤ 0x7FF := by omega
  have e3 : ¬ (r > 0x10FFFF ∨ (0xD800 ≤ r ∧ r ≤ 0xDFFF)) := by omega
  have e4 : ¬ r ≤ 0xFFFF := by omega
  simp only [EncodeRune, if_neg e1, if_neg e2, if_neg e3, if_neg e4, utf8Bytes4,
    Nat.shiftRight_eq_div_pow]
  rw [or_0xF0 _ (by omega), or_0x80 _ (Nat.mod_lt _ (by norm_num)),
    or_0x80 _ (Nat.mod_lt _ (by norm_num)), or_0x80 _ (Nat.mod_lt _ (by norm_num))]
  norm_num

theorem utf16DecodeRune_pair (hi lo : Nat) (h1 : 0xD800 ≤ hi) (h2 : hi < 0xDC00)
    (h3 : 0xDC00 ≤ lo) (h4 : lo < 0xE000) :
    utf16DecodeRune (hi : Int) (lo : Int) = surrogatePairCodePoint hi lo := by
  have hc : (0xD800 : Int) ≤ hi ∧ (hi : Int) < 0xDC00 ∧ (0xDC00 : Int) ≤ lo ∧ (lo : Int) < 0xE000 := by
    omega
  have ha : ((hi : Int) - 0xD800).toNat = hi - 0xD800 := by omega
  have hb : ((lo : Int) - 0xDC00).toNat = lo - 0xDC00 := by omega
  simp only [utf16DecodeRune, if_pos hc, ha, hb, surrogatePairCodePoint]
  have hlt : lo - 0xDC00 < 2 ^ 10 := by omega
  have := Nat.mul_add_lt_is_or hlt (hi - 0xD800)
  rw [Nat.shiftLeft_eq, Nat.mul_comm _ (2 ^ 10), ← this]
  omega

theorem getu4Loop_digit (upper : Bool) (a : Nat) (ha : a < 16) (cs : List Nat) (r : Int) :
    getu4Loop (hexDigitByte upper a :: cs) r = getu4Loop cs (r * 16 + (a : Int)) := by
  interval_cases a <;> cases upper <;> rfl

theorem getu4_bytes (d : Hex4) (hd : d.valid) (rest : List Nat) :
    getu4 (d.bytes ++ rest) = (d.value : Int) := by
  obtain ⟨h1, h2, h3, h4⟩ := hd
  simp only [Hex4.bytes, List.cons_append, List.nil_append, getu4_cons6]
  have hg : ¬ ([92, 117, hexDigitByte d.u1 d.a1, hexDigitByte d.u2 d.a2, hexDigitByte d.u3 d.a3,
    hexDigitByte d.u4 d.a4].length < 6 ∨ [92, 117, hexDigitByte d.u1 d.a1, hexDigitByte d.u2 d.a2,
    hexDigitByte d.u3 d.a3, hexDigitByte d.u4 d.a4].getD 0 0 ≠ 92 ∨ [92, 117, hexDigitByte d.u1 d.a1,
    hexDigitByte d.u2 d.a2, hexDigitByte d.u3 d.a3, hexDigitByte d.u4 d.a4].getD 1 0 ≠ 117) := by
    simp
  rw [getu4, if_neg hg]
  simp only [List.drop_succ_cons, List.drop_zero, List.take_succ_cons, List.take_zero]
  rw [getu4Loop_digit _ _ h1, getu4Loop_digit _ _ h2, getu4Loop_digit _ _ h3,
    getu4Loop_digit _ _ h4]
  simp only [getu4Loop, Hex4.value]
  push_cast
  ring

/-- A byte that getu4Loop accepts is the byte of a hexadecimal digit. -/
theorem getu4Loop_nonneg_digit (c : Nat) (cs : List Nat) (r : Int)
    (h : 0 ≤ getu4Loop (c :: cs) r) :
    ∃ (upper : Bool) (a : Nat), a < 16 ∧ c = hexDigitByte upper a := by
  simp only [getu4Loop] at h
  split_ifs at h with h1 h2 h3
  · exact ⟨false, c - 48, by omega, by simp only [hexDigitByte]; rw [if_pos (by omega)]; omega⟩
  · refine ⟨false, c - 97 + 10, by omega, ?_⟩
    simp only [hexDigitByte]; rw [if_neg (by omega)]; simp; omega
  · refine ⟨true, c - 65 + 10, by omega, ?_⟩
    simp only [hexDigitByte]; rw [if_neg (by omega)]; simp; omega
  · omega

theorem getu4_nonneg_bytes (rest : List Nat) (h : 0 ≤ getu4 rest) :
    ∃ (l : Hex4) (tl : List Nat), l.valid ∧ rest = l.bytes ++ tl := by
  match rest with
  | [] | [_] | [_, _] | [_, _, _] | [_, _, _, _] | [_, _, _, _, _] =>
    simp [getu4] at h
  | x0 :: x1 :: c1 :: c2 :: c3 :: c4 :: tl =>
    rw [getu4_cons6] at h
    by_cases hg : ([x0, x1, c1, c2, c3, c4].length < 6 ∨ [x0, x1, c1, c2, c3, c4].getD 0 0 ≠ 92 ∨
        [x0, x1, c1, c2, c3, c4].getD 1 0 ≠ 117)
    · rw [getu4, if_pos hg] at h; omega
    · rw [getu4, if_neg hg] at h
      simp at hg
      obtain ⟨hx0, hx1⟩ := hg
      simp only [List.drop_succ_cons, List.drop_zero, List.take_succ_cons, List.take_zero] at h
      obtain ⟨u1, a1, ha1, rfl⟩ := getu4Loop_nonneg_digit _ _ _ h
      rw [getu4Loop_digit _ _ ha1] at h
      obtain ⟨u2, a2, ha2, rfl⟩ := getu4Loop_nonneg_digit _ _ _ h
      rw [getu4Loop_digit _ _ ha2] at h
      obtain ⟨u3, a3, ha3, rfl⟩ := getu4Loop_nonneg_digit _ _ _ h
      rw [getu4Loop_digit _ _ ha3] at h
      obtain ⟨u4, a4, ha4, rfl⟩ := getu4Loop_nonneg_digit _ _ _ h
      exact ⟨⟨a1, a2, a3, a4, u1, u2, u3, u4⟩, tl, ⟨ha1, ha2, ha3, ha4⟩, by simp [Hex4.bytes, hx0, hx1]⟩

theorem getu4_low_starts (rest : List Nat) (h1 : 0xDC00 ≤ getu4 rest) (h2 : getu4 rest < 0xE000) :
    startsWithLowSurrogate rest := by
  obtain ⟨l, tl, hl, rfl⟩ := getu4_nonneg_bytes rest (by omega)
  rw [getu4_bytes l hl] at h1 h2
  exact ⟨l, tl, hl, by omega, by omega, rfl⟩

theorem unquoteBytes_interior (body : List Nat) (r : Nat)
    (hscan : scanUnusual body.length body 0 = some r) :
    unquoteBytes (34 :: (body ++ [34])) =
      if r = body.length then .ok body
      else unquoteLoop body.length (body.drop r) (body.take r) (body.length + 2 * 4) := by
  have hlen : (34 :: (body ++ [34])).length = body.length + 2 := by simp
  have hint : ((34 :: (body ++ [34])).drop 1).take ((34 :: (body ++ [34])).length - 2) = body := by
    rw [hlen]; simp
  have h0 : (34 :: (body ++ [34])).getD 0 0 = 34 := by simp
  have hl : (34 :: (body ++ [34])).getD ((34 :: (body ++ [34])).length - 1) 0 = 34 := by
    rw [hlen]; simp [List.getElem?_append_right]
  have hguard : ¬ ((34 :: (body ++ [34])).length < 2 ∨ (34 :: (body ++ [34])).getD 0 0 ≠ 34 ∨
      (34 :: (body ++ [34])).getD ((34 :: (body ++ [34])).length - 1) 0 ≠ 34) := by
    rw [h0, hl, hlen]; simp
  simp only [unquoteBytes, if_neg hguard, hint]
  rw [hlen, Nat.add_sub_cancel, hscan]

theorem unquoteLoop_quoted_then (short : Nat → Bool) (t : List Nat) (ht : ∀ c ∈ t, c < 128)
    (rest : List Nat) (R : Unquoted) :
    ∀ (f : Nat) (b : List Nat) (blen : Nat),
      (∀ f1 blen1, rest.length ≤ f1 → unquoteLoop f1 rest (b ++ t) blen1 = R) →
      (quoteBody short t ++ rest).length ≤ f →
      unquoteLoop f (quoteBody short t ++ rest) b blen = R := by
  induction t with
  | nil =>
    intro f b blen hR hf
    simpa [quoteBody] using hR f blen (by simpa [quoteBody] using hf)
  | cons c t ih =>
    intro f b blen hR hf
    have hq := quoteByte_length_pos short c
    simp only [quoteBody, List.flatMap_cons, List.length_append, List.append_assoc] at hf ⊢
    obtain ⟨f1, rfl⟩ : ∃ f1, f = f1 + 1 := ⟨f - 1, by omega⟩
    rw [unquoteLoop_quoteByte short c (ht c (by simp))]
    apply ih (fun x hx => ht x (by simp [hx])) f1 (b ++ [c])
    · intro f2 blen2 h2
      have := hR f2 blen2 h2
      simpa using this
    · simp only [quoteBody, List.length_append]; omega

/-- The split of a byte string into its longest prefix of plain bytes and the rest. -/
theorem exists_plain_prefix (s : List Nat) :
    ∃ p t, s = p ++ t ∧ (∀ c ∈ p, plainAscii c = true) ∧ (∀ c ∈ t.head?, plainAscii c = false) := by
  refine ⟨s.takeWhile plainAscii, s.dropWhile plainAscii,
    (List.takeWhile_append_dropWhile _ _).symm, fun c hc => List.mem_takeWhile_imp hc, ?_⟩
  intro c hc
  cases hd : s.dropWhile plainAscii with
  | nil => simp [hd] at hc
  | cons x xs =>
    simp [hd] at hc
    subst hc
    have := List.head_dropWhile_not plainAscii s (by simp [hd])
    simpa [hd] using this

theorem quoteBody_head (short : Nat → Bool) (t : List Nat) (ht : ∀ c ∈ t, c < 128)
    (hh : ∀ c ∈ t.head?, plainAscii c = false) (rest : List Nat)
    (hrest : ∀ c ∈ rest.head?, c = 92 ∨ c = 34 ∨ c < 32) :
    ∀ c ∈ (quoteBody short t ++ rest).head?, c = 92 ∨ c = 34 ∨ c < 32 := by
  cases t with
  | nil => simpa [quoteBody] using hrest
  | cons x xs =>
    intro c hc
    have hx := hh x (by simp)
    have hq := quoteByte_length_pos short x
    apply quoteByte_head short x hx (ht x (by simp)) c
    cases hqx : quoteByte short x with
    | nil => simp [hqx] at hq
    | cons y ys => simpa [quoteBody, List.flatMap_cons, hqx] using hc

/-- The result of unquoteBytes on a quoted ASCII prefix followed by bytes that
begin with an unusual byte is the result of the copy loop on those bytes. -/
theorem unquoteBytes_quoted_prefix (short : Nat → Bool) (s1 rest : List Nat) (R : Unquoted)
    (hs : ∀ c ∈ s1, c < 128) (hne : rest ≠ [])
    (hhead : ∀ c ∈ rest.head?, c = 92 ∨ c = 34 ∨ c < 32)
    (hR : ∀ f blen, rest.length ≤ f → unquoteLoop f rest s1 blen = R) :
    unquoteBytes (34 :: (quoteBody short s1 ++ rest ++ [34])) = R := by
  obtain ⟨p, t, rfl, hp, ht⟩ := exists_plain_prefix s1
  have hbody : quoteBody short (p ++ t) ++ rest = p ++ (quoteBody short t ++ rest) := by
    simp only [quoteBody, List.flatMap_append, flatMap_quoteByte_plain short p hp,
      List.append_assoc]
  have ht128 : ∀ c ∈ t, c < 128 := fun c hc => hs c (by simp [hc])
  have hscan := scanUnusual_plain p hp (quoteBody short t ++ rest)
    (p ++ (quoteBody short t ++ rest)).length 0
    (quoteBody_head short t ht128 ht rest hhead) le_rfl
  rw [hbody, unquoteBytes_interior _ _ hscan]
  simp only [Nat.zero_add]
  have hrl : 0 < rest.length := List.length_pos.mpr hne
  have hlen : p.length ≠ (p ++ (quoteBody short t ++ rest)).length := by
    simp only [List.length_append]; omega
  rw [if_neg hlen]
  have hd : (p ++ (quoteBody short t ++ rest)).drop p.length = quoteBody short t ++ rest := by simp
  have htk : (p ++ (quoteBody short t ++ rest)).take p.length = p := by simp
  rw [hd, htk]
  apply unquoteLoop_quoted_then short t ht128 rest R
  · intro f1 blen1 h1; exact hR f1 blen1 h1
  · simp only [List.length_append]; omega

theorem unquoteLoop_quoteBody (short : Nat → Bool) (t : List Nat) (ht : ∀ c ∈ t, c < 128)
    (f : Nat) (b : List Nat) (blen : Nat) (hf : (quoteBody short t).length ≤ f) :
    unquoteLoop f (quoteBody short t) b blen = .ok (b ++ t) :=
  unquoteLoop_quoted short t ht f b blen hf

/-- The step of the copy loop at a valid surrogate pair. -/
theorem unquoteLoop_pair (hi lo : Hex4) (hhi : hi.valid) (hlo : lo.valid)
    (h1 : 0xD800 ≤ hi.value) (h2 : hi.value ≤ 0xDBFF) (h3 : 0xDC00 ≤ lo.value)
    (h4 : lo.value ≤ 0xDFFF) (f : Nat) (rest b : List Nat) (blen : Nat) :
    unquoteLoop (f + 1) (hi.bytes ++ lo.bytes ++ rest) b blen =
      unquoteLoop f rest (b ++ utf8Bytes4 (surrogatePairCodePoint hi.value lo.value))
        (growLen b.length blen) := by
  have e1 : hi.bytes ++ lo.bytes ++ rest = 92 :: 117 :: (hi.bytes.drop 2 ++ (lo.bytes ++ rest)) := by
    simp [Hex4.bytes]
  have g1 : getu4 (hi.bytes ++ lo.bytes ++ rest) = (hi.value : Int) := by
    rw [List.append_assoc]; exact getu4_bytes hi hhi _
  have d6 : (hi.bytes ++ lo.bytes ++ rest).drop 6 = lo.bytes ++ rest := by simp [Hex4.bytes]
  have d12 : (hi.bytes ++ lo.bytes ++ rest).drop 12 = rest := by simp [Hex4.bytes]
  have g2 : getu4 (lo.bytes ++ rest) = (lo.value : Int) := getu4_bytes lo hlo _
  have hdec := utf16DecodeRune_pair hi.value lo.value h1 (by omega) h3 (by omega)
  have hcp1 : 0x10000 ≤ surrogatePairCodePoint hi.value lo.value := by
    simp only [surrogatePairCodePoint]; omega
  have hcp2 : surrogatePairCodePoint hi.value lo.value ≤ 0x10FFFF := by
    simp only [surrogatePairCodePoint]; omega
  have hne : surrogatePairCodePoint hi.value lo.value ≠ RuneError := by
    simp only [RuneError]; omega
  have hsur : IsSurrogate (hi.value : Int) = true := by
    simp only [IsSurrogate, decide_eq_true_eq]; omega
  have h0 : ¬ ((hi.value : Int) < 0) := by omega
  rw [e1, unquoteLoop_bs, ← e1]
  simp only [g1, d6, d12, g2, hdec, hsur, if_neg h0, if_true, if_pos hne,
    EncodeRune_four _ hcp1 hcp2]
  simp

/-- The step of the copy loop at an escape of a surrogate that does not begin a
valid pair. -/
theorem unquoteLoop_lone (e : Hex4) (he : e.valid) (h1 : 0xD800 ≤ e.value)
    (h2 : e.value ≤ 0xDFFF) (f : Nat) (rest b : List Nat) (blen : Nat)
    (hnp : 0xDC00 ≤ e.value ∨ ¬ (0xDC00 ≤ getu4 rest ∧ getu4 rest < 0xE000)) :
    unquoteLoop (f + 1) (e.bytes ++ rest) b blen =
      unquoteLoop f rest (b ++ [0xEF, 0xBF, 0xBD]) (growLen b.length blen) := by
  have e1 : e.bytes ++ rest = 92 :: 117 :: (e.bytes.drop 2 ++ rest) := by simp [Hex4.bytes]
  have g1 : getu4 (e.bytes ++ rest) = (e.value : Int) := getu4_bytes e he _
  have d6 : (e.bytes ++ rest).drop 6 = rest := by simp [Hex4.bytes]
  have hsur : IsSurrogate (e.value : Int) = true := by
    simp only [IsSurrogate, decide_eq_true_eq]; omega
  have h0 : ¬ ((e.value : Int) < 0) := by omega
  have hdec : utf16DecodeRune (e.value : Int) (getu4 rest) = RuneError := by
    simp only [utf16DecodeRune]
    rw [if_neg]
    omega
  have henc : EncodeRune RuneError = [0xEF, 0xBF, 0xBD] := by decide
  rw [e1, unquoteLoop_bs, ← e1]
  simp only [g1, d6, hdec, hsur, if_neg h0, if_true, henc]
  simp

theorem getu4_quoteBody (short : Nat → Bool) (s : List Nat) (hs : ∀ c ∈ s, c < 128) :
    getu4 (quoteBody short s) < 0xD800 := by
  cases s with
  | nil => simp [quoteBody, getu4]
  | cons c t =>
    have hc := hs c (by simp)
    simp only [quoteBody, List.flatMap_cons]
    by_cases h32 : c < 32
    · have hu : getu4 ([92, 117, 48, 48, hex (c / 16), hex (c % 16)] ++ t.flatMap (quoteByte short))
          < 0xD800 := by
        simp only [List.cons_append, List.nil_append, getu4_cons6]
        rw [getu4_ctrl _ _ (by omega) (by omega)]
        omega
      simp only [quoteByte]
      split_ifs <;> first | exact hu | (simp [getu4])
    · by_cases h34 : c = 34
      · subst h34; simp [quoteByte, getu4]
      · by_cases h92 : c = 92
        · subst h92; simp [quoteByte, getu4]
        · simp only [quoteByte, if_neg h34, if_neg h92, if_neg h32]
          simp [getu4, h92]

/-! ## Theorems: the inputs unquoteBytes rejects -/

theorem HasFlaw.not_nil : ¬ HasFlaw [] := fun h => nomatch h

theorem hasFlaw_byte {c : Nat} {tl : List Nat} (h1 : 32 ≤ c) (h2 : c ≠ 34) (h3 : c ≠ 92) :
    HasFlaw (c :: tl) ↔ HasFlaw tl := by
  constructor
  · intro h
    cases h with
    | quote => exact absurd rfl h2
    | control _ _ hc => omega
    | lastBackslash => exact absurd rfl h3
    | badEscape => exact absurd rfl h3
    | badHex => exact absurd rfl h3
    | afterByte _ _ _ _ _ ht => exact ht
    | afterEscape => exact absurd rfl h3
    | afterHex => exact absurd rfl h3
  · exact HasFlaw.afterByte c tl h1 h2 h3

theorem hasFlaw_plain_prefix (pre : List Nat) (hp : ∀ x ∈ pre, 32 ≤ x ∧ x ≠ 34 ∧ x ≠ 92)
    (rest : List Nat) : HasFlaw (pre ++ rest) ↔ HasFlaw rest := by
  induction pre with
  | nil => simp
  | cons c pre ih =>
    obtain ⟨h1, h2, h3⟩ := hp c (by simp)
    rw [List.cons_append, hasFlaw_byte h1 h2 h3, ih (fun x hx => hp x (by simp [hx]))]

theorem hasFlaw_escape {e : Nat} {tl : List Nat} (he : IsSimpleEscape e) :
    HasFlaw (92 :: e :: tl) ↔ HasFlaw tl := by
  have h117 : e ≠ 117 := by unfold IsSimpleEscape at he; omega
  constructor
  · intro h
    cases h with
    | control _ _ hc => omega
    | badEscape _ _ hn => exact absurd he hn
    | badHex => exact absurd rfl h117
    | afterByte _ _ _ _ h3 => exact absurd rfl h3
    | afterEscape _ _ _ ht => exact ht
    | afterHex => exact absurd rfl h117
  · exact HasFlaw.afterEscape e tl he

theorem hasFlaw_hex {h1 h2 h3 h4 : Nat} {tl : List Nat} (hh : FourHex [h1, h2, h3, h4]) :
    HasFlaw (92 :: 117 :: h1 :: h2 :: h3 :: h4 :: tl) ↔ HasFlaw tl := by
  constructor
  · intro h
    cases h with
    | control _ _ hc => omega
    | badEscape _ _ _ hn => exact absurd rfl hn
    | badHex _ hn => exact absurd hh hn
    | afterByte _ _ _ _ h3 => exact absurd rfl h3
    | afterEscape _ _ he => unfold IsSimpleEscape at he; omega
    | afterHex _ _ _ _ _ _ ht => exact ht
  · exact HasFlaw.afterHex h1 h2 h3 h4 tl hh

theorem isHexDigit_iff (c : Nat) :
    IsHexDigit c ↔ ∃ (upper : Bool) (a : Nat), a < 16 ∧ c = hexDigitByte upper a := by
  constructor
  · intro h
    rcases h with h | h | h
    · exact ⟨false, c - 48, by omega, by simp only [hexDigitByte]; rw [if_pos (by omega)]; omega⟩
    · refine ⟨false, c - 97 + 10, by omega, ?_⟩
      simp only [hexDigitByte]; rw [if_neg (by omega)]; simp; omega
    · refine ⟨true, c - 65 + 10, by omega, ?_⟩
      simp only [hexDigitByte]; rw [if_neg (by omega)]; simp; omega
  · rintro ⟨upper, a, ha, rfl⟩
    unfold IsHexDigit hexDigitByte
    interval_cases a <;> cases upper <;> simp

theorem getu4Loop_sign (cs : List Nat) : ∀ r : Int, 0 ≤ r →
    ((∀ c ∈ cs, IsHexDigit c) → 0 ≤ getu4Loop cs r) ∧
    (¬ (∀ c ∈ cs, IsHexDigit c) → getu4Loop cs r = -1) := by
  induction cs with
  | nil => intro r hr; simp [getu4Loop, hr]
  | cons c cs ih =>
    intro r hr
    simp only [getu4Loop]
    split_ifs with h1 h2 h3
    · have := ih (r * 16 + ((c - 48 : Nat) : Int)) (by positivity)
      have hc : IsHexDigit c := Or.inl h1
      simp only [List.mem_cons, forall_eq_or_imp, hc, true_and]
      exact this
    · have := ih (r * 16 + ((c - 97 + 10 : Nat) : Int)) (by positivity)
      have hc : IsHexDigit c := Or.inr (Or.inl h2)
      simp only [List.mem_cons, forall_eq_or_imp, hc, true_and]
      exact this
    · have := ih (r * 16 + ((c - 65 + 10 : Nat) : Int)) (by positivity)
      have hc : IsHexDigit c := Or.inr (Or.inr h3)
      simp only [List.mem_cons, forall_eq_or_imp, hc, true_and]
      exact this
    · have hc : ¬ IsHexDigit c := by unfold IsHexDigit; omega
      simp [hc]

theorem getu4_neg_iff (tl : List Nat) : getu4 (92 :: 117 :: tl) < 0 ↔ ¬ FourHex tl := by
  match tl with
  | [] | [_] | [_, _] | [_, _, _] => simp [getu4, FourHex]
  | h1 :: h2 :: h3 :: h4 :: tl =>
    rw [getu4_cons6]
    have hg : ¬ ([92, 117, h1, h2, h3, h4].length < 6 ∨ [92, 117, h1, h2, h3, h4].getD 0 0 ≠ 92 ∨
        [92, 117, h1, h2, h3, h4].getD 1 0 ≠ 117) := by simp
    rw [getu4, if_neg hg]
    simp only [List.drop_succ_cons, List.drop_zero, List.take_succ_cons, List.take_zero]
    obtain ⟨hp, hn⟩ := getu4Loop_sign [h1, h2, h3, h4] 0 (le_refl 0)
    have hall : (∀ c ∈ [h1, h2, h3, h4], IsHexDigit c) ↔ FourHex (h1 :: h2 :: h3 :: h4 :: tl) := by
      simp [FourHex]
    rw [← hall]
    constructor
    · intro hlt hh
      have := hp hh
      omega
    · intro hh
      rw [hn hh]; decide

theorem fourHex_split {tl : List Nat} (h : FourHex tl) :
    ∃ h1 h2 h3 h4 tl3, tl = h1 :: h2 :: h3 :: h4 :: tl3 ∧ FourHex [h1, h2, h3, h4] := by
  match tl, h with
  | h1 :: h2 :: h3 :: h4 :: tl3, h => exact ⟨h1, h2, h3, h4, tl3, rfl, h⟩

theorem getu4_nonneg_shape (rest : List Nat) (h : 0 ≤ getu4 rest) :
    ∃ h1 h2 h3 h4 tl, rest = 92 :: 117 :: h1 :: h2 :: h3 :: h4 :: tl ∧ FourHex [h1, h2, h3, h4] := by
  obtain ⟨l, tl, hl, rfl⟩ := getu4_nonneg_bytes rest h
  obtain ⟨v1, v2, v3, v4⟩ := hl
  refine ⟨_, _, _, _, tl, rfl, ?_⟩
  exact ⟨(isHexDigit_iff _).mpr ⟨_, _, v1, rfl⟩, (isHexDigit_iff _).mpr ⟨_, _, v2, rfl⟩,
    (isHexDigit_iff _).mpr ⟨_, _, v3, rfl⟩, (isHexDigit_iff _).mpr ⟨_, _, v4, rfl⟩⟩

theorem DecodeRune_unfold (c : Nat) (tl : List Nat) :
    DecodeRune (c :: tl) =
      if first c ≥ 0xF0 then
        if first c = 0xF0 then (c, 1) else (RuneError, 1)
      else
        if (c :: tl).length < first c &&& 7 then (RuneError, 1)
        else
          if tl.getD 0 0 < (acceptRanges (first c >>> 4)).1 ∨
              (acceptRanges (first c >>> 4)).2 < tl.getD 0 0 then (RuneError, 1)
          else if first c &&& 7 ≤ 2 then (((c &&& 0x1F) <<< 6) ||| (tl.getD 0 0 &&& 0x3F), 2)
          else
            if tl.getD 1 0 < 0x80 ∨ 0xBF < tl.getD 1 0 then (RuneError, 1)
            else if first c &&& 7 ≤ 3 then
              (((c &&& 0x0F) <<< 12) ||| ((tl.getD 0 0 &&& 0x3F) <<< 6) ||| (tl.getD 1 0 &&& 0x3F), 3)
            else
              if tl.getD 2 0 < 0x80 ∨ 0xBF < tl.getD 2 0 then (RuneError, 1)
              else
                (((c &&& 0x07) <<< 18) ||| ((tl.getD 0 0 &&& 0x3F) <<< 12) |||
                  ((tl.getD 1 0 &&& 0x3F) <<< 6) ||| (tl.getD 2 0 &&& 0x3F), 4) := rfl

theorem first_size (c : Nat) (hc : 0x80 ≤ c) :
    first c = 0xF1 ∨
      (first c < 0xF0 ∧ 2 ≤ first c &&& 7 ∧ first c &&& 7 ≤ 4 ∧
        0x80 ≤ (acceptRanges (first c >>> 4)).1) := by
  unfold first
  split_ifs
  all_goals first
    | (exfalso; omega)
    | (left; rfl)
    | (right; decide)

/-- A rune that utf8.DecodeRune decodes from a first byte of 0x80 or above is
the error rune of width 1, or has a width from 2 to 4 within the input, all of
whose bytes are 0x80 or above. -/
theorem DecodeRune_width (c : Nat) (tl : List Nat) (hc : 0x80 ≤ c) :
    DecodeRune (c :: tl) = (RuneError, 1) ∨
      (2 ≤ (DecodeRune (c :: tl)).2 ∧ (DecodeRune (c :: tl)).2 ≤ (c :: tl).length ∧
        ∀ x ∈ (c :: tl).take (DecodeRune (c :: tl)).2, 0x80 ≤ x) := by
  rw [DecodeRune_unfold]
  rcases first_size c hc with h | ⟨h1, h2, h3, h4⟩
  · left; rw [h]; rfl
  · rw [if_neg (by omega)]
    generalize first c &&& 7 = sz at h2 h3
    generalize acceptRanges (first c >>> 4) = acc at h4
    rcases tl with _ | ⟨b1, _ | ⟨b2, _ | ⟨b3, tl⟩⟩⟩
    all_goals
      simp only [List.length_cons, List.length_nil, List.getD_cons_zero, List.getD_cons_succ,
        List.getD_nil]
      split_ifs
      all_goals first
        | (exfalso; omega)
        | (left; rfl)
        | (right
           refine ⟨?_, ?_, ?_⟩
           · simp
           · simp
           · intro x hx
             simp only [List.take_succ_cons, List.take_zero, List.mem_cons, List.mem_nil_iff,
               or_false] at hx
             omega)

/-- A byte the loops of unquoteBytes read over as a unit of its own. -/
theorem simpleEscape_step (f e : Nat) (tl b : List Nat) (blen : Nat) (he : IsSimpleEscape e) :
    ∃ b1 blen1, unquoteLoop (f + 1) (92 :: e :: tl) b blen = unquoteLoop f tl b1 blen1 := by
  unfold IsSimpleEscape at he
  rcases he with rfl | rfl | rfl | rfl | rfl | rfl | rfl | rfl | rfl <;> exact ⟨_, _, rfl⟩

theorem utf16DecodeRune_ne (r1 r2 : Int) (h : utf16DecodeRune r1 r2 ≠ RuneError) :
    0xDC00 ≤ r2 ∧ r2 < 0xE000 := by
  unfold utf16DecodeRune at h
  split_ifs at h with hc
  · exact ⟨hc.2.2.1, hc.2.2.2⟩
  · exact absurd rfl h

/-- The copy loop of unquoteBytes, with fuel for every byte, fails on the
interiors that have a flaw and succeeds on all others. -/
theorem unquoteLoop_flaw : ∀ (n : Nat) (rest : List Nat), rest.length ≤ n →
    ∀ (f : Nat) (b : List Nat) (blen : Nat), rest.length ≤ f →
      (HasFlaw rest → unquoteLoop f rest b blen = .notOk) ∧
      (¬ HasFlaw rest → ∃ t, unquoteLoop f rest b blen = .ok t) := by
  intro n
  induction n with
  | zero =>
    intro rest hn f b blen _
    have : rest = [] := List.length_eq_zero.mp (by omega)
    subst this
    exact ⟨fun h => absurd h HasFlaw.not_nil, fun _ => ⟨b, unquoteLoop_nil f b blen⟩⟩
  | succ n ih =>
    intro rest hn f b blen hf
    match rest, hn, hf with
    | [], _, _ => exact ⟨fun h => absurd h HasFlaw.not_nil, fun _ => ⟨b, unquoteLoop_nil f b blen⟩⟩
    | c :: tl, hn, hf =>
      obtain ⟨f, rfl⟩ : ∃ f1, f = f1 + 1 := ⟨f - 1, by simp at hf; omega⟩
      simp only [List.length_cons] at hn hf
      by_cases hc : c = 92
      · subst hc
        match tl, hn, hf with
        | [], _, _ =>
          exact ⟨fun _ => rfl, fun h => absurd HasFlaw.lastBackslash h⟩
        | e :: tl2, hn, hf =>
          simp only [List.length_cons] at hn hf
          by_cases he : IsSimpleEscape e
          · obtain ⟨b1, blen1, heq⟩ := simpleEscape_step f e tl2 b blen he
            rw [heq, hasFlaw_escape he]
            exact ih tl2 (by omega) f b1 blen1 (by omega)
          · by_cases hu : e = 117
            · subst hu
              rw [unquoteLoop_bs]
              simp only [show ¬ ((117 : Nat) = 34 ∨ (117 : Nat) = 92 ∨ (117 : Nat) = 47 ∨
                (117 : Nat) = 39) by decide, if_false, show ¬ ((117 : Nat) = 98) by decide,
                show ¬ ((117 : Nat) = 102) by decide, show ¬ ((117 : Nat) = 110) by decide,
                show ¬ ((117 : Nat) = 114) by decide, show ¬ ((117 : Nat) = 116) by decide,
                if_true]
              by_cases hneg : getu4 (92 :: 117 :: tl2) < 0
              · rw [if_pos hneg]
                have hbad := HasFlaw.badHex tl2 ((getu4_neg_iff tl2).mp hneg)
                exact ⟨fun _ => rfl, fun h => absurd hbad h⟩
              · rw [if_neg hneg]
                have hfour : FourHex tl2 := by
                  by_contra hnot
                  exact hneg ((getu4_neg_iff tl2).mpr hnot)
                obtain ⟨h1, h2, h3, h4, tl3, rfl, hh⟩ := fourHex_split hfour
                simp only [List.length_cons] at hn hf
                rw [hasFlaw_hex hh]
                have hd6 : (92 :: 117 :: h1 :: h2 :: h3 :: h4 :: tl3).drop 6 = tl3 := rfl
                rw [hd6]
                split_ifs with hs hdec
                · obtain ⟨l1, l2⟩ := utf16DecodeRune_ne _ _ hdec
                  obtain ⟨g1, g2, g3, g4, tl4, rfl, hg⟩ := getu4_nonneg_shape tl3 (by omega)
                  have hd12 : (92 :: 117 :: h1 :: h2 :: h3 :: h4 :: 92 :: 117 :: g1 :: g2 :: g3 ::
                    g4 :: tl4).drop 12 = tl4 := rfl
                  rw [hd12, hasFlaw_hex hg]
                  simp only [List.length_cons] at hn hf
                  exact ih tl4 (by omega) f _ _ (by omega)
                · exact ih tl3 (by omega) f _ _ (by omega)
                · exact ih tl3 (by omega) f _ _ (by omega)
            · have hbad := HasFlaw.badEscape e tl2 he hu
              refine ⟨fun _ => ?_, fun h => absurd hbad h⟩
              unfold IsSimpleEscape at he
              rw [unquoteLoop_bs, if_neg (by omega), if_neg (by omega), if_neg (by omega),
                if_neg (by omega), if_neg (by omega), if_neg (by omega), if_neg hu]
      · rw [unquoteLoop_nbs _ _ _ _ _ hc]
        by_cases hq : c = 34 ∨ c < 32
        · rw [if_pos hq]
          have hbad : HasFlaw (c :: tl) := by
            rcases hq with rfl | hq
            · exact HasFlaw.quote tl
            · exact HasFlaw.control c tl hq
          exact ⟨fun _ => rfl, fun h => absurd hbad h⟩
        · rw [if_neg hq]
          have h32 : 32 ≤ c := by omega
          have h34 : c ≠ 34 := by omega
          by_cases hascii : c < 0x80
          · rw [if_pos hascii, hasFlaw_byte h32 h34 hc]
            exact ih tl (by omega) f _ _ (by omega)
          · rw [if_neg hascii]
            rcases DecodeRune_width c tl (by omega) with hd | ⟨hd1, hd2, hd3⟩
            · rw [hd, hasFlaw_byte h32 h34 hc]
              exact ih tl (by omega) f _ _ (by omega)
            · have hsplit : c :: tl = (c :: tl).take (DecodeRune (c :: tl)).2 ++
                  (c :: tl).drop (DecodeRune (c :: tl)).2 := (List.take_append_drop _ _).symm
              have hiff := hasFlaw_plain_prefix ((c :: tl).take (DecodeRune (c :: tl)).2)
                (fun x hx => by have := hd3 x hx; omega) ((c :: tl).drop (DecodeRune (c :: tl)).2)
              rw [← hsplit] at hiff
              rw [hiff]
              have hlen : ((c :: tl).drop (DecodeRune (c :: tl)).2).length ≤ n := by
                rw [List.length_drop]; simp only [List.length_cons] at hd2 ⊢; omega
              have hlen2 : ((c :: tl).drop (DecodeRune (c :: tl)).2).length ≤ f := by
                rw [List.length_drop]; simp only [List.length_cons] at hd2 ⊢; omega
              exact ih _ hlen f _ _ hlen2

/-- The first loop of unquoteBytes, with fuel for every byte, stops at an
index within the input, after bytes that are units of their own. -/
theorem scanUnusual_stops : ∀ (n : Nat) (s : List Nat), s.length ≤ n →
    ∀ (f r0 : Nat), s.length ≤ f →
      ∃ k, scanUnusual f s r0 = some (r0 + k) ∧ k ≤ s.length ∧
        ∀ x ∈ s.take k, 32 ≤ x ∧ x ≠ 34 ∧ x ≠ 92 := by
  intro n
  induction n with
  | zero =>
    intro s hn f r0 _
    have : s = [] := List.length_eq_zero.mp (by omega)
    subst this
    exact ⟨0, by cases f <;> rfl, by simp, by simp⟩
  | succ n ih =>
    intro s hn f r0 hf
    match s, hn, hf with
    | [], _, _ => exact ⟨0, by cases f <;> rfl, by simp, by simp⟩
    | c :: tl, hn, hf =>
      obtain ⟨f, rfl⟩ : ∃ f1, f = f1 + 1 := ⟨f - 1, by simp at hf; omega⟩
      simp only [List.length_cons] at hn hf
      simp only [scanUnusual]
      by_cases h1 : c = 92 ∨ c = 34 ∨ c < 32
      · rw [if_pos h1]
        exact ⟨0, rfl, by simp, by simp⟩
      · rw [if_neg h1]
        by_cases h2 : c < 0x80
        · rw [if_pos h2]
          obtain ⟨k, hk1, hk2, hk3⟩ := ih tl (by omega) f (r0 + 1) (by omega)
          refine ⟨k + 1, ?_, by simp; omega, ?_⟩
          · rw [hk1]; congr 1; omega
          · intro x hx
            simp only [List.take_succ_cons, List.mem_cons] at hx
            rcases hx with rfl | hx
            · omega
            · exact hk3 x hx
        · rw [if_neg h2]
          rcases DecodeRune_width c tl (by omega) with hd | ⟨hd1, hd2, hd3⟩
          · rw [hd]
            simp only [and_self, if_true]
            exact ⟨0, rfl, by simp, by simp⟩
          · have hne : ¬ ((DecodeRune (c :: tl)).1 = RuneError ∧ (DecodeRune (c :: tl)).2 = 1) := by
              omega
            rw [if_neg hne]
            have hlen : ((c :: tl).drop (DecodeRune (c :: tl)).2).length ≤ n := by
              rw [List.length_drop]; simp only [List.length_cons] at hd2 ⊢; omega
            have hlen2 : ((c :: tl).drop (DecodeRune (c :: tl)).2).length ≤ f := by
              rw [List.length_drop]; simp only [List.length_cons] at hd2 ⊢; omega
            obtain ⟨k, hk1, hk2, hk3⟩ := ih _ hlen f (r0 + (DecodeRune (c :: tl)).2) hlen2
            refine ⟨(DecodeRune (c :: tl)).2 + k, ?_, ?_, ?_⟩
            · rw [hk1]; congr 1; omega
            · rw [List.length_drop] at hk2; omega
            · intro x hx
              rw [List.take_add] at hx
              rcases List.mem_append.mp hx with hx | hx
              · have := hd3 x hx; omega
              · exact hk3 x hx

theorem hasFlaw_of_plain (s : List Nat) (hs : ∀ x ∈ s, 32 ≤ x ∧ x ≠ 34 ∧ x ≠ 92) : ¬ HasFlaw s := by
  have := hasFlaw_plain_prefix s hs []
  rw [List.append_nil] at this
  rw [this]
  exact HasFlaw.not_nil

/-- On a quoted input unquoteBytes fails when the interior has a flaw and
succeeds otherwise. -/
theorem unquoteBytes_quoted_flaw (body : List Nat) :
    (HasFlaw body → unquoteBytes (34 :: (body ++ [34])) = .notOk) ∧
    (¬ HasFlaw body → ∃ t, unquoteBytes (34 :: (body ++ [34])) = .ok t) := by
  obtain ⟨k, hk1, hk2, hk3⟩ := scanUnusual_stops body.length body (le_refl _) body.length 0
    (le_refl _)
  rw [Nat.zero_add] at hk1
  rw [unquoteBytes_interior body k hk1]
  by_cases hend : k = body.length
  · rw [if_pos hend]
    have hplain : ¬ HasFlaw body := by
      apply hasFlaw_of_plain
      intro x hx
      apply hk3
      rw [hend, List.take_length]
      exact hx
    exact ⟨fun h => absurd h hplain, fun _ => ⟨body, rfl⟩⟩
  · rw [if_neg hend]
    have hiff := hasFlaw_plain_prefix (body.take k) hk3 (body.drop k)
    rw [List.take_append_drop] at hiff
    rw [hiff]
    exact unquoteLoop_flaw body.length (body.drop k) (by simp) body.length _ _ (by simp)

theorem getLast?_cons_concat (c : Nat) (L : List Nat) (b : Nat) :
    (c :: (L ++ [b])).getLast? = some b := by
  rw [← List.cons_append, List.getLast?_append]; simp

theorem quoted_shape (s : List Nat) (h1 : 2 ≤ s.length) (h2 : s.head? = some 34)
    (h3 : s.getLast? = some 34) : s = 34 :: (((s.drop 1).take (s.length - 2)) ++ [34]) := by
  match s, h1, h2, h3 with
  | c :: tl, h1, h2, h3 =>
    simp only [List.head?_cons, Option.some.injEq] at h2
    subst h2
    rcases List.eq_nil_or_concat tl with h | ⟨L, b, h⟩
    · subst h; simp at h1
    · rw [List.concat_eq_append] at h
      subst h
      rw [getLast?_cons_concat] at h3
      have hb := Option.some.inj h3
      subst hb
      simp

theorem quoted_guard (s : List Nat) (h1 : 2 ≤ s.length) :
    s.head? = some (s.getD 0 0) ∧ s.getLast? = some (s.getD (s.length - 1) 0) := by
  match s, h1 with
  | c :: tl, h1 =>
    refine ⟨by simp, ?_⟩
    rcases List.eq_nil_or_concat tl with h | ⟨L, b, h⟩
    · subst h; simp at h1
    · rw [List.concat_eq_append] at h
      subst h
      rw [getLast?_cons_concat]
      simp [List.getD_eq_getElem?_getD, List.getElem?_append_right]

/-! ## Theorems: the room of the work buffer of unquoteBytes -/

/-- The second loop of unquoteBytes runs the iteration unquoteStep. -/
theorem unquoteLoop_step (f c : Nat) (tl b : List Nat) (blen : Nat) :
    unquoteLoop (f + 1) (c :: tl) b blen =
      match unquoteStep c tl b blen with
      | none => .notOk
      | some (rest, b1, blen1) => unquoteLoop f rest b1 blen1 := by
  by_cases hc : c = 92
  · subst hc
    match tl with
    | [] => rfl
    | e :: tl2 =>
      rw [unquoteLoop_bs]
      simp only [unquoteStep, if_true]
      by_cases h1 : e = 34 ∨ e = 92 ∨ e = 47 ∨ e = 39
      · rw [if_pos h1, if_pos h1]
      rw [if_neg h1, if_neg h1]
      by_cases h2 : e = 98
      · rw [if_pos h2, if_pos h2]
      rw [if_neg h2, if_neg h2]
      by_cases h3 : e = 102
      · rw [if_pos h3, if_pos h3]
      rw [if_neg h3, if_neg h3]
      by_cases h4 : e = 110
      · rw [if_pos h4, if_pos h4]
      rw [if_neg h4, if_neg h4]
      by_cases h5 : e = 114
      · rw [if_pos h5, if_pos h5]
      rw [if_neg h5, if_neg h5]
      by_cases h6 : e = 116
      · rw [if_pos h6, if_pos h6]
      rw [if_neg h6, if_neg h6]
      by_cases h7 : e = 117
      · rw [if_pos h7, if_pos h7]
        by_cases h8 : getu4 (92 :: e :: tl2) < 0
        · rw [if_pos h8, if_pos h8]
        rw [if_neg h8, if_neg h8]
        by_cases h9 : IsSurrogate (getu4 (92 :: e :: tl2)) = true
        · rw [if_pos h9, if_pos h9]
          by_cases h10 : utf16DecodeRune (getu4 (92 :: e :: tl2))
              (getu4 (List.drop 6 (92 :: e :: tl2))) ≠ RuneError
          · rw [if_pos h10, if_pos h10]
          · rw [if_neg h10, if_neg h10]
        · rw [if_neg h9, if_neg h9]
      · rw [if_neg h7, if_neg h7]
  · rw [unquoteLoop_nbs _ _ _ _ _ hc]
    simp only [unquoteStep, if_neg hc]
    by_cases h1 : c = 34 ∨ c < 32
    · rw [if_pos h1, if_pos h1]
    rw [if_neg h1, if_neg h1]
    by_cases h2 : c < 0x80
    · rw [if_pos h2, if_pos h2]
    · rw [if_neg h2, if_neg h2]

theorem EncodeRune_length (r : Nat) :
    (EncodeRune r).length ≤ 4 ∧ (r ≤ 0xFFFF → (EncodeRune r).length ≤ 3) ∧
      (r ≤ 0x7FF → (EncodeRune r).length ≤ 2) ∧ (r ≤ 0x7F → (EncodeRune r).length ≤ 1) := by
  unfold EncodeRune
  split_ifs
  all_goals
    simp only [List.length_cons, List.length_nil]
    refine ⟨by omega, ?_, ?_, ?_⟩ <;> intro h <;> omega

theorem EncodeRune_RuneError_length : (EncodeRune RuneError).length = 3 := by decide

theorem rune2_le (c b1 : Nat) : ((c &&& 0x1F) <<< 6) ||| (b1 &&& 0x3F) ≤ 0x7FF := by
  have h1 : c &&& 0x1F ≤ 0x1F := Nat.and_le_right
  have h2 : b1 &&& 0x3F ≤ 0x3F := Nat.and_le_right
  have h3 : (c &&& 0x1F) <<< 6 < 2 ^ 11 := by rw [Nat.shiftLeft_eq]; omega
  have h4 : b1 &&& 0x3F < 2 ^ 11 := by omega
  have := Nat.or_lt_two_pow h3 h4
  omega

theorem rune3_le (c b1 b2 : Nat) :
    ((c &&& 0x0F) <<< 12) ||| ((b1 &&& 0x3F) <<< 6) ||| (b2 &&& 0x3F) ≤ 0xFFFF := by
  have h1 : c &&& 0x0F ≤ 0x0F := Nat.and_le_right
  have h2 : b1 &&& 0x3F ≤ 0x3F := Nat.and_le_right
  have h2b : b2 &&& 0x3F ≤ 0x3F := Nat.and_le_right
  have h3 : (c &&& 0x0F) <<< 12 < 2 ^ 16 := by rw [Nat.shiftLeft_eq]; omega
  have h4 : (b1 &&& 0x3F) <<< 6 < 2 ^ 16 := by rw [Nat.shiftLeft_eq]; omega
  have h5 : b2 &&& 0x3F < 2 ^ 16 := by omega
  have := Nat.or_lt_two_pow (Nat.or_lt_two_pow h3 h4) h5
  omega

/-- The results of utf8.DecodeRune on a first byte of 0x80 or above. -/
theorem DecodeRune_forms (c : Nat) (tl : List Nat) (hc : 0x80 ≤ c) :
    DecodeRune (c :: tl) = (RuneError, 1) ∨
      (∃ b1, DecodeRune (c :: tl) = (((c &&& 0x1F) <<< 6) ||| (b1 &&& 0x3F), 2)) ∨
      (∃ b1 b2, DecodeRune (c :: tl) =
        (((c &&& 0x0F) <<< 12) ||| ((b1 &&& 0x3F) <<< 6) ||| (b2 &&& 0x3F), 3)) ∨
      (∃ r, DecodeRune (c :: tl) = (r, 4)) := by
  rcases first_size c hc with h | ⟨h1, h2, h3, h4⟩
  · left; rw [DecodeRune_unfold, h]; rfl
  · rw [DecodeRune_unfold, if_neg (by omega)]
    generalize first c &&& 7 = sz
    generalize acceptRanges (first c >>> 4) = acc
    by_cases g1 : (c :: tl).length < sz
    · rw [if_pos g1]; exact Or.inl rfl
    rw [if_neg g1]
    by_cases g2 : tl.getD 0 0 < acc.1 ∨ acc.2 < tl.getD 0 0
    · rw [if_pos g2]; exact Or.inl rfl
    rw [if_neg g2]
    by_cases g3 : sz ≤ 2
    · rw [if_pos g3]; exact Or.inr (Or.inl ⟨_, rfl⟩)
    rw [if_neg g3]
    by_cases g4 : tl.getD 1 0 < 0x80 ∨ 0xBF < tl.getD 1 0
    · rw [if_pos g4]; exact Or.inl rfl
    rw [if_neg g4]
    by_cases g5 : sz ≤ 3
    · rw [if_pos g5]; exact Or.inr (Or.inr (Or.inl ⟨_, _, rfl⟩))
    rw [if_neg g5]
    by_cases g6 : tl.getD 2 0 < 0x80 ∨ 0xBF < tl.getD 2 0
    · rw [if_pos g6]; exact Or.inl rfl
    rw [if_neg g6]
    exact Or.inr (Or.inr (Or.inr ⟨_, rfl⟩))

/-- A rune that utf8.DecodeRune decodes from valid bytes is encoded by
utf8.EncodeRune in no more bytes than it was decoded from. -/
theorem DecodeRune_encode_le (c : Nat) (tl : List Nat) (hc : 0x80 ≤ c)
    (hv : DecodeRune (c :: tl) ≠ (RuneError, 1)) :
    (EncodeRune (DecodeRune (c :: tl)).1).length ≤ (DecodeRune (c :: tl)).2 := by
  rcases DecodeRune_forms c tl hc with h | ⟨b1, h⟩ | ⟨b1, b2, h⟩ | ⟨r, h⟩
  · exact absurd h hv
  · rw [h]; exact (EncodeRune_length _).2.2.1 (rune2_le _ _)
  · rw [h]; exact (EncodeRune_length _).2.1 (rune3_le _ _ _)
  · rw [h]; exact (EncodeRune_length _).1

theorem DecodeRune_ascii (c : Nat) (tl : List Nat) (hc : c < 0x80) :
    DecodeRune (c :: tl) = (c, 1) := by
  have h : first c = 0xF0 := by unfold first; rw [if_pos hc]
  rw [DecodeRune_unfold, h]
  rfl

theorem ValidUTF8.tail_ascii {c : Nat} {tl : List Nat} (h : ValidUTF8 (c :: tl)) (hc : c < 0x80) :
    ValidUTF8 tl := by
  cases h with
  | rune _ _ _ ht =>
    rw [DecodeRune_ascii c tl hc] at ht
    exact ht

theorem ValidUTF8.drop_ascii (pre : List Nat) (hp : ∀ x ∈ pre, x < 0x80) {rest : List Nat}
    (h : ValidUTF8 (pre ++ rest)) : ValidUTF8 rest := by
  induction pre with
  | nil => exact h
  | cons c pre ih =>
    exact ih (fun x hx => hp x (by simp [hx])) (ValidUTF8.tail_ascii h (hp c (by simp)))

theorem ValidUTF8.next {c : Nat} {tl : List Nat} (h : ValidUTF8 (c :: tl)) :
    DecodeRune (c :: tl) ≠ (RuneError, 1) ∧
      ValidUTF8 ((c :: tl).drop (DecodeRune (c :: tl)).2) := by
  cases h with
  | rune _ _ hd ht => exact ⟨hd, ht⟩

theorem isHexDigit_ascii {c : Nat} (h : IsHexDigit c) : c < 0x80 := by
  unfold IsHexDigit at h; omega

theorem getu4_lt (s : List Nat) (h : 0 ≤ getu4 s) : getu4 s < 0x10000 := by
  obtain ⟨l, tl, hl, rfl⟩ := getu4_nonneg_bytes s h
  rw [getu4_bytes l hl]
  obtain ⟨v1, v2, v3, v4⟩ := hl
  unfold Hex4.value
  omega

theorem growLen_room (w blen n : Nat) (hb : blen = n + 2 * 4) (hw : w < n) :
    growLen w blen = blen := by
  unfold growLen
  rw [if_neg (by omega)]

/-- One iteration of the second loop on valid UTF-8, from a state in which
the bytes written and the bytes unread together are no more than the interior
and the work buffer has its first length: the work buffer is not grown and the
next state is such a state again. -/
theorem unquoteStep_room (n c : Nat) (tl b : List Nat) (blen : Nat)
    (next : List Nat × List Nat × Nat)
    (hlen : b.length + (c :: tl).length ≤ n) (hblen : blen = n + 2 * 4)
    (hval : ValidUTF8 (c :: tl)) (hstep : unquoteStep c tl b blen = some next) :
    growLen b.length blen = blen ∧ next.2.1.length + next.1.length ≤ n ∧
      next.2.2 = n + 2 * 4 ∧ ValidUTF8 next.1 := by
  simp only [List.length_cons] at hlen
  have hg := growLen_room b.length blen n hblen (by omega)
  refine ⟨hg, ?_⟩
  simp only [unquoteStep, hg] at hstep
  by_cases hc : c = 92
  · subst hc
    rw [if_pos rfl] at hstep
    match tl, hlen, hval, hstep with
    | e :: tl2, hlen, hval, hstep =>
      simp only [List.length_cons] at hlen
      have hv1 := ValidUTF8.tail_ascii hval (by decide)
      have simple : ∀ x : Nat, e < 0x80 → next = (tl2, b ++ [x], blen) →
          next.2.1.length + next.1.length ≤ n ∧ next.2.2 = n + 2 * 4 ∧ ValidUTF8 next.1 := by
        intro x he hn
        subst hn
        refine ⟨?_, hblen, ValidUTF8.tail_ascii hv1 he⟩
        simp only [List.length_append, List.length_cons, List.length_nil]
        omega
      simp only at hstep
      by_cases h1 : e = 34 ∨ e = 92 ∨ e = 47 ∨ e = 39
      · rw [if_pos h1] at hstep
        exact simple e (by omega) (Option.some.inj hstep).symm
      rw [if_neg h1] at hstep
      by_cases h2 : e = 98
      · rw [if_pos h2] at hstep
        exact simple 8 (by omega) (Option.some.inj hstep).symm
      rw [if_neg h2] at hstep
      by_cases h3 : e = 102
      · rw [if_pos h3] at hstep
        exact simple 12 (by omega) (Option.some.inj hstep).symm
      rw [if_neg h3] at hstep
      by_cases h4 : e = 110
      · rw [if_pos h4] at hstep
        exact simple 10 (by omega) (Option.some.inj hstep).symm
      rw [if_neg h4] at hstep
      by_cases h5 : e = 114
      · rw [if_pos h5] at hstep
        exact simple 13 (by omega) (Option.some.inj hstep).symm
      rw [if_neg h5] at hstep
      by_cases h6 : e = 116
      · rw [if_pos h6] at hstep
        exact simple 9 (by omega) (Option.some.inj hstep).symm
      rw [if_neg h6] at hstep
      by_cases h7 : e = 117
      · subst h7
        rw [if_pos rfl] at hstep
        by_cases h8 : getu4 (92 :: 117 :: tl2) < 0
        · rw [if_pos h8] at hstep
          exact Option.noConfusion hstep
        rw [if_neg h8] at hstep
        have hfour : FourHex tl2 := by
          by_contra hnot
          exact h8 ((getu4_neg_iff tl2).mpr hnot)
        obtain ⟨x1, x2, x3, x4, tl3, rfl, hh⟩ := fourHex_split hfour
        simp only [List.length_cons] at hlen
        have hd6 : (92 :: 117 :: x1 :: x2 :: x3 :: x4 :: tl3).drop 6 = tl3 := rfl
        rw [hd6] at hstep
        have hv3 : ValidUTF8 tl3 := by
          apply ValidUTF8.drop_ascii [92, 117, x1, x2, x3, x4] _ hval
          intro x hx
          simp only [List.mem_cons, List.mem_nil_iff, or_false] at hx
          obtain ⟨q1, q2, q3, q4⟩ := hh
          rcases hx with rfl | rfl | rfl | rfl | rfl | rfl
          · decide
          · decide
          · exact isHexDigit_ascii q1
          · exact isHexDigit_ascii q2
          · exact isHexDigit_ascii q3
          · exact isHexDigit_ascii q4
        by_cases h9 : IsSurrogate (getu4 (92 :: 117 :: x1 :: x2 :: x3 :: x4 :: tl3)) = true
        · rw [if_pos h9] at hstep
          by_cases h10 : utf16DecodeRune (getu4 (92 :: 117 :: x1 :: x2 :: x3 :: x4 :: tl3))
              (getu4 tl3) ≠ RuneError
          · rw [if_pos h10] at hstep
            obtain ⟨l1, l2⟩ := utf16DecodeRune_ne _ _ h10
            obtain ⟨g1, g2, g3, g4, tl4, rfl, hg4⟩ := getu4_nonneg_shape tl3 (by omega)
            have hd12 : (92 :: 117 :: x1 :: x2 :: x3 :: x4 :: 92 :: 117 :: g1 :: g2 :: g3 ::
              g4 :: tl4).drop 12 = tl4 := rfl
            rw [hd12] at hstep
            have hn := (Option.some.inj hstep).symm
            subst hn
            simp only [List.length_cons] at hlen
            have hv4 : ValidUTF8 tl4 := by
              apply ValidUTF8.drop_ascii [92, 117, g1, g2, g3, g4] _ hv3
              intro x hx
              simp only [List.mem_cons, List.mem_nil_iff, or_false] at hx
              obtain ⟨q1, q2, q3, q4⟩ := hg4
              rcases hx with rfl | rfl | rfl | rfl | rfl | rfl
              · decide
              · decide
              · exact isHexDigit_ascii q1
              · exact isHexDigit_ascii q2
              · exact isHexDigit_ascii q3
              · exact isHexDigit_ascii q4
            refine ⟨?_, hblen, hv4⟩
            have := (EncodeRune_length (utf16DecodeRune
              (getu4 (92 :: 117 :: x1 :: x2 :: x3 :: x4 :: 92 :: 117 :: g1 :: g2 :: g3 :: g4 :: tl4))
              (getu4 (92 :: 117 :: g1 :: g2 :: g3 :: g4 :: tl4)))).1
            simp only [List.length_append]
            omega
          · rw [if_neg h10] at hstep
            have hn := (Option.some.inj hstep).symm
            subst hn
            refine ⟨?_, hblen, hv3⟩
            simp only [List.length_append, EncodeRune_RuneError_length]
            omega
        · rw [if_neg h9] at hstep
          have hn := (Option.some.inj hstep).symm
          subst hn
          refine ⟨?_, hblen, hv3⟩
          have hlt := getu4_lt _ (not_lt.mp h8)
          have := (EncodeRune_length
            (getu4 (92 :: 117 :: x1 :: x2 :: x3 :: x4 :: tl3)).toNat).2.1 (by omega)
          simp only [List.length_append]
          omega
      · rw [if_neg h7] at hstep
        exact Option.noConfusion hstep
  · rw [if_neg hc] at hstep
    by_cases h1 : c = 34 ∨ c < 32
    · rw [if_pos h1] at hstep
      exact Option.noConfusion hstep
    rw [if_neg h1] at hstep
    by_cases h2 : c < 0x80
    · rw [if_pos h2] at hstep
      have hn := (Option.some.inj hstep).symm
      subst hn
      refine ⟨?_, hblen, ValidUTF8.tail_ascii hval h2⟩
      simp only [List.length_append, List.length_cons, List.length_nil]
      omega
    · rw [if_neg h2] at hstep
      have hn := (Option.some.inj hstep).symm
      subst hn
      obtain ⟨hd, ht⟩ := ValidUTF8.next hval
      have henc := DecodeRune_encode_le c tl (by omega) hd
      rcases DecodeRune_width c tl (by omega) with he | ⟨w1, w2, _⟩
      · exact absurd he hd
      · refine ⟨?_, hblen, ht⟩
        simp only [List.length_append, List.length_drop, List.length_cons] at w2 ⊢
        omega

theorem UnquoteReaches.trans {a b c : List Nat × List Nat × Nat} (h1 : UnquoteReaches a b)
    (h2 : UnquoteReaches b c) : UnquoteReaches a c := by
  induction h2 with
  | refl => exact h1
  | step x tl w blen next _ hs ih => exact UnquoteReaches.step x tl w blen next ih hs

/-- The second loop of unquoteBytes returns the bytes written in a state with
nothing unread that follows its first state. -/
theorem unquoteLoop_reaches (f : Nat) : ∀ (rest b : List Nat) (blen : Nat) (t : List Nat),
    unquoteLoop f rest b blen = .ok t →
      ∃ blen1, UnquoteReaches (rest, b, blen) ([], t, blen1) := by
  induction f with
  | zero =>
    intro rest b blen t h
    match rest, h with
    | [], h =>
      rw [unquoteLoop_nil] at h
      injection h with h
      subst h
      exact ⟨blen, UnquoteReaches.refl⟩
  | succ f ih =>
    intro rest b blen t h
    match rest, h with
    | [], h =>
      rw [unquoteLoop_nil] at h
      injection h with h
      subst h
      exact ⟨blen, UnquoteReaches.refl⟩
    | c :: tl, h =>
      rw [unquoteLoop_step] at h
      cases hs : unquoteStep c tl b blen with
      | none => rw [hs] at h; exact Unquoted.noConfusion h
      | some next =>
        obtain ⟨r1, b1, l1⟩ := next
        rw [hs] at h
        obtain ⟨blen1, hr⟩ := ih r1 b1 l1 t h
        exact ⟨blen1, UnquoteReaches.trans
          (UnquoteReaches.step c tl b blen (r1, b1, l1) UnquoteReaches.refl hs) hr⟩

/-- Every state of the second loop on valid UTF-8 that follows a state with
room has room. -/
theorem unquoteReaches_room (n : Nat) (start state : List Nat × List Nat × Nat)
    (h : UnquoteReaches start state)
    (h0 : start.2.1.length + start.1.length ≤ n ∧ start.2.2 = n + 2 * 4 ∧ ValidUTF8 start.1) :
    state.2.1.length + state.1.length ≤ n ∧ state.2.2 = n + 2 * 4 ∧ ValidUTF8 state.1 := by
  induction h with
  | refl => exact h0
  | step c tl b blen next _ hs ih =>
    exact (unquoteStep_room n c tl b blen next ih.1 ih.2.1 ih.2.2 hs).2

/-- The first loop of unquoteBytes on valid UTF-8 stops where valid UTF-8
begins. -/
theorem scanUnusual_valid : ∀ (n : Nat) (s : List Nat), s.length ≤ n →
    ∀ (f r0 : Nat), s.length ≤ f → ValidUTF8 s →
      ∃ k, scanUnusual f s r0 = some (r0 + k) ∧ k ≤ s.length ∧ ValidUTF8 (s.drop k) := by
  intro n
  induction n with
  | zero =>
    intro s hn f r0 _ hv
    have : s = [] := List.length_eq_zero.mp (by omega)
    subst this
    exact ⟨0, by cases f <;> rfl, by simp, hv⟩
  | succ n ih =>
    intro s hn f r0 hf hv
    match s, hn, hf, hv with
    | [], _, _, hv => exact ⟨0, by cases f <;> rfl, by simp, hv⟩
    | c :: tl, hn, hf, hv =>
      obtain ⟨f, rfl⟩ : ∃ f1, f = f1 + 1 := ⟨f - 1, by simp at hf; omega⟩
      simp only [List.length_cons] at hn hf
      simp only [scanUnusual]
      by_cases h1 : c = 92 ∨ c = 34 ∨ c < 32
      · rw [if_pos h1]
        exact ⟨0, rfl, by simp, hv⟩
      · rw [if_neg h1]
        by_cases h2 : c < 0x80
        · rw [if_pos h2]
          obtain ⟨k, hk1, hk2, hk3⟩ := ih tl (by omega) f (r0 + 1) (by omega)
            (ValidUTF8.tail_ascii hv h2)
          refine ⟨k + 1, ?_, by simp; omega, ?_⟩
          · rw [hk1]; congr 1; omega
          · simpa using hk3
        · rw [if_neg h2]
          obtain ⟨hd, ht⟩ := ValidUTF8.next hv
          rcases DecodeRune_width c tl (by omega) with he | ⟨hd1, hd2, hd3⟩
          · exact absurd he hd
          · have hne : ¬ ((DecodeRune (c :: tl)).1 = RuneError ∧ (DecodeRune (c :: tl)).2 = 1) := by
              omega
            rw [if_neg hne]
            have hlen : ((c :: tl).drop (DecodeRune (c :: tl)).2).length ≤ n := by
              rw [List.length_drop]; simp only [List.length_cons] at hd2 ⊢; omega
            have hlen2 : ((c :: tl).drop (DecodeRune (c :: tl)).2).length ≤ f := by
              rw [List.length_drop]; simp only [List.length_cons] at hd2 ⊢; omega
            obtain ⟨k, hk1, hk2, hk3⟩ := ih _ hlen f (r0 + (DecodeRune (c :: tl)).2) hlen2 ht
            refine ⟨(DecodeRune (c :: tl)).2 + k, ?_, ?_, ?_⟩
            · rw [hk1]; congr 1; omega
            · rw [List.length_drop] at hk2; omega
            · rw [List.drop_drop] at hk3
              exact hk3

/-! ## The bytes unquoteBytes returns are valid UTF-8 -/

/-- The function utf8.DecodeRune on a first byte that starts a sequence of
size sz whose second byte is accepted from lo to hi. -/
theorem DecodeRune_of_first (c : Nat) (t : List Nat) (x sz lo hi : Nat) (hf : first c = x)
    (hx : x < 0xF0) (hsz : x &&& 7 = sz) (hacc : acceptRanges (x >>> 4) = (lo, hi)) :
    DecodeRune (c :: t) =
      if (c :: t).length < sz then (RuneError, 1)
      else
        if t.getD 0 0 < lo ∨ hi < t.getD 0 0 then (RuneError, 1)
        else if sz ≤ 2 then (((c &&& 0x1F) <<< 6) ||| (t.getD 0 0 &&& 0x3F), 2)
        else
          if t.getD 1 0 < 0x80 ∨ 0xBF < t.getD 1 0 then (RuneError, 1)
          else if sz ≤ 3 then
            (((c &&& 0x0F) <<< 12) ||| ((t.getD 0 0 &&& 0x3F) <<< 6) ||| (t.getD 1 0 &&& 0x3F), 3)
          else
            if t.getD 2 0 < 0x80 ∨ 0xBF < t.getD 2 0 then (RuneError, 1)
            else
              (((c &&& 0x07) <<< 18) ||| ((t.getD 0 0 &&& 0x3F) <<< 12) |||
                ((t.getD 1 0 &&& 0x3F) <<< 6) ||| (t.getD 2 0 &&& 0x3F), 4) := by
  rw [DecodeRune_unfold, hf, if_neg (by omega), hsz, hacc]

/-- A rune that utf8.DecodeRune decodes without error from a first byte of 0x80
or above is decoded from the first byte and the bytes pre after it alone:
whatever follows them, the result is the same, and the width is their number. -/
theorem DecodeRune_shape (c : Nat) (tl : List Nat) (hc : 0x80 ≤ c)
    (hv : DecodeRune (c :: tl) ≠ (RuneError, 1)) :
    ∃ pre rest, tl = pre ++ rest ∧ (DecodeRune (c :: tl)).2 = pre.length + 1 ∧
      ∀ z, DecodeRune (c :: (pre ++ z)) = DecodeRune (c :: tl) := by
  rcases first_size c hc with h | ⟨h1, h2, h3, h4⟩
  · rw [DecodeRune_unfold, h] at hv
    exact absurd rfl hv
  have key := fun t => DecodeRune_of_first c t (first c) (first c &&& 7)
    (acceptRanges (first c >>> 4)).1 (acceptRanges (first c >>> 4)).2 rfl h1 rfl rfl
  generalize first c &&& 7 = sz at key h2 h3
  generalize (acceptRanges (first c >>> 4)).1 = lo at key
  generalize (acceptRanges (first c >>> 4)).2 = hi at key
  rcases tl with _ | ⟨b1, tl⟩
  · rw [key, if_pos (by simp only [List.length_cons, List.length_nil]; omega)] at hv
    exact absurd rfl hv
  have l1 : ∀ t : List Nat, ¬ ((c :: b1 :: t).length < 2) := by
    intro t; simp only [List.length_cons]; omega
  have g2 : ¬ (b1 < lo ∨ hi < b1) := by
    intro g
    rw [key] at hv
    by_cases hl : (c :: b1 :: tl).length < sz
    · rw [if_pos hl] at hv; exact hv rfl
    · rw [if_neg hl] at hv
      simp only [List.getD_cons_zero] at hv
      rw [if_pos g] at hv
      exact hv rfl
  by_cases g3 : sz ≤ 2
  · have hsz : sz = 2 := by omega
    subst hsz
    have e : ∀ t, DecodeRune (c :: b1 :: t) = (((c &&& 0x1F) <<< 6) ||| (b1 &&& 0x3F), 2) := by
      intro t
      rw [key, if_neg (l1 t)]
      simp only [List.getD_cons_zero]
      rw [if_neg g2, if_pos (le_refl 2)]
    exact ⟨[b1], tl, rfl, by rw [e]; rfl, fun z => by
      show DecodeRune (c :: b1 :: z) = _
      rw [e, e]⟩
  rcases tl with _ | ⟨b2, tl⟩
  · rw [key, if_pos (by simp only [List.length_cons, List.length_nil]; omega)] at hv
    exact absurd rfl hv
  have l2 : ∀ t : List Nat, ¬ ((c :: b1 :: b2 :: t).length < 3) := by
    intro t; simp only [List.length_cons]; omega
  have g4 : ¬ (b2 < 0x80 ∨ 0xBF < b2) := by
    intro g
    rw [key] at hv
    by_cases hl : (c :: b1 :: b2 :: tl).length < sz
    · rw [if_pos hl] at hv; exact hv rfl
    · rw [if_neg hl] at hv
      simp only [List.getD_cons_zero, List.getD_cons_succ] at hv
      rw [if_neg g2, if_neg g3, if_pos g] at hv
      exact hv rfl
  by_cases g5 : sz ≤ 3
  · have hsz : sz = 3 := by omega
    subst hsz
    have e : ∀ t, DecodeRune (c :: b1 :: b2 :: t) =
        (((c &&& 0x0F) <<< 12) ||| ((b1 &&& 0x3F) <<< 6) ||| (b2 &&& 0x3F), 3) := by
      intro t
      rw [key, if_neg (l2 t)]
      simp only [List.getD_cons_zero, List.getD_cons_succ]
      rw [if_neg g2, if_neg g3, if_neg g4, if_pos (le_refl 3)]
    exact ⟨[b1, b2], tl, rfl, by rw [e]; rfl, fun z => by
      show DecodeRune (c :: b1 :: b2 :: z) = _
      rw [e, e]⟩
  have hsz : sz = 4 := by omega
  subst hsz
  rcases tl with _ | ⟨b3, tl⟩
  · rw [key, if_pos (by simp only [List.length_cons, List.length_nil]; omega)] at hv
    exact absurd rfl hv
  have l3 : ∀ t : List Nat, ¬ ((c :: b1 :: b2 :: b3 :: t).length < 4) := by
    intro t; simp only [List.length_cons]; omega
  have g6 : ¬ (b3 < 0x80 ∨ 0xBF < b3) := by
    intro g
    rw [key, if_neg (l3 tl)] at hv
    simp only [List.getD_cons_zero, List.getD_cons_succ] at hv
    rw [if_neg g2, if_neg g3, if_neg g4, if_neg g5, if_pos g] at hv
    exact hv rfl
  have e : ∀ t, DecodeRune (c :: b1 :: b2 :: b3 :: t) =
      (((c &&& 0x07) <<< 18) ||| ((b1 &&& 0x3F) <<< 12) ||| ((b2 &&& 0x3F) <<< 6) |||
        (b3 &&& 0x3F), 4) := by
    intro t
    rw [key, if_neg (l3 t)]
    simp only [List.getD_cons_zero, List.getD_cons_succ]
    rw [if_neg g2, if_neg g3, if_neg g4, if_neg g5, if_neg g6]
  exact ⟨[b1, b2, b3], tl, rfl, by rw [e]; rfl, fun z => by
    show DecodeRune (c :: b1 :: b2 :: b3 :: z) = _
    rw [e, e]⟩

theorem validUTF8_ascii_cons {c : Nat} {tl : List Nat} (hc : c < 0x80) (h : ValidUTF8 tl) :
    ValidUTF8 (c :: tl) := by
  refine .rune c tl ?_ ?_
  · rw [DecodeRune_ascii c tl hc]
    intro he
    injection he with h1 _
    unfold RuneError at h1
    omega
  · rw [DecodeRune_ascii c tl hc]
    exact h

/-- Valid UTF-8 followed by valid UTF-8 is valid UTF-8. -/
theorem validUTF8_append {x y : List Nat} (hx : ValidUTF8 x) (hy : ValidUTF8 y) :
    ValidUTF8 (x ++ y) := by
  induction hx with
  | nil => exact hy
  | rune c tl hd ht ih =>
    by_cases hc : c < 0x80
    · rw [DecodeRune_ascii c tl hc] at ih
      exact validUTF8_ascii_cons hc ih
    · obtain ⟨pre, rest, rfl, hw, hz⟩ := DecodeRune_shape c tl (by omega) hd
      have e1 : (c :: (pre ++ rest)).drop (pre.length + 1) = rest := by simp
      rw [hw, e1] at ih
      have e2 : c :: (pre ++ rest) ++ y = c :: (pre ++ (rest ++ y)) := by simp
      rw [e2]
      refine .rune c _ ?_ ?_
      · rw [hz]; exact hd
      · rw [hz, hw]
        have e3 : (c :: (pre ++ (rest ++ y))).drop (pre.length + 1) = rest ++ y := by simp
        rw [e3]
        exact ih

/-- The first loop of unquoteBytes stops after a prefix that is valid
UTF-8. -/
theorem scanUnusual_prefix : ∀ (f : Nat) (s : List Nat) (r0 r : Nat),
    scanUnusual f s r0 = some r → ∃ k, r = r0 + k ∧ k ≤ s.length ∧ ValidUTF8 (s.take k) := by
  intro f
  induction f with
  | zero =>
    intro s r0 r h
    match s, h with
    | [], h =>
      simp only [scanUnusual] at h
      exact ⟨0, by injection h with h; omega, by simp, .nil⟩
  | succ f ih =>
    intro s r0 r h
    match s, h with
    | [], h =>
      simp only [scanUnusual] at h
      exact ⟨0, by injection h with h; omega, by simp, .nil⟩
    | c :: tl, h =>
      simp only [scanUnusual] at h
      by_cases h1 : c = 92 ∨ c = 34 ∨ c < 32
      · rw [if_pos h1] at h
        exact ⟨0, by injection h with h; omega, by simp, .nil⟩
      rw [if_neg h1] at h
      by_cases h2 : c < 0x80
      · rw [if_pos h2] at h
        obtain ⟨k, hk1, hk2, hk3⟩ := ih tl (r0 + 1) r h
        refine ⟨k + 1, by omega, by simp only [List.length_cons]; omega, ?_⟩
        rw [List.take_succ_cons]
        exact validUTF8_ascii_cons h2 hk3
      rw [if_neg h2] at h
      by_cases h3 : (DecodeRune (c :: tl)).1 = RuneError ∧ (DecodeRune (c :: tl)).2 = 1
      · rw [if_pos h3] at h
        exact ⟨0, by injection h with h; omega, by simp, .nil⟩
      rw [if_neg h3] at h
      have hd : DecodeRune (c :: tl) ≠ (RuneError, 1) := by
        intro he
        rw [he] at h3
        exact h3 ⟨rfl, rfl⟩
      obtain ⟨pre, rest, rfl, hw, hz⟩ := DecodeRune_shape c tl (by omega) hd
      have e1 : (c :: (pre ++ rest)).drop (pre.length + 1) = rest := by simp
      rw [hw, e1] at h
      obtain ⟨k, hk1, hk2, hk3⟩ := ih rest (r0 + (pre.length + 1)) r h
      refine ⟨pre.length + 1 + k, by omega, by simp only [List.length_cons, List.length_append]; omega, ?_⟩
      have e2 : (c :: (pre ++ rest)).take (pre.length + 1 + k) = c :: (pre ++ rest.take k) := by
        rw [show pre.length + 1 + k = (pre.length + k) + 1 by omega, List.take_succ_cons,
          List.take_append]
      rw [e2]
      refine .rune c _ ?_ ?_
      · rw [hz]; exact hd
      · rw [hz, hw]
        have e3 : (c :: (pre ++ rest.take k)).drop (pre.length + 1) = rest.take k := by simp
        rw [e3]
        exact hk3

theorem or_0xC0 : ∀ z, z < 32 → 0xC0 ||| (z % 256) = 0xC0 + z := by decide
theorem or_0xE0 : ∀ z, z < 16 → 0xE0 ||| (z % 256) = 0xE0 + z := by decide

theorem first_two (a : Nat) (ha : 0xC2 ≤ a ∧ a < 0xE0) : first a = 0x02 := by
  unfold first
  rw [if_neg (by omega), if_neg (by omega), if_pos (by omega)]

theorem first_three (a : Nat) (ha : 0xE0 ≤ a ∧ a ≤ 0xEF) (h1 : a ≠ 0xE0) (h2 : a ≠ 0xED) :
    first a = 0x03 := by
  unfold first
  rw [if_neg (by omega), if_neg (by omega), if_neg (by omega), if_neg h1]
  by_cases h : a < 0xED
  · rw [if_pos h]
  · rw [if_neg h, if_neg h2, if_pos (by omega)]

theorem first_four (a : Nat) (ha : 0xF0 ≤ a ∧ a ≤ 0xF4) (h1 : a ≠ 0xF0) (h2 : a ≠ 0xF4) :
    first a = 0x04 := by
  unfold first
  rw [if_neg (by omega), if_neg (by omega), if_neg (by omega), if_neg (by omega),
    if_neg (by omega), if_neg (by omega), if_neg (by omega), if_neg h1, if_pos (by omega)]

theorem validUTF8_two (a b : Nat) (tl : List Nat) (ha : 0xC2 ≤ a ∧ a < 0xE0)
    (hb : 0x80 ≤ b ∧ b ≤ 0xBF) (h : ValidUTF8 tl) : ValidUTF8 (a :: b :: tl) := by
  have hf : first a = 0x02 := first_two a ha
  have e : DecodeRune (a :: b :: tl) = (((a &&& 0x1F) <<< 6) ||| (b &&& 0x3F), 2) := by
    rw [DecodeRune_of_first a _ 0x02 2 0x80 0xBF hf (by decide) (by decide) (by decide),
      if_neg (by simp only [List.length_cons]; omega)]
    simp only [List.getD_cons_zero]
    rw [if_neg (by omega), if_pos (le_refl 2)]
  refine .rune a _ ?_ ?_
  · rw [e]
    intro he
    injection he with _ h2
    omega
  · rw [e]
    exact h

theorem validUTF8_three (a b c : Nat) (tl : List Nat) (ha : 0xE0 ≤ a ∧ a ≤ 0xEF)
    (hb : 0x80 ≤ b ∧ b ≤ 0xBF) (h0 : a = 0xE0 → 0xA0 ≤ b) (hD : a = 0xED → b ≤ 0x9F)
    (hc : 0x80 ≤ c ∧ c ≤ 0xBF) (h : ValidUTF8 tl) : ValidUTF8 (a :: b :: c :: tl) := by
  have hf : ∃ x lo hi, first a = x ∧ x < 0xF0 ∧ x &&& 7 = 3 ∧ acceptRanges (x >>> 4) = (lo, hi) ∧
      lo ≤ b ∧ b ≤ hi := by
    by_cases h1 : a = 0xE0
    · subst h1
      exact ⟨0x13, 0xA0, 0xBF, by decide, by decide, by decide, by decide, h0 rfl, hb.2⟩
    by_cases h2 : a = 0xED
    · subst h2
      exact ⟨0x23, 0x80, 0x9F, by decide, by decide, by decide, by decide, hb.1, hD rfl⟩
    exact ⟨0x03, 0x80, 0xBF, first_three a ha h1 h2, by decide, by decide, by decide, hb.1, hb.2⟩
  obtain ⟨x, lo, hi, hx1, hx2, hx3, hx4, hlo, hhi⟩ := hf
  have e : DecodeRune (a :: b :: c :: tl) =
      (((a &&& 0x0F) <<< 12) ||| ((b &&& 0x3F) <<< 6) ||| (c &&& 0x3F), 3) := by
    rw [DecodeRune_of_first a _ x 3 lo hi hx1 hx2 hx3 hx4,
      if_neg (by simp only [List.length_cons]; omega)]
    simp only [List.getD_cons_zero, List.getD_cons_succ]
    rw [if_neg (by omega), if_neg (by decide), if_neg (by omega), if_pos (le_refl 3)]
  refine .rune a _ ?_ ?_
  · rw [e]
    intro he
    injection he with _ h2
    omega
  · rw [e]
    exact h

theorem validUTF8_four (a b c d : Nat) (tl : List Nat) (ha : 0xF0 ≤ a ∧ a ≤ 0xF4)
    (hb : 0x80 ≤ b ∧ b ≤ 0xBF) (h0 : a = 0xF0 → 0x90 ≤ b) (h4 : a = 0xF4 → b ≤ 0x8F)
    (hc : 0x80 ≤ c ∧ c ≤ 0xBF) (hd : 0x80 ≤ d ∧ d ≤ 0xBF) (h : ValidUTF8 tl) :
    ValidUTF8 (a :: b :: c :: d :: tl) := by
  have hf : ∃ x lo hi, first a = x ∧ x < 0xF0 ∧ x &&& 7 = 4 ∧ acceptRanges (x >>> 4) = (lo, hi) ∧
      lo ≤ b ∧ b ≤ hi := by
    by_cases h1 : a = 0xF0
    · subst h1
      exact ⟨0x34, 0x90, 0xBF, by decide, by decide, by decide, by decide, h0 rfl, hb.2⟩
    by_cases h2 : a = 0xF4
    · subst h2
      exact ⟨0x44, 0x80, 0x8F, by decide, by decide, by decide, by decide, hb.1, h4 rfl⟩
    exact ⟨0x04, 0x80, 0xBF, first_four a ha h1 h2, by decide, by decide, by decide, hb.1, hb.2⟩
  obtain ⟨x, lo, hi, hx1, hx2, hx3, hx4, hlo, hhi⟩ := hf
  have e : DecodeRune (a :: b :: c :: d :: tl) =
      (((a &&& 0x07) <<< 18) ||| ((b &&& 0x3F) <<< 12) ||| ((c &&& 0x3F) <<< 6) |||
        (d &&& 0x3F), 4) := by
    rw [DecodeRune_of_first a _ x 4 lo hi hx1 hx2 hx3 hx4,
      if_neg (by simp only [List.length_cons]; omega)]
    simp only [List.getD_cons_zero, List.getD_cons_succ]
    rw [if_neg (by omega), if_neg (by decide), if_neg (by omega), if_neg (by decide),
      if_neg (by omega)]
  refine .rune a _ ?_ ?_
  · rw [e]
    intro he
    injection he with _ h2
    omega
  · rw [e]
    exact h

/-- The bytes utf8.EncodeRune writes are valid UTF-8, whatever the rune. -/
theorem EncodeRune_valid (r : Nat) : ValidUTF8 (EncodeRune r) := by
  by_cases e1 : r ≤ 0x7F
  · have e : EncodeRune r = [r] := by
      simp only [EncodeRune, if_pos e1]
      rw [Nat.mod_eq_of_lt (by omega)]
    rw [e]
    exact validUTF8_ascii_cons (by omega) .nil
  by_cases e2 : r ≤ 0x7FF
  · have e : EncodeRune r = [0xC0 + r / 64, 0x80 + r % 256 % 64] := by
      simp only [EncodeRune, if_neg e1, if_pos e2, Nat.shiftRight_eq_div_pow]
      rw [or_0xC0 _ (by omega), or_0x80 _ (Nat.mod_lt _ (by norm_num))]
    rw [e]
    exact validUTF8_two _ _ _ (by omega) (by omega) .nil
  by_cases e3 : r > 0x10FFFF ∨ (0xD800 ≤ r ∧ r ≤ 0xDFFF)
  · have e : EncodeRune r = [0xEF, 0xBF, 0xBD] := by
      simp only [EncodeRune, if_neg e1, if_neg e2, if_pos e3]
      decide
    rw [e]
    exact validUTF8_three _ _ _ _ (by decide) (by decide) (by decide) (by decide) (by decide) .nil
  by_cases e4 : r ≤ 0xFFFF
  · have e : EncodeRune r = [0xE0 + r / 4096, 0x80 + r / 64 % 256 % 64, 0x80 + r % 256 % 64] := by
      simp only [EncodeRune, if_neg e1, if_neg e2, if_neg e3, if_pos e4,
        Nat.shiftRight_eq_div_pow]
      rw [or_0xE0 _ (by omega), or_0x80 _ (Nat.mod_lt _ (by norm_num)),
        or_0x80 _ (Nat.mod_lt _ (by norm_num))]
    rw [e]
    exact validUTF8_three _ _ _ _ (by omega) (by omega) (by omega) (by omega) (by omega) .nil
  · rw [EncodeRune_four r (by omega) (by omega)]
    unfold utf8Bytes4
    exact validUTF8_four _ _ _ _ _ (by omega) (by omega) (by omega) (by omega) (by omega)
      (by omega) .nil

/-- One iteration of the second loop of unquoteBytes appends valid UTF-8 to
the bytes written. -/
theorem unquoteStep_appends (c : Nat) (tl b : List Nat) (blen : Nat)
    (next : List Nat × List Nat × Nat) (hstep : unquoteStep c tl b blen = some next) :
    ∃ x, next.2.1 = b ++ x ∧ ValidUTF8 x := by
  simp only [unquoteStep] at hstep
  have simple : ∀ (x : Nat) (rest : List Nat) (l : Nat), x < 0x80 →
      some (rest, b ++ [x], l) = some next → ∃ y, next.2.1 = b ++ y ∧ ValidUTF8 y := by
    intro x rest l hx hn
    have hn := (Option.some.inj hn).symm
    subst hn
    exact ⟨[x], rfl, validUTF8_ascii_cons hx .nil⟩
  have rune : ∀ (x : Nat) (rest : List Nat) (l : Nat),
      some (rest, b ++ EncodeRune x, l) = some next → ∃ y, next.2.1 = b ++ y ∧ ValidUTF8 y := by
    intro x rest l hn
    have hn := (Option.some.inj hn).symm
    subst hn
    exact ⟨EncodeRune x, rfl, EncodeRune_valid x⟩
  by_cases hc : c = 92
  · subst hc
    rw [if_pos rfl] at hstep
    match tl, hstep with
    | e :: tl2, hstep =>
      simp only at hstep
      by_cases h1 : e = 34 ∨ e = 92 ∨ e = 47 ∨ e = 39
      · rw [if_pos h1] at hstep
        exact simple e _ _ (by omega) hstep
      rw [if_neg h1] at hstep
      by_cases h2 : e = 98
      · rw [if_pos h2] at hstep
        exact simple 8 _ _ (by omega) hstep
      rw [if_neg h2] at hstep
      by_cases h3 : e = 102
      · rw [if_pos h3] at hstep
        exact simple 12 _ _ (by omega) hstep
      rw [if_neg h3] at hstep
      by_cases h4 : e = 110
      · rw [if_pos h4] at hstep
        exact simple 10 _ _ (by omega) hstep
      rw [if_neg h4] at hstep
      by_cases h5 : e = 114
      · rw [if_pos h5] at hstep
        exact simple 13 _ _ (by omega) hstep
      rw [if_neg h5] at hstep
      by_cases h6 : e = 116
      · rw [if_pos h6] at hstep
        exact simple 9 _ _ (by omega) hstep
      rw [if_neg h6] at hstep
      by_cases h7 : e = 117
      · rw [if_pos h7] at hstep
        by_cases h8 : getu4 (92 :: e :: tl2) < 0
        · rw [if_pos h8] at hstep
          exact Option.noConfusion hstep
        rw [if_neg h8] at hstep
        by_cases h9 : IsSurrogate (getu4 (92 :: e :: tl2)) = true
        · rw [if_pos h9] at hstep
          by_cases h10 : utf16DecodeRune (getu4 (92 :: e :: tl2))
              (getu4 ((92 :: e :: tl2).drop 6)) ≠ RuneError
          · rw [if_pos h10] at hstep
            exact rune _ _ _ hstep
          · rw [if_neg h10] at hstep
            exact rune _ _ _ hstep
        · rw [if_neg h9] at hstep
          exact rune _ _ _ hstep
      · rw [if_neg h7] at hstep
        exact Option.noConfusion hstep
  · rw [if_neg hc] at hstep
    by_cases h1 : c = 34 ∨ c < 32
    · rw [if_pos h1] at hstep
      exact Option.noConfusion hstep
    rw [if_neg h1] at hstep
    by_cases h2 : c < 0x80
    · rw [if_pos h2] at hstep
      exact simple c _ _ h2 hstep
    · rw [if_neg h2] at hstep
      exact rune _ _ _ hstep

/-- The bytes written stay valid UTF-8 from state to state of the second
loop. -/
theorem unquoteReaches_valid (start state : List Nat × List Nat × Nat)
    (h : UnquoteReaches start state) (h0 : ValidUTF8 start.2.1) : ValidUTF8 state.2.1 := by
  induction h with
  | refl => exact h0
  | step c tl b blen next _ hs ih =>
    obtain ⟨x, hx, hv⟩ := unquoteStep_appends c tl b blen next hs
    rw [hx]
    exact validUTF8_append ih hv

/-- A malformed octet at the head of an iteration of the second loop of
unquoteBytes is stepped over alone and the three bytes of U+FFFD are written
for it. -/
theorem unquoteLoop_malformed (f c : Nat) (tl b : List Nat) (blen : Nat) (hc : 0x80 ≤ c)
    (hbad : DecodeRune (c :: tl) = (RuneError, 1)) :
    unquoteLoop (f + 1) (c :: tl) b blen =
      unquoteLoop f tl (b ++ [0xEF, 0xBF, 0xBD]) (growLen b.length blen) := by
  rw [unquoteLoop_step]
  have hs : unquoteStep c tl b blen =
      some (tl, b ++ [0xEF, 0xBF, 0xBD], growLen b.length blen) := by
    simp only [unquoteStep]
    rw [if_neg (by omega), if_neg (by omega), if_neg (by omega), hbad]
    rfl
  rw [hs]

/-! ## Claims about unquoteBytes -/

/-- Claim C4 (unescape round trip): for every string s of ASCII bytes and every
choice of which control characters are written in short form, unquoteBytes
applied to the JSON quoting of s returns ok = true and exactly the bytes of s. -/
theorem unquoteBytes_quote (short : Nat → Bool) (s : List Nat) (hs : ∀ c ∈ s, c < 128) :
    unquoteBytes (quote short s) = .ok s := by
  -- split s into its longest plain prefix p and the rest t
  obtain ⟨p, t, rfl, hp, ht⟩ : ∃ p t, s = p ++ t ∧ (∀ c ∈ p, plainAscii c = true) ∧
      (∀ c ∈ t.head?, plainAscii c = false) := by
    refine ⟨s.takeWhile plainAscii, s.dropWhile plainAscii, (List.takeWhile_append_dropWhile _ _).symm,
      fun c hc => List.mem_takeWhile_imp hc, ?_⟩
    intro c hc
    cases hd : s.dropWhile plainAscii with
    | nil => simp [hd] at hc
    | cons x xs =>
      simp [hd] at hc
      subst hc
      have := List.head_dropWhile_not plainAscii s (by simp [hd])
      simpa [hd] using this
  set body := (p ++ t).flatMap (quoteByte short) with hbody
  have hbody2 : body = p ++ t.flatMap (quoteByte short) := by
    rw [hbody, List.flatMap_append, flatMap_quoteByte_plain short p hp]
  have hlen : (quote short (p ++ t)).length = body.length + 2 := by
    simp only [quote, ← hbody, List.length_cons, List.length_append, List.length_singleton,
      List.length_nil]
  have hint : ((quote short (p ++ t)).drop 1).take ((quote short (p ++ t)).length - 2) = body := by
    rw [hlen]; simp [quote, ← hbody]
  have h0 : (quote short (p ++ t)).getD 0 0 = 34 := by simp [quote]
  have hl : (quote short (p ++ t)).getD ((quote short (p ++ t)).length - 1) 0 = 34 := by
    rw [hlen]; simp [quote, ← hbody, List.getElem?_append_right]
  have hguard : ¬ ((quote short (p ++ t)).length < 2 ∨ (quote short (p ++ t)).getD 0 0 ≠ 34 ∨
      (quote short (p ++ t)).getD ((quote short (p ++ t)).length - 1) 0 ≠ 34) := by
    rw [h0, hl, hlen]; simp
  simp only [unquoteBytes, if_neg hguard, hint]
  rw [hlen, Nat.add_sub_cancel]
  have hhead : ∀ c ∈ (t.flatMap (quoteByte short)).head?, c = 92 ∨ c = 34 ∨ c < 32 := by
    cases t with
    | nil => simp
    | cons x xs =>
      intro c hc
      have hx := ht x (by simp)
      have hq := quoteByte_length_pos short x
      apply quoteByte_head short x hx (hs x (by simp)) c
      cases hqx : quoteByte short x with
      | nil => simp [hqx] at hq
      | cons y ys => simpa [List.flatMap_cons, hqx] using hc
  have hscan := scanUnusual_plain p hp (t.flatMap (quoteByte short)) body.length 0 hhead
    (by rw [hbody2])
  rw [← hbody2] at hscan
  simp only [hscan, Nat.zero_add]
  cases t with
  | nil =>
    have : body = p := by simpa using hbody2
    simp [this]
  | cons x xs =>
    have hq := quoteByte_length_pos short x
    have hne : p.length ≠ body.length := by
      rw [hbody2]; simp only [List.flatMap_cons, List.length_append]; omega
    rw [if_neg hne]
    have hd : body.drop p.length = (x :: xs).flatMap (quoteByte short) := by rw [hbody2]; simp
    have htk : body.take p.length = p := by rw [hbody2]; simp
    rw [hd, htk]
    apply unquoteLoop_quoted short (x :: xs) (fun c hc => hs c (by simp at hc ⊢; right; exact hc))
    rw [hbody2]; simp

/-- Witness of claim C4: the round trip of a string holding a letter, a quote,
a backslash, a line feed, the control byte 1 and DEL. -/
theorem unquoteBytes_quote_witness :
    (∀ c ∈ [97, 34, 92, 10, 1, 127], c < 128) ∧
      unquoteBytes (quote (fun c => decide (c = 10)) [97, 34, 92, 10, 1, 127]) =
        .ok [97, 34, 92, 10, 1, 127] :=
  ⟨by decide, unquoteBytes_quote _ _ (by decide)⟩

/-- Claim C9 (surrogate pairs): at a high-surrogate escape followed at once by
a low-surrogate escape the copy loop of unquoteBytes consumes both escapes and
appends the four-byte UTF-8 encoding of the code point
0x10000 + (H - 0xD800) * 0x400 + (L - 0xDC00), whatever the bytes written so far
and the bytes that follow; and for a pair standing between two quoted ASCII
strings unquoteBytes returns ok = true with the pair replaced by these four
bytes. -/
theorem unquoteBytes_surrogate_pair (short : Nat → Bool) (s1 s2 : List Nat) (hi lo : Hex4)
    (hs1 : ∀ c ∈ s1, c < 128) (hs2 : ∀ c ∈ s2, c < 128) (hhi : hi.valid) (hlo : lo.valid)
    (h1 : 0xD800 ≤ hi.value ∧ hi.value ≤ 0xDBFF) (h2 : 0xDC00 ≤ lo.value ∧ lo.value ≤ 0xDFFF) :
    (∀ (f : Nat) (rest b : List Nat) (blen : Nat),
        unquoteLoop (f + 1) (hi.bytes ++ lo.bytes ++ rest) b blen =
          unquoteLoop f rest (b ++ utf8Bytes4 (surrogatePairCodePoint hi.value lo.value))
            (growLen b.length blen)) ∧
      unquoteBytes
          ([34] ++ quoteBody short s1 ++ hi.bytes ++ lo.bytes ++ quoteBody short s2 ++ [34]) =
        .ok (s1 ++ utf8Bytes4 (surrogatePairCodePoint hi.value lo.value) ++ s2) := by
  have hstep := fun f rest b blen =>
    unquoteLoop_pair hi lo hhi hlo h1.1 h1.2 h2.1 h2.2 f rest b blen
  refine ⟨hstep, ?_⟩
  have hshape : [34] ++ quoteBody short s1 ++ hi.bytes ++ lo.bytes ++ quoteBody short s2 ++ [34] =
      34 :: (quoteBody short s1 ++ (hi.bytes ++ lo.bytes ++ quoteBody short s2) ++ [34]) := by
    simp
  rw [hshape]
  apply unquoteBytes_quoted_prefix short s1 _ _ hs1
  · simp [Hex4.bytes]
  · simp [Hex4.bytes]
  · intro f blen hf
    obtain ⟨f1, rfl⟩ : ∃ f1, f = f1 + 1 := ⟨f - 1, by simp [Hex4.bytes] at hf; omega⟩
    rw [hstep, unquoteLoop_quoteBody short s2 hs2]
    simp only [List.length_append] at hf
    have : 0 < hi.bytes.length := by simp [Hex4.bytes]
    omega

/-- Witness of claim C9: the escapes of U+D83D and U+DE00 (the code point
U+1F600), the second written with an upper-case digit, between the strings
a and b. -/
theorem unquoteBytes_surrogate_pair_witness :
    unquoteBytes
        ([34] ++ quoteBody (fun _ => true) [97] ++
          (Hex4.mk 13 8 3 13 false false false false).bytes ++
          (Hex4.mk 13 14 0 0 false true false false).bytes ++
          quoteBody (fun _ => true) [98] ++ [34]) =
      .ok ([97] ++ [0xF0, 0x9F, 0x98, 0x80] ++ [98]) :=
  (unquoteBytes_surrogate_pair (fun _ => true) [97] [98]
    (Hex4.mk 13 8 3 13 false false false false) (Hex4.mk 13 14 0 0 false true false false)
    (by decide) (by decide) (by decide) (by decide) (by decide) (by decide)).2

/-- Claim C10 (lone surrogates): at an escape of a surrogate that is a low
surrogate, or that is not followed at once by the escape of a low surrogate, the
copy loop of unquoteBytes consumes the six bytes of that escape only, appends
the encoding EF BF BD of U+FFFD and goes on with the bytes that follow; and for
such an escape standing between two quoted ASCII strings unquoteBytes returns
ok = true with the escape replaced by EF BF BD. -/
theorem unquoteBytes_lone_surrogate (short : Nat → Bool) (s1 s2 : List Nat) (e : Hex4)
    (hs1 : ∀ c ∈ s1, c < 128) (hs2 : ∀ c ∈ s2, c < 128) (he : e.valid)
    (h1 : 0xD800 ≤ e.value ∧ e.value ≤ 0xDFFF) :
    (∀ (f : Nat) (rest b : List Nat) (blen : Nat),
        (0xDC00 ≤ e.value ∨ ¬ startsWithLowSurrogate rest) →
        unquoteLoop (f + 1) (e.bytes ++ rest) b blen =
          unquoteLoop f rest (b ++ [0xEF, 0xBF, 0xBD]) (growLen b.length blen)) ∧
      unquoteBytes ([34] ++ quoteBody short s1 ++ e.bytes ++ quoteBody short s2 ++ [34]) =
        .ok (s1 ++ [0xEF, 0xBF, 0xBD] ++ s2) := by
  constructor
  · intro f rest b blen hnp
    apply unquoteLoop_lone e he h1.1 h1.2
    rcases hnp with h | h
    · exact Or.inl h
    · exact Or.inr (fun hr => h (getu4_low_starts rest hr.1 hr.2))
  · have hshape : [34] ++ quoteBody short s1 ++ e.bytes ++ quoteBody short s2 ++ [34] =
        34 :: (quoteBody short s1 ++ (e.bytes ++ quoteBody short s2) ++ [34]) := by
      simp
    rw [hshape]
    apply unquoteBytes_quoted_prefix short s1 _ _ hs1
    · simp [Hex4.bytes]
    · simp [Hex4.bytes]
    · intro f blen hf
      obtain ⟨f1, rfl⟩ : ∃ f1, f = f1 + 1 := ⟨f - 1, by simp [Hex4.bytes] at hf; omega⟩
      have hq := getu4_quoteBody short s2 hs2
      rw [unquoteLoop_lone e he h1.1 h1.2 f1 _ _ _ (Or.inr (by omega)),
        unquoteLoop_quoteBody short s2 hs2]
      simp only [List.length_append] at hf
      have : 0 < e.bytes.length := by simp [Hex4.bytes]
      omega

/-- Witness of claim C10: the escape of the lone high surrogate U+D83D between
the strings a and b. -/
theorem unquoteBytes_lone_surrogate_witness :
    unquoteBytes
        ([34] ++ quoteBody (fun _ => true) [97] ++
          (Hex4.mk 13 8 3 13 false false false false).bytes ++
          quoteBody (fun _ => true) [98] ++ [34]) =
      .ok ([97] ++ [0xEF, 0xBF, 0xBD] ++ [98]) :=
  (unquoteBytes_lone_surrogate (fun _ => true) [97] [98]
    (Hex4.mk 13 8 3 13 false false false false)
    (by decide) (by decide) (by decide) (by decide)).2

/-! ## Claim about the inputs unquoteBytes rejects -/

/-- Claim C11: unquoteBytes returns ok=false exactly when the input is shorter
than 2 bytes, or does not start with the quote, or does not end with the quote,
or its interior, read left to right with escapes taken as units, contains an
unescaped quote, a byte below 0x20, a backslash that is the last interior byte,
a backslash followed by a byte that is neither one of the nine escape bytes nor
u, or a backslash and u not followed by four hexadecimal digits; for every other
input it returns ok=true with some bytes. -/
theorem unquoteBytes_notOk_iff (s : List Nat) :
    (unquoteBytes s = .notOk ↔
      s.length < 2 ∨ s.head? ≠ some 34 ∨ s.getLast? ≠ some 34 ∨
        HasFlaw ((s.drop 1).take (s.length - 2))) ∧
    (unquoteBytes s ≠ .notOk → ∃ t, unquoteBytes s = .ok t) := by
  by_cases h1 : s.length < 2
  · have hn : unquoteBytes s = .notOk := by simp [unquoteBytes, h1]
    exact ⟨⟨fun _ => Or.inl h1, fun _ => hn⟩, fun h => absurd hn h⟩
  · obtain ⟨g1, g2⟩ := quoted_guard s (by omega)
    by_cases h2 : s.head? = some 34 ∧ s.getLast? = some 34
    · have hs := quoted_shape s (by omega) h2.1 h2.2
      obtain ⟨hf, hok⟩ := unquoteBytes_quoted_flaw ((s.drop 1).take (s.length - 2))
      rw [← hs] at hf hok
      constructor
      · constructor
        · intro hn
          right; right; right
          by_contra hnf
          obtain ⟨t, ht⟩ := hok hnf
          rw [ht] at hn
          exact Unquoted.noConfusion hn
        · rintro (h | h | h | h)
          · exact absurd h h1
          · exact absurd h2.1 h
          · exact absurd h2.2 h
          · exact hf h
      · intro hne
        by_cases hfl : HasFlaw ((s.drop 1).take (s.length - 2))
        · exact absurd (hf hfl) hne
        · exact hok hfl
    · have hg : s.getD 0 0 ≠ 34 ∨ s.getD (s.length - 1) 0 ≠ 34 := by
        by_contra hcon
        simp only [not_or, not_not] at hcon
        apply h2
        rw [g1, g2, hcon.1, hcon.2]
        exact ⟨rfl, rfl⟩
      have hn : unquoteBytes s = .notOk := by
        have : s.length < 2 ∨ s.getD 0 0 ≠ 34 ∨ s.getD (s.length - 1) 0 ≠ 34 := Or.inr hg
        simp only [unquoteBytes, this, if_true]
      refine ⟨⟨fun _ => ?_, fun _ => hn⟩, fun h => absurd hn h⟩
      by_cases h3 : s.head? = some 34
      · exact Or.inr (Or.inr (Or.inl (fun h4 => h2 ⟨h3, h4⟩)))
      · exact Or.inr (Or.inl h3)

/-! ## Claim about the room of the work buffer -/

/-- Claim C20: for every quoted input whose interior is valid UTF-8, the first
loop of unquoteBytes stops at some index k, and in every state at the head of an
iteration of the second loop, which starts with read index and write index k
and the work buffer of the length of the interior plus 2*utf8.UTFMax, the write
index (the number of bytes written) does not exceed the read index (the length
of the interior less the number of bytes unread), the work buffer has its first
length, and the out-of-room test fails while bytes are unread, so the grow
branch is not taken; and the bytes returned are no more than the bytes of the
interior. -/
theorem unquoteBytes_room (body : List Nat) (hvalid : ValidUTF8 body) :
    ∃ k, scanUnusual body.length body 0 = some k ∧
      (∀ (rest b : List Nat) (blen : Nat),
        UnquoteReaches (body.drop k, body.take k, body.length + 2 * 4) (rest, b, blen) →
          b.length ≤ body.length - rest.length ∧ rest.length ≤ body.length ∧
            blen = body.length + 2 * 4 ∧ (rest ≠ [] → growLen b.length blen = blen)) ∧
      (∀ t, unquoteBytes (34 :: (body ++ [34])) = .ok t → t.length ≤ body.length) := by
  obtain ⟨k, hk1, hk2, hk3⟩ := scanUnusual_valid body.length body (le_refl _) body.length 0
    (le_refl _) hvalid
  rw [Nat.zero_add] at hk1
  have h0 : (body.take k).length + (body.drop k).length ≤ body.length ∧
      body.length + 2 * 4 = body.length + 2 * 4 ∧ ValidUTF8 (body.drop k) := by
    refine ⟨?_, rfl, hk3⟩
    rw [List.length_take, List.length_drop]
    omega
  refine ⟨k, hk1, ?_, ?_⟩
  · intro rest b blen hr
    obtain ⟨i1, i2, _⟩ := unquoteReaches_room body.length _ _ hr h0
    simp only at i1 i2
    refine ⟨by omega, by omega, i2, ?_⟩
    intro hne
    have hpos : 0 < rest.length := List.length_pos.mpr hne
    exact growLen_room b.length blen body.length i2 (by omega)
  · intro t ht
    rw [unquoteBytes_interior body k hk1] at ht
    by_cases hend : k = body.length
    · rw [if_pos hend] at ht
      injection ht with ht
      rw [← ht]
    · rw [if_neg hend] at ht
      obtain ⟨blen1, hr⟩ := unquoteLoop_reaches _ _ _ _ _ ht
      obtain ⟨i1, _, _⟩ := unquoteReaches_room body.length _ _ hr h0
      simp only [List.length_nil] at i1
      omega

/-- Witness of claim C20: the interior made of the two bytes of U+00E9, the
escape of the line feed, the escape of U+20AC and the letter a. -/
theorem unquoteBytes_room_witness :
    ∃ k, scanUnusual [0xC3, 0xA9, 92, 110, 92, 117, 50, 48, 65, 67, 97].length
        [0xC3, 0xA9, 92, 110, 92, 117, 50, 48, 65, 67, 97] 0 = some k ∧
      (∀ (rest b : List Nat) (blen : Nat),
        UnquoteReaches ([0xC3, 0xA9, 92, 110, 92, 117, 50, 48, 65, 67, 97].drop k,
            [0xC3, 0xA9, 92, 110, 92, 117, 50, 48, 65, 67, 97].take k,
            [0xC3, 0xA9, 92, 110, 92, 117, 50, 48, 65, 67, 97].length + 2 * 4) (rest, b, blen) →
          b.length ≤ [0xC3, 0xA9, 92, 110, 92, 117, 50, 48, 65, 67, 97].length - rest.length ∧
            rest.length ≤ [0xC3, 0xA9, 92, 110, 92, 117, 50, 48, 65, 67, 97].length ∧
            blen = [0xC3, 0xA9, 92, 110, 92, 117, 50, 48, 65, 67, 97].length + 2 * 4 ∧
            (rest ≠ [] → growLen b.length blen = blen)) ∧
      (∀ t, unquoteBytes (34 :: ([0xC3, 0xA9, 92, 110, 92, 117, 50, 48, 65, 67, 97] ++ [34])) =
          .ok t →
        t.length ≤ [0xC3, 0xA9, 92, 110, 92, 117, 50, 48, 65, 67, 97].length) :=
  unquoteBytes_room [0xC3, 0xA9, 92, 110, 92, 117, 50, 48, 65, 67, 97]
    (.rune 0xC3 _ (by decide) (.rune 92 _ (by decide) (.rune 110 _ (by decide)
      (.rune 92 _ (by decide) (.rune 117 _ (by decide) (.rune 50 _ (by decide)
        (.rune 48 _ (by decide) (.rune 65 _ (by decide) (.rune 67 _ (by decide)
          (.rune 97 _ (by decide) .nil))))))))))

/-! ## Claim about the well-formedness of the bytes returned -/

/-- Claim C21: whenever unquoteBytes returns ok=true, the bytes it returns are
well-formed UTF-8: decoded rune by rune with utf8.DecodeRune, no position of
them yields the error rune of width 1.  The input is any byte string, so its
interior may hold malformed octets, for each of which the second loop writes
the three bytes of U+FFFD, and backslash-u escapes of surrogates, alone or in
pairs. -/
theorem unquoteBytes_wellFormed (s t : List Nat) (h : unquoteBytes s = .ok t) : ValidUTF8 t := by
  simp only [unquoteBytes] at h
  by_cases hg : s.length < 2 ∨ s.getD 0 0 ≠ 34 ∨ s.getD (s.length - 1) 0 ≠ 34
  · rw [if_pos hg] at h
    exact Unquoted.noConfusion h
  rw [if_neg hg] at h
  have hlen : ((s.drop 1).take (s.length - 2)).length = s.length - 2 := by
    rw [List.length_take, List.length_drop]
    omega
  cases hscan : scanUnusual (s.length - 2) ((s.drop 1).take (s.length - 2)) 0 with
  | none =>
    rw [hscan] at h
    exact Unquoted.noConfusion h
  | some r =>
    rw [hscan] at h
    simp only at h
    obtain ⟨k, hk1, hk2, hk3⟩ := scanUnusual_prefix _ _ _ _ hscan
    rw [Nat.zero_add] at hk1
    subst hk1
    by_cases hend : r = s.length - 2
    · rw [if_pos hend] at h
      injection h with h
      rw [← h]
      rw [List.take_of_length_le (by rw [hlen]; omega)] at hk3
      exact hk3
    · rw [if_neg hend] at h
      obtain ⟨blen1, hr⟩ := unquoteLoop_reaches _ _ _ _ _ h
      exact unquoteReaches_valid _ _ hr hk3

set_option maxRecDepth 10000 in
/-- Witness of claim C21: the interior holds the letter a, the malformed octet
FF, the two bytes of U+00E9, the two octets E2 80 of a sequence cut short, the
escape of the lone surrogate U+D800 and the escape of the line feed.  The bytes
returned hold the three bytes of U+FFFD for the octet FF, for each of the octets
E2 and 80 and for the surrogate, and they are valid UTF-8. -/
theorem unquoteBytes_wellFormed_witness :
    unquoteBytes [34, 97, 0xFF, 0xC3, 0xA9, 0xE2, 0x80, 92, 117, 100, 56, 48, 48, 92, 110, 34] =
        .ok [97, 0xEF, 0xBF, 0xBD, 0xC3, 0xA9, 0xEF, 0xBF, 0xBD, 0xEF, 0xBF, 0xBD, 0xEF, 0xBF,
          0xBD, 10] ∧
      ValidUTF8 [97, 0xEF, 0xBF, 0xBD, 0xC3, 0xA9, 0xEF, 0xBF, 0xBD, 0xEF, 0xBF, 0xBD, 0xEF, 0xBF,
        0xBD, 10] :=
  ⟨by decide, unquoteBytes_wellFormed
    [34, 97, 0xFF, 0xC3, 0xA9, 0xE2, 0x80, 92, 117, 100, 56, 48, 48, 92, 110, 34] _ (by decide)⟩

/-! ## Theorems: Compact -/

/-! ### Reading a buffer through its suffixes -/

theorem byteAt_of_drop {src : List Nat} {i c : Nat} {tl : List Nat}
    (h : src.drop i = c :: tl) : byteAt src i = .ok c := by
  have h2 : src[i]? = some c := by
    have := congrArg List.head? h
    simpa [List.head?_drop] using this
  simp [byteAt, h2]

theorem drop_succ_of_drop {src : List Nat} {i c : Nat} {tl : List Nat}
    (h : src.drop i = c :: tl) : src.drop (i + 1) = tl := by
  have : src.drop (i + 1) = (src.drop i).drop 1 := by rw [List.drop_drop]
  rw [this, h]; rfl

theorem drop_add_of_drop {src : List Nat} {i : Nat} (x : List Nat) {r : List Nat}
    (h : src.drop i = x ++ r) : src.drop (i + x.length) = r := by
  have : src.drop (i + x.length) = (src.drop i).drop x.length := by
    rw [List.drop_drop]
  rw [this, h]; simp

theorem length_ge_of_drop {src : List Nat} {i : Nat} {x rest : List Nat}
    (h : src.drop i = x ++ rest) : i + x.length + rest.length ≤ src.length ∨ (x ++ rest = []) := by
  have := congrArg List.length h
  simp only [List.length_drop, List.length_append] at this
  by_cases hx : x ++ rest = []
  · exact Or.inr hx
  · have : 0 < (x ++ rest).length := List.length_pos.mpr hx
    simp only [List.length_append] at this
    omega

theorem slice_of_drop {src : List Nat} {i : Nat} (x : List Nat) {r : List Nat}
    (h : src.drop i = x ++ r) (hne : r ≠ []) : slice src i (i + x.length) = .ok x := by
  have hl := congrArg List.length h
  simp only [List.length_drop, List.length_append] at hl
  have hr : 0 < r.length := List.length_pos.mpr hne
  have hb : i ≤ i + x.length ∧ i + x.length ≤ src.length := by omega
  rw [slice, if_pos hb]
  congr 1
  rw [List.drop_take, h]
  simp

theorem isWhiteSpace_of_mem {w : List Nat} (hw : IsWs w) {c : Nat} (hc : c ∈ w) :
    isWhiteSpace c = true := hw c hc

theorem IsWs.tail {c : Nat} {w : List Nat} (hw : IsWs (c :: w)) : IsWs w :=
  fun x hx => hw x (List.mem_cons_of_mem _ hx)

theorem IsWs.head {c : Nat} {w : List Nat} (hw : IsWs (c :: w)) : isWhiteSpace c = true :=
  hw c (List.mem_cons_self _ _)

theorem skipWhiteSpace_ws (src : List Nat) (w : List Nat) (hw : IsWs w) :
    ∀ (fuel i c : Nat) (rest : List Nat), src.drop i = w ++ c :: rest →
      isWhiteSpace c = false → w.length + 1 ≤ fuel →
      skipWhiteSpace fuel src i = .ok (i + w.length) := by
  induction w with
  | nil =>
    intro fuel i c rest hd hc hf
    obtain ⟨f, rfl⟩ : ∃ f, fuel = f + 1 := ⟨fuel - 1, by simp at hf; omega⟩
    simp only [List.nil_append] at hd
    simp [skipWhiteSpace, byteAt_of_drop hd, hc]
  | cons x w ih =>
    intro fuel i c rest hd hc hf
    obtain ⟨f, rfl⟩ : ∃ f, fuel = f + 1 := ⟨fuel - 1, by simp at hf; omega⟩
    simp only [List.cons_append] at hd
    simp only [skipWhiteSpace, byteAt_of_drop hd, hw.head, if_true]
    rw [ih hw.tail f (i + 1) c rest (drop_succ_of_drop hd) hc (by simp at hf; omega)]
    simp; omega

theorem compactLiteral_ok (lit src dst : List Nat) (i : Nat) (rest : List Nat)
    (hlit : lit ≠ []) (hd : src.drop i = lit ++ rest) (hne : rest ≠ []) :
    compactLiteral lit src dst i = .ok (dst ++ lit, i + lit.length) := by
  have hl := congrArg List.length hd
  simp only [List.length_drop, List.length_append] at hl
  have hr : 0 < rest.length := List.length_pos.mpr hne
  have hp : 0 < lit.length := List.length_pos.mpr hlit
  have h1 : ¬ (i + (lit.length - 1) ≥ src.length) := by omega
  simp [compactLiteral, h1, slice_of_drop lit hd hne]

theorem compactNumberLoop_span (src : List Nat) (t : List Nat)
    (ht : ∀ c ∈ t, floatTable c = true) :
    ∀ (fuel i c : Nat) (rest : List Nat), src.drop (i + 1) = t ++ c :: rest →
      floatTable c = false → t.length + 1 ≤ fuel →
      compactNumberLoop src fuel i = .ok (i + 1 + t.length) := by
  induction t with
  | nil =>
    intro fuel i c rest hd hc hf
    obtain ⟨f, rfl⟩ : ∃ f, fuel = f + 1 := ⟨fuel - 1, by simp at hf; omega⟩
    simp only [List.nil_append] at hd
    simp [compactNumberLoop, byteAt_of_drop hd, hc]
  | cons x t ih =>
    intro fuel i c rest hd hc hf
    obtain ⟨f, rfl⟩ : ∃ f, fuel = f + 1 := ⟨fuel - 1, by simp at hf; omega⟩
    simp only [List.cons_append] at hd
    simp only [compactNumberLoop, byteAt_of_drop hd, ht x (by simp), if_true]
    rw [ih (fun y hy => ht y (by simp [hy])) f (i + 1) c rest (drop_succ_of_drop hd) hc
      (by simp at hf; omega)]
    simp; omega

theorem compactNumber_ok (src : List Nat) (x : Nat) (t : List Nat)
    (ht : ∀ c ∈ t, floatTable c = true) (hok : parseFloatOk (x :: t) = true)
    (fuel i c : Nat) (rest dst : List Nat) (hd : src.drop i = (x :: t) ++ c :: rest)
    (hc : floatTable c = false) (hf : t.length + 1 ≤ fuel) :
    compactNumber src fuel dst i = .ok (dst ++ x :: t, i + (x :: t).length) := by
  have h1 := compactNumberLoop_span src t ht fuel i c rest
    (drop_succ_of_drop (by simpa using hd)) hc hf
  have h2 : slice src i (i + 1 + t.length) = .ok (x :: t) := by
    have := slice_of_drop (x :: t) hd (by simp)
    simpa [Nat.add_assoc, Nat.add_comm 1] using this
  simp only [compactNumber, h1, h2, hok, if_true, List.length_cons]
  congr 2; omega

theorem getD_of_drop {src : List Nat} {i : Nat} {l : List Nat} (h : src.drop i = l) (k : Nat) :
    src.getD (i + k) 0 = l.getD k 0 := by
  subst h
  simp [List.getD_eq_getElem?_getD, List.getElem?_drop]

set_option maxRecDepth 100000 in
theorem and_0xFE : ∀ y, y < 256 → y &&& 0xFE = 0xA8 → (y = 0xA8 ∨ y = 0xA9) := by decide

theorem slice_extend {src : List Nat} {a b : Nat} {P : List Nat} {x r : List Nat}
    (hP : slice src a b = .ok P) (hd : src.drop b = x ++ r) :
    slice src a (b + x.length) = .ok (P ++ x) := by
  simp only [slice] at hP ⊢
  split_ifs at hP with h1
  have hl := congrArg List.length hd
  simp only [List.length_drop, List.length_append] at hl
  by_cases hx : x = []
  · subst hx; simp [h1]; simpa using hP
  · have hxl : 0 < x.length := List.length_pos.mpr hx
    have h2 : a ≤ b + x.length ∧ b + x.length ≤ src.length := by omega
    rw [if_pos h2]
    injection hP with hP
    congr 1
    have ht : src.take (b + x.length) = src.take b ++ x := by
      rw [List.take_add, hd]; simp
    rw [ht, List.drop_append_of_le_length (by simp; omega), hP]

theorem slice_empty (src : List Nat) (a : Nat) (ha : a ≤ src.length) : slice src a a = .ok [] := by
  simp [slice, ha]

theorem lineSep_test_false (src : List Nat) (i c : Nat) (tl rest : List Nat)
    (hd : src.drop i = c :: (tl ++ 34 :: rest)) (h : lineSepAt (c :: tl) = false)
    (hb : ∀ x ∈ tl, x < 256) :
    ¬ (c = 0xE2 ∧ i + 2 < src.length ∧ src.getD (i + 1) 0 = 0x80 ∧
        (src.getD (i + 2) 0) &&& 0xFE = 0xA8) := by
  rintro ⟨h1, -, h3, h4⟩
  rw [getD_of_drop hd 1] at h3
  rw [getD_of_drop hd 2] at h4
  match tl, h, hb with
  | [], _, _ => simp at h3
  | [y1], _, _ =>
    simp at h4
    exact absurd h4 (by decide)
  | y1 :: y2 :: tl2, h, hb =>
    simp at h3 h4
    have := and_0xFE y2 (hb y2 (by simp)) h4
    simp [lineSepAt, h1, h3] at h
    omega

theorem escapeBlock_off (src dst : List Nat) (start i c : Nat) :
    escapeBlock src false dst start i c = .ok (dst, start, i) := by
  simp [escapeBlock]

theorem hex_html (c : Nat) (hc : isHTMLEscapeChar c = true) :
    [92, 117, 48, 48] ++ [hex (c >>> 4), hex (c &&& 0xF)] = htmlEscape c := by
  simp only [isHTMLEscapeChar, decide_eq_true_eq] at hc
  rcases hc with h | h | h <;> subst h <;> decide

theorem escapeBlock_html (src dst P : List Nat) (start i c : Nat)
    (hc : isHTMLEscapeChar c = true) (hP : slice src start i = .ok P) :
    escapeBlock src true dst start i c = .ok (dst ++ P ++ htmlEscape c, i + 1, i) := by
  simp only [escapeBlock, if_true, hc, hP]
  rw [← hex_html c hc]
  simp

theorem escapeBlock_keep (src dst : List Nat) (start i c : Nat) (tl rest : List Nat)
    (hd : src.drop i = c :: (tl ++ 34 :: rest)) (hc : isHTMLEscapeChar c = false)
    (h : lineSepAt (c :: tl) = false) (hb : ∀ x ∈ tl, x < 256) :
    escapeBlock src true dst start i c = .ok (dst, start, i) := by
  have := lineSep_test_false src i c tl rest hd h hb
  simp only [escapeBlock, if_true, hc, if_neg this]
  simp

theorem compactStringLoop_succ (src : List Nat) (E : Bool) (fuel : Nat) (dst : List Nat)
    (start cursor : Nat) :
    compactStringLoop src E (fuel + 1) dst start cursor =
      match byteAt src (cursor + 1) with
      | .error e => .error e
      | .ok c =>
        match escapeBlock src E dst start (cursor + 1) c with
        | .error e => .error e
        | .ok (dst, start, cursor) =>
          if c = 92 then
            match byteAt src (cursor + 1) with
            | .error e => .error e
            | .ok c2 =>
              if c2 = 0 then .error (.unexpectedEnd src.length)
              else compactStringLoop src E fuel dst start (cursor + 1)
          else if c = 34 then
            match slice src start (cursor + 1) with
            | .error e => .error e
            | .ok span => .ok (dst ++ span, cursor + 1)
          else if c = 0 then .error (.unexpectedEnd src.length)
          else compactStringLoop src E fuel dst start cursor := rfl

theorem compactStringLoop_step (src : List Nat) (E : Bool) (fuel : Nat) (dst : List Nat)
    (start cursor c : Nat) (dst1 : List Nat) (start1 cursor1 : Nat)
    (hc : byteAt src (cursor + 1) = .ok c)
    (he : escapeBlock src E dst start (cursor + 1) c = .ok (dst1, start1, cursor1)) :
    compactStringLoop src E (fuel + 1) dst start cursor =
      if c = 92 then
        match byteAt src (cursor1 + 1) with
        | .error e => .error e
        | .ok c2 =>
          if c2 = 0 then .error (.unexpectedEnd src.length)
          else compactStringLoop src E fuel dst1 start1 (cursor1 + 1)
      else if c = 34 then
        match slice src start1 (cursor1 + 1) with
        | .error e => .error e
        | .ok span => .ok (dst1 ++ span, cursor1 + 1)
      else if c = 0 then .error (.unexpectedEnd src.length)
      else compactStringLoop src E fuel dst1 start1 cursor1 := by
  rw [compactStringLoop_succ, hc]
  simp only [he]

theorem escapeBlock_other (src dst : List Nat) (E : Bool) (start i c : Nat)
    (h1 : isHTMLEscapeChar c = false) (h2 : c ≠ 0xE2) :
    escapeBlock src E dst start i c = .ok (dst, start, i) := by
  cases E
  · exact escapeBlock_off _ _ _ _ _
  · simp [escapeBlock, h1, h2]

theorem minifyFrom_inString_plain (E : Bool) (c : Nat) (tl : List Nat) (h1 : c ≠ 34)
    (h2 : c ≠ 92) :
    minifyFrom E .inString (c :: tl) =
      (if E = true then htmlEscape c else [c]) ++ minifyFrom E .inString tl := by
  cases E <;> simp [minifyFrom, h1, h2]

theorem htmlEscape_other (c : Nat) (h : isHTMLEscapeChar c = false) : htmlEscape c = [c] := by
  simp only [isHTMLEscapeChar, decide_eq_false_iff_not] at h
  simp only [htmlEscape]
  rw [if_neg (by omega), if_neg (by omega), if_neg (by omega)]

/-- The loop of compactString on the rest of a string body: the pending span
P = src[start:cursor+1] and the rest of the body are written, the HTML bytes
escaped when escape is set. -/
theorem compactStringLoop_body (src : List Nat) (E : Bool) (body : List Nat)
    (hb : LooseBody body)
    (hE : E = true → noLineSep body = true ∧ ∀ c ∈ body, c < 256) :
    ∀ (fuel : Nat) (dst : List Nat) (start cursor : Nat) (P rest : List Nat),
      src.drop (cursor + 1) = body ++ 34 :: rest → slice src start (cursor + 1) = .ok P →
      body.length + 1 ≤ fuel →
      compactStringLoop src E fuel dst start cursor =
        .ok (dst ++ P ++ minifyFrom E .inString (body ++ [34]), cursor + 1 + body.length + 1) := by
  induction hb with
  | nil =>
    intro fuel dst start cursor P rest hd hP hf
    obtain ⟨f, rfl⟩ : ∃ f, fuel = f + 1 := ⟨fuel - 1, by omega⟩
    simp only [List.nil_append] at hd
    have hs := slice_extend hP (x := [34]) (r := rest) (by simpa using hd)
    rw [compactStringLoop_step _ _ _ _ _ _ _ _ _ _ (byteAt_of_drop hd)
      (escapeBlock_other _ _ _ _ _ _ (by decide) (by decide))]
    simp only [List.length_singleton] at hs
    simp [hs, minifyFrom]
  | plain c tl h34 h92 h0 htl ih =>
    intro fuel dst start cursor P rest hd hP hf
    obtain ⟨f, rfl⟩ : ∃ f, fuel = f + 1 := ⟨fuel - 1, by omega⟩
    simp only [List.cons_append] at hd
    have hd1 := drop_succ_of_drop hd
    have hE' : E = true → noLineSep tl = true ∧ ∀ c ∈ tl, c < 256 := by
      intro h
      obtain ⟨h1, h2⟩ := hE h
      simp only [noLineSep, Bool.and_eq_true] at h1
      exact ⟨h1.2, fun x hx => h2 x (by simp [hx])⟩
    simp only [List.length_cons] at hf
    by_cases hhtml : E = true ∧ isHTMLEscapeChar c = true
    · obtain ⟨hEt, hh⟩ := hhtml
      subst hEt
      rw [compactStringLoop_step _ _ _ _ _ _ _ _ _ _ (byteAt_of_drop hd)
        (escapeBlock_html _ dst _ _ _ _ hh hP)]
      simp only [if_neg h92, if_neg h34, if_neg h0]
      have hlen : cursor + 1 + 1 ≤ src.length := by
        have := congrArg List.length hd
        simp only [List.length_drop, List.length_cons] at this
        omega
      rw [ih hE' f _ (cursor + 1 + 1) (cursor + 1) [] rest hd1 (slice_empty _ _ hlen) (by omega)]
      rw [List.cons_append, minifyFrom_inString_plain _ _ _ h34 h92]
      simp only [List.cons_append, List.length_cons, if_true, List.append_nil, List.append_assoc]
      congr 2; omega
    · have hkeep : escapeBlock src E dst start (cursor + 1) c = .ok (dst, start, cursor + 1) := by
        cases hEq : E
        · exact escapeBlock_off _ _ _ _ _
        · have hh : isHTMLEscapeChar c = false := by
            cases hc : isHTMLEscapeChar c
            · rfl
            · exact absurd ⟨hEq, hc⟩ hhtml
          obtain ⟨h1, h2⟩ := hE hEq
          simp only [noLineSep, Bool.and_eq_true, Bool.not_eq_true'] at h1
          exact escapeBlock_keep _ _ _ _ _ tl rest hd hh h1.1 (fun x hx => h2 x (by simp [hx]))
      rw [compactStringLoop_step _ _ _ _ _ _ _ _ _ _ (byteAt_of_drop hd) hkeep]
      simp only [if_neg h92, if_neg h34, if_neg h0]
      have hP' := slice_extend hP (x := [c]) (r := tl ++ 34 :: rest) (by simpa using hd)
      rw [ih hE' f _ start (cursor + 1) (P ++ [c]) rest hd1 hP' (by omega)]
      rw [List.cons_append, minifyFrom_inString_plain _ _ _ h34 h92]
      have hesc : (if E = true then htmlEscape c else [c]) = [c] := by
        cases hEq : E
        · simp
        · have hh : isHTMLEscapeChar c = false := by
            cases hc : isHTMLEscapeChar c
            · rfl
            · exact absurd ⟨hEq, hc⟩ hhtml
          simp [htmlEscape_other c hh]
      rw [hesc]
      simp only [List.cons_append, List.length_cons, List.append_assoc, List.singleton_append]
      congr 2; omega
  | esc e tl he htl ih =>
    intro fuel dst start cursor P rest hd hP hf
    obtain ⟨f, rfl⟩ : ∃ f, fuel = f + 1 := ⟨fuel - 1, by omega⟩
    simp only [List.cons_append] at hd
    have hd1 := drop_succ_of_drop hd
    have hd2 := drop_succ_of_drop hd1
    have hE' : E = true → noLineSep tl = true ∧ ∀ c ∈ tl, c < 256 := by
      intro h
      obtain ⟨h1, h2⟩ := hE h
      simp only [noLineSep, Bool.and_eq_true] at h1
      exact ⟨h1.2.2, fun x hx => h2 x (by simp [hx])⟩
    simp only [List.length_cons] at hf
    rw [compactStringLoop_step _ _ _ _ _ _ _ _ _ _ (byteAt_of_drop hd)
      (escapeBlock_other _ _ _ _ _ _ (by decide) (by decide))]
    simp only [if_true, byteAt_of_drop hd1, if_neg he]
    have hP' := slice_extend hP (x := [92, e]) (r := tl ++ 34 :: rest) (by simpa using hd)
    rw [ih hE' f _ start (cursor + 1 + 1) (P ++ [92, e]) rest hd2 hP' (by omega)]
    simp only [minifyFrom, List.cons_append, List.length_cons, List.append_assoc]
    simp
    omega

theorem IsStringBody.loose {body : List Nat} (h : IsStringBody body) : LooseBody body := by
  induction h with
  | nil => exact .nil
  | plain c tl h32 h34 h92 _ ih => exact .plain c tl h34 h92 (by omega) ih
  | esc e tl he _ ih => exact .esc e tl (by omega) ih
  | uni h1 h2 h3 h4 tl d1 d2 d3 d4 _ ih =>
    refine .esc 117 _ (by omega) ?_
    refine .plain h1 _ ?_ ?_ ?_ (.plain h2 _ ?_ ?_ ?_ (.plain h3 _ ?_ ?_ ?_ (.plain h4 _ ?_ ?_ ?_ ih)))
    all_goals (simp only [IsHexDigit] at d1 d2 d3 d4; omega)

theorem compactString_ok (src : List Nat) (E : Bool) (body : List Nat) (hb : LooseBody body)
    (hE : E = true → noLineSep body = true ∧ ∀ c ∈ body, c < 256)
    (fuel : Nat) (dst : List Nat) (i : Nat) (rest : List Nat)
    (hd : src.drop i = (34 :: body ++ [34]) ++ rest) (hf : body.length + 1 ≤ fuel) :
    compactString src E fuel dst i =
      .ok (dst ++ minifyFrom E .outside (34 :: body ++ [34]), i + (34 :: body ++ [34]).length) := by
  have hd0 : src.drop i = 34 :: (body ++ 34 :: rest) := by simpa using hd
  have hP : slice src i (i + 1) = .ok [34] :=
    slice_of_drop [34] (r := body ++ 34 :: rest) (by simpa using hd0) (by simp)
  have hm : minifyFrom E .outside (34 :: body ++ [34]) = 34 :: minifyFrom E .inString (body ++ [34]) := by
    simp [minifyFrom, isWhiteSpace]
  simp only [compactString, byteAt_of_drop hd0]
  rw [if_neg (by simp)]
  rw [compactStringLoop_body src E body hb hE fuel dst i i [34] rest (drop_succ_of_drop hd0) hP hf, hm]
  simp
  omega

theorem compactValue_succ (src : List Nat) (E : Bool) (fuel : Nat) (dst : List Nat) (cursor : Nat) :
    compactValue src E (fuel + 1) dst cursor =
      match byteAt src cursor with
      | .error e => .error e
      | .ok c =>
        if c = 32 ∨ c = 9 ∨ c = 10 ∨ c = 13 then compactValue src E fuel dst (cursor + 1)
        else if c = 123 then compactObject src E fuel dst cursor
        else if c = 125 then .error (.synErr cursor)
        else if c = 91 then compactArray src E fuel dst cursor
        else if c = 93 then .error (.synErr cursor)
        else if c = 34 then compactString src E fuel dst cursor
        else if c = 45 ∨ (48 ≤ c ∧ c ≤ 57) then compactNumber src fuel dst cursor
        else if c = 116 then compactTrue src dst cursor
        else if c = 102 then compactFalse src dst cursor
        else if c = 110 then compactNull src dst cursor
        else .error (.synErr cursor) := rfl

theorem compactObject_succ (src : List Nat) (E : Bool) (fuel : Nat) (dst : List Nat) (cursor : Nat) :
    compactObject src E (fuel + 1) dst cursor =
      match byteAt src cursor with
      | .error e => .error e
      | .ok c =>
        if c = 110 then compactNull src dst cursor
        else if c = 123 then
          match skipWhiteSpace fuel src (cursor + 1) with
          | .error e => .error e
          | .ok cursor =>
            match byteAt src cursor with
            | .error e => .error e
            | .ok c1 =>
              if c1 = 125 then .ok (dst ++ [123] ++ [125], cursor + 1)
              else compactObjectLoop src E fuel (dst ++ [123]) cursor
        else .error (.expected cursor) := rfl

theorem compactArray_succ (src : List Nat) (E : Bool) (fuel : Nat) (dst : List Nat) (cursor : Nat) :
    compactArray src E (fuel + 1) dst cursor =
      match byteAt src cursor with
      | .error e => .error e
      | .ok c =>
        if c = 110 then compactNull src dst cursor
        else if c = 91 then
          match skipWhiteSpace fuel src (cursor + 1) with
          | .error e => .error e
          | .ok cursor =>
            match byteAt src cursor with
            | .error e => .error e
            | .ok c1 =>
              if c1 = 93 then .ok (dst ++ [91] ++ [93], cursor + 1)
              else compactArrayLoop src E fuel (dst ++ [91]) cursor
        else .error (.expected cursor) := rfl

theorem compactArrayLoop_succ (src : List Nat) (E : Bool) (fuel : Nat) (dst : List Nat)
    (cursor : Nat) :
    compactArrayLoop src E (fuel + 1) dst cursor =
      match compactValue src E fuel dst cursor with
      | .error e => .error e
      | .ok (dst, cursor) =>
        match skipWhiteSpace fuel src cursor with
        | .error e => .error e
        | .ok cursor =>
          match byteAt src cursor with
          | .error e => .error e
          | .ok c =>
            if c = 93 then .ok (dst ++ [93], cursor + 1)
            else if c = 44 then compactArrayLoop src E fuel (dst ++ [44]) (cursor + 1)
            else .error (.expected cursor) := rfl

theorem compactObjectLoop_succ (src : List Nat) (E : Bool) (fuel : Nat) (dst : List Nat)
    (cursor : Nat) :
    compactObjectLoop src E (fuel + 1) dst cursor =
      match skipWhiteSpace fuel src cursor with
      | .error e => .error e
      | .ok cursor =>
        match compactString src E fuel dst cursor with
        | .error e => .error e
        | .ok (dst, cursor) =>
          match skipWhiteSpace fuel src cursor with
          | .error e => .error e
          | .ok cursor =>
            match byteAt src cursor with
            | .error e => .error e
            | .ok c =>
              if c ≠ 58 then .error (.expected cursor)
              else
                match compactValue src E fuel (dst ++ [58]) (cursor + 1) with
                | .error e => .error e
                | .ok (dst, cursor) =>
                  match skipWhiteSpace fuel src cursor with
                  | .error e => .error e
                  | .ok cursor =>
                    match byteAt src cursor with
                    | .error e => .error e
                    | .ok c =>
                      if c = 125 then .ok (dst ++ [125], cursor + 1)
                      else if c = 44 then
                        compactObjectLoop src E fuel (dst ++ [44]) (cursor + 1)
                      else .error (.expected cursor) := rfl

/-! ### The expected output on concatenations -/

theorem minify_ws (E : Bool) (w : List Nat) (hw : IsWs w) (rest : List Nat) :
    minifyFrom E .outside (w ++ rest) = minifyFrom E .outside rest := by
  induction w with
  | nil => rfl
  | cons c w ih =>
    simp only [List.cons_append, minifyFrom, hw.head, if_true]
    exact ih hw.tail

theorem minify_token (E : Bool) (t : List Nat)
    (ht : ∀ c ∈ t, isWhiteSpace c = false ∧ c ≠ 34) (rest : List Nat) :
    minifyFrom E .outside (t ++ rest) = t ++ minifyFrom E .outside rest := by
  induction t with
  | nil => rfl
  | cons c t ih =>
    obtain ⟨h1, h2⟩ := ht c (by simp)
    have := ih (fun x hx => ht x (by simp [hx]))
    simp only [List.cons_append, minifyFrom, h1, if_neg h2]
    simpa using this

theorem minify_string (E : Bool) (body : List Nat) (hb : LooseBody body) (rest : List Nat) :
    minifyFrom E .inString (body ++ 34 :: rest) =
      minifyFrom E .inString (body ++ [34]) ++ minifyFrom E .outside rest := by
  induction hb with
  | nil => simp [minifyFrom]
  | plain c tl h34 h92 h0 _ ih =>
    simp only [List.cons_append, minifyFrom_inString_plain _ _ _ h34 h92, ih, List.append_assoc]
  | esc e tl he _ ih =>
    simp [minifyFrom, ih]

theorem minify_quoted (E : Bool) (body : List Nat) (hb : LooseBody body) (rest : List Nat) :
    minifyFrom E .outside ((34 :: body ++ [34]) ++ rest) =
      minifyFrom E .outside (34 :: body ++ [34]) ++ minifyFrom E .outside rest := by
  have h1 : (34 :: body ++ [34]) ++ rest = 34 :: (body ++ 34 :: rest) := by simp
  have h2 : ∀ l, minifyFrom E .outside (34 :: l) = 34 :: minifyFrom E .inString l := by
    intro l; simp [minifyFrom, isWhiteSpace]
  have h3 : (34 :: body ++ [34]) = 34 :: (body ++ [34]) := by simp
  rw [h1, h2, h3, h2, minify_string E body hb]
  simp

theorem floatTable_not_ws {c : Nat} (h : floatTable c = true) :
    isWhiteSpace c = false ∧ c ≠ 34 := by
  simp only [floatTable, decide_eq_true_eq] at h
  simp only [isWhiteSpace, decide_eq_false_iff_not]
  omega

/-- A number token starts with a minus sign or a digit and consists of bytes
of floatTable. -/
theorem IsNumber.shape {t : List Nat} (h : IsNumber t) :
    ∃ x tl, t = x :: tl ∧ (x = 45 ∨ (48 ≤ x ∧ x ≤ 57)) ∧ ∀ c ∈ t, floatTable c = true := by
  obtain ⟨sign, ip, frac, exp, hs, hip, hne, -, hfrac, hexp⟩ := h
  have hall : ∀ c ∈ sign ++ ip ++ frac ++ exp, floatTable c = true := by
    intro c hc
    simp only [List.mem_append] at hc
    simp only [floatTable, decide_eq_true_eq]
    rcases hc with ((hc | hc) | hc) | hc
    · rcases hs with rfl | rfl
      · simp at hc
      · simp at hc; omega
    · have := hip c hc; omega
    · rcases hfrac with rfl | ⟨fd, -, hfd, rfl⟩
      · simp at hc
      · simp only [List.mem_cons] at hc
        rcases hc with rfl | hc
        · omega
        · have := hfd c hc; omega
    · rcases hexp with rfl | ⟨e, s, ed, he, hs', -, hed, rfl⟩
      · simp at hc
      · simp only [List.mem_cons, List.mem_append] at hc
        rcases hc with rfl | hc | hc
        · omega
        · rcases hs' with rfl | rfl | rfl <;> simp at hc <;> omega
        · have := hed c hc; omega
  obtain ⟨d, ds, rfl⟩ : ∃ d ds, ip = d :: ds := by
    cases ip with
    | nil => exact absurd rfl hne
    | cons d ds => exact ⟨d, ds, rfl⟩
  have hd := hip d (by simp)
  rcases hs with rfl | rfl
  · exact ⟨d, ds ++ frac ++ exp, by simp, Or.inr hd, hall⟩
  · exact ⟨45, d :: ds ++ frac ++ exp, by simp, Or.inl rfl, hall⟩

/-- The first byte of a value. -/
theorem Wf.value_head {numOk strOk : List Nat → Prop} {v : List Nat}
    (h : Wf numOk strOk .value v) :
    ∃ c tl, v = c :: tl ∧ isWhiteSpace c = false ∧ c ≠ 93 ∧ c ≠ 125 ∧ c ≠ 44 := by
  cases h with
  | litNull => exact ⟨_, _, rfl, by decide, by decide, by decide, by decide⟩
  | litTrue => exact ⟨_, _, rfl, by decide, by decide, by decide, by decide⟩
  | litFalse => exact ⟨_, _, rfl, by decide, by decide, by decide, by decide⟩
  | number t ht _ =>
    obtain ⟨x, tl, rfl, hx, -⟩ := ht.shape
    refine ⟨x, tl, rfl, ?_, ?_, ?_, ?_⟩
    · simp only [isWhiteSpace, decide_eq_false_iff_not]; omega
    all_goals omega
  | string body _ _ => exact ⟨34, body ++ [34], by simp, by decide, by decide, by decide, by decide⟩
  | emptyArray w _ => exact ⟨91, w ++ [93], by simp, by decide, by decide, by decide, by decide⟩
  | array w es _ _ => exact ⟨91, w ++ es ++ [93], by simp, by decide, by decide, by decide, by decide⟩
  | emptyObject w _ => exact ⟨123, w ++ [125], by simp, by decide, by decide, by decide, by decide⟩
  | object w ms _ _ =>
    exact ⟨123, w ++ ms ++ [125], by simp, by decide, by decide, by decide, by decide⟩

theorem Wf.elements_head {numOk strOk : List Nat → Prop} {es : List Nat}
    (h : Wf numOk strOk .elements es) :
    ∃ c tl, es = c :: tl ∧ isWhiteSpace c = false ∧ c ≠ 93 := by
  cases h with
  | lastElement v w hv _ =>
    obtain ⟨c, tl, rfl, h1, h2, -, -⟩ := hv.value_head
    exact ⟨c, tl ++ w, by simp, h1, h2⟩
  | element v w1 w2 es hv _ _ _ =>
    obtain ⟨c, tl, rfl, h1, h2, -, -⟩ := hv.value_head
    exact ⟨c, tl ++ w1 ++ 44 :: w2 ++ es, by simp, h1, h2⟩

theorem Wf.members_head {numOk strOk : List Nat → Prop} {ms : List Nat}
    (h : Wf numOk strOk .members ms) : ∃ tl, ms = 34 :: tl := by
  cases h with
  | lastMember k w1 w2 v w3 _ _ _ _ _ _ =>
    exact ⟨k ++ 34 :: w1 ++ 58 :: w2 ++ v ++ w3, by simp⟩
  | member k w1 w2 v w3 w4 ms _ _ _ _ _ _ _ _ =>
    exact ⟨k ++ 34 :: w1 ++ 58 :: w2 ++ v ++ w3 ++ 44 :: w4 ++ ms, by simp⟩

theorem MinifySplits.append {E : Bool} {x y : List Nat} (hx : MinifySplits E x)
    (hy : MinifySplits E y) : MinifySplits E (x ++ y) := by
  intro rest
  rw [List.append_assoc, hx, hy, hx, List.append_assoc]

theorem MinifySplits.ws {E : Bool} {w : List Nat} (hw : IsWs w) : MinifySplits E w := by
  intro rest
  have h := minify_ws E w hw []
  simp only [List.append_nil] at h
  rw [minify_ws E w hw, h]
  simp [minifyFrom]

theorem minify_ws_nil (E : Bool) (w : List Nat) (hw : IsWs w) :
    minifyFrom E .outside w = [] := by
  have h := minify_ws E w hw []
  simpa [minifyFrom] using h

theorem minify_token_nil (E : Bool) (t : List Nat)
    (ht : ∀ c ∈ t, isWhiteSpace c = false ∧ c ≠ 34) : minifyFrom E .outside t = t := by
  have h := minify_token E t ht []
  simpa [minifyFrom] using h

theorem MinifySplits.token {E : Bool} {t : List Nat}
    (ht : ∀ c ∈ t, isWhiteSpace c = false ∧ c ≠ 34) : MinifySplits E t := by
  intro rest
  rw [minify_token E t ht, minify_token_nil E t ht]

theorem MinifySplits.quoted {E : Bool} {body : List Nat} (hb : LooseBody body) :
    MinifySplits E (34 :: body ++ [34]) :=
  fun rest => minify_quoted E body hb rest

theorem MinifySplits.cons {E : Bool} {c : Nat} {x : List Nat} (h1 : isWhiteSpace c = false)
    (h2 : c ≠ 34) (hx : MinifySplits E x) : MinifySplits E (c :: x) := by
  have : MinifySplits E ([c] ++ x) :=
    MinifySplits.append (MinifySplits.token (by simpa using ⟨h1, h2⟩)) hx
  simpa using this

theorem minify_cons (E : Bool) (c : Nat) (x : List Nat) (h1 : isWhiteSpace c = false)
    (h2 : c ≠ 34) : minifyFrom E .outside (c :: x) = c :: minifyFrom E .outside x := by
  simp [minifyFrom, h1, h2]

theorem Wf.minifySplits {numOk strOk : List Nat → Prop} {k : Kind} {x : List Nat}
    (h : Wf numOk strOk k x) (E : Bool) : MinifySplits E x := by
  induction h with
  | litNull => exact MinifySplits.token (by decide)
  | litTrue => exact MinifySplits.token (by decide)
  | litFalse => exact MinifySplits.token (by decide)
  | number t ht _ =>
    obtain ⟨_, _, _, _, hall⟩ := ht.shape
    exact MinifySplits.token (fun c hc => floatTable_not_ws (hall c hc))
  | string body hb _ => exact MinifySplits.quoted hb.loose
  | emptyArray w hw =>
    exact MinifySplits.append (MinifySplits.cons (by decide) (by decide) (MinifySplits.ws hw))
      (MinifySplits.token (by decide))
  | array w es hw _ ih =>
    exact MinifySplits.append (MinifySplits.append
      (MinifySplits.cons (by decide) (by decide) (MinifySplits.ws hw)) ih)
      (MinifySplits.token (by decide))
  | emptyObject w hw =>
    exact MinifySplits.append (MinifySplits.cons (by decide) (by decide) (MinifySplits.ws hw))
      (MinifySplits.token (by decide))
  | object w ms hw _ ih =>
    exact MinifySplits.append (MinifySplits.append
      (MinifySplits.cons (by decide) (by decide) (MinifySplits.ws hw)) ih)
      (MinifySplits.token (by decide))
  | lastElement v w _ hw ih => exact MinifySplits.append ih (MinifySplits.ws hw)
  | element v w1 w2 es _ hw1 hw2 _ ihv ihes =>
    have h1 : MinifySplits E (44 :: w2) :=
      MinifySplits.cons (by decide) (by decide) (MinifySplits.ws hw2)
    have := MinifySplits.append (MinifySplits.append (MinifySplits.append ihv
      (MinifySplits.ws hw1)) h1) ihes
    simpa using this
  | lastMember k w1 w2 v w3 hk _ hw1 hw2 _ hw3 ihv =>
    have h1 : MinifySplits E (58 :: w2) :=
      MinifySplits.cons (by decide) (by decide) (MinifySplits.ws hw2)
    have := MinifySplits.append (MinifySplits.append (MinifySplits.append (MinifySplits.append
      (MinifySplits.quoted (E := E) hk.loose) (MinifySplits.ws hw1)) h1) ihv) (MinifySplits.ws hw3)
    simpa using this
  | member k w1 w2 v w3 w4 ms hk _ hw1 hw2 _ hw3 hw4 _ ihv ihms =>
    have h1 : MinifySplits E (58 :: w2) :=
      MinifySplits.cons (by decide) (by decide) (MinifySplits.ws hw2)
    have h2 : MinifySplits E (44 :: w4) :=
      MinifySplits.cons (by decide) (by decide) (MinifySplits.ws hw4)
    have := MinifySplits.append (MinifySplits.append (MinifySplits.append (MinifySplits.append
      (MinifySplits.append (MinifySplits.append
      (MinifySplits.quoted (E := E) hk.loose) (MinifySplits.ws hw1)) h1) ihv)
      (MinifySplits.ws hw3)) h2) ihms
    simpa using this

theorem isWhiteSpace_iff (c : Nat) :
    isWhiteSpace c = true ↔ (c = 32 ∨ c = 9 ∨ c = 10 ∨ c = 13) := by
  simp only [isWhiteSpace, decide_eq_true_eq]; omega

theorem compactValue_skip (src : List Nat) (E : Bool) (w : List Nat) (hw : IsWs w) :
    ∀ (f : Nat) (dst : List Nat) (i : Nat) (y : List Nat), src.drop i = w ++ y →
      compactValue src E (w.length + f) dst i = compactValue src E f dst (i + w.length) := by
  induction w with
  | nil => intro f dst i y _; simp
  | cons c w ih =>
    intro f dst i y hd
    simp only [List.cons_append] at hd
    have e : (c :: w).length + f = (w.length + f) + 1 := by simp; omega
    rw [e, compactValue_succ, byteAt_of_drop hd]
    simp only [if_pos ((isWhiteSpace_iff c).mp hw.head)]
    rw [ih hw.tail f dst (i + 1) y (drop_succ_of_drop hd)]
    simp; congr 1; omega

theorem compactValue_at (src : List Nat) (E : Bool) (f : Nat) (dst : List Nat) (j c : Nat)
    (tl : List Nat) (hd : src.drop j = c :: tl) (hws : isWhiteSpace c = false) :
    compactValue src E (f + 1) dst j =
      if c = 123 then compactObject src E f dst j
      else if c = 125 then .error (.synErr j)
      else if c = 91 then compactArray src E f dst j
      else if c = 93 then .error (.synErr j)
      else if c = 34 then compactString src E f dst j
      else if c = 45 ∨ (48 ≤ c ∧ c ≤ 57) then compactNumber src f dst j
      else if c = 116 then compactTrue src dst j
      else if c = 102 then compactFalse src dst j
      else if c = 110 then compactNull src dst j
      else .error (.synErr j) := by
  have h : ¬ (c = 32 ∨ c = 9 ∨ c = 10 ∨ c = 13) := by
    rw [← isWhiteSpace_iff, hws]; simp
  rw [compactValue_succ, byteAt_of_drop hd]
  simp only [if_neg h]

/-- Skipping a run of whitespace that ends before the byte c. -/
theorem skip_then_byte (src : List Nat) (w : List Nat) (hw : IsWs w) (f j c : Nat)
    (tl : List Nat) (hd : src.drop j = w ++ c :: tl) (hc : isWhiteSpace c = false)
    (hf : w.length + 1 ≤ f) :
    skipWhiteSpace f src j = .ok (j + w.length) ∧ byteAt src (j + w.length) = .ok c ∧
      src.drop (j + w.length + 1) = tl := by
  have h1 := drop_add_of_drop w hd
  exact ⟨skipWhiteSpace_ws src w hw f j c tl hd hc hf, byteAt_of_drop h1, drop_succ_of_drop h1⟩

/-- A value without whitespace before it is enough for CompactSpec. -/
theorem CompactSpec_value_intro (src : List Nat) (E : Bool) (x : List Nat)
    (h : ∀ (f : Nat) (dst : List Nat) (j : Nat) (rest : List Nat), src.drop j = x ++ rest →
      (∃ c tl, rest = c :: tl ∧ floatTable c = false) → 2 * x.length ≤ f →
      compactValue src E f dst j = .ok (dst ++ minifyFrom E .outside x, j + x.length)) :
    CompactSpec src E .value x := by
  intro w fuel dst i rest hw hd hdel hf
  obtain ⟨f, rfl⟩ : ∃ f, fuel = w.length + f := ⟨fuel - w.length, by omega⟩
  rw [compactValue_skip src E w hw f dst i (x ++ rest) (by simpa using hd)]
  rw [h f dst (i + w.length) rest (drop_add_of_drop w (by simpa using hd)) hdel (by omega)]

theorem compactSpec_literal (src : List Nat) (E : Bool) (lit : List Nat) (c : Nat)
    (tl : List Nat) (hlit : lit = c :: tl)
    (htok : ∀ x ∈ lit, isWhiteSpace x = false ∧ x ≠ 34)
    (hcall : ∀ (f : Nat) (dst : List Nat) (j : Nat) (l : List Nat), src.drop j = c :: l →
      compactValue src E (f + 1) dst j = compactLiteral lit src dst j) :
    CompactSpec src E .value lit := by
  apply CompactSpec_value_intro
  intro f dst j rest hd hdel hf
  obtain ⟨c1, tl1, rfl, -⟩ := hdel
  obtain ⟨f1, rfl⟩ : ∃ f1, f = f1 + 1 := ⟨f - 1, by subst hlit; simp at hf; omega⟩
  rw [hcall f1 dst j (tl ++ c1 :: tl1) (by rw [hd, hlit]; simp),
    compactLiteral_ok lit src dst j (c1 :: tl1) (by rw [hlit]; simp) hd (by simp),
    minify_token_nil E lit htok]

theorem compactSpec_number (src : List Nat) (E : Bool) (t : List Nat) (ht : IsNumber t)
    (hok : parseFloatOk t = true) : CompactSpec src E .value t := by
  obtain ⟨x, tl, rfl, hx, hall⟩ := ht.shape
  apply CompactSpec_value_intro
  intro f dst j rest hd hdel hf
  obtain ⟨c1, tl1, rfl, hc1⟩ := hdel
  obtain ⟨f1, rfl⟩ : ∃ f1, f = f1 + 1 := ⟨f - 1, by simp at hf; omega⟩
  have hws : isWhiteSpace x = false := (floatTable_not_ws (hall x (by simp))).1
  rw [compactValue_at src E f1 dst j x (tl ++ c1 :: tl1) (by simpa using hd) hws]
  rw [if_neg (by omega), if_neg (by omega), if_neg (by omega), if_neg (by omega),
    if_neg (by omega), if_pos hx]
  rw [compactNumber_ok src x tl (fun c hc => hall c (by simp [hc])) hok f1 j c1 tl1 dst hd hc1
    (by simp at hf; omega)]
  rw [minify_token_nil E (x :: tl) (fun c hc => floatTable_not_ws (hall c hc))]

theorem compactSpec_string (src : List Nat) (E : Bool) (body : List Nat) (hb : IsStringBody body)
    (hs : StrOkFor E body) : CompactSpec src E .value (34 :: body ++ [34]) := by
  apply CompactSpec_value_intro
  intro f dst j rest hd hdel hf
  obtain ⟨f1, rfl⟩ : ∃ f1, f = f1 + 1 := ⟨f - 1, by simp at hf; omega⟩
  rw [compactValue_at src E f1 dst j 34 (body ++ [34] ++ rest) (by simpa using hd) (by decide)]
  simp only [if_neg (show ¬ (34 = 123) by decide), if_neg (show ¬ (34 = 125) by decide),
    if_neg (show ¬ (34 = 91) by decide), if_neg (show ¬ (34 = 93) by decide), if_true]
  exact compactString_ok src E body hb.loose hs f1 dst j rest hd (by simp at hf; omega)

/-- The shared shape of the empty array and the empty object. -/
theorem compactSpec_emptyArray (src : List Nat) (E : Bool) (w : List Nat) (hw : IsWs w) :
    CompactSpec src E .value (91 :: w ++ [93]) := by
  apply CompactSpec_value_intro
  intro f dst j rest hd hdel hf
  obtain ⟨f2, rfl⟩ : ∃ f2, f = f2 + 1 + 1 := ⟨f - 2, by simp at hf; omega⟩
  have hd0 : src.drop j = 91 :: (w ++ 93 :: rest) := by simpa using hd
  rw [compactValue_at src E (f2 + 1) dst j 91 _ hd0 (by decide)]
  simp only [if_neg (show ¬ (91 = 123) by decide), if_neg (show ¬ (91 = 125) by decide), if_true]
  obtain ⟨h1, h2, h3⟩ := skip_then_byte src w hw f2 (j + 1) 93 rest (drop_succ_of_drop hd0)
    (by decide) (by simp at hf; omega)
  rw [compactArray_succ, byteAt_of_drop hd0]
  simp only [if_neg (show ¬ (91 = 110) by decide), if_true, h1, h2]
  have hm : minifyFrom E .outside (91 :: w ++ [93]) = [91, 93] := by
    have : (91 :: w ++ [93]) = 91 :: (w ++ [93]) := by simp
    rw [this, minify_cons E 91 _ (by decide) (by decide), minify_ws E w hw]
    simp [minifyFrom, isWhiteSpace]
  rw [hm]
  simp
  omega

theorem compactSpec_emptyObject (src : List Nat) (E : Bool) (w : List Nat) (hw : IsWs w) :
    CompactSpec src E .value (123 :: w ++ [125]) := by
  apply CompactSpec_value_intro
  intro f dst j rest hd hdel hf
  obtain ⟨f2, rfl⟩ : ∃ f2, f = f2 + 1 + 1 := ⟨f - 2, by simp at hf; omega⟩
  have hd0 : src.drop j = 123 :: (w ++ 125 :: rest) := by simpa using hd
  rw [compactValue_at src E (f2 + 1) dst j 123 _ hd0 (by decide)]
  simp only [if_true]
  obtain ⟨h1, h2, h3⟩ := skip_then_byte src w hw f2 (j + 1) 125 rest (drop_succ_of_drop hd0)
    (by decide) (by simp at hf; omega)
  rw [compactObject_succ, byteAt_of_drop hd0]
  simp only [if_neg (show ¬ (123 = 110) by decide), if_true, h1, h2]
  have hm : minifyFrom E .outside (123 :: w ++ [125]) = [123, 125] := by
    have : (123 :: w ++ [125]) = 123 :: (w ++ [125]) := by simp
    rw [this, minify_cons E 123 _ (by decide) (by decide), minify_ws E w hw]
    simp [minifyFrom, isWhiteSpace]
  rw [hm]
  simp
  omega

theorem compactSpec_array (src : List Nat) (E : Bool) (w es : List Nat) (hw : IsWs w)
    (hes : ∃ c tl, es = c :: tl ∧ isWhiteSpace c = false ∧ c ≠ 93) (hsp : MinifySplits E es)
    (ih : CompactSpec src E .elements es) : CompactSpec src E .value (91 :: w ++ es ++ [93]) := by
  apply CompactSpec_value_intro
  intro f dst j rest hd hdel hf
  obtain ⟨f2, rfl⟩ : ∃ f2, f = f2 + 1 + 1 := ⟨f - 2, by simp at hf; omega⟩
  obtain ⟨c, tl, rfl, hc1, hc2⟩ := hes
  have hd0 : src.drop j = 91 :: (w ++ c :: (tl ++ 93 :: rest)) := by simpa using hd
  rw [compactValue_at src E (f2 + 1) dst j 91 _ hd0 (by decide)]
  simp only [if_neg (show ¬ (91 = 123) by decide), if_neg (show ¬ (91 = 125) by decide), if_true]
  obtain ⟨h1, h2, h3⟩ := skip_then_byte src w hw f2 (j + 1) c _ (drop_succ_of_drop hd0)
    hc1 (by simp at hf; omega)
  rw [compactArray_succ, byteAt_of_drop hd0]
  simp only [if_neg (show ¬ (91 = 110) by decide), if_true, h1, h2, if_neg hc2]
  have hd1 : src.drop (j + 1 + w.length) = [] ++ (c :: tl) ++ 93 :: rest := by
    have := drop_add_of_drop w (drop_succ_of_drop hd0)
    simpa using this
  have := ih [] f2 (dst ++ [91]) (j + 1 + w.length) rest (fun _ h => by simp at h) hd1
    (by simp at hf ⊢; omega)
  rw [this]
  have hm : minifyFrom E .outside (91 :: w ++ (c :: tl) ++ [93]) =
      91 :: (minifyFrom E .outside (c :: tl) ++ [93]) := by
    have e : (91 :: w ++ (c :: tl) ++ [93]) = 91 :: (w ++ ((c :: tl) ++ [93])) := by simp
    rw [e, minify_cons E 91 _ (by decide) (by decide), minify_ws E w hw, hsp]
    simp [minifyFrom, isWhiteSpace]
  rw [hm]
  simp
  omega

theorem compactSpec_object (src : List Nat) (E : Bool) (w ms : List Nat) (hw : IsWs w)
    (hms : ∃ tl, ms = 34 :: tl) (hsp : MinifySplits E ms)
    (ih : CompactSpec src E .members ms) : CompactSpec src E .value (123 :: w ++ ms ++ [125]) := by
  apply CompactSpec_value_intro
  intro f dst j rest hd hdel hf
  obtain ⟨f2, rfl⟩ : ∃ f2, f = f2 + 1 + 1 := ⟨f - 2, by simp at hf; omega⟩
  obtain ⟨tl, rfl⟩ := hms
  have hd0 : src.drop j = 123 :: (w ++ 34 :: (tl ++ 125 :: rest)) := by simpa using hd
  rw [compactValue_at src E (f2 + 1) dst j 123 _ hd0 (by decide)]
  simp only [if_true]
  obtain ⟨h1, h2, h3⟩ := skip_then_byte src w hw f2 (j + 1) 34 _ (drop_succ_of_drop hd0)
    (by decide) (by simp at hf; omega)
  rw [compactObject_succ, byteAt_of_drop hd0]
  simp only [if_neg (show ¬ (123 = 110) by decide), if_true, h1, h2,
    if_neg (show ¬ (34 = 125) by decide)]
  have hd1 : src.drop (j + 1 + w.length) = [] ++ (34 :: tl) ++ 125 :: rest := by
    have := drop_add_of_drop w (drop_succ_of_drop hd0)
    simpa using this
  have := ih [] f2 (dst ++ [123]) (j + 1 + w.length) rest (fun _ h => by simp at h) hd1
    (by simp at hf ⊢; omega)
  rw [this]
  have hm : minifyFrom E .outside (123 :: w ++ (34 :: tl) ++ [125]) =
      123 :: (minifyFrom E .outside (34 :: tl) ++ [125]) := by
    have e : (123 :: w ++ (34 :: tl) ++ [125]) = 123 :: (w ++ ((34 :: tl) ++ [125])) := by simp
    rw [e, minify_cons E 123 _ (by decide) (by decide), minify_ws E w hw, hsp]
    simp [minifyFrom, isWhiteSpace]
  rw [hm]
  simp
  omega

theorem floatTable_ws_false {c : Nat} (h : isWhiteSpace c = true) : floatTable c = false := by
  rw [isWhiteSpace_iff] at h
  simp only [floatTable, decide_eq_false_iff_not]
  omega

/-- After a run of whitespace and a byte outside floatTable comes a byte
outside floatTable. -/
theorem delim_ws (w : List Nat) (hw : IsWs w) (c : Nat) (tl : List Nat)
    (hc : floatTable c = false) : ∃ c1 tl1, w ++ c :: tl = c1 :: tl1 ∧ floatTable c1 = false := by
  cases w with
  | nil => exact ⟨c, tl, rfl, hc⟩
  | cons x w => exact ⟨x, w ++ c :: tl, rfl, floatTable_ws_false hw.head⟩

theorem compactSpec_lastElement (src : List Nat) (E : Bool) (v w1 : List Nat)
    (hv : CompactSpec src E .value v) (hvne : v ≠ []) (hsp : MinifySplits E v) (hw1 : IsWs w1) :
    CompactSpec src E .elements (v ++ w1) := by
  intro w fuel dst i rest hw hd hf
  obtain ⟨f, rfl⟩ : ∃ f, fuel = f + 1 := ⟨fuel - 1, by omega⟩
  have hvl : 0 < v.length := List.length_pos.mpr hvne
  simp only [List.length_append] at hf
  have hd0 : src.drop i = w ++ v ++ (w1 ++ 93 :: rest) := by simpa using hd
  have h1 := hv w f dst i (w1 ++ 93 :: rest) hw hd0 (delim_ws w1 hw1 93 rest (by decide))
    (by omega)
  have hd1 : src.drop (i + w.length + v.length) = w1 ++ 93 :: rest := by
    have := drop_add_of_drop (w ++ v) hd0
    simpa [Nat.add_assoc] using this
  obtain ⟨h2, h3, h4⟩ := skip_then_byte src w1 hw1 f (i + w.length + v.length) 93 rest hd1
    (by decide) (by omega)
  rw [compactArrayLoop_succ, h1]
  simp only [h2, h3, if_true]
  rw [hsp, minify_ws_nil E w1 hw1]
  simp
  omega

theorem compactSpec_element (src : List Nat) (E : Bool) (v w1 w2 es : List Nat)
    (hv : CompactSpec src E .value v) (hvne : v ≠ []) (hsp : MinifySplits E v) (hw1 : IsWs w1)
    (hw2 : IsWs w2) (hes : CompactSpec src E .elements es) :
    CompactSpec src E .elements (v ++ w1 ++ 44 :: w2 ++ es) := by
  intro w fuel dst i rest hw hd hf
  obtain ⟨f, rfl⟩ : ∃ f, fuel = f + 1 := ⟨fuel - 1, by omega⟩
  have hvl : 0 < v.length := List.length_pos.mpr hvne
  simp only [List.length_append, List.length_cons] at hf
  have hd0 : src.drop i = w ++ v ++ (w1 ++ 44 :: (w2 ++ es ++ 93 :: rest)) := by simpa using hd
  have h1 := hv w f dst i _ hw hd0 (delim_ws w1 hw1 44 _ (by decide)) (by omega)
  have hd1 : src.drop (i + w.length + v.length) = w1 ++ 44 :: (w2 ++ es ++ 93 :: rest) := by
    have := drop_add_of_drop (w ++ v) hd0
    simpa [Nat.add_assoc] using this
  obtain ⟨h2, h3, h4⟩ := skip_then_byte src w1 hw1 f (i + w.length + v.length) 44 _ hd1
    (by decide) (by omega)
  have h5 := hes w2 f (dst ++ minifyFrom E .outside v ++ [44])
    (i + w.length + v.length + w1.length + 1) rest hw2 h4 (by omega)
  rw [compactArrayLoop_succ, h1]
  simp only [h2, h3, if_neg (show ¬ (44 = 93) by decide), if_true, h5]
  have hm : minifyFrom E .outside (v ++ w1 ++ 44 :: w2 ++ es) =
      minifyFrom E .outside v ++ 44 :: minifyFrom E .outside es := by
    have e : v ++ w1 ++ 44 :: w2 ++ es = v ++ (w1 ++ 44 :: (w2 ++ es)) := by simp
    rw [e, hsp, minify_ws E w1 hw1, minify_cons E 44 _ (by decide) (by decide),
      minify_ws E w2 hw2]
  rw [hm]
  simp
  omega

/-- One round of the loop of compactObject: the key, the colon and the value
are written, and the byte c after the value decides how the loop goes on. -/
theorem compactObjectLoop_member (src : List Nat) (E : Bool) (k w1 w2 v : List Nat)
    (hk : IsStringBody k) (hks : StrOkFor E k) (hw1 : IsWs w1) (hw2 : IsWs w2)
    (hv : CompactSpec src E .value v) (hvne : v ≠ []) (hsp : MinifySplits E v)
    (w : List Nat) (f : Nat) (dst : List Nat) (i : Nat) (c : Nat) (w3 tl : List Nat) (hw : IsWs w)
    (hw3 : IsWs w3) (hc : isWhiteSpace c = false) (hcf : floatTable c = false)
    (hd : src.drop i = w ++ (34 :: k ++ 34 :: w1 ++ 58 :: w2 ++ v ++ w3) ++ c :: tl)
    (hf : w.length + 2 * (34 :: k ++ 34 :: w1 ++ 58 :: w2 ++ v ++ w3).length ≤ f) :
    compactObjectLoop src E (f + 1) dst i =
      (if c = 125 then
        .ok (dst ++ minifyFrom E .outside (34 :: k ++ 34 :: w1 ++ 58 :: w2 ++ v ++ w3) ++ [125],
          i + w.length + (34 :: k ++ 34 :: w1 ++ 58 :: w2 ++ v ++ w3).length + 1)
      else if c = 44 then
        compactObjectLoop src E f
          (dst ++ minifyFrom E .outside (34 :: k ++ 34 :: w1 ++ 58 :: w2 ++ v ++ w3) ++ [44])
          (i + w.length + (34 :: k ++ 34 :: w1 ++ 58 :: w2 ++ v ++ w3).length + 1)
      else
        .error (.expected
          (i + w.length + (34 :: k ++ 34 :: w1 ++ 58 :: w2 ++ v ++ w3).length))) ∧
      src.drop (i + w.length + (34 :: k ++ 34 :: w1 ++ 58 :: w2 ++ v ++ w3).length + 1) = tl := by
  have hvl : 0 < v.length := List.length_pos.mpr hvne
  simp only [List.length_append, List.length_cons] at hf
  -- the key
  have hd0 : src.drop i = w ++ 34 :: (k ++ 34 :: (w1 ++ 58 :: (w2 ++ v ++ (w3 ++ c :: tl)))) := by
    simpa using hd
  obtain ⟨s1, s2, s3⟩ := skip_then_byte src w hw f i 34 _ hd0 (by decide) (by omega)
  have hdk : src.drop (i + w.length) =
      (34 :: k ++ [34]) ++ (w1 ++ 58 :: (w2 ++ v ++ (w3 ++ c :: tl))) := by
    have := drop_add_of_drop w hd0
    simpa using this
  have hkey := compactString_ok src E k hk.loose hks f dst (i + w.length) _ hdk (by omega)
  -- the colon
  have hd2 : src.drop (i + w.length + (34 :: k ++ [34]).length) =
      w1 ++ 58 :: (w2 ++ v ++ (w3 ++ c :: tl)) := drop_add_of_drop _ hdk
  obtain ⟨c1, c2, c3⟩ := skip_then_byte src w1 hw1 f _ 58 _ hd2 (by decide) (by omega)
  -- the value
  have hval := hv w2 f (dst ++ minifyFrom E .outside (34 :: k ++ [34]) ++ [58])
    (i + w.length + (34 :: k ++ [34]).length + w1.length + 1) (w3 ++ c :: tl) hw2 c3
    (delim_ws w3 hw3 c tl hcf) (by omega)
  have hd4 : src.drop (i + w.length + (34 :: k ++ [34]).length + w1.length + 1 + w2.length +
      v.length) = w3 ++ c :: tl := by
    have := drop_add_of_drop (w2 ++ v) c3
    simpa [Nat.add_assoc] using this
  obtain ⟨v1, v2, v3⟩ := skip_then_byte src w3 hw3 f _ c tl hd4 hc (by omega)
  have hm : minifyFrom E .outside (34 :: k ++ 34 :: w1 ++ 58 :: w2 ++ v ++ w3) =
      minifyFrom E .outside (34 :: k ++ [34]) ++ 58 :: minifyFrom E .outside v := by
    have e : (34 :: k ++ 34 :: w1 ++ 58 :: w2 ++ v ++ w3) =
        (34 :: k ++ [34]) ++ (w1 ++ 58 :: (w2 ++ (v ++ w3))) := by simp
    rw [e, MinifySplits.quoted hk.loose, minify_ws E w1 hw1,
      minify_cons E 58 _ (by decide) (by decide), minify_ws E w2 hw2, hsp,
      minify_ws_nil E w3 hw3]
    simp
  have hlen : i + w.length + (34 :: k ++ 34 :: w1 ++ 58 :: w2 ++ v ++ w3).length =
      i + w.length + (34 :: k ++ [34]).length + w1.length + 1 + w2.length + v.length +
        w3.length := by
    simp only [List.length_append, List.length_cons, List.length_nil]; omega
  constructor
  · rw [compactObjectLoop_succ, s1]
    simp only [hkey, c1, c2, if_neg (show ¬ (58 ≠ 58) by decide), hval, v1, v2, hm, hlen]
    simp only [List.append_assoc, List.singleton_append, List.cons_append, List.nil_append]
  · rw [hlen]; exact v3

theorem compactSpec_lastMember (src : List Nat) (E : Bool) (k w1 w2 v w3 : List Nat)
    (hk : IsStringBody k) (hks : StrOkFor E k) (hw1 : IsWs w1) (hw2 : IsWs w2)
    (hv : CompactSpec src E .value v) (hvne : v ≠ []) (hsp : MinifySplits E v) (hw3 : IsWs w3) :
    CompactSpec src E .members (34 :: k ++ 34 :: w1 ++ 58 :: w2 ++ v ++ w3) := by
  intro w fuel dst i rest hw hd hf
  obtain ⟨f, rfl⟩ : ∃ f, fuel = f + 1 := ⟨fuel - 1, by omega⟩
  have := (compactObjectLoop_member src E k w1 w2 v hk hks hw1 hw2 hv hvne hsp w f dst i 125 w3
    rest hw hw3 (by decide) (by decide) hd (by omega)).1
  rw [this, if_pos rfl]

theorem compactSpec_member (src : List Nat) (E : Bool) (k w1 w2 v w3 w4 ms : List Nat)
    (hk : IsStringBody k) (hks : StrOkFor E k) (hw1 : IsWs w1) (hw2 : IsWs w2)
    (hv : CompactSpec src E .value v) (hvne : v ≠ []) (hsp : MinifySplits E v) (hw3 : IsWs w3)
    (hw4 : IsWs w4) (hms : CompactSpec src E .members ms) :
    CompactSpec src E .members (34 :: k ++ 34 :: w1 ++ 58 :: w2 ++ v ++ w3 ++ 44 :: w4 ++ ms) := by
  intro w fuel dst i rest hw hd hf
  obtain ⟨f, rfl⟩ : ∃ f, fuel = f + 1 := ⟨fuel - 1, by omega⟩
  have hd0 : src.drop i = w ++ (34 :: k ++ 34 :: w1 ++ 58 :: w2 ++ v ++ w3) ++
      44 :: (w4 ++ ms ++ 125 :: rest) := by simpa using hd
  have hlen : (34 :: k ++ 34 :: w1 ++ 58 :: w2 ++ v ++ w3 ++ 44 :: w4 ++ ms).length =
      (34 :: k ++ 34 :: w1 ++ 58 :: w2 ++ v ++ w3).length + 1 + w4.length + ms.length := by
    simp only [List.length_append, List.length_cons]; omega
  rw [hlen] at hf
  obtain ⟨h1, h2⟩ := compactObjectLoop_member src E k w1 w2 v hk hks hw1 hw2 hv hvne hsp w f dst
    i 44 w3 _ hw hw3 (by decide) (by decide) hd0 (by omega)
  have h3 := hms w4 f
    (dst ++ minifyFrom E .outside (34 :: k ++ 34 :: w1 ++ 58 :: w2 ++ v ++ w3) ++ [44])
    _ rest hw4 h2 (by omega)
  rw [h1, if_neg (show ¬ (44 = 125) by decide), if_pos rfl, h3]
  have hkl : LooseBody k := hk.loose
  have hm : minifyFrom E .outside (34 :: k ++ 34 :: w1 ++ 58 :: w2 ++ v ++ w3 ++ 44 :: w4 ++ ms) =
      minifyFrom E .outside (34 :: k ++ 34 :: w1 ++ 58 :: w2 ++ v ++ w3) ++
        44 :: minifyFrom E .outside ms := by
    have hs1 : MinifySplits E (34 :: k ++ 34 :: w1 ++ 58 :: w2 ++ v ++ w3) := by
      have h58 : MinifySplits E (58 :: w2) :=
        MinifySplits.cons (by decide) (by decide) (MinifySplits.ws hw2)
      have := MinifySplits.append (MinifySplits.append (MinifySplits.append (MinifySplits.append
        (MinifySplits.quoted (E := E) hkl) (MinifySplits.ws hw1)) h58) hsp) (MinifySplits.ws hw3)
      simpa using this
    have e : (34 :: k ++ 34 :: w1 ++ 58 :: w2 ++ v ++ w3 ++ 44 :: w4 ++ ms) =
        (34 :: k ++ 34 :: w1 ++ 58 :: w2 ++ v ++ w3) ++ (44 :: (w4 ++ ms)) := by simp
    rw [e, hs1, minify_cons E 44 _ (by decide) (by decide), minify_ws E w4 hw4]
  rw [hm, hlen]
  simp
  omega

/-- The recursive functions of Compact meet CompactSpec on every text of the
grammar whose number tokens strconv.ParseFloat accepts and whose string
literals pass the escape block unchanged but for the HTML bytes. -/
theorem compactSpec_of_wf (src : List Nat) (E : Bool) {k : Kind} {x : List Nat}
    (h : Wf (fun t => parseFloatOk t = true) (StrOkFor E) k x) : CompactSpec src E k x := by
  induction h with
  | litNull =>
    exact compactSpec_literal src E _ 110 [117, 108, 108] rfl (by decide) (fun f dst j l hd => by
      rw [compactValue_at src E f dst j 110 l hd (by decide)]; rfl)
  | litTrue =>
    exact compactSpec_literal src E _ 116 [114, 117, 101] rfl (by decide) (fun f dst j l hd => by
      rw [compactValue_at src E f dst j 116 l hd (by decide)]; rfl)
  | litFalse =>
    exact compactSpec_literal src E _ 102 [97, 108, 115, 101] rfl (by decide)
      (fun f dst j l hd => by
        rw [compactValue_at src E f dst j 102 l hd (by decide)]; rfl)
  | number t ht hok => exact compactSpec_number src E t ht hok
  | string body hb hs => exact compactSpec_string src E body hb hs
  | emptyArray w hw => exact compactSpec_emptyArray src E w hw
  | array w es hw hes ih =>
    exact compactSpec_array src E w es hw hes.elements_head (hes.minifySplits E) ih
  | emptyObject w hw => exact compactSpec_emptyObject src E w hw
  | object w ms hw hms ih =>
    exact compactSpec_object src E w ms hw hms.members_head (hms.minifySplits E) ih
  | lastElement v w hv hw ih =>
    obtain ⟨c, tl, rfl, -⟩ := hv.value_head
    exact compactSpec_lastElement src E _ w ih (by simp) (hv.minifySplits E) hw
  | element v w1 w2 es hv hw1 hw2 _ ihv ihes =>
    obtain ⟨c, tl, rfl, -⟩ := hv.value_head
    exact compactSpec_element src E _ w1 w2 es ihv (by simp) (hv.minifySplits E) hw1 hw2 ihes
  | lastMember k w1 w2 v w3 hk hks hw1 hw2 hv hw3 ihv =>
    obtain ⟨c, tl, rfl, -⟩ := hv.value_head
    exact compactSpec_lastMember src E k w1 w2 _ w3 hk hks hw1 hw2 ihv (by simp)
      (hv.minifySplits E) hw3
  | member k w1 w2 v w3 w4 ms hk hks hw1 hw2 hv hw3 hw4 _ ihv ihms =>
    obtain ⟨c, tl, rfl, -⟩ := hv.value_head
    exact compactSpec_member src E k w1 w2 _ w3 w4 ms hk hks hw1 hw2 ihv (by simp)
      (hv.minifySplits E) hw3 hw4 ihms

/-- Compact on a JSON text whose number tokens strconv.ParseFloat accepts and
whose string literals pass the escape block unchanged but for the HTML bytes:
it succeeds with the expected output. -/
theorem Compact_of_text (src : List Nat) (E : Bool)
    (h : IsJsonText (fun t => parseFloatOk t = true) (StrOkFor E) src) :
    Compact src E = .ok (minify E src) := by
  obtain ⟨w1, v, w2, hw1, hv, hw2, rfl⟩ := h
  obtain ⟨c, tl, hvc, -⟩ := hv.value_head
  have hne : (w1 ++ v ++ w2).length ≠ 0 := by subst hvc; simp
  have hspec := compactSpec_of_wf (w1 ++ v ++ w2 ++ [0]) E hv
  have hrun := hspec w1 (3 * (w1 ++ v ++ w2).length + 4) [] 0 (w2 ++ [0]) hw1 (by simp)
    (delim_ws w2 hw2 0 [] (by decide)) (by simp only [List.length_append]; omega)
  have hm : minify E (w1 ++ v ++ w2) = minifyFrom E .outside v := by
    rw [minify, List.append_assoc, minify_ws E w1 hw1, hv.minifySplits E, minify_ws_nil E w2 hw2]
    simp
  simp only [Compact, if_neg hne, compact, hrun, hm]
  simp

theorem Wf.mono {numOk strOk numOk1 strOk1 : List Nat → Prop} {k : Kind} {x : List Nat}
    (h : Wf numOk strOk k x) (hn : ∀ t, numOk t → numOk1 t) (hs : ∀ b, strOk b → strOk1 b) :
    Wf numOk1 strOk1 k x := by
  induction h with
  | litNull => exact .litNull
  | litTrue => exact .litTrue
  | litFalse => exact .litFalse
  | number t ht hok => exact .number t ht (hn t hok)
  | string body hb hok => exact .string body hb (hs body hok)
  | emptyArray w hw => exact .emptyArray w hw
  | array w es hw _ ih => exact .array w es hw ih
  | emptyObject w hw => exact .emptyObject w hw
  | object w ms hw _ ih => exact .object w ms hw ih
  | lastElement v w _ hw ih => exact .lastElement v w ih hw
  | element v w1 w2 es _ hw1 hw2 _ ihv ihes => exact .element v w1 w2 es ihv hw1 hw2 ihes
  | lastMember k w1 w2 v w3 hk hks hw1 hw2 _ hw3 ihv =>
    exact .lastMember k w1 w2 v w3 hk (hs k hks) hw1 hw2 ihv hw3
  | member k w1 w2 v w3 w4 ms hk hks hw1 hw2 _ hw3 hw4 _ ihv ihms =>
    exact .member k w1 w2 v w3 w4 ms hk (hs k hks) hw1 hw2 ihv hw3 hw4 ihms

theorem IsJsonText.weaken {numOk strOk numOk1 strOk1 : List Nat → Prop} {src : List Nat}
    (h : IsJsonText numOk strOk src) (hn : ∀ t, numOk t → numOk1 t)
    (hs : ∀ b, strOk b → strOk1 b) : IsJsonText numOk1 strOk1 src := by
  obtain ⟨w1, v, w2, hw1, hv, hw2, rfl⟩ := h
  exact ⟨w1, v, w2, hw1, hv.mono hn hs, hw2, rfl⟩

theorem IsNumber.digit (d : Nat) (hd : 48 ≤ d ∧ d ≤ 57) : IsNumber [d] :=
  IsNumber.mk [] [d] [] [] (Or.inl rfl) (by intro c hc; simp at hc; omega) (by simp)
    (by intro h; simp at h; simp [h]) (Or.inl rfl) (Or.inl rfl)

theorem IsStringBody.ofPlain (body : List Nat)
    (h : ∀ c ∈ body, 32 ≤ c ∧ c ≠ 34 ∧ c ≠ 92) : IsStringBody body := by
  induction body with
  | nil => exact .nil
  | cons c tl ih =>
    obtain ⟨h1, h2, h3⟩ := h c (by simp)
    exact .plain c tl h1 h2 h3 (ih (fun x hx => h x (by simp [hx])))

/-- The text 1e999 is a JSON number. -/
theorem isNumber_1e999 : IsNumber [49, 101, 57, 57, 57] :=
  IsNumber.mk [] [49] [] [101, 57, 57, 57] (Or.inl rfl) (by decide) (by decide) (by decide)
    (Or.inl rfl) (Or.inr ⟨101, [], [57, 57, 57], Or.inl rfl, Or.inl rfl, by decide, by decide, rfl⟩)

/-- The example of the specification, with blanks around every token, is a
JSON text; numOk has to hold of the token 1 only. -/
theorem exampleText_isJsonText (numOk strOk : List Nat → Prop) (h1 : numOk [49])
    (ha : strOk [97]) (hb : strOk [98]) :
    IsJsonText numOk strOk
      [123, 32, 34, 97, 34, 32, 58, 32, 49, 32, 44, 32, 34, 98, 34, 32, 58, 32, 91, 32,
        116, 114, 117, 101, 32, 44, 32, 110, 117, 108, 108, 32, 93, 32, 125] := by
  have ws : IsWs [32] := by decide
  have es : Wf numOk strOk .elements
      ([116, 114, 117, 101] ++ [32] ++ 44 :: [32] ++ ([110, 117, 108, 108] ++ [32])) :=
    .element _ _ _ _ .litTrue ws ws (.lastElement _ _ .litNull ws)
  have arr := Wf.array [32] _ ws es
  have m2 : Wf numOk strOk .members (34 :: [98] ++ 34 :: [32] ++ 58 :: [32] ++ _ ++ [32]) :=
    .lastMember [98] [32] [32] _ [32] (.ofPlain _ (by decide)) hb ws ws arr ws
  have m1 := Wf.member [97] [32] [32] [49] [32] [32] _ (.ofPlain _ (by decide)) ha ws ws
    (.number [49] (.digit 49 (by decide)) h1) ws ws m2
  exact ⟨[], _, [], by decide, Wf.object [32] _ ws m1, by decide, rfl⟩

/-! ## Theorems: Compact on text that breaks off where a value is due -/

theorem Broken.head_byte {numOk strOk : List Nat → Prop} {k : Kind} {x : List Nat}
    (h : Broken numOk strOk k x) :
    ∃ c tl, x = c :: tl ∧ isWhiteSpace c = false ∧ c ≠ 125 ∧ c ≠ 93 := by
  induction h with
  | key k w1 w2 => exact ⟨34, _, rfl, by decide, by decide, by decide⟩
  | inMember k w1 w2 v => exact ⟨34, _, rfl, by decide, by decide, by decide⟩
  | afterMember k w1 w2 v w3 w4 ms => exact ⟨34, _, rfl, by decide, by decide, by decide⟩
  | object w ms => exact ⟨123, _, rfl, by decide, by decide, by decide⟩
  | array w es => exact ⟨91, _, rfl, by decide, by decide, by decide⟩
  | inElement v _ ih => exact ih
  | afterElement v w1 w2 es hv _ _ _ _ =>
    obtain ⟨c, tl, rfl, hc1, hc2, hc3, _⟩ := hv.value_head
    exact ⟨c, _, rfl, hc1, hc3, hc2⟩

theorem brokenSpec_key (src : List Nat) (E : Bool) (k w1 w2 : List Nat)
    (hk : IsStringBody k) (hks : StrOkFor E k) (hw1 : IsWs w1) (hw2 : IsWs w2) :
    BrokenSpec src E .members (34 :: k ++ 34 :: w1 ++ 58 :: w2) := by
  intro w fuel dst i rest hw hd hf
  obtain ⟨f, rfl⟩ : ∃ f, fuel = f + 1 := ⟨fuel - 1, by omega⟩
  simp only [List.length_append, List.length_cons] at hf
  have hd0 : src.drop i = w ++ 34 :: (k ++ 34 :: (w1 ++ 58 :: (w2 ++ 125 :: rest))) := by
    simpa using hd
  obtain ⟨s1, s2, s3⟩ := skip_then_byte src w hw f i 34 _ hd0 (by decide) (by omega)
  have hdk : src.drop (i + w.length) = (34 :: k ++ [34]) ++ (w1 ++ 58 :: (w2 ++ 125 :: rest)) := by
    have := drop_add_of_drop w hd0
    simpa using this
  have hkey := compactString_ok src E k hk.loose hks f dst (i + w.length) _ hdk (by omega)
  have hd2 : src.drop (i + w.length + (34 :: k ++ [34]).length) =
      w1 ++ 58 :: (w2 ++ 125 :: rest) := drop_add_of_drop _ hdk
  obtain ⟨c1, c2, c3⟩ := skip_then_byte src w1 hw1 f _ 58 _ hd2 (by decide) (by omega)
  obtain ⟨f1, hf1⟩ : ∃ f1, f = w2.length + (f1 + 1) := ⟨f - w2.length - 1, by omega⟩
  have hval : compactValue src E f (dst ++ minifyFrom E .outside (34 :: k ++ [34]) ++ [58])
      (i + w.length + (34 :: k ++ [34]).length + w1.length + 1) =
      .error (.synErr (i + w.length + (34 :: k ++ [34]).length + w1.length + 1 + w2.length)) := by
    rw [hf1, compactValue_skip src E w2 hw2 (f1 + 1) _ _ (125 :: rest) c3,
      compactValue_at src E f1 _ _ 125 rest (drop_add_of_drop w2 c3) (by decide)]
    simp
  rw [compactObjectLoop_succ, s1]
  simp only [hkey, c1, c2, if_neg (show ¬ (58 ≠ 58) by decide), hval]
  congr 2
  simp only [List.length_append, List.length_cons, List.length_nil]
  omega

theorem brokenSpec_inMember (src : List Nat) (E : Bool) (k w1 w2 v : List Nat)
    (hk : IsStringBody k) (hks : StrOkFor E k) (hw1 : IsWs w1) (hw2 : IsWs w2)
    (hv : BrokenSpec src E .value v) :
    BrokenSpec src E .members (34 :: k ++ 34 :: w1 ++ 58 :: w2 ++ v) := by
  intro w fuel dst i rest hw hd hf
  obtain ⟨f, rfl⟩ : ∃ f, fuel = f + 1 := ⟨fuel - 1, by omega⟩
  simp only [List.length_append, List.length_cons] at hf
  have hd0 : src.drop i = w ++ 34 :: (k ++ 34 :: (w1 ++ 58 :: (w2 ++ v ++ 125 :: rest))) := by
    simpa using hd
  obtain ⟨s1, s2, s3⟩ := skip_then_byte src w hw f i 34 _ hd0 (by decide) (by omega)
  have hdk : src.drop (i + w.length) =
      (34 :: k ++ [34]) ++ (w1 ++ 58 :: (w2 ++ v ++ 125 :: rest)) := by
    have := drop_add_of_drop w hd0
    simpa using this
  have hkey := compactString_ok src E k hk.loose hks f dst (i + w.length) _ hdk (by omega)
  have hd2 : src.drop (i + w.length + (34 :: k ++ [34]).length) =
      w1 ++ 58 :: (w2 ++ v ++ 125 :: rest) := drop_add_of_drop _ hdk
  obtain ⟨c1, c2, c3⟩ := skip_then_byte src w1 hw1 f _ 58 _ hd2 (by decide) (by omega)
  have hval := hv w2 f (dst ++ minifyFrom E .outside (34 :: k ++ [34]) ++ [58])
    (i + w.length + (34 :: k ++ [34]).length + w1.length + 1) rest hw2 c3 (by omega)
  rw [compactObjectLoop_succ, s1]
  simp only [hkey, c1, c2, if_neg (show ¬ (58 ≠ 58) by decide), hval]
  congr 2
  simp only [List.length_append, List.length_cons, List.length_nil]
  omega

theorem brokenSpec_afterMember (src : List Nat) (E : Bool) (k w1 w2 v w3 w4 ms : List Nat)
    (hk : IsStringBody k) (hks : StrOkFor E k) (hw1 : IsWs w1) (hw2 : IsWs w2)
    (hv : CompactSpec src E .value v) (hvne : v ≠ []) (hsp : MinifySplits E v) (hw3 : IsWs w3)
    (hw4 : IsWs w4) (hms : BrokenSpec src E .members ms) :
    BrokenSpec src E .members (34 :: k ++ 34 :: w1 ++ 58 :: w2 ++ v ++ w3 ++ 44 :: w4 ++ ms) := by
  intro w fuel dst i rest hw hd hf
  obtain ⟨f, rfl⟩ : ∃ f, fuel = f + 1 := ⟨fuel - 1, by omega⟩
  have hd0 : src.drop i = w ++ (34 :: k ++ 34 :: w1 ++ 58 :: w2 ++ v ++ w3) ++
      44 :: (w4 ++ ms ++ 125 :: rest) := by simpa using hd
  have hlen : (34 :: k ++ 34 :: w1 ++ 58 :: w2 ++ v ++ w3 ++ 44 :: w4 ++ ms).length =
      (34 :: k ++ 34 :: w1 ++ 58 :: w2 ++ v ++ w3).length + 1 + w4.length + ms.length := by
    simp only [List.length_append, List.length_cons]; omega
  rw [hlen] at hf ⊢
  obtain ⟨h1, h2⟩ := compactObjectLoop_member src E k w1 w2 v hk hks hw1 hw2 hv hvne hsp w f dst
    i 44 w3 _ hw hw3 (by decide) (by decide) hd0 (by omega)
  have h3 := hms w4 f
    (dst ++ minifyFrom E .outside (34 :: k ++ 34 :: w1 ++ 58 :: w2 ++ v ++ w3) ++ [44])
    _ rest hw4 h2 (by omega)
  rw [h1, if_neg (show ¬ (44 = 125) by decide), if_pos rfl, h3]
  congr 2
  omega

theorem brokenSpec_object (src : List Nat) (E : Bool) (w ms : List Nat) (hw : IsWs w)
    (hhead : ∃ c tl, ms = c :: tl ∧ isWhiteSpace c = false ∧ c ≠ 125 ∧ c ≠ 93)
    (ih : BrokenSpec src E .members ms) : BrokenSpec src E .value (123 :: w ++ ms) := by
  intro w0 fuel dst i rest hw0 hd hf
  simp only [List.length_append, List.length_cons] at hf
  obtain ⟨f2, rfl⟩ : ∃ f2, fuel = w0.length + (f2 + 1 + 1) := ⟨fuel - w0.length - 2, by omega⟩
  obtain ⟨c, tl, rfl, hc, hc125, -⟩ := hhead
  have hd0 : src.drop i = w0 ++ 123 :: (w ++ c :: (tl ++ 125 :: rest)) := by simpa using hd
  have hd1 : src.drop (i + w0.length) = 123 :: (w ++ c :: (tl ++ 125 :: rest)) :=
    drop_add_of_drop w0 hd0
  rw [compactValue_skip src E w0 hw0 (f2 + 1 + 1) dst i _ hd0,
    compactValue_at src E (f2 + 1) dst _ 123 _ hd1 (by decide)]
  simp only [if_true]
  obtain ⟨h1, h2, h3⟩ := skip_then_byte src w hw f2 (i + w0.length + 1) c _
    (drop_succ_of_drop hd1) hc (by simp only [List.length_cons] at hf; omega)
  rw [compactObject_succ, byteAt_of_drop hd1]
  simp only [if_neg (show ¬ (123 = 110) by decide), if_true, h1, h2, if_neg hc125]
  have hd2 : src.drop (i + w0.length + 1 + w.length) = [] ++ (c :: tl) ++ 125 :: rest := by
    have := drop_add_of_drop w (drop_succ_of_drop hd1)
    simpa using this
  have := ih [] f2 (dst ++ [123]) (i + w0.length + 1 + w.length) rest (fun _ h => by simp at h) hd2
    (by simp only [List.length_cons, List.length_nil] at hf ⊢; omega)
  rw [this]
  congr 2
  simp only [List.length_append, List.length_cons, List.length_nil]
  omega

theorem brokenSpec_array (src : List Nat) (E : Bool) (w es : List Nat) (hw : IsWs w)
    (hhead : ∃ c tl, es = c :: tl ∧ isWhiteSpace c = false ∧ c ≠ 125 ∧ c ≠ 93)
    (ih : BrokenSpec src E .elements es) : BrokenSpec src E .value (91 :: w ++ es) := by
  intro w0 fuel dst i rest hw0 hd hf
  simp only [List.length_append, List.length_cons] at hf
  obtain ⟨f2, rfl⟩ : ∃ f2, fuel = w0.length + (f2 + 1 + 1) := ⟨fuel - w0.length - 2, by omega⟩
  obtain ⟨c, tl, rfl, hc, -, hc93⟩ := hhead
  have hd0 : src.drop i = w0 ++ 91 :: (w ++ c :: (tl ++ 125 :: rest)) := by simpa using hd
  have hd1 : src.drop (i + w0.length) = 91 :: (w ++ c :: (tl ++ 125 :: rest)) :=
    drop_add_of_drop w0 hd0
  rw [compactValue_skip src E w0 hw0 (f2 + 1 + 1) dst i _ hd0,
    compactValue_at src E (f2 + 1) dst _ 91 _ hd1 (by decide)]
  simp only [if_neg (show ¬ (91 = 123) by decide), if_neg (show ¬ (91 = 125) by decide), if_true]
  obtain ⟨h1, h2, h3⟩ := skip_then_byte src w hw f2 (i + w0.length + 1) c _
    (drop_succ_of_drop hd1) hc (by simp only [List.length_cons] at hf; omega)
  rw [compactArray_succ, byteAt_of_drop hd1]
  simp only [if_neg (show ¬ (91 = 110) by decide), if_true, h1, h2, if_neg hc93]
  have hd2 : src.drop (i + w0.length + 1 + w.length) = [] ++ (c :: tl) ++ 125 :: rest := by
    have := drop_add_of_drop w (drop_succ_of_drop hd1)
    simpa using this
  have := ih [] f2 (dst ++ [91]) (i + w0.length + 1 + w.length) rest (fun _ h => by simp at h) hd2
    (by simp only [List.length_cons, List.length_nil] at hf ⊢; omega)
  rw [this]
  congr 2
  simp only [List.length_append, List.length_cons, List.length_nil]
  omega

theorem brokenSpec_inElement (src : List Nat) (E : Bool) (v : List Nat)
    (hv : BrokenSpec src E .value v) : BrokenSpec src E .elements v := by
  intro w fuel dst i rest hw hd hf
  obtain ⟨f, rfl⟩ : ∃ f, fuel = f + 1 := ⟨fuel - 1, by omega⟩
  rw [compactArrayLoop_succ, hv w f dst i rest hw hd (by omega)]

theorem brokenSpec_afterElement (src : List Nat) (E : Bool) (v w1 w2 es : List Nat)
    (hv : CompactSpec src E .value v) (hvne : v ≠ []) (hw1 : IsWs w1) (hw2 : IsWs w2)
    (hes : BrokenSpec src E .elements es) :
    BrokenSpec src E .elements (v ++ w1 ++ 44 :: w2 ++ es) := by
  intro w fuel dst i rest hw hd hf
  obtain ⟨f, rfl⟩ : ∃ f, fuel = f + 1 := ⟨fuel - 1, by omega⟩
  have hvl : 0 < v.length := List.length_pos.mpr hvne
  simp only [List.length_append, List.length_cons] at hf
  have hd0 : src.drop i = w ++ v ++ (w1 ++ 44 :: (w2 ++ es ++ 125 :: rest)) := by simpa using hd
  have h1 := hv w f dst i _ hw hd0 (delim_ws w1 hw1 44 _ (by decide)) (by omega)
  have hd1 : src.drop (i + w.length + v.length) = w1 ++ 44 :: (w2 ++ es ++ 125 :: rest) := by
    have := drop_add_of_drop (w ++ v) hd0
    simpa [Nat.add_assoc] using this
  obtain ⟨h2, h3, h4⟩ := skip_then_byte src w1 hw1 f (i + w.length + v.length) 44 _ hd1
    (by decide) (by omega)
  have h5 := hes w2 f (dst ++ minifyFrom E .outside v ++ [44])
    (i + w.length + v.length + w1.length + 1) rest hw2 h4 (by omega)
  rw [compactArrayLoop_succ, h1]
  simp only [h2, h3, if_neg (show ¬ (44 = 93) by decide), if_true, h5]
  congr 2
  simp only [List.length_append, List.length_cons]
  omega

theorem brokenSpec_of_broken (src : List Nat) (E : Bool) {k : Kind} {x : List Nat}
    (h : Broken (fun t => parseFloatOk t = true) (StrOkFor E) k x) : BrokenSpec src E k x := by
  induction h with
  | key k w1 w2 hk hks hw1 hw2 => exact brokenSpec_key src E k w1 w2 hk hks hw1 hw2
  | inMember k w1 w2 v hk hks hw1 hw2 _ ih =>
    exact brokenSpec_inMember src E k w1 w2 v hk hks hw1 hw2 ih
  | afterMember k w1 w2 v w3 w4 ms hk hks hw1 hw2 hv hw3 hw4 _ ih =>
    obtain ⟨c, tl, hvc, -⟩ := hv.value_head
    exact brokenSpec_afterMember src E k w1 w2 v w3 w4 ms hk hks hw1 hw2
      (compactSpec_of_wf src E hv) (by rw [hvc]; simp) (hv.minifySplits E) hw3 hw4 ih
  | object w ms hw hms ih => exact brokenSpec_object src E w ms hw hms.head_byte ih
  | array w es hw hes ih => exact brokenSpec_array src E w es hw hes.head_byte ih
  | inElement v _ ih => exact brokenSpec_inElement src E v ih
  | afterElement v w1 w2 es hv hw1 hw2 _ ih =>
    obtain ⟨c, tl, hvc, -⟩ := hv.value_head
    exact brokenSpec_afterElement src E v w1 w2 es (compactSpec_of_wf src E hv)
      (by rw [hvc]; simp) hw1 hw2 ih

/-- Compact on a text that breaks off before a closing brace where a value is
due returns the syntax error with the index of the brace. -/
theorem Compact_of_broken (E : Bool) (w0 x rest : List Nat) (hw0 : IsWs w0)
    (hx : Broken (fun t => parseFloatOk t = true) (StrOkFor E) .value x) :
    Compact (w0 ++ x ++ 125 :: rest) E = .error (.synErr (w0.length + x.length)) := by
  have hne : (w0 ++ x ++ 125 :: rest).length ≠ 0 := by simp
  have hspec := brokenSpec_of_broken (w0 ++ x ++ 125 :: rest ++ [0]) E hx
  have hrun := hspec w0 (3 * (w0 ++ x ++ 125 :: rest).length + 4) [] 0 (rest ++ [0]) hw0
    (by simp) (by simp only [List.length_append, List.length_cons]; omega)
  simp only [Compact, if_neg hne, compact, hrun]
  simp

/-! ## Theorems: what Compact accepts -/

theorem Wf.toLoose {strOk : List Nat → Prop} {k : Kind} {x : List Nat}
    (h : Wf (fun t => parseFloatOk t = true) strOk k x) : Loose k x := by
  induction h with
  | litNull => exact .litNull
  | litTrue => exact .litTrue
  | litFalse => exact .litFalse
  | number t ht hok =>
    obtain ⟨c, tl, rfl, hc, hall⟩ := ht.shape
    exact .number c tl hc (fun x hx => hall x (by simp [hx])) hok
  | string body hb _ => exact .string body hb.loose
  | emptyArray w hw => exact .emptyArray w hw
  | array w es hw _ ih => exact .array w es hw ih
  | emptyObject w hw => exact .emptyObject w hw
  | object w ms hw _ ih => exact .object w ms hw ih
  | lastElement v w _ hw ih => exact .lastElement v w ih hw
  | element v w1 w2 es _ hw1 hw2 _ ihv ihes => exact .element v w1 w2 es ihv hw1 hw2 ihes
  | lastMember k w1 w2 v w3 hk _ hw1 hw2 _ hw3 ihv =>
    exact .lastMember k w1 w2 v w3 hk.loose hw1 hw2 ihv hw3
  | member k w1 w2 v w3 w4 ms hk _ hw1 hw2 _ hw3 hw4 _ ihv ihms =>
    exact .member k w1 w2 v w3 w4 ms hk.loose hw1 hw2 ihv hw3 hw4 ihms

theorem Loose.splits {k : Kind} {x : List Nat} (h : Loose k x) (E : Bool) :
    MinifySplits E x := by
  induction h with
  | litNull => exact MinifySplits.token (by decide)
  | litTrue => exact MinifySplits.token (by decide)
  | litFalse => exact MinifySplits.token (by decide)
  | number c tl hc hall _ =>
    apply MinifySplits.token
    intro x hx
    rcases List.mem_cons.mp hx with rfl | hx
    · simp only [isWhiteSpace, decide_eq_false_iff_not]; omega
    · exact floatTable_not_ws (hall x hx)
  | string body hb => exact MinifySplits.quoted hb
  | emptyArray w hw =>
    exact MinifySplits.append (MinifySplits.cons (by decide) (by decide) (MinifySplits.ws hw))
      (MinifySplits.token (by decide))
  | array w es hw _ ih =>
    exact MinifySplits.append (MinifySplits.append
      (MinifySplits.cons (by decide) (by decide) (MinifySplits.ws hw)) ih)
      (MinifySplits.token (by decide))
  | emptyObject w hw =>
    exact MinifySplits.append (MinifySplits.cons (by decide) (by decide) (MinifySplits.ws hw))
      (MinifySplits.token (by decide))
  | object w ms hw _ ih =>
    exact MinifySplits.append (MinifySplits.append
      (MinifySplits.cons (by decide) (by decide) (MinifySplits.ws hw)) ih)
      (MinifySplits.token (by decide))
  | lastElement v w _ hw ih => exact MinifySplits.append ih (MinifySplits.ws hw)
  | element v w1 w2 es _ hw1 hw2 _ ihv ihes =>
    have h1 : MinifySplits E (44 :: w2) :=
      MinifySplits.cons (by decide) (by decide) (MinifySplits.ws hw2)
    have := MinifySplits.append (MinifySplits.append (MinifySplits.append ihv
      (MinifySplits.ws hw1)) h1) ihes
    simpa using this
  | lastMember k w1 w2 v w3 hk hw1 hw2 _ hw3 ihv =>
    have h1 : MinifySplits E (58 :: w2) :=
      MinifySplits.cons (by decide) (by decide) (MinifySplits.ws hw2)
    have := MinifySplits.append (MinifySplits.append (MinifySplits.append (MinifySplits.append
      (MinifySplits.quoted (E := E) hk) (MinifySplits.ws hw1)) h1) ihv) (MinifySplits.ws hw3)
    simpa using this
  | member k w1 w2 v w3 w4 ms hk hw1 hw2 _ hw3 hw4 _ ihv ihms =>
    have h1 : MinifySplits E (58 :: w2) :=
      MinifySplits.cons (by decide) (by decide) (MinifySplits.ws hw2)
    have h2 : MinifySplits E (44 :: w4) :=
      MinifySplits.cons (by decide) (by decide) (MinifySplits.ws hw4)
    have := MinifySplits.append (MinifySplits.append (MinifySplits.append (MinifySplits.append
      (MinifySplits.append (MinifySplits.append
      (MinifySplits.quoted (E := E) hk) (MinifySplits.ws hw1)) h1) ihv)
      (MinifySplits.ws hw3)) h2) ihms
    simpa using this

/-- Reading the byte at an index splits the suffix there. -/
theorem byteAt_ok {src : List Nat} {i c : Nat} (h : byteAt src i = .ok c) :
    src.drop i = c :: src.drop (i + 1) := by
  unfold byteAt at h
  cases hg : src[i]? with
  | none => rw [hg] at h; exact Except.noConfusion h
  | some x =>
    rw [hg] at h
    injection h with h
    subst h
    obtain ⟨hlt, hx⟩ := List.getElem?_eq_some_iff.mp hg
    rw [← hx]
    exact List.drop_eq_getElem_cons hlt

theorem slice_ok {src : List Nat} {a b : Nat} {x : List Nat} (h : slice src a b = .ok x) :
    src.drop a = x ++ src.drop b ∧ a + x.length = b ∧ b ≤ src.length := by
  unfold slice at h
  split_ifs at h with hc
  injection h with h
  subst h
  refine ⟨?_, ?_, hc.2⟩
  · have h1 : src.drop a = (src.take b ++ src.drop b).drop a := by rw [List.take_append_drop]
    rw [h1, List.drop_append_of_le_length (by rw [List.length_take]; omega)]
  · rw [List.length_drop, List.length_take]; omega

theorem skipWhiteSpace_ok (src : List Nat) : ∀ (f i j : Nat), skipWhiteSpace f src i = .ok j →
    ∃ w, IsWs w ∧ src.drop i = w ++ src.drop j ∧ j = i + w.length := by
  intro f
  induction f with
  | zero => intro i j h; exact Except.noConfusion h
  | succ f ih =>
    intro i j h
    simp only [skipWhiteSpace] at h
    cases hb : byteAt src i with
    | error e => rw [hb] at h; exact Except.noConfusion h
    | ok c =>
      rw [hb] at h
      simp only at h
      by_cases hws : isWhiteSpace c = true
      · rw [if_pos hws] at h
        obtain ⟨w, hw, hd, hj⟩ := ih (i + 1) j h
        refine ⟨c :: w, ?_, ?_, ?_⟩
        · intro x hx
          rcases List.mem_cons.mp hx with rfl | hx
          · exact hws
          · exact hw x hx
        · rw [byteAt_ok hb, hd]; rfl
        · simp only [List.length_cons]; omega
      · rw [if_neg hws] at h
        injection h with h
        subst h
        exact ⟨[], fun _ hx => by simp at hx, by simp, by simp⟩

theorem getD_drop {src : List Nat} {i : Nat} (h : i < src.length) :
    src.drop i = src.getD i 0 :: src.drop (i + 1) := by
  rw [List.getD_eq_getElem _ _ h]
  exact List.drop_eq_getElem_cons h

theorem lineSep_byte {x : Nat} (h : x &&& 0xFE = 0xA8) : x ≠ 34 ∧ x ≠ 92 ∧ x ≠ 0 := by
  refine ⟨?_, ?_, ?_⟩ <;> rintro rfl <;> revert h <;> decide

/-- What the escape block of compactString does to the cursor: it leaves it,
or moves it over the two bytes that follow E2 in the encoding of U+2028 or
U+2029. -/
theorem escapeBlock_cursor (src : List Nat) (E : Bool) (dst : List Nat) (start i c : Nat)
    (dst1 : List Nat) (start1 i1 : Nat) (hb : byteAt src i = .ok c)
    (h : escapeBlock src E dst start i c = .ok (dst1, start1, i1)) :
    (i1 = i ∧ (E = false → dst1 = dst ∧ start1 = start)) ∨
      (i1 = i + 2 ∧ E = true ∧ c ≠ 34 ∧ c ≠ 92 ∧ c ≠ 0 ∧
        ∃ x, src.drop i = c :: 0x80 :: x :: src.drop (i + 3) ∧ x ≠ 34 ∧ x ≠ 92 ∧ x ≠ 0) := by
  unfold escapeBlock at h
  by_cases hE : E = true
  · rw [if_pos hE] at h
    by_cases hh : isHTMLEscapeChar c = true
    · rw [if_pos hh] at h
      cases hs : slice src start i with
      | error e => rw [hs] at h; exact Except.noConfusion h
      | ok span =>
        rw [hs] at h
        injection h with h
        injection h with _ h
        injection h with _ h
        left
        exact ⟨h.symm, fun hf => by rw [hE] at hf; exact Bool.noConfusion hf⟩
    · rw [if_neg hh] at h
      by_cases hl : c = 0xE2 ∧ i + 2 < src.length ∧ src.getD (i + 1) 0 = 0x80 ∧
          (src.getD (i + 2) 0) &&& 0xFE = 0xA8
      · rw [if_pos hl] at h
        cases hs : slice src start i with
        | error e => rw [hs] at h; exact Except.noConfusion h
        | ok span =>
          rw [hs] at h
          injection h with h
          injection h with _ h
          injection h with _ h
          right
          obtain ⟨h1, h2, h3, h4⟩ := hl
          refine ⟨h.symm, hE, by omega, by omega, by omega, src.getD (i + 2) 0, ?_, lineSep_byte h4⟩
          rw [byteAt_ok hb, getD_drop (show i + 1 < src.length by omega), h3,
            getD_drop (show i + 1 + 1 < src.length by omega)]
      · rw [if_neg hl] at h
        injection h with h
        injection h with _ h
        injection h with _ h
        left
        exact ⟨h.symm, fun hf => by rw [hE] at hf; exact Bool.noConfusion hf⟩
  · rw [if_neg hE] at h
    injection h with h
    injection h with h1 h
    injection h with h2 h
    left
    exact ⟨h.symm, fun _ => ⟨h1.symm, h2.symm⟩⟩

/-- The loop of compactString, when it succeeds, has read the body of a string
literal and its closing quote; without escaping it has written the bytes from
start to the closing quote. -/
theorem compactStringLoop_sound (src : List Nat) (E : Bool) :
    ∀ (fuel : Nat) (dst : List Nat) (start cursor : Nat) (out : List Nat) (j : Nat),
      compactStringLoop src E fuel dst start cursor = .ok (out, j) →
      ∃ body, LooseBody body ∧ src.drop (cursor + 1) = body ++ 34 :: src.drop j ∧
        (E = false → ∃ span, slice src start j = .ok span ∧ out = dst ++ span) := by
  intro fuel
  induction fuel with
  | zero => intro dst start cursor out j h; exact Except.noConfusion h
  | succ f ih =>
    intro dst start cursor out j h
    rw [compactStringLoop_succ] at h
    cases hb : byteAt src (cursor + 1) with
    | error e => rw [hb] at h; exact Except.noConfusion h
    | ok c =>
      rw [hb] at h
      simp only at h
      cases he : escapeBlock src E dst start (cursor + 1) c with
      | error e => rw [he] at h; exact Except.noConfusion h
      | ok r =>
        obtain ⟨dst1, start1, i1⟩ := r
        rw [he] at h
        simp only at h
        rcases escapeBlock_cursor src E dst start (cursor + 1) c dst1 start1 i1 hb he with
          ⟨hi, hoff⟩ | ⟨hi, hE, c34, c92, c0, x, hdx, x34, x92, x0⟩
        · subst hi
          by_cases h92 : c = 92
          · rw [if_pos h92] at h
            cases hb2 : byteAt src (cursor + 1 + 1) with
            | error e => rw [hb2] at h; exact Except.noConfusion h
            | ok c2 =>
              rw [hb2] at h
              simp only at h
              by_cases hc2 : c2 = 0
              · rw [if_pos hc2] at h; exact Except.noConfusion h
              · rw [if_neg hc2] at h
                obtain ⟨body, hbody, hd, hout⟩ := ih dst1 start1 (cursor + 1 + 1) out j h
                refine ⟨92 :: c2 :: body, .esc c2 body hc2 hbody, ?_, ?_⟩
                · rw [byteAt_ok hb, byteAt_ok hb2, hd, h92]; rfl
                · intro hf
                  obtain ⟨rfl, rfl⟩ := hoff hf
                  exact hout hf
          · rw [if_neg h92] at h
            by_cases h34 : c = 34
            · rw [if_pos h34] at h
              cases hs : slice src start1 (cursor + 1 + 1) with
              | error e => rw [hs] at h; exact Except.noConfusion h
              | ok span =>
                rw [hs] at h
                injection h with h
                injection h with h1 h2
                subst h2
                refine ⟨[], .nil, ?_, ?_⟩
                · rw [byteAt_ok hb, h34]; rfl
                · intro hf
                  obtain ⟨rfl, rfl⟩ := hoff hf
                  exact ⟨span, hs, h1.symm⟩
            · rw [if_neg h34] at h
              by_cases h0 : c = 0
              · rw [if_pos h0] at h; exact Except.noConfusion h
              · rw [if_neg h0] at h
                obtain ⟨body, hbody, hd, hout⟩ := ih dst1 start1 (cursor + 1) out j h
                refine ⟨c :: body, .plain c body h34 h92 h0 hbody, ?_, ?_⟩
                · rw [byteAt_ok hb, hd]; rfl
                · intro hf
                  obtain ⟨rfl, rfl⟩ := hoff hf
                  exact hout hf
        · subst hi
          rw [if_neg c92, if_neg c34, if_neg c0] at h
          obtain ⟨body, hbody, hd, hout⟩ := ih dst1 start1 (cursor + 1 + 2) out j h
          refine ⟨c :: 0x80 :: x :: body,
            .plain c _ c34 c92 c0 (.plain 0x80 _ (by decide) (by decide) (by decide)
              (.plain x body x34 x92 x0 hbody)), ?_, ?_⟩
          · rw [hdx, hd]; rfl
          · intro hf
            rw [hE] at hf
            exact Bool.noConfusion hf

theorem compactString_sound (src : List Nat) (E : Bool) (fuel : Nat) (dst : List Nat) (i : Nat)
    (out : List Nat) (j : Nat) (h : compactString src E fuel dst i = .ok (out, j)) :
    ∃ body, LooseBody body ∧ src.drop i = (34 :: body ++ [34]) ++ src.drop j ∧
      (E = false → out = dst ++ (34 :: body ++ [34])) := by
  unfold compactString at h
  cases hb : byteAt src i with
  | error e => rw [hb] at h; exact Except.noConfusion h
  | ok c =>
    rw [hb] at h
    simp only at h
    by_cases hc : c ≠ 34
    · rw [if_pos hc] at h; exact Except.noConfusion h
    · rw [if_neg hc] at h
      have hc34 : c = 34 := by omega
      subst hc34
      obtain ⟨body, hbody, hd, hout⟩ := compactStringLoop_sound src E fuel dst i i out j h
      have hdi : src.drop i = (34 :: body ++ [34]) ++ src.drop j := by
        rw [byteAt_ok hb, hd]; simp
      refine ⟨body, hbody, hdi, ?_⟩
      intro hf
      obtain ⟨span, hs, ho⟩ := hout hf
      obtain ⟨h1, -, -⟩ := slice_ok hs
      rw [hdi] at h1
      rw [ho, List.append_cancel_right h1]

theorem compactNumberLoop_sound (src : List Nat) : ∀ (f i j : Nat),
    compactNumberLoop src f i = .ok j →
      ∃ t, (∀ x ∈ t, floatTable x = true) ∧ src.drop (i + 1) = t ++ src.drop j := by
  intro f
  induction f with
  | zero => intro i j h; exact Except.noConfusion h
  | succ f ih =>
    intro i j h
    simp only [compactNumberLoop] at h
    cases hb : byteAt src (i + 1) with
    | error e => rw [hb] at h; exact Except.noConfusion h
    | ok c =>
      rw [hb] at h
      simp only at h
      by_cases hc : floatTable c = true
      · rw [if_pos hc] at h
        obtain ⟨t, ht, hd⟩ := ih (i + 1) j h
        refine ⟨c :: t, ?_, ?_⟩
        · intro x hx
          rcases List.mem_cons.mp hx with rfl | hx
          · exact hc
          · exact ht x hx
        · rw [byteAt_ok hb, hd]; rfl
      · rw [if_neg hc] at h
        injection h with h
        subst h
        exact ⟨[], fun _ hx => by simp at hx, by simp⟩

theorem compactNumber_sound (src : List Nat) (f : Nat) (dst : List Nat) (i c : Nat)
    (out : List Nat) (j : Nat) (hb : byteAt src i = .ok c)
    (h : compactNumber src f dst i = .ok (out, j)) :
    ∃ tl, (∀ x ∈ tl, floatTable x = true) ∧ parseFloatOk (c :: tl) = true ∧
      src.drop i = (c :: tl) ++ src.drop j ∧ out = dst ++ c :: tl := by
  unfold compactNumber at h
  cases hl : compactNumberLoop src f i with
  | error e => rw [hl] at h; exact Except.noConfusion h
  | ok stop =>
    rw [hl] at h
    simp only at h
    cases hs : slice src i stop with
    | error e => rw [hs] at h; exact Except.noConfusion h
    | ok num =>
      rw [hs] at h
      simp only at h
      by_cases hp : parseFloatOk num = true
      · rw [if_pos hp] at h
        injection h with h
        injection h with h1 h2
        subst h2
        obtain ⟨t, ht, hd⟩ := compactNumberLoop_sound src f i stop hl
        obtain ⟨s1, -, -⟩ := slice_ok hs
        have hdi : src.drop i = (c :: t) ++ src.drop stop := by
          rw [byteAt_ok hb, hd]; rfl
        have hnum : num = c :: t := by
          rw [hdi] at s1
          exact (List.append_cancel_right s1).symm
        subst hnum
        exact ⟨t, ht, hp, hdi, h1.symm⟩
      · rw [if_neg hp] at h; exact Except.noConfusion h

theorem compactLiteral_sound (lit src dst : List Nat) (i : Nat) (out : List Nat) (j : Nat)
    (h : compactLiteral lit src dst i = .ok (out, j)) :
    src.drop i = lit ++ src.drop j ∧ out = dst ++ lit := by
  unfold compactLiteral at h
  split_ifs at h with h1
  cases hs : slice src i (i + lit.length) with
  | error e => rw [hs] at h; exact Except.noConfusion h
  | ok bytes =>
    rw [hs] at h
    simp only at h
    by_cases hne : bytes ≠ lit
    · rw [if_pos hne] at h; exact Except.noConfusion h
    · rw [if_neg hne] at h
      injection h with h
      injection h with h2 h3
      subst h3
      have hb : bytes = lit := by
        by_contra hx
        exact hne hx
      subst hb
      exact ⟨(slice_ok hs).1, h2.symm⟩

theorem minify_false_body (body : List Nat) (hb : LooseBody body) (rest : List Nat) :
    minifyFrom false .inString (body ++ 34 :: rest) =
      body ++ 34 :: minifyFrom false .outside rest := by
  induction hb with
  | nil => simp [minifyFrom]
  | plain c tl h34 h92 h0 _ ih =>
    simp only [List.cons_append, minifyFrom, if_neg h34, if_neg h92]
    simp [ih]
  | esc e tl h0 _ ih =>
    simp only [List.cons_append, minifyFrom]
    simp [ih]

theorem minify_false_quoted (body : List Nat) (hb : LooseBody body) :
    minifyFrom false .outside (34 :: body ++ [34]) = 34 :: body ++ [34] := by
  have h := minify_false_body body hb []
  simp only [List.cons_append, minifyFrom]
  simp [isWhiteSpace, h, minifyFrom]

theorem minify_lastElement (E : Bool) (v w : List Nat) (hsp : MinifySplits E v) (hw : IsWs w) :
    minifyFrom E .outside (v ++ w) = minifyFrom E .outside v := by
  rw [hsp, minify_ws_nil E w hw]; simp

theorem minify_element (E : Bool) (v w1 w2 es : List Nat) (hsp : MinifySplits E v)
    (hw1 : IsWs w1) (hw2 : IsWs w2) :
    minifyFrom E .outside (v ++ w1 ++ 44 :: w2 ++ es) =
      minifyFrom E .outside v ++ 44 :: minifyFrom E .outside es := by
  have e : v ++ w1 ++ 44 :: w2 ++ es = v ++ (w1 ++ 44 :: (w2 ++ es)) := by simp
  rw [e, hsp, minify_ws E w1 hw1, minify_cons E 44 _ (by decide) (by decide),
    minify_ws E w2 hw2]

theorem minify_lastMember (E : Bool) (k w1 w2 v w3 : List Nat) (hk : LooseBody k)
    (hsp : MinifySplits E v) (hw1 : IsWs w1) (hw2 : IsWs w2) (hw3 : IsWs w3) :
    minifyFrom E .outside (34 :: k ++ 34 :: w1 ++ 58 :: w2 ++ v ++ w3) =
      minifyFrom E .outside (34 :: k ++ [34]) ++ 58 :: minifyFrom E .outside v := by
  have e : (34 :: k ++ 34 :: w1 ++ 58 :: w2 ++ v ++ w3) =
      (34 :: k ++ [34]) ++ (w1 ++ 58 :: (w2 ++ (v ++ w3))) := by simp
  rw [e, MinifySplits.quoted hk, minify_ws E w1 hw1,
    minify_cons E 58 _ (by decide) (by decide), minify_ws E w2 hw2, hsp,
    minify_ws_nil E w3 hw3]
  simp

theorem minify_member (E : Bool) (k w1 w2 v w3 w4 ms : List Nat) (hk : LooseBody k)
    (hsp : MinifySplits E v) (hw1 : IsWs w1) (hw2 : IsWs w2) (hw3 : IsWs w3) (hw4 : IsWs w4) :
    minifyFrom E .outside (34 :: k ++ 34 :: w1 ++ 58 :: w2 ++ v ++ w3 ++ 44 :: w4 ++ ms) =
      minifyFrom E .outside (34 :: k ++ [34]) ++ 58 :: (minifyFrom E .outside v ++
        44 :: minifyFrom E .outside ms) := by
  have e : (34 :: k ++ 34 :: w1 ++ 58 :: w2 ++ v ++ w3 ++ 44 :: w4 ++ ms) =
      (34 :: k ++ [34]) ++ (w1 ++ 58 :: (w2 ++ (v ++ (w3 ++ 44 :: (w4 ++ ms))))) := by simp
  rw [e, MinifySplits.quoted hk, minify_ws E w1 hw1,
    minify_cons E 58 _ (by decide) (by decide), minify_ws E w2 hw2, hsp,
    minify_ws E w3 hw3, minify_cons E 44 _ (by decide) (by decide), minify_ws E w4 hw4]

theorem minify_bracket (E : Bool) (o c : Nat) (w x : List Nat) (ho : isWhiteSpace o = false)
    (ho2 : o ≠ 34) (hc : isWhiteSpace c = false) (hc2 : c ≠ 34) (hw : IsWs w)
    (hsp : MinifySplits E x) :
    minifyFrom E .outside (o :: w ++ x ++ [c]) = o :: minifyFrom E .outside x ++ [c] := by
  have e : o :: w ++ x ++ [c] = o :: (w ++ (x ++ [c])) := by simp
  rw [e, minify_cons E o _ ho ho2, minify_ws E w hw, hsp,
    minify_token_nil E [c] (by simpa using ⟨hc, hc2⟩)]
  simp

theorem minify_emptyBracket (E : Bool) (o c : Nat) (w : List Nat) (ho : isWhiteSpace o = false)
    (ho2 : o ≠ 34) (hc : isWhiteSpace c = false) (hc2 : c ≠ 34) (hw : IsWs w) :
    minifyFrom E .outside (o :: w ++ [c]) = [o, c] := by
  have e : o :: w ++ [c] = o :: (w ++ [c]) := by simp
  rw [e, minify_cons E o _ ho ho2, minify_ws E w hw,
    minify_token_nil E [c] (by simpa using ⟨hc, hc2⟩)]

theorem IsWs.app {w1 w2 : List Nat} (h1 : IsWs w1) (h2 : IsWs w2) : IsWs (w1 ++ w2) := by
  intro c hc
  rcases List.mem_append.mp hc with h | h
  · exact h1 c h
  · exact h2 c h

theorem IsWs.nil : IsWs [] := fun _ h => by simp at h

theorem Loose.first_byte {k : Kind} {x : List Nat} (h : Loose k x) :
    ∃ c tl, x = c :: tl ∧ isWhiteSpace c = false := by
  induction h with
  | litNull => exact ⟨_, _, rfl, by decide⟩
  | litTrue => exact ⟨_, _, rfl, by decide⟩
  | litFalse => exact ⟨_, _, rfl, by decide⟩
  | number c tl hc _ _ =>
    exact ⟨c, tl, rfl, by simp only [isWhiteSpace, decide_eq_false_iff_not]; omega⟩
  | string body _ => exact ⟨34, _, rfl, by decide⟩
  | emptyArray w _ => exact ⟨91, _, rfl, by decide⟩
  | array w es _ _ _ => exact ⟨91, _, rfl, by decide⟩
  | emptyObject w _ => exact ⟨123, _, rfl, by decide⟩
  | object w ms _ _ _ => exact ⟨123, _, rfl, by decide⟩
  | lastElement v w _ _ ih =>
    obtain ⟨c, tl, rfl, hc⟩ := ih
    exact ⟨c, _, rfl, hc⟩
  | element v w1 w2 es _ _ _ _ ih _ =>
    obtain ⟨c, tl, rfl, hc⟩ := ih
    exact ⟨c, _, rfl, hc⟩
  | lastMember k w1 w2 v w3 _ _ _ _ _ _ => exact ⟨34, _, rfl, by decide⟩
  | member k w1 w2 v w3 w4 ms _ _ _ _ _ _ _ _ _ => exact ⟨34, _, rfl, by decide⟩

theorem accepts_arrayLoop (src : List Nat) (E : Bool) (f : Nat)
    (hv : Accepts src E .value [] (compactValue src E f))
    (ha : Accepts src E .elements [93] (compactArrayLoop src E f)) :
    Accepts src E .elements [93] (compactArrayLoop src E (f + 1)) := by
  intro dst i out j h
  rw [compactArrayLoop_succ] at h
  cases hcv : compactValue src E f dst i with
  | error e => rw [hcv] at h; exact Except.noConfusion h
  | ok r =>
    obtain ⟨dst1, i1⟩ := r
    rw [hcv] at h
    simp only at h
    obtain ⟨w, v, hw, hlv, hd, hout⟩ := hv dst i dst1 i1 hcv
    simp only [List.append_nil] at hd hout
    cases hs : skipWhiteSpace f src i1 with
    | error e => rw [hs] at h; exact Except.noConfusion h
    | ok i2 =>
      rw [hs] at h
      simp only at h
      obtain ⟨w1, hw1, hd1, -⟩ := skipWhiteSpace_ok src f i1 i2 hs
      cases hb : byteAt src i2 with
      | error e => rw [hb] at h; exact Except.noConfusion h
      | ok c =>
        rw [hb] at h
        simp only at h
        by_cases h93 : c = 93
        · rw [if_pos h93] at h
          injection h with h
          injection h with h1 h2
          subst h2
          refine ⟨w, v ++ w1, hw, .lastElement v w1 hlv hw1, ?_, ?_⟩
          · rw [hd, hd1, byteAt_ok hb, h93]; simp
          · intro hf
            rw [← h1, hout hf, minify_lastElement false v w1 (hlv.splits false) hw1]
        · rw [if_neg h93] at h
          by_cases h44 : c = 44
          · rw [if_pos h44] at h
            obtain ⟨w2, es, hw2, hes, hd2, hout2⟩ := ha (dst1 ++ [44]) (i2 + 1) out j h
            refine ⟨w, v ++ w1 ++ 44 :: w2 ++ es, hw, .element v w1 w2 es hlv hw1 hw2 hes, ?_, ?_⟩
            · rw [hd, hd1, byteAt_ok hb, h44, hd2]; simp
            · intro hf
              rw [hout2 hf, hout hf,
                minify_element false v w1 w2 es (hlv.splits false) hw1 hw2]
              simp
          · rw [if_neg h44] at h; exact Except.noConfusion h

theorem accepts_objectLoop (src : List Nat) (E : Bool) (f : Nat)
    (hv : Accepts src E .value [] (compactValue src E f))
    (ho : Accepts src E .members [125] (compactObjectLoop src E f)) :
    Accepts src E .members [125] (compactObjectLoop src E (f + 1)) := by
  intro dst i out j h
  rw [compactObjectLoop_succ] at h
  cases hs0 : skipWhiteSpace f src i with
  | error e => rw [hs0] at h; exact Except.noConfusion h
  | ok i0 =>
    rw [hs0] at h
    simp only at h
    obtain ⟨w, hw, hd0, -⟩ := skipWhiteSpace_ok src f i i0 hs0
    cases hk : compactString src E f dst i0 with
    | error e => rw [hk] at h; exact Except.noConfusion h
    | ok r =>
      obtain ⟨dstk, ik⟩ := r
      rw [hk] at h
      simp only at h
      obtain ⟨k, hkb, hdk, houtk⟩ := compactString_sound src E f dst i0 dstk ik hk
      cases hs1 : skipWhiteSpace f src ik with
      | error e => rw [hs1] at h; exact Except.noConfusion h
      | ok i1 =>
        rw [hs1] at h
        simp only at h
        obtain ⟨w1, hw1, hd1, -⟩ := skipWhiteSpace_ok src f ik i1 hs1
        cases hb : byteAt src i1 with
        | error e => rw [hb] at h; exact Except.noConfusion h
        | ok c =>
          rw [hb] at h
          simp only at h
          by_cases h58 : c ≠ 58
          · rw [if_pos h58] at h; exact Except.noConfusion h
          · rw [if_neg h58] at h
            have hc : c = 58 := by omega
            cases hcv : compactValue src E f (dstk ++ [58]) (i1 + 1) with
            | error e => rw [hcv] at h; exact Except.noConfusion h
            | ok r =>
              obtain ⟨dstv, iv⟩ := r
              rw [hcv] at h
              simp only at h
              obtain ⟨w2, v, hw2, hlv, hdv, houtv⟩ := hv (dstk ++ [58]) (i1 + 1) dstv iv hcv
              simp only [List.append_nil] at hdv houtv
              cases hs3 : skipWhiteSpace f src iv with
              | error e => rw [hs3] at h; exact Except.noConfusion h
              | ok i3 =>
                rw [hs3] at h
                simp only at h
                obtain ⟨w3, hw3, hd3, -⟩ := skipWhiteSpace_ok src f iv i3 hs3
                cases hb3 : byteAt src i3 with
                | error e => rw [hb3] at h; exact Except.noConfusion h
                | ok c3 =>
                  rw [hb3] at h
                  simp only at h
                  by_cases h125 : c3 = 125
                  · rw [if_pos h125] at h
                    injection h with h
                    injection h with h1 h2
                    subst h2
                    refine ⟨w, 34 :: k ++ 34 :: w1 ++ 58 :: w2 ++ v ++ w3, hw,
                      .lastMember k w1 w2 v w3 hkb hw1 hw2 hlv hw3, ?_, ?_⟩
                    · rw [hd0, hdk, hd1, byteAt_ok hb, hc, hdv, hd3, byteAt_ok hb3, h125]; simp
                    · intro hf
                      rw [← h1, houtv hf, houtk hf,
                        minify_lastMember false k w1 w2 v w3 hkb (hlv.splits false) hw1 hw2
                          hw3, minify_false_quoted k hkb]
                      simp
                  · rw [if_neg h125] at h
                    by_cases h44 : c3 = 44
                    · rw [if_pos h44] at h
                      obtain ⟨w4, ms, hw4, hms, hd4, hout4⟩ := ho (dstv ++ [44]) (i3 + 1) out j h
                      refine ⟨w, 34 :: k ++ 34 :: w1 ++ 58 :: w2 ++ v ++ w3 ++ 44 :: w4 ++ ms, hw,
                        .member k w1 w2 v w3 w4 ms hkb hw1 hw2 hlv hw3 hw4 hms, ?_, ?_⟩
                      · rw [hd0, hdk, hd1, byteAt_ok hb, hc, hdv, hd3, byteAt_ok hb3, h44, hd4]
                        simp
                      · intro hf
                        rw [hout4 hf, houtv hf, houtk hf,
                          minify_member false k w1 w2 v w3 w4 ms hkb (hlv.splits false) hw1
                            hw2 hw3 hw4, minify_false_quoted k hkb]
                        simp
                    · rw [if_neg h44] at h; exact Except.noConfusion h

theorem accepts_array (src : List Nat) (E : Bool) (f : Nat)
    (ha : Accepts src E .elements [93] (compactArrayLoop src E f))
    (dst : List Nat) (i : Nat) (out : List Nat) (j : Nat) (hb : byteAt src i = .ok 91)
    (h : compactArray src E (f + 1) dst i = .ok (out, j)) :
    ∃ v, Loose .value v ∧ src.drop i = v ++ src.drop j ∧
      (E = false → out = dst ++ minifyFrom false .outside v) := by
  rw [compactArray_succ, hb] at h
  simp only [if_neg (show ¬ (91 = 110) by decide), if_true] at h
  cases hs : skipWhiteSpace f src (i + 1) with
  | error e => rw [hs] at h; exact Except.noConfusion h
  | ok i1 =>
    rw [hs] at h
    simp only at h
    obtain ⟨w, hw, hd1, -⟩ := skipWhiteSpace_ok src f (i + 1) i1 hs
    cases hb1 : byteAt src i1 with
    | error e => rw [hb1] at h; exact Except.noConfusion h
    | ok c =>
      rw [hb1] at h
      simp only at h
      by_cases h93 : c = 93
      · rw [if_pos h93] at h
        injection h with h
        injection h with h1 h2
        subst h2
        refine ⟨91 :: w ++ [93], .emptyArray w hw, ?_, ?_⟩
        · rw [byteAt_ok hb, hd1, byteAt_ok hb1, h93]; simp
        · intro _
          rw [← h1, minify_emptyBracket false 91 93 w (by decide) (by decide) (by decide)
            (by decide) hw]
          simp
      · rw [if_neg h93] at h
        obtain ⟨w2, es, hw2, hes, hd2, hout2⟩ := ha (dst ++ [91]) i1 out j h
        refine ⟨91 :: (w ++ w2) ++ es ++ [93], .array (w ++ w2) es (hw.app hw2) hes, ?_, ?_⟩
        · rw [byteAt_ok hb, hd1, hd2]; simp
        · intro hf
          rw [hout2 hf, minify_bracket false 91 93 (w ++ w2) es (by decide) (by decide)
            (by decide) (by decide) (hw.app hw2) (hes.splits false)]
          simp

theorem accepts_object (src : List Nat) (E : Bool) (f : Nat)
    (ho : Accepts src E .members [125] (compactObjectLoop src E f))
    (dst : List Nat) (i : Nat) (out : List Nat) (j : Nat) (hb : byteAt src i = .ok 123)
    (h : compactObject src E (f + 1) dst i = .ok (out, j)) :
    ∃ v, Loose .value v ∧ src.drop i = v ++ src.drop j ∧
      (E = false → out = dst ++ minifyFrom false .outside v) := by
  rw [compactObject_succ, hb] at h
  simp only [if_neg (show ¬ (123 = 110) by decide), if_true] at h
  cases hs : skipWhiteSpace f src (i + 1) with
  | error e => rw [hs] at h; exact Except.noConfusion h
  | ok i1 =>
    rw [hs] at h
    simp only at h
    obtain ⟨w, hw, hd1, -⟩ := skipWhiteSpace_ok src f (i + 1) i1 hs
    cases hb1 : byteAt src i1 with
    | error e => rw [hb1] at h; exact Except.noConfusion h
    | ok c =>
      rw [hb1] at h
      simp only at h
      by_cases h125 : c = 125
      · rw [if_pos h125] at h
        injection h with h
        injection h with h1 h2
        subst h2
        refine ⟨123 :: w ++ [125], .emptyObject w hw, ?_, ?_⟩
        · rw [byteAt_ok hb, hd1, byteAt_ok hb1, h125]; simp
        · intro _
          rw [← h1, minify_emptyBracket false 123 125 w (by decide) (by decide) (by decide)
            (by decide) hw]
          simp
      · rw [if_neg h125] at h
        obtain ⟨w2, ms, hw2, hms, hd2, hout2⟩ := ho (dst ++ [123]) i1 out j h
        refine ⟨123 :: (w ++ w2) ++ ms ++ [125], .object (w ++ w2) ms (hw.app hw2) hms, ?_, ?_⟩
        · rw [byteAt_ok hb, hd1, hd2]; simp
        · intro hf
          rw [hout2 hf, minify_bracket false 123 125 (w ++ w2) ms (by decide) (by decide)
            (by decide) (by decide) (hw.app hw2) (hms.splits false)]
          simp

theorem accepts_literal (src : List Nat) (E : Bool) (lit : List Nat) (hl : Loose .value lit)
    (htok : ∀ x ∈ lit, isWhiteSpace x = false ∧ x ≠ 34) (dst : List Nat) (i : Nat)
    (out : List Nat) (j : Nat) (h : compactLiteral lit src dst i = .ok (out, j)) :
    ∃ w v, IsWs w ∧ Loose .value v ∧ src.drop i = w ++ v ++ [] ++ src.drop j ∧
      (E = false → out = dst ++ minifyFrom false .outside v ++ []) := by
  obtain ⟨h1, h2⟩ := compactLiteral_sound lit src dst i out j h
  refine ⟨[], lit, IsWs.nil, hl, by simpa using h1, fun _ => ?_⟩
  rw [h2, minify_token_nil false lit htok]
  simp

theorem accepts_value (src : List Nat) (E : Bool) (f : Nat)
    (hv : Accepts src E .value [] (compactValue src E f))
    (hobj : ∀ (dst : List Nat) (i : Nat) (out : List Nat) (j : Nat), byteAt src i = .ok 123 →
      compactObject src E f dst i = .ok (out, j) →
      ∃ v, Loose .value v ∧ src.drop i = v ++ src.drop j ∧
        (E = false → out = dst ++ minifyFrom false .outside v))
    (harr : ∀ (dst : List Nat) (i : Nat) (out : List Nat) (j : Nat), byteAt src i = .ok 91 →
      compactArray src E f dst i = .ok (out, j) →
      ∃ v, Loose .value v ∧ src.drop i = v ++ src.drop j ∧
        (E = false → out = dst ++ minifyFrom false .outside v)) :
    Accepts src E .value [] (compactValue src E (f + 1)) := by
  intro dst i out j h
  rw [compactValue_succ] at h
  cases hb : byteAt src i with
  | error e => rw [hb] at h; exact Except.noConfusion h
  | ok c =>
    rw [hb] at h
    simp only at h
    by_cases hws : c = 32 ∨ c = 9 ∨ c = 10 ∨ c = 13
    · rw [if_pos hws] at h
      obtain ⟨w, v, hw, hlv, hd, hout⟩ := hv dst (i + 1) out j h
      refine ⟨c :: w, v, ?_, hlv, ?_, hout⟩
      · intro x hx
        rcases List.mem_cons.mp hx with rfl | hx
        · exact (isWhiteSpace_iff x).mpr hws
        · exact hw x hx
      · rw [byteAt_ok hb, hd]; simp
    rw [if_neg hws] at h
    by_cases h123 : c = 123
    · rw [if_pos h123] at h
      subst h123
      obtain ⟨v, hlv, hd, hout⟩ := hobj dst i out j hb h
      exact ⟨[], v, IsWs.nil, hlv, by simpa using hd, fun hf => by simpa using hout hf⟩
    rw [if_neg h123] at h
    by_cases h125 : c = 125
    · rw [if_pos h125] at h; exact Except.noConfusion h
    rw [if_neg h125] at h
    by_cases h91 : c = 91
    · rw [if_pos h91] at h
      subst h91
      obtain ⟨v, hlv, hd, hout⟩ := harr dst i out j hb h
      exact ⟨[], v, IsWs.nil, hlv, by simpa using hd, fun hf => by simpa using hout hf⟩
    rw [if_neg h91] at h
    by_cases h93 : c = 93
    · rw [if_pos h93] at h; exact Except.noConfusion h
    rw [if_neg h93] at h
    by_cases h34 : c = 34
    · rw [if_pos h34] at h
      obtain ⟨body, hbody, hd, hout⟩ := compactString_sound src E f dst i out j h
      refine ⟨[], 34 :: body ++ [34], IsWs.nil, .string body hbody, by simpa using hd, ?_⟩
      intro hf
      rw [hout hf, minify_false_quoted body hbody]
      simp
    rw [if_neg h34] at h
    by_cases hnum : c = 45 ∨ (48 ≤ c ∧ c ≤ 57)
    · rw [if_pos hnum] at h
      obtain ⟨tl, htl, hok, hd, hout⟩ := compactNumber_sound src f dst i c out j hb h
      refine ⟨[], c :: tl, IsWs.nil, .number c tl hnum htl hok, by simpa using hd, ?_⟩
      intro _
      have htok : ∀ x ∈ c :: tl, isWhiteSpace x = false ∧ x ≠ 34 := by
        intro x hx
        rcases List.mem_cons.mp hx with rfl | hx
        · simp only [isWhiteSpace, decide_eq_false_iff_not]; omega
        · exact floatTable_not_ws (htl x hx)
      rw [hout, minify_token_nil false (c :: tl) htok]
      simp
    rw [if_neg hnum] at h
    by_cases h116 : c = 116
    · rw [if_pos h116] at h
      exact accepts_literal src E _ .litTrue (by decide) dst i out j h
    rw [if_neg h116] at h
    by_cases h102 : c = 102
    · rw [if_pos h102] at h
      exact accepts_literal src E _ .litFalse (by decide) dst i out j h
    rw [if_neg h102] at h
    by_cases h110 : c = 110
    · rw [if_pos h110] at h
      exact accepts_literal src E _ .litNull (by decide) dst i out j h
    rw [if_neg h110] at h
    exact Except.noConfusion h

/-- Every successful call of the recursive functions of Compact has read text
of the grammar Compact checks. -/
theorem accepts_all (src : List Nat) (E : Bool) : ∀ f : Nat,
    Accepts src E .value [] (compactValue src E f) ∧
      Accepts src E .elements [93] (compactArrayLoop src E f) ∧
      Accepts src E .members [125] (compactObjectLoop src E f) ∧
      (∀ (dst : List Nat) (i : Nat) (out : List Nat) (j : Nat), byteAt src i = .ok 123 →
        compactObject src E f dst i = .ok (out, j) →
        ∃ v, Loose .value v ∧ src.drop i = v ++ src.drop j ∧
          (E = false → out = dst ++ minifyFrom false .outside v)) ∧
      (∀ (dst : List Nat) (i : Nat) (out : List Nat) (j : Nat), byteAt src i = .ok 91 →
        compactArray src E f dst i = .ok (out, j) →
        ∃ v, Loose .value v ∧ src.drop i = v ++ src.drop j ∧
          (E = false → out = dst ++ minifyFrom false .outside v)) := by
  intro f
  induction f with
  | zero =>
    refine ⟨?_, ?_, ?_, ?_, ?_⟩
    · intro dst i out j h; exact Except.noConfusion h
    · intro dst i out j h; exact Except.noConfusion h
    · intro dst i out j h; exact Except.noConfusion h
    · intro dst i out j _ h; exact Except.noConfusion h
    · intro dst i out j _ h; exact Except.noConfusion h
  | succ f ih =>
    obtain ⟨hv, ha, ho, hobj, harr⟩ := ih
    exact ⟨accepts_value src E f hv hobj harr, accepts_arrayLoop src E f hv ha,
      accepts_objectLoop src E f hv ho,
      fun dst i out j hb h => accepts_object src E f ho dst i out j hb h,
      fun dst i out j hb h => accepts_array src E f ha dst i out j hb h⟩

theorem LooseBody.body_no_nul {body : List Nat} (h : LooseBody body) : ∀ c ∈ body, c ≠ 0 := by
  induction h with
  | nil => intro c hc; simp at hc
  | plain c tl _ _ h0 _ ih =>
    intro x hx
    rcases List.mem_cons.mp hx with rfl | hx
    · exact h0
    · exact ih x hx
  | esc e tl h0 _ ih =>
    intro x hx
    rcases List.mem_cons.mp hx with rfl | hx
    · decide
    · rcases List.mem_cons.mp hx with rfl | hx
      · exact h0
      · exact ih x hx

theorem IsWs.ws_no_nul {w : List Nat} (h : IsWs w) : ∀ c ∈ w, c ≠ 0 := by
  intro c hc h0
  have := h c hc
  rw [h0] at this
  exact absurd this (by decide)

theorem Loose.no_nul {k : Kind} {x : List Nat} (h : Loose k x) : ∀ c ∈ x, c ≠ 0 := by
  induction h with
  | litNull => decide
  | litTrue => decide
  | litFalse => decide
  | number c tl hc htl _ =>
    intro x hx
    rcases List.mem_cons.mp hx with rfl | hx
    · omega
    · intro h0
      have := htl x hx
      rw [h0] at this
      exact absurd this (by decide)
  | string body hb =>
    intro x hx
    simp only [List.cons_append, List.mem_cons, List.mem_append, List.mem_nil_iff, or_false] at hx
    rcases hx with rfl | hx | rfl
    · decide
    · exact hb.body_no_nul x hx
    · decide
  | emptyArray w hw =>
    intro x hx
    simp only [List.cons_append, List.mem_cons, List.mem_append, List.mem_nil_iff, or_false] at hx
    rcases hx with rfl | hx | rfl
    · decide
    · exact hw.ws_no_nul x hx
    · decide
  | array w es hw _ ih =>
    intro x hx
    simp only [List.cons_append, List.mem_cons, List.mem_append, List.mem_nil_iff, or_false] at hx
    rcases hx with rfl | (hx | hx) | rfl
    · decide
    · exact hw.ws_no_nul x hx
    · exact ih x hx
    · decide
  | emptyObject w hw =>
    intro x hx
    simp only [List.cons_append, List.mem_cons, List.mem_append, List.mem_nil_iff, or_false] at hx
    rcases hx with rfl | hx | rfl
    · decide
    · exact hw.ws_no_nul x hx
    · decide
  | object w ms hw _ ih =>
    intro x hx
    simp only [List.cons_append, List.mem_cons, List.mem_append, List.mem_nil_iff, or_false] at hx
    rcases hx with rfl | (hx | hx) | rfl
    · decide
    · exact hw.ws_no_nul x hx
    · exact ih x hx
    · decide
  | lastElement v w _ hw ih =>
    intro x hx
    rcases List.mem_append.mp hx with hx | hx
    · exact ih x hx
    · exact hw.ws_no_nul x hx
  | element v w1 w2 es _ hw1 hw2 _ ihv ihes =>
    intro x hx
    simp only [List.mem_cons, List.mem_append] at hx
    rcases hx with ((hx | hx) | (rfl | hx)) | hx
    · exact ihv x hx
    · exact hw1.ws_no_nul x hx
    · decide
    · exact hw2.ws_no_nul x hx
    · exact ihes x hx
  | lastMember k w1 w2 v w3 hk hw1 hw2 _ hw3 ihv =>
    intro x hx
    simp only [List.cons_append, List.mem_cons, List.mem_append] at hx
    rcases hx with rfl | (((hx | (rfl | hx)) | (rfl | hx)) | hx) | hx
    · decide
    · exact hk.body_no_nul x hx
    · decide
    · exact hw1.ws_no_nul x hx
    · decide
    · exact hw2.ws_no_nul x hx
    · exact ihv x hx
    · exact hw3.ws_no_nul x hx
  | member k w1 w2 v w3 w4 ms hk hw1 hw2 _ hw3 hw4 _ ihv ihms =>
    intro x hx
    simp only [List.cons_append, List.mem_cons, List.mem_append] at hx
    rcases hx with rfl | (((((hx | (rfl | hx)) | (rfl | hx)) | hx) | hx) | (rfl | hx)) | hx
    · decide
    · exact hk.body_no_nul x hx
    · decide
    · exact hw1.ws_no_nul x hx
    · decide
    · exact hw2.ws_no_nul x hx
    · exact ihv x hx
    · exact hw3.ws_no_nul x hx
    · decide
    · exact hw4.ws_no_nul x hx
    · exact ihms x hx

/-- A prefix without nul bytes of a text that ends with the nul byte ends
before that byte. -/
theorem prefix_before_nul (src p r : List Nat) (hp : ∀ c ∈ p, c ≠ 0) (h : src ++ [0] = p ++ r) :
    ∃ rest, src = p ++ rest := by
  rcases List.eq_nil_or_concat r with hr | ⟨r1, c, hr⟩
  · subst hr
    rw [List.append_nil] at h
    have : (0 : Nat) ∈ p := by rw [← h]; simp
    exact absurd rfl (hp 0 this)
  · rw [List.concat_eq_append] at hr
    subst hr
    rw [← List.append_assoc] at h
    have := List.append_inj' h rfl
    exact ⟨r1, this.1⟩

/-- When Compact succeeds, the input begins, after whitespace, with a value of
the grammar Compact checks; without escaping, the output is that value without
its whitespace outside strings. -/
theorem Compact_sound (src : List Nat) (E : Bool) (out : List Nat)
    (h : Compact src E = .ok out) :
    ∃ w v rest, IsWs w ∧ Loose .value v ∧ src = w ++ v ++ rest ∧
      (E = false → out = minifyFrom false .outside v) := by
  unfold Compact at h
  split_ifs at h with h0
  unfold compact at h
  cases hc : compactValue (src ++ [0]) E (3 * src.length + 4) [] 0 with
  | error e => rw [hc] at h; exact Except.noConfusion h
  | ok r =>
    obtain ⟨buf, j⟩ := r
    rw [hc] at h
    injection h with h
    subst h
    obtain ⟨w, v, hw, hv, hd, hout⟩ := (accepts_all (src ++ [0]) E _).1 [] 0 buf j hc
    simp only [List.drop_zero, List.append_nil] at hd
    have hp : ∀ c ∈ w ++ v, c ≠ 0 := by
      intro c hc
      rcases List.mem_append.mp hc with hc | hc
      · exact hw.ws_no_nul c hc
      · exact hv.no_nul c hc
    obtain ⟨rest, hrest⟩ := prefix_before_nul src (w ++ v) _ hp hd
    exact ⟨w, v, rest, hw, hv, hrest, fun hf => by simpa using hout hf⟩

theorem not_wellFormed_one_blank_x : ¬ WellFormed [49, 32, 120] := by
  rintro ⟨w1, v, w2, hw1, hv, hw2, heq⟩
  obtain ⟨c, tl, rfl, hc, -⟩ := hv.value_head
  have hw1nil : w1 = [] := by
    cases w1 with
    | nil => rfl
    | cons x w1 =>
      simp only [List.cons_append, List.cons.injEq] at heq
      have := hw1 x (by simp)
      rw [← heq.1] at this
      exact absurd this (by decide)
  subst hw1nil
  have hw2nil : w2 = [] := by
    rcases List.eq_nil_or_concat w2 with h | ⟨w3, x, h⟩
    · exact h
    · rw [List.concat_eq_append] at h
      subst h
      have hx := hw2 x (by simp)
      have h1 : ([49, 32, 120] : List Nat) = [49, 32] ++ [120] := rfl
      rw [h1, List.nil_append, ← List.append_assoc] at heq
      have := (List.append_inj' heq rfl).2
      simp only [List.cons.injEq, and_true] at this
      rw [← this] at hx
      exact absurd hx (by decide)
  subst hw2nil
  simp only [List.nil_append, List.append_nil] at heq
  generalize hx : c :: tl = x at hv
  rw [← heq] at hx
  cases hv with
  | litNull => simp at hx
  | litTrue => simp at hx
  | litFalse => simp at hx
  | number t ht _ =>
    obtain ⟨_, _, _, _, hall⟩ := ht.shape
    have := hall 32 (by rw [← hx]; simp)
    exact absurd this (by decide)
  | string body _ _ => simp at hx
  | emptyArray w _ => simp at hx
  | array w es _ _ => simp at hx
  | emptyObject w _ => simp at hx
  | object w ms _ _ => simp at hx

/-! ## Claims about Compact -/

set_option exponentiation.threshold 5000 in
/-- Counterexample to claim C1 as stated: the text 1e999 is a well-formed JSON
number, and Compact without escaping fails on it with the range error of
strconv.ParseFloat instead of writing it. -/
theorem Compact_rejects_1e999 :
    WellFormed [49, 101, 57, 57, 57] ∧
      Compact [49, 101, 57, 57, 57] false = .error .parseFloat :=
  ⟨⟨[], [49, 101, 57, 57, 57], [], by decide, .number _ isNumber_1e999 trivial, by decide, rfl⟩,
    by decide⟩

/-- Claim C1, amended: for every well-formed JSON text whose number tokens
strconv.ParseFloat accepts, Compact without escaping succeeds and writes exactly
the bytes of the text with every whitespace byte outside a string literal
removed and every other byte kept in order. -/
theorem Compact_minify (src : List Nat)
    (h : IsJsonText (fun t => parseFloatOk t = true) (fun _ => True) src) :
    Compact src false = .ok (minify false src) :=
  Compact_of_text src false (h.weaken (fun _ ht => ht) (fun _ _ he => by simp at he))

set_option exponentiation.threshold 5000 in
/-- Witness of claim C1, amended: the example of the specification. -/
theorem Compact_minify_witness :
    IsJsonText (fun t => parseFloatOk t = true) (fun _ => True)
        [123, 32, 34, 97, 34, 32, 58, 32, 49, 32, 44, 32, 34, 98, 34, 32, 58, 32, 91, 32,
          116, 114, 117, 101, 32, 44, 32, 110, 117, 108, 108, 32, 93, 32, 125] ∧
      Compact
          [123, 32, 34, 97, 34, 32, 58, 32, 49, 32, 44, 32, 34, 98, 34, 32, 58, 32, 91, 32,
            116, 114, 117, 101, 32, 44, 32, 110, 117, 108, 108, 32, 93, 32, 125] false =
        .ok [123, 34, 97, 34, 58, 49, 44, 34, 98, 34, 58, 91, 116, 114, 117, 101, 44,
          110, 117, 108, 108, 93, 125] :=
  ⟨exampleText_isJsonText _ _ (by decide) trivial trivial,
    Compact_minify _ (exampleText_isJsonText _ _ (by decide) trivial trivial)⟩

/-- Counterexample to claim C2 as stated: the string literal that holds the
encoding E2 80 A9 of U+2029 and the letters a, b, c is well-formed, and Compact
with escaping does not copy its bytes other than the HTML bytes unchanged: it
writes the escape of U+2029 followed by the letter c only. -/
theorem Compact_escape_changes_lineSep :
    WellFormed [34, 0xE2, 0x80, 0xA9, 97, 98, 99, 34] ∧
      Compact [34, 0xE2, 0x80, 0xA9, 97, 98, 99, 34] true =
        .ok [34, 92, 117, 50, 48, 50, 57, 99, 34] ∧
      minify true [34, 0xE2, 0x80, 0xA9, 97, 98, 99, 34] =
        [34, 0xE2, 0x80, 0xA9, 97, 98, 99, 34] :=
  ⟨⟨[], [34, 0xE2, 0x80, 0xA9, 97, 98, 99, 34], [], by decide,
      .string [0xE2, 0x80, 0xA9, 97, 98, 99] (.ofPlain _ (by decide)) trivial, by decide, rfl⟩,
    by decide, by decide⟩

/-- Claim C2, amended: for every well-formed JSON text of bytes whose string
literals (keys included) nowhere hold the UTF-8 encoding of U+2028 or U+2029 and
whose number tokens strconv.ParseFloat accepts, Compact with escaping succeeds
and writes the text with the whitespace outside string literals removed, every
less-than sign, greater-than sign and ampersand inside a string literal replaced
by its six-byte escape, and every other byte unchanged. -/
theorem Compact_escape_html (src : List Nat)
    (h : IsJsonText (fun t => parseFloatOk t = true)
      (fun body => noLineSep body = true ∧ ∀ c ∈ body, c < 256) src) :
    Compact src true = .ok (minify true src) :=
  Compact_of_text src true (h.weaken (fun _ ht => ht) (fun _ hb _ => hb))

/-- Witness of claim C2, amended: the string literal of the specification. -/
theorem Compact_escape_html_witness :
    IsJsonText (fun t => parseFloatOk t = true)
        (fun body => noLineSep body = true ∧ ∀ c ∈ body, c < 256)
        [34, 60, 115, 99, 114, 105, 112, 116, 62, 34] ∧
      Compact [34, 60, 115, 99, 114, 105, 112, 116, 62, 34] true =
        .ok [34, 92, 117, 48, 48, 51, 99, 115, 99, 114, 105, 112, 116,
          92, 117, 48, 48, 51, 101, 34] :=
  ⟨⟨[], [34, 60, 115, 99, 114, 105, 112, 116, 62, 34], [], by decide,
      .string [60, 115, 99, 114, 105, 112, 116, 62] (.ofPlain _ (by decide)) (by decide),
      by decide, rfl⟩,
    Compact_escape_html _ ⟨[], [34, 60, 115, 99, 114, 105, 112, 116, 62, 34], [], by decide,
      .string [60, 115, 99, 114, 105, 112, 116, 62] (.ofPlain _ (by decide)) (by decide),
      by decide, rfl⟩⟩

/-- Claim C3, the code at the failing inputs: with escaping, the string literal
made of a quote, E2 80 A8, the letters a and b and a quote is written as the
escape of U+2028 between quotes, the letters a and b lost; and on the literal
made of a quote, E2 80 A8 and a quote the final slice src[start:cursor] has
start above cursor, a run-time panic. -/
theorem Compact_lineSep_drops_bytes :
    Compact [34, 0xE2, 0x80, 0xA8, 97, 98, 34] true = .ok [34, 92, 117, 50, 48, 50, 56, 34] ∧
      Compact [34, 0xE2, 0x80, 0xA8, 34] true = .error .sliceOutOfRange := by
  decide

/-! ## Claim about the offset of a missing value -/

set_option exponentiation.threshold 5000 in
/-- Claim C12 as stated fails on objects in which Compact stops before it
reaches the brace.  In the object with the member a : 1e999 followed by the key
b, a colon and the closing brace at the index 15, compactNumber returns the
error of strconv.ParseFloat for the number, and that error, not the syntax
error at the brace, is the result.  In the object whose one key is U+2028,
followed by a colon and the closing brace at the index 7, Compact with escape
set takes the slice src[7:6] at the closing quote of the key, which is out of
range. -/
theorem Compact_missing_value_not_reached :
    [123, 34, 97, 34, 58, 49, 101, 57, 57, 57, 44, 34, 98, 34, 58, 125][15]? = some 125 ∧
      Compact [123, 34, 97, 34, 58, 49, 101, 57, 57, 57, 44, 34, 98, 34, 58, 125] false =
        .error .parseFloat ∧
      Compact [123, 34, 97, 34, 58, 49, 101, 57, 57, 57, 44, 34, 98, 34, 58, 125] true =
        .error .parseFloat ∧
      [123, 34, 0xE2, 0x80, 0xA8, 34, 58, 125][7]? = some 125 ∧
      Compact [123, 34, 0xE2, 0x80, 0xA8, 34, 58, 125] true = .error .sliceOutOfRange := by
  decide

/-- Claim C12, amended: for every input to Compact in which, after whitespace,
an object begins and the colon after one of its keys is followed, after optional
whitespace, by the closing brace instead of a value, Compact fails with the
syntax error whose offset is the index of that brace, provided that the text
before the brace is one Compact reads that far: the number tokens before the
brace are ones strconv.ParseFloat accepts, and with escape set the strings
before it hold no U+2028 or U+2029.  The key may come after complete members,
and the object may stand inside further objects and arrays after complete
members and elements. -/
theorem Compact_missing_value (escape : Bool) (w0 x rest : List Nat) (hw0 : IsWs w0)
    (hx : Broken (fun t => parseFloatOk t = true) (StrOkFor escape) .value x) :
    (w0 ++ x ++ 125 :: rest)[w0.length + x.length]? = some 125 ∧
      Compact (w0 ++ x ++ 125 :: rest) escape = .error (.synErr (w0.length + x.length)) := by
  refine ⟨?_, Compact_of_broken escape w0 x rest hw0 hx⟩
  rw [← List.length_append, List.getElem?_append_right (le_refl _)]
  simp

/-- Witness of claim C12: the input of the specification, an object with the
key a, a colon and the closing brace; the offset is 5. -/
theorem Compact_missing_value_witness :
    [123, 34, 97, 34, 58, 125][5]? = some 125 ∧
      Compact [123, 34, 97, 34, 58, 125] false = .error (.synErr 5) :=
  Compact_missing_value false [] [123, 34, 97, 34, 58] [] (by decide)
    (.object [] [34, 97, 34, 58] (by decide)
      (.key [97] [] [] (.ofPlain _ (by decide)) (fun h => by simp at h) (by decide) (by decide)))

/-! ## Claim about what Compact accepts -/

set_option exponentiation.threshold 5000 in
/-- Counterexample to claim C13 as stated: the text made of the digit 1, a
blank and the letter x is not well-formed JSON, and Compact succeeds on it and
writes the digit 1; Compact also succeeds on the number token 01 and on the
string literal that holds the control character U+0001. -/
theorem Compact_accepts_invalid :
    ¬ WellFormed [49, 32, 120] ∧ Compact [49, 32, 120] false = .ok [49] ∧
      Compact [48, 49] false = .ok [48, 49] ∧ Compact [34, 1, 34] false = .ok [34, 1, 34] :=
  ⟨not_wellFormed_one_blank_x, by decide, by decide, by decide⟩

/-- Claim C13, amended: whenever Compact succeeds, its input begins, after
optional whitespace, with a value of the grammar Compact checks, in which the
literals are spelled in full, the arrays and objects have their brackets,
commas, colons and string keys, every string literal is closed by an unescaped
quote and holds no nul byte, and every number token consists of number
characters and is accepted by strconv.ParseFloat; the bytes after this value are
not examined; and without escaping the output is that value without its
whitespace outside strings. -/
theorem Compact_accepts_loose (src : List Nat) (escape : Bool) (out : List Nat)
    (h : Compact src escape = .ok out) :
    ∃ w v rest, IsWs w ∧ Loose .value v ∧ src = w ++ v ++ rest ∧
      (escape = false → out = minifyFrom false .outside v) :=
  Compact_sound src escape out h

set_option exponentiation.threshold 5000 in
/-- Witness of claim C13, amended: the array of 1 and "a" followed by a blank
and the letter x. -/
theorem Compact_accepts_loose_witness :
    ∃ w v rest, IsWs w ∧ Loose .value v ∧ [91, 49, 44, 32, 34, 97, 34, 93, 32, 120] = w ++ v ++ rest ∧
      (false = false → [91, 49, 44, 34, 97, 34, 93] = minifyFrom false .outside v) :=
  Compact_accepts_loose [91, 49, 44, 32, 34, 97, 34, 93, 32, 120] false
    [91, 49, 44, 34, 97, 34, 93] (by decide)

/-! ## Claim about compacting twice -/

/-- Claim C19 fails when the escape flag is set.  The input is the string whose
interior is U+2028, the letter a, an escaped quote and the letter b.  Compact
succeeds on it: the line-separator branch sets the start of the next copy two
bytes past the end of the character, so the letter a and the backslash are not
copied and the quote that was escaped stands bare in the output.  Compact on
that output reads the string up to that quote and returns it, leaving the letter
b and the last quote unread: its result is not the output. -/
theorem Compact_not_idempotent :
    Compact [34, 226, 128, 168, 97, 92, 34, 98, 34] true =
        .ok [34, 92, 117, 50, 48, 50, 56, 34, 98, 34] ∧
      Compact [34, 92, 117, 50, 48, 50, 56, 34, 98, 34] true =
        .ok [34, 92, 117, 50, 48, 50, 56, 34] := by
  decide

/-! ## Theorems: the decoders -/

/-! ### Whitespace and null in buffer mode -/

theorem skipWhiteSpaceFrom_ws (w : List Nat) (hw : IsWs w) (c : Nat) (tl : List Nat)
    (hc : isWhiteSpace c = false) (i : Nat) :
    skipWhiteSpaceFrom (w ++ c :: tl) i = some (i + w.length) := by
  induction w generalizing i with
  | nil => simp [skipWhiteSpaceFrom, hc]
  | cons x w ih =>
    have h1 := ih hw.tail (i + 1)
    have h2 : i + 1 + w.length = i + (w.length + 1) := by omega
    rw [h2] at h1
    simp only [List.cons_append, skipWhiteSpaceFrom, hw.head, if_true, List.length_cons]
    exact h1

theorem decoderSkipWhiteSpace_ws (buf : List Nat) (i : Nat) (w : List Nat) (hw : IsWs w) (c : Nat)
    (tl : List Nat) (hd : buf.drop i = w ++ c :: tl) (hc : isWhiteSpace c = false) :
    decoderSkipWhiteSpace buf i = some (i + w.length) := by
  rw [decoderSkipWhiteSpace, hd, skipWhiteSpaceFrom_ws w hw c tl hc]

theorem getElem?_of_drop {buf : List Nat} {i c : Nat} {tl : List Nat}
    (h : buf.drop i = c :: tl) : buf[i]? = some c := by
  have := congrArg List.head? h
  simpa [List.head?_drop] using this

theorem null_at (buf : List Nat) (j : Nat) (rest : List Nat)
    (hd : buf.drop j = [110, 117, 108, 108] ++ rest) :
    buf[j]? = some 110 ∧ ¬ (j + 3 ≥ buf.length) ∧ buf.getD (j + 1) 0 = 117 ∧
      buf.getD (j + 2) 0 = 108 ∧ buf.getD (j + 3) 0 = 108 := by
  have hl := congrArg List.length hd
  simp only [List.length_drop, List.length_append, List.length_cons, List.length_nil] at hl
  refine ⟨getElem?_of_drop (by simpa using hd), by omega, ?_, ?_, ?_⟩
  · rw [getD_of_drop hd 1]; rfl
  · rw [getD_of_drop hd 2]; rfl
  · rw [getD_of_drop hd 3]; rfl

theorem validateNull_ok (buf : List Nat) (j : Nat) (rest : List Nat)
    (hd : buf.drop j = [110, 117, 108, 108] ++ rest) : validateNull buf j = none := by
  obtain ⟨-, h1, h2, h3, h4⟩ := null_at buf j rest hd
  simp only [validateNull, if_neg h1, h2, h3, h4]
  simp

/-! ### The loop of Decode on the entries of an object -/

theorem assignAll_lookup {κ ν : Type} [DecidableEq κ] (entries : List (κ × ν)) :
    ∀ (m : GoMap κ ν) (k : κ),
      assignAll m entries k =
        match lastValue entries k with
        | some v => some v
        | none => m k := by
  induction entries with
  | nil => intro m k; rfl
  | cons kv rest ih =>
    intro m k
    obtain ⟨k1, v⟩ := kv
    have := ih (mapassign m k1 v) k
    simp only [assignAll, List.foldl_cons] at this ⊢
    rw [this]
    simp only [lastValue]
    cases lastValue rest k with
    | some v1 => rfl
    | none =>
      simp only [mapassign]
      split_ifs <;> rfl

theorem lastValue_isSome {κ ν : Type} [DecidableEq κ] (entries : List (κ × ν)) (k : κ) :
    (lastValue entries k).isSome = true ↔ k ∈ entries.map Prod.fst := by
  induction entries with
  | nil => simp [lastValue]
  | cons kv rest ih =>
    obtain ⟨k1, v⟩ := kv
    simp only [lastValue, List.map_cons, List.mem_cons]
    cases h : lastValue rest k with
    | some v1 =>
      have : k ∈ rest.map Prod.fst := ih.mp (by simp [h])
      simp [this]
    | none =>
      have : ¬ k ∈ rest.map Prod.fst := fun hm => by
        have := ih.mpr hm
        simp [h] at this
      by_cases hk : k = k1 <;> simp [hk, this]

theorem decodeLoop_succ {π κ ν : Type} [DecidableEq κ] [Inhabited κ] [Inhabited ν]
    (d : mapDecoder π κ ν) (path : π) (buf : List Nat) (depth : Nat) (p : Option (GoMap κ ν))
    (fuel : Nat) (mapValue : GoMap κ ν) (cursor : Nat) (calls : List Call) :
    d.decodeLoop path buf depth p (fuel + 1) mapValue cursor calls =
      match (d.keyDecoder path buf cursor depth default).result with
      | .error e => ⟨aliased p mapValue, calls ++ [.key cursor depth], .error e⟩
      | .ok keyCursor =>
        match decoderSkipWhiteSpace buf keyCursor with
        | none => ⟨aliased p mapValue, calls ++ [.key cursor depth], .error .indexOutOfRange⟩
        | some cursor1 =>
          match buf[cursor1]? with
          | none => ⟨aliased p mapValue, calls ++ [.key cursor depth], .error .indexOutOfRange⟩
          | some c =>
            if c ≠ 58 then
              ⟨aliased p mapValue, calls ++ [.key cursor depth], .error (.expectedColon cursor1)⟩
            else
              match (d.valueDecoder path buf (cursor1 + 1) depth default).result with
              | .error e =>
                ⟨aliased p mapValue,
                  calls ++ [.key cursor depth] ++ [.value (cursor1 + 1) depth], .error e⟩
              | .ok valueCursor =>
                match decoderSkipWhiteSpace buf valueCursor with
                | none =>
                  ⟨aliased p (mapassign mapValue (d.keyDecoder path buf cursor depth default).target
                      (d.valueDecoder path buf (cursor1 + 1) depth default).target),
                    calls ++ [.key cursor depth] ++ [.value (cursor1 + 1) depth],
                    .error .indexOutOfRange⟩
                | some cursor2 =>
                  match buf[cursor2]? with
                  | none =>
                    ⟨aliased p (mapassign mapValue
                        (d.keyDecoder path buf cursor depth default).target
                        (d.valueDecoder path buf (cursor1 + 1) depth default).target),
                      calls ++ [.key cursor depth] ++ [.value (cursor1 + 1) depth],
                      .error .indexOutOfRange⟩
                  | some c =>
                    if c = 125 then
                      ⟨some (mapassign mapValue
                          (d.keyDecoder path buf cursor depth default).target
                          (d.valueDecoder path buf (cursor1 + 1) depth default).target),
                        calls ++ [.key cursor depth] ++ [.value (cursor1 + 1) depth],
                        .ok (cursor2 + 1)⟩
                    else if c ≠ 44 then
                      ⟨aliased p (mapassign mapValue
                          (d.keyDecoder path buf cursor depth default).target
                          (d.valueDecoder path buf (cursor1 + 1) depth default).target),
                        calls ++ [.key cursor depth] ++ [.value (cursor1 + 1) depth],
                        .error (.expectedComma cursor2)⟩
                    else
                      d.decodeLoop path buf depth p fuel
                        (mapassign mapValue (d.keyDecoder path buf cursor depth default).target
                          (d.valueDecoder path buf (cursor1 + 1) depth default).target)
                        (cursor2 + 1)
                        (calls ++ [.key cursor depth] ++ [.value (cursor1 + 1) depth]) := rfl

/-- The loop of Decode on the entries of an object: it succeeds with the map
overridden by the entries in order. -/
theorem decodeLoop_entries {π κ ν : Type} [DecidableEq κ] [Inhabited κ] [Inhabited ν]
    (d : mapDecoder π κ ν) (path : π) (buf : List Nat) (depth : Nat) (p : Option (GoMap κ ν))
    {c : Nat} {entries : List (κ × ν)} {stop : Nat}
    (h : ObjectEntries d path buf depth c entries stop) :
    ∀ (fuel : Nat) (mapValue : GoMap κ ν) (calls : List Call), entries.length ≤ fuel →
      (d.decodeLoop path buf depth p fuel mapValue c calls).result = .ok stop ∧
      (d.decodeLoop path buf depth p fuel mapValue c calls).target =
        some (assignAll mapValue entries) := by
  induction h with
  | last c kc vc w1 w2 tl1 tl2 hk hw1 hd1 hv hw2 hd2 =>
    intro fuel mapValue calls hf
    obtain ⟨f, rfl⟩ : ∃ f, fuel = f + 1 := ⟨fuel - 1, by simp at hf; omega⟩
    have s1 := decoderSkipWhiteSpace_ws buf kc w1 hw1 58 tl1 hd1 (by decide)
    have b1 := getElem?_of_drop (drop_add_of_drop w1 hd1)
    have s2 := decoderSkipWhiteSpace_ws buf vc w2 hw2 125 tl2 hd2 (by decide)
    have b2 := getElem?_of_drop (drop_add_of_drop w2 hd2)
    rw [decodeLoop_succ]
    simp only [hk, s1, b1, hv, s2, b2, if_true, if_neg (show ¬ (58 ≠ 58) by decide)]
    constructor <;> first | rfl | trivial
  | more c kc vc w1 w2 tl1 tl2 rest stop hk hw1 hd1 hv hw2 hd2 _ ih =>
    intro fuel mapValue calls hf
    obtain ⟨f, rfl⟩ : ∃ f, fuel = f + 1 := ⟨fuel - 1, by simp at hf; omega⟩
    have s1 := decoderSkipWhiteSpace_ws buf kc w1 hw1 58 tl1 hd1 (by decide)
    have b1 := getElem?_of_drop (drop_add_of_drop w1 hd1)
    have s2 := decoderSkipWhiteSpace_ws buf vc w2 hw2 44 tl2 hd2 (by decide)
    have b2 := getElem?_of_drop (drop_add_of_drop w2 hd2)
    rw [decodeLoop_succ]
    simp only [hk, s1, b1, hv, s2, b2, if_neg (show ¬ (58 ≠ 58) by decide),
      if_neg (show ¬ (44 = 125) by decide), if_neg (show ¬ (44 ≠ 44) by decide)]
    have := ih f (mapassign mapValue (d.keyDecoder path buf c depth default).target
      (d.valueDecoder path buf (kc + w1.length + 1) depth default).target)
      (calls ++ [.key c depth] ++ [.value (kc + w1.length + 1) depth])
      (by simp at hf; omega)
    exact this

/-! ### Decode on object text -/

theorem Decode_objectText {π κ ν : Type} [DecidableEq κ] [Inhabited κ] [Inhabited ν]
    (maxDecodeNestingDepth : Nat) (d : mapDecoder π κ ν) (fuel : Nat) (path : π) (buf : List Nat)
    (cursor depth : Nat) (p : Option (GoMap κ ν)) (entries : List (κ × ν)) (stop : Nat)
    (hobj : ObjectText d path buf (depth + 1) cursor entries stop)
    (hdepth : depth < maxDecodeNestingDepth) (hfuel : entries.length ≤ fuel) :
    (mapDecoder.Decode maxDecodeNestingDepth d fuel path buf cursor depth p).result = .ok stop ∧
      (mapDecoder.Decode maxDecodeNestingDepth d fuel path buf cursor depth p).target =
        some (assignAll (p.getD makemap) entries) := by
  obtain ⟨w0, w, c, tl, hw0, hw, hd, hc, hcase⟩ := hobj
  have hg : ¬ (depth + 1 > maxDecodeNestingDepth) := by omega
  have hskip := decoderSkipWhiteSpace_ws buf cursor w0 hw0 123 _ hd (by decide)
  have hl := congrArg List.length hd
  simp only [List.length_drop, List.length_append, List.length_cons] at hl
  have hlen : ¬ (buf.length < 2) := by omega
  have hd1 := drop_add_of_drop w0 hd
  have h0 := getElem?_of_drop hd1
  have hd2 : buf.drop (cursor + w0.length + 1) = w ++ c :: tl := drop_succ_of_drop hd1
  have hskip2 := decoderSkipWhiteSpace_ws buf _ w hw c tl hd2 hc
  have h1 := getElem?_of_drop (drop_add_of_drop w hd2)
  simp only [mapDecoder.Decode, if_neg hg, hskip, if_neg hlen, h0,
    if_neg (show ¬ (123 = 110) by decide), if_true, hskip2, h1]
  rcases hcase with ⟨rfl, rfl, rfl⟩ | ⟨hne, hent⟩
  · simp only [if_true]
    constructor <;> first | rfl | trivial
  · simp only [if_neg hne]
    exact decodeLoop_entries d path buf (depth + 1) p hent fuel _ [] hfuel

/-! ### Nested objects and the depth ceiling -/

/-- The loop of Decode passes entries that decode and comes to the next entry. -/
theorem decodeLoop_entriesBefore {π κ ν : Type} [DecidableEq κ] [Inhabited κ] [Inhabited ν]
    (d : mapDecoder π κ ν) (path : π) (buf : List Nat) (depth : Nat) (p : Option (GoMap κ ν))
    {c count c1 : Nat} (h : EntriesBefore d path buf depth c count c1) :
    ∀ (fuel : Nat) (mapValue : GoMap κ ν) (calls : List Call),
      ∃ (mapValue1 : GoMap κ ν) (calls1 : List Call),
        d.decodeLoop path buf depth p (count + fuel) mapValue c calls =
          d.decodeLoop path buf depth p fuel mapValue1 c1 calls1 := by
  induction h with
  | none c => intro fuel mapValue calls; exact ⟨mapValue, calls, by simp⟩
  | cons c kc vc w1 w2 tl1 tl2 count c1 hk hw1 hd1 hv hw2 hd2 _ ih =>
    intro fuel mapValue calls
    have s1 := decoderSkipWhiteSpace_ws buf kc w1 hw1 58 tl1 hd1 (by decide)
    have b1 := getElem?_of_drop (drop_add_of_drop w1 hd1)
    have s2 := decoderSkipWhiteSpace_ws buf vc w2 hw2 44 tl2 hd2 (by decide)
    have b2 := getElem?_of_drop (drop_add_of_drop w2 hd2)
    have hf : count + 1 + fuel = (count + fuel) + 1 := by omega
    rw [hf, decodeLoop_succ]
    simp only [hk, s1, b1, hv, s2, b2, if_neg (show ¬ (58 ≠ 58) by decide),
      if_neg (show ¬ (44 = 125) by decide), if_neg (show ¬ (44 ≠ 44) by decide)]
    exact ih fuel _ _

/-- The loop of Decode returns the error of the value decoder. -/
theorem decodeLoop_value_error {π κ ν : Type} [DecidableEq κ] [Inhabited κ] [Inhabited ν]
    (d : mapDecoder π κ ν) (path : π) (buf : List Nat) (depth : Nat) (p : Option (GoMap κ ν))
    (fuel : Nat) (mapValue : GoMap κ ν) (c : Nat) (calls : List Call) (kc : Nat)
    (w1 tl1 : List Nat) (e : DecodeError)
    (hk : (d.keyDecoder path buf c depth default).result = .ok kc)
    (hw1 : IsWs w1) (hd1 : buf.drop kc = w1 ++ 58 :: tl1)
    (hv : (d.valueDecoder path buf (kc + w1.length + 1) depth default).result = .error e) :
    (d.decodeLoop path buf depth p (fuel + 1) mapValue c calls).result = .error e := by
  have s1 := decoderSkipWhiteSpace_ws buf kc w1 hw1 58 tl1 hd1 (by decide)
  have b1 := getElem?_of_drop (drop_add_of_drop w1 hd1)
  rw [decodeLoop_succ]
  simp only [hk, s1, b1, hv, if_neg (show ¬ (58 ≠ 58) by decide)]

theorem nestedDecoder_succ {π κ : Type} [DecidableEq κ] [Inhabited κ] (maxDecodeNestingDepth : Nat)
    (base : mapDecoder π κ (Nested κ)) (fuel height : Nat) (path : π) (buf : List Nat)
    (cursor depth : Nat) (p : Nested κ) :
    (nestedDecoder maxDecodeNestingDepth base fuel (height + 1) path buf cursor depth p).result =
      (mapDecoder.Decode maxDecodeNestingDepth
        { base with valueDecoder := nestedDecoder maxDecodeNestingDepth base fuel height } fuel
        path buf cursor depth p.get).result := rfl

/-- Entered above the ceiling, Decode fails before it looks at the text. -/
theorem Decode_above_ceiling {π κ ν : Type} [DecidableEq κ] [Inhabited κ] [Inhabited ν]
    (maxDecodeNestingDepth : Nat) (d : mapDecoder π κ ν) (fuel : Nat) (path : π) (buf : List Nat)
    (cursor depth : Nat) (p : Option (GoMap κ ν)) (hdepth : depth + 1 > maxDecodeNestingDepth)
    (hc : cursor < buf.length) :
    mapDecoder.Decode maxDecodeNestingDepth d fuel path buf cursor depth p =
      ⟨p, [], .error (.exceededMaxDepth (buf.getD cursor 0) cursor)⟩ := by
  have h0 : buf[cursor]? = some (buf.getD cursor 0) := by
    rw [List.getElem?_eq_getElem hc, List.getD_eq_getElem _ _ hc]
  simp only [mapDecoder.Decode, if_pos hdepth, h0]

/-- A document that nests objects beyond the ceiling fails with the
depth-exceeded error of the first object beyond the ceiling. -/
theorem nestedDecoder_nestsTo {π κ : Type} [DecidableEq κ] [Inhabited κ]
    (maxDecodeNestingDepth : Nat) (base : mapDecoder π κ (Nested κ)) (fuel : Nat) (path : π)
    (buf : List Nat) (h : Nat) :
    ∀ (levels depth cursor deepest : Nat) (p : Nested κ),
      NestsTo maxDecodeNestingDepth base fuel path buf h levels depth cursor deepest →
      depth + levels = maxDecodeNestingDepth →
      (nestedDecoder maxDecodeNestingDepth base fuel (h + levels + 1) path buf cursor depth
        p).result = .error (.exceededMaxDepth (buf.getD deepest 0) deepest) := by
  intro levels
  induction levels with
  | zero =>
    intro depth cursor deepest p hn hd
    obtain ⟨rfl, hlt⟩ := hn
    rw [nestedDecoder_succ, Decode_above_ceiling _ _ _ _ _ _ _ _ (by omega) hlt]
  | succ n ih =>
    intro depth cursor deepest p hn hd
    obtain ⟨w0, w, c, tl, count, c1, kc, w1, tl1, hw0, hw, hdrop, hc, hne, hbefore, hcount, hk,
      hw1, hd1, hrest⟩ := hn
    have hv := ih (depth + 1) (kc + w1.length + 1) deepest default hrest (by omega)
    rw [nestedDecoder_succ]
    have hg : ¬ (depth + 1 > maxDecodeNestingDepth) := by omega
    have hskip := decoderSkipWhiteSpace_ws buf cursor w0 hw0 123 _ hdrop (by decide)
    have hl := congrArg List.length hdrop
    simp only [List.length_drop, List.length_append, List.length_cons] at hl
    have hlen : ¬ (buf.length < 2) := by omega
    have hdr1 := drop_add_of_drop w0 hdrop
    have h0 := getElem?_of_drop hdr1
    have hdr2 : buf.drop (cursor + w0.length + 1) = w ++ c :: tl := drop_succ_of_drop hdr1
    have hskip2 := decoderSkipWhiteSpace_ws buf _ w hw c tl hdr2 hc
    have h1 := getElem?_of_drop (drop_add_of_drop w hdr2)
    simp only [mapDecoder.Decode, if_neg hg, hskip, if_neg hlen, h0,
      if_neg (show ¬ (123 = 110) by decide), if_true, hskip2, h1, if_neg hne]
    obtain ⟨f, rfl⟩ : ∃ f, fuel = count + (f + 1) := ⟨fuel - count - 1, by omega⟩
    obtain ⟨mv, calls1, heq⟩ := decodeLoop_entriesBefore _ path buf (depth + 1) p.get hbefore
      (f + 1) (p.get.getD makemap) []
    refine (congrArg Outcome.result heq).trans ?_
    exact decodeLoop_value_error _ path buf (depth + 1) p.get f mv c1 calls1 kc w1 tl1 _ hk hw1 hd1
      hv

/-! ### The depth passed to the children -/

theorem depth_append_key {calls : List Call} {depth : Nat}
    (h : ∀ call ∈ calls, call.depth? = some depth) (c : Nat) :
    ∀ call ∈ calls ++ [Call.key c depth], call.depth? = some depth := by
  intro call hc
  rcases List.mem_append.mp hc with h1 | h1
  · exact h call h1
  · rw [List.mem_singleton.mp h1]; rfl

theorem depth_append_value {calls : List Call} {depth : Nat}
    (h : ∀ call ∈ calls, call.depth? = some depth) (c : Nat) :
    ∀ call ∈ calls ++ [Call.value c depth], call.depth? = some depth := by
  intro call hc
  rcases List.mem_append.mp hc with h1 | h1
  · exact h call h1
  · rw [List.mem_singleton.mp h1]; rfl

theorem decodeLoop_calls_depth {π κ ν : Type} [DecidableEq κ] [Inhabited κ] [Inhabited ν]
    (d : mapDecoder π κ ν) (path : π) (buf : List Nat) (depth : Nat) (p : Option (GoMap κ ν))
    (fuel : Nat) : ∀ (mapValue : GoMap κ ν) (cursor : Nat) (calls : List Call),
      (∀ call ∈ calls, call.depth? = some depth) →
      ∀ call ∈ (d.decodeLoop path buf depth p fuel mapValue cursor calls).calls,
        call.depth? = some depth := by
  induction fuel with
  | zero => intro mapValue cursor calls h; exact h
  | succ f ih =>
    intro mapValue cursor calls h
    have hk := depth_append_key h cursor
    rw [decodeLoop_succ]
    split
    · exact hk
    · split
      · exact hk
      · split
        · exact hk
        · split
          · exact hk
          · split
            · exact depth_append_value hk _
            · split
              · exact depth_append_value hk _
              · split
                · exact depth_append_value hk _
                · split
                  · exact depth_append_value hk _
                  · split
                    · exact depth_append_value hk _
                    · exact ih _ _ _ (depth_append_value hk _)

theorem Decode_calls_depth {π κ ν : Type} [DecidableEq κ] [Inhabited κ] [Inhabited ν]
    (maxDecodeNestingDepth : Nat) (d : mapDecoder π κ ν) (fuel : Nat) (path : π) (buf : List Nat)
    (cursor depth : Nat) (p : Option (GoMap κ ν)) :
    ∀ call ∈ (mapDecoder.Decode maxDecodeNestingDepth d fuel path buf cursor depth p).calls,
      call.depth? = some (depth + 1) := by
  have hnil : ∀ call ∈ ([] : List Call), call.depth? = some (depth + 1) := by simp
  simp only [mapDecoder.Decode]
  repeat' split
  all_goals first
    | exact hnil
    | exact decodeLoop_calls_depth d path buf (depth + 1) p fuel _ _ [] hnil

theorem decodePathLoop_calls_depth {π κ ν : Type} (d : mapDecoder π κ ν)
    (keyDecoder : List Nat → Nat → Except DecodeError (List Nat × Nat)) (path : π)
    (buf : List Nat) (depth : Nat) (fuel : Nat) : ∀ (p : ν) (cursor : Nat) (calls : List Call),
      (∀ call ∈ calls, call.depth? = some depth) →
      ∀ call ∈ (d.decodePathLoop keyDecoder path buf depth fuel p cursor calls).calls,
        call.depth? = some depth := by
  induction fuel with
  | zero => intro p cursor calls h; exact h
  | succ f ih =>
    intro p cursor calls h
    simp only [mapDecoder.decodePathLoop]
    repeat' split
    all_goals first
      | exact h
      | exact depth_append_value h _
      | exact ih _ _ _ h

theorem DecodePath_calls_depth {π κ ν : Type} (maxDecodeNestingDepth : Nat)
    (d : mapDecoder π κ ν) (fuel : Nat) (path : π) (buf : List Nat) (cursor depth : Nat) (p : ν) :
    ∀ call ∈ (mapDecoder.DecodePath maxDecodeNestingDepth d fuel path buf cursor depth p).calls,
      call.depth? = some (depth + 1) := by
  have hnil : ∀ call ∈ ([] : List Call), call.depth? = some (depth + 1) := by simp
  simp only [mapDecoder.DecodePath]
  repeat' split
  all_goals first
    | exact hnil
    | exact decodePathLoop_calls_depth d _ path buf (depth + 1) fuel _ _ [] hnil

theorem decodeStreamLoop_calls_depth {ρ κ ν : Type} [DecidableEq κ] [Inhabited κ] [Inhabited ν]
    (ops : StreamOps ρ) (keyDecoder : StreamDecoder ρ κ) (valueDecoder : StreamDecoder ρ ν)
    (depth : Nat) (p : Option (GoMap κ ν)) (fuel : Nat) :
    ∀ (s : Stream ρ) (mapValue : GoMap κ ν) (calls : List Call),
      (∀ call ∈ calls, call.depth? = some depth) →
      ∀ call ∈ (mapDecoder.decodeStreamLoop ops keyDecoder valueDecoder depth p fuel s mapValue
        calls).calls, call.depth? = some depth := by
  induction fuel with
  | zero => intro s mapValue calls h; exact h
  | succ f ih =>
    intro s mapValue calls h
    have hk := depth_append_key h (s.cursor + 1)
    simp only [mapDecoder.decodeStreamLoop]
    repeat' split
    all_goals first
      | exact hk
      | exact depth_append_value hk _
      | exact ih _ _ _ (depth_append_value hk _)

theorem DecodeStream_calls_depth {ρ κ ν : Type} [DecidableEq κ] [Inhabited κ] [Inhabited ν]
    (maxDecodeNestingDepth : Nat) (ops : StreamOps ρ) (keyDecoder : StreamDecoder ρ κ)
    (valueDecoder : StreamDecoder ρ ν) (fuel : Nat) (s : Stream ρ) (depth : Nat)
    (p : Option (GoMap κ ν)) :
    ∀ call ∈ (mapDecoder.DecodeStream maxDecodeNestingDepth ops keyDecoder valueDecoder fuel s
      depth p).calls, call.depth? = some (depth + 1) := by
  have hnil : ∀ call ∈ ([] : List Call), call.depth? = some (depth + 1) := by simp
  simp only [mapDecoder.DecodeStream]
  repeat' split
  all_goals first
    | exact hnil
    | exact decodeStreamLoop_calls_depth ops keyDecoder valueDecoder (depth + 1) p fuel _ _ []
        hnil

theorem DecodePath_above_ceiling {π κ ν : Type} (maxDecodeNestingDepth : Nat)
    (d : mapDecoder π κ ν) (fuel : Nat) (path : π) (buf : List Nat) (cursor depth : Nat) (p : ν)
    (hdepth : depth + 1 > maxDecodeNestingDepth) (hc : cursor < buf.length) :
    mapDecoder.DecodePath maxDecodeNestingDepth d fuel path buf cursor depth p =
      ⟨p, [], .error (.exceededMaxDepth (buf.getD cursor 0) cursor)⟩ := by
  have h0 : buf[cursor]? = some (buf.getD cursor 0) := by
    rw [List.getElem?_eq_getElem hc, List.getD_eq_getElem _ _ hc]
  simp only [mapDecoder.DecodePath, if_pos hdepth, h0]

theorem DecodeStream_above_ceiling {ρ κ ν : Type} [DecidableEq κ] [Inhabited κ] [Inhabited ν]
    (maxDecodeNestingDepth : Nat) (ops : StreamOps ρ) (keyDecoder : StreamDecoder ρ κ)
    (valueDecoder : StreamDecoder ρ ν) (fuel : Nat) (s : Stream ρ) (depth : Nat)
    (p : Option (GoMap κ ν)) (hdepth : depth + 1 > maxDecodeNestingDepth) :
    mapDecoder.DecodeStream maxDecodeNestingDepth ops keyDecoder valueDecoder fuel s depth p =
      ⟨s, p, [], some (.exceededMaxDepth (ops.char s) s.cursor)⟩ := by
  simp only [mapDecoder.DecodeStream, if_pos hdepth]

/-! ### The text-unmarshal decoder -/

theorem hookInput_unquoted (c : Nat) (tail : List Nat) (hc : c ≠ 34) :
    hookInput (c :: tail) = c :: tail := by
  simp [hookInput, unquoteBytes, hc]

theorem take_drop_of_drop {buf : List Nat} {i : Nat} (x : List Nat) {rest : List Nat}
    (h : buf.drop i = x ++ rest) : (buf.take (i + x.length)).drop i = x := by
  rw [List.drop_take, h]
  simp

/-! ## The path-restricted decode of a map -/

/-- The loop of DecodePath on entries none of which matches: it returns the
cursor after the closing brace and leaves the target and the invocations as they
are. -/
theorem decodePathLoop_unmatched {π κ ν : Type} (d : mapDecoder π κ ν)
    (keyDecoder : List Nat → Nat → Except DecodeError (List Nat × Nat)) (path : π)
    (buf : List Nat) (depth : Nat) {c count stop : Nat}
    (h : UnmatchedEntries d keyDecoder path buf depth c count stop) :
    ∀ (fuel : Nat) (p : ν) (calls : List Call), count ≤ fuel →
      d.decodePathLoop keyDecoder path buf depth fuel p c calls = ⟨p, calls, .ok stop⟩ := by
  induction h with
  | last c kc vc key w1 w2 tl1 tl2 hk hw1 hd1 hf hv hw2 hd2 =>
    intro fuel p calls hfuel
    obtain ⟨f, rfl⟩ : ∃ f, fuel = f + 1 := ⟨fuel - 1, by omega⟩
    have s1 := decoderSkipWhiteSpace_ws buf kc w1 hw1 58 tl1 hd1 (by decide)
    have b1 := getElem?_of_drop (drop_add_of_drop w1 hd1)
    have s2 := decoderSkipWhiteSpace_ws buf vc w2 hw2 125 tl2 hd2 (by decide)
    have b2 := getElem?_of_drop (drop_add_of_drop w2 hd2)
    simp only [mapDecoder.decodePathLoop, hk, s1, b1, if_neg (show ¬ (58 ≠ 58) by decide), hf, hv,
      s2, b2, if_true]
  | more c kc vc key w1 w2 tl1 tl2 count stop hk hw1 hd1 hf hv hw2 hd2 _ ih =>
    intro fuel p calls hfuel
    obtain ⟨f, rfl⟩ : ∃ f, fuel = f + 1 := ⟨fuel - 1, by omega⟩
    have s1 := decoderSkipWhiteSpace_ws buf kc w1 hw1 58 tl1 hd1 (by decide)
    have b1 := getElem?_of_drop (drop_add_of_drop w1 hd1)
    have s2 := decoderSkipWhiteSpace_ws buf vc w2 hw2 44 tl2 hd2 (by decide)
    have b2 := getElem?_of_drop (drop_add_of_drop w2 hd2)
    simp only [mapDecoder.decodePathLoop, hk, s1, b1, if_neg (show ¬ (58 ≠ 58) by decide), hf, hv,
      s2, b2, if_neg (show ¬ (44 = 125) by decide), if_neg (show ¬ (44 ≠ 44) by decide)]
    exact ih f p calls (by omega)

/-- What the loop of DecodePath invokes: nothing, the target left as it is;
or the value decoder once, at the cursor after the colon of a key whose
lower-cased text is the field of the path, with the child path, the depth and
the target, which then holds what the value decoder leaves. -/
theorem decodePathLoop_calls {π κ ν : Type} (d : mapDecoder π κ ν)
    (keyDecoder : List Nat → Nat → Except DecodeError (List Nat × Nat)) (path : π)
    (buf : List Nat) (depth : Nat) (p : ν) : ∀ (fuel cursor : Nat),
      ((d.decodePathLoop keyDecoder path buf depth fuel p cursor []).calls = [] ∧
        (d.decodePathLoop keyDecoder path buf depth fuel p cursor []).target = p) ∨
      (∃ (kcur : Nat) (key : List Nat) (kc c1 : Nat) (child : π),
        keyDecoder buf kcur = .ok (key, kc) ∧ decoderSkipWhiteSpace buf kc = some c1 ∧
        buf[c1]? = some 58 ∧ d.pathField path (d.toLower key) = .ok (some child) ∧
        (d.decodePathLoop keyDecoder path buf depth fuel p cursor []).calls =
          [.value (c1 + 1) depth] ∧
        (d.decodePathLoop keyDecoder path buf depth fuel p cursor []).target =
          (d.valueDecoder child buf (c1 + 1) depth p).target) := by
  intro fuel
  induction fuel with
  | zero => intro cursor; exact Or.inl ⟨rfl, rfl⟩
  | succ f ih =>
    intro cursor
    simp only [mapDecoder.decodePathLoop]
    cases hk : keyDecoder buf cursor with
    | error e => exact Or.inl ⟨rfl, rfl⟩
    | ok r =>
      obtain ⟨key, kc⟩ := r
      simp only
      cases hs : decoderSkipWhiteSpace buf kc with
      | none => exact Or.inl ⟨rfl, rfl⟩
      | some c1 =>
        simp only
        cases hb : buf[c1]? with
        | none => exact Or.inl ⟨rfl, rfl⟩
        | some c =>
          simp only
          by_cases h58 : c ≠ 58
          · rw [if_pos h58]; exact Or.inl ⟨rfl, rfl⟩
          · rw [if_neg h58]
            have hc : c = 58 := by omega
            subst hc
            cases hf : d.pathField path (d.toLower key) with
            | error e => exact Or.inl ⟨rfl, rfl⟩
            | ok o =>
              cases o with
              | some child =>
                simp only
                right
                refine ⟨cursor, key, kc, c1, child, hk, hs, hb, hf, ?_, ?_⟩
                · cases (d.valueDecoder child buf (c1 + 1) depth p).result <;> rfl
                · cases (d.valueDecoder child buf (c1 + 1) depth p).result <;> rfl
              | none =>
                simp only
                cases hv : d.skipValue buf (c1 + 1) depth with
                | error e => exact Or.inl ⟨rfl, rfl⟩
                | ok vc =>
                  simp only
                  cases hs2 : decoderSkipWhiteSpace buf vc with
                  | none => exact Or.inl ⟨rfl, rfl⟩
                  | some c2 =>
                    simp only
                    cases hb2 : buf[c2]? with
                    | none => exact Or.inl ⟨rfl, rfl⟩
                    | some x =>
                      simp only
                      by_cases h125 : x = 125
                      · rw [if_pos h125]; exact Or.inl ⟨rfl, rfl⟩
                      · rw [if_neg h125]
                        by_cases h44 : x ≠ 44
                        · rw [if_pos h44]; exact Or.inl ⟨rfl, rfl⟩
                        · rw [if_neg h44]
                          exact ih (c2 + 1)

/-! ## Claims about the null literal -/

/-- Counterexample to claim C5 as stated: entered at the depth ceiling (here
10000), mapDecoder.Decode fails on null with the depth-exceeded error. -/
theorem mapDecoder_null_at_ceiling :
    (mapDecoder.Decode 10000 failingMapDecoder 0 () [110, 117, 108, 108, 0] 0 10000 none).result =
      .error (.exceededMaxDepth 110 0) := by
  decide

/-- Claim C5, amended: for JSON null preceded by any amount of whitespace,
ptrDecoder.decode and, when entered below the depth ceiling, mapDecoder.Decode
succeed, leave nil in the target, return the cursor four bytes past the n, and
invoke no inner, key or value decoder, whatever these decoders are. -/
theorem null_decodes_to_nil {π κ ν τ : Type} [DecidableEq κ] [Inhabited κ] [Inhabited ν]
    [Inhabited τ] (maxDecodeNestingDepth : Nat) (d : mapDecoder π κ ν) (dec : RootDecoder τ)
    (fuel : Nat) (path : π) (buf : List Nat) (cursor depth : Nat) (ws rest : List Nat)
    (p : Option (GoMap κ ν)) (q : Option τ) (hws : IsWs ws)
    (hd : buf.drop cursor = ws ++ [110, 117, 108, 108] ++ rest)
    (hdepth : depth < maxDecodeNestingDepth) :
    ptrDecoder.decode dec buf cursor q = ⟨none, [], .ok (cursor + ws.length + 4)⟩ ∧
      mapDecoder.Decode maxDecodeNestingDepth d fuel path buf cursor depth p =
        ⟨none, [], .ok (cursor + ws.length + 4)⟩ := by
  have hd0 : buf.drop cursor = ws ++ 110 :: ([117, 108, 108] ++ rest) := by simpa using hd
  have hskip := decoderSkipWhiteSpace_ws buf cursor ws hws 110 _ hd0 (by decide)
  have hnull : buf.drop (cursor + ws.length) = [110, 117, 108, 108] ++ rest := by
    have := drop_add_of_drop ws (r := [110, 117, 108, 108] ++ rest) (by simpa using hd)
    simpa using this
  obtain ⟨h0, h1, h2, h3, h4⟩ := null_at buf _ rest hnull
  have hlen : ¬ (buf.length < 2) := by omega
  constructor
  · simp only [ptrDecoder.decode, hskip, h0, if_true, if_neg h1, h2, h3, h4]
    simp
  · have hg : ¬ (depth + 1 > maxDecodeNestingDepth) := by omega
    simp only [mapDecoder.Decode, if_neg hg, hskip, if_neg hlen, h0, if_true,
      validateNull_ok buf _ rest hnull]

/-- Witness of claim C5, amended: null after two blanks, entered at depth 0
under the ceiling 10000, with decoders that fail on every input. -/
theorem null_decodes_to_nil_witness :
    ptrDecoder.decode (failingRootDecoder : RootDecoder Nat) [32, 32, 110, 117, 108, 108, 0] 0
        (some 7) = ⟨none, [], .ok 6⟩ ∧
      mapDecoder.Decode 10000 failingMapDecoder 0 () [32, 32, 110, 117, 108, 108, 0] 0 0
        (some makemap) = ⟨none, [], .ok 6⟩ :=
  null_decodes_to_nil 10000 failingMapDecoder failingRootDecoder 0 () _ 0 0 [32, 32] [0]
    (some makemap) (some 7) (by decide) (by decide) (by decide)

/-! ## Claims about the map decoder -/

/-- Counterexample to claim C6 as stated: the object with the one entry "a":1
is valid object text for the decoder with one-character keys and one-digit
values, yet entered at the depth ceiling (here 10000) mapDecoder.Decode fails
on it with the depth-exceeded error. -/
theorem mapDecoder_object_at_ceiling :
    ObjectText smallMapDecoder () [123, 34, 97, 34, 58, 49, 125, 0] 10001 0 [(97, 1)] 7 ∧
      (mapDecoder.Decode 10000 smallMapDecoder 1 () [123, 34, 97, 34, 58, 49, 125, 0] 0 10000
        none).result = .error (.exceededMaxDepth 123 0) := by
  refine ⟨⟨[], [], 34, [97, 34, 58, 49, 125, 0], by decide, by decide, by decide, by decide,
    Or.inr ⟨by decide, ?_⟩⟩, by decide⟩
  exact ObjectEntries.last (d := smallMapDecoder) 1 4 6 [] [] [49, 125, 0] [0]
    (by decide) (by decide) (by decide) (by decide) (by decide) (by decide)

/-- Claim C6, amended: for every object text, whose keys and values are spans
the key decoder and the value decoder accept, and every initial target, nil
counting as the empty map, mapDecoder.Decode entered below the depth ceiling
succeeds, returns the cursor after the closing brace, and leaves in the target
the initial map overridden by the entries in document order: a key of the
document maps to the value of its last entry, any other key maps to what it
mapped to before, and from an empty start the keys of the map are exactly the
keys of the document. -/
theorem Decode_merges_object {π κ ν : Type} [DecidableEq κ] [Inhabited κ] [Inhabited ν]
    (maxDecodeNestingDepth : Nat) (d : mapDecoder π κ ν) (fuel : Nat) (path : π) (buf : List Nat)
    (cursor depth : Nat) (p : Option (GoMap κ ν)) (entries : List (κ × ν)) (stop : Nat)
    (hobj : ObjectText d path buf (depth + 1) cursor entries stop)
    (hdepth : depth < maxDecodeNestingDepth) (hfuel : entries.length ≤ fuel) :
    ∃ m : GoMap κ ν,
      (mapDecoder.Decode maxDecodeNestingDepth d fuel path buf cursor depth p).result = .ok stop ∧
      (mapDecoder.Decode maxDecodeNestingDepth d fuel path buf cursor depth p).target = some m ∧
      m = assignAll (p.getD makemap) entries ∧
      (∀ k v, lastValue entries k = some v → m k = some v) ∧
      (∀ k, k ∉ entries.map Prod.fst → m k = (p.getD makemap) k) ∧
      (p.getD makemap = makemap → ∀ k, (m k).isSome = true ↔ k ∈ entries.map Prod.fst) := by
  obtain ⟨h1, h2⟩ := Decode_objectText maxDecodeNestingDepth d fuel path buf cursor depth p entries
    stop hobj hdepth hfuel
  refine ⟨_, h1, h2, rfl, ?_, ?_, ?_⟩
  · intro k v hv
    rw [assignAll_lookup, hv]
  · intro k hk
    have hn : lastValue entries k = none := by
      cases h : lastValue entries k with
      | none => rfl
      | some v => exact absurd ((lastValue_isSome entries k).mp (by simp [h])) hk
    rw [assignAll_lookup, hn]
  · intro hm k
    rw [assignAll_lookup, hm, ← lastValue_isSome]
    cases lastValue entries k <;> simp [makemap]

/-- Witness of claim C6, amended: the object with the entries "a":1, "b":2 and
"a":3, decoded at depth 0 under the ceiling 10000 into a map that holds 9 under
the key 99. -/
theorem Decode_merges_object_witness :
    ∃ m : GoMap Nat Nat,
      (mapDecoder.Decode 10000 smallMapDecoder 3 ()
        [123, 34, 97, 34, 58, 49, 44, 34, 98, 34, 32, 58, 50, 44, 34, 97, 34, 58, 51, 32, 125, 0] 0 0
        (some (mapassign makemap 99 9))).result = .ok 21 ∧
      (mapDecoder.Decode 10000 smallMapDecoder 3 ()
        [123, 34, 97, 34, 58, 49, 44, 34, 98, 34, 32, 58, 50, 44, 34, 97, 34, 58, 51, 32, 125, 0] 0 0
        (some (mapassign makemap 99 9))).target = some m ∧
      m = assignAll ((some (mapassign makemap 99 9)).getD makemap) [(97, 1), (98, 2), (97, 3)] ∧
      (∀ k v, lastValue [(97, 1), (98, 2), (97, 3)] k = some v → m k = some v) ∧
      (∀ k, k ∉ [(97, 1), (98, 2), (97, 3)].map Prod.fst →
        m k = ((some (mapassign makemap 99 9)).getD makemap) k) ∧
      ((some (mapassign makemap 99 9)).getD makemap = makemap →
        ∀ k, (m k).isSome = true ↔ k ∈ [(97, 1), (98, 2), (97, 3)].map Prod.fst) :=
  Decode_merges_object 10000 smallMapDecoder 3 ()
    [123, 34, 97, 34, 58, 49, 44, 34, 98, 34, 32, 58, 50, 44, 34, 97, 34, 58, 51, 32, 125, 0] 0 0
    (some (mapassign makemap 99 9)) [(97, 1), (98, 2), (97, 3)] 21
    (by
      refine ⟨[], [], 34, [97, 34, 58, 49, 44, 34, 98, 34, 32, 58, 50, 44, 34, 97, 34, 58, 51, 32, 125, 0], by decide, by decide, by decide, by decide,
        Or.inr ⟨by decide, ?_⟩⟩
      refine ObjectEntries.more 1 4 6 [] [] [49, 44, 34, 98, 34, 32, 58, 50, 44, 34, 97, 34, 58, 51, 32, 125, 0] [34, 98, 34, 32, 58, 50, 44, 34, 97, 34, 58, 51, 32, 125, 0] [(98, 2), (97, 3)] 21
        (by decide) (by decide) (by decide) (by decide) (by decide) (by decide) ?_
      refine ObjectEntries.more 7 10 13 [32] [] [50, 44, 34, 97, 34, 58, 51, 32, 125, 0] [34, 97, 34, 58, 51, 32, 125, 0] [(97, 3)] 21
        (by decide) (by decide) (by decide) (by decide) (by decide) (by decide) ?_
      exact ObjectEntries.last 14 17 19 [] [32] [51, 32, 125, 0] [0]
        (by decide) (by decide) (by decide) (by decide) (by decide) (by decide))
    (by decide) (by decide)

/-- Claim C7: mapDecoder.Decode, DecodePath and DecodeStream entered at a depth
whose increment is greater than maxDecodeNestingDepth fail with the
depth-exceeded error, carrying the character and the offset at the cursor,
invoke no key or value decoder and leave the target as it was; every key or
value decoder they invoke is passed the incremented depth; hence the map
decoder whose value decoder is again such a map decoder fails with the
depth-exceeded error on every document that nests objects deeper than the
ceiling, at the first object beyond the ceiling. -/
theorem depth_ceiling {π ρ κ ν : Type} [DecidableEq κ] [Inhabited κ] [Inhabited ν]
    (maxDecodeNestingDepth : Nat) (d : mapDecoder π κ ν) (ops : StreamOps ρ)
    (keyDecoder : StreamDecoder ρ κ) (valueDecoder : StreamDecoder ρ ν)
    (base : mapDecoder π κ (Nested κ)) (fuel : Nat) (path : π) (buf : List Nat)
    (h levels depth cursor deepest : Nat) (t : Nested κ)
    (hnest : NestsTo maxDecodeNestingDepth base fuel path buf h levels depth cursor deepest)
    (hlevels : depth + levels = maxDecodeNestingDepth) :
    (∀ (c n : Nat) (p : Option (GoMap κ ν)) (q : ν), c < buf.length →
      n + 1 > maxDecodeNestingDepth →
      mapDecoder.Decode maxDecodeNestingDepth d fuel path buf c n p =
          ⟨p, [], .error (.exceededMaxDepth (buf.getD c 0) c)⟩ ∧
        mapDecoder.DecodePath maxDecodeNestingDepth d fuel path buf c n q =
          ⟨q, [], .error (.exceededMaxDepth (buf.getD c 0) c)⟩) ∧
      (∀ (s : Stream ρ) (n : Nat) (p : Option (GoMap κ ν)), n + 1 > maxDecodeNestingDepth →
        mapDecoder.DecodeStream maxDecodeNestingDepth ops keyDecoder valueDecoder fuel s n p =
          ⟨s, p, [], some (.exceededMaxDepth (ops.char s) s.cursor)⟩) ∧
      (∀ (c n : Nat) (p : Option (GoMap κ ν)) (q : ν) (s : Stream ρ),
        (∀ call ∈ (mapDecoder.Decode maxDecodeNestingDepth d fuel path buf c n p).calls,
          call.depth? = some (n + 1)) ∧
        (∀ call ∈ (mapDecoder.DecodePath maxDecodeNestingDepth d fuel path buf c n q).calls,
          call.depth? = some (n + 1)) ∧
        (∀ call ∈ (mapDecoder.DecodeStream maxDecodeNestingDepth ops keyDecoder valueDecoder fuel
            s n p).calls, call.depth? = some (n + 1))) ∧
      (nestedDecoder maxDecodeNestingDepth base fuel (h + levels + 1) path buf cursor depth
        t).result = .error (.exceededMaxDepth (buf.getD deepest 0) deepest) :=
  ⟨fun c n p q hc hn =>
      ⟨Decode_above_ceiling maxDecodeNestingDepth d fuel path buf c n p hn hc,
        DecodePath_above_ceiling maxDecodeNestingDepth d fuel path buf c n q hn hc⟩,
    fun s n p hn =>
      DecodeStream_above_ceiling maxDecodeNestingDepth ops keyDecoder valueDecoder fuel s n p hn,
    fun c n p q s =>
      ⟨Decode_calls_depth maxDecodeNestingDepth d fuel path buf c n p,
        DecodePath_calls_depth maxDecodeNestingDepth d fuel path buf c n q,
        DecodeStream_calls_depth maxDecodeNestingDepth ops keyDecoder valueDecoder fuel s n p⟩,
    nestedDecoder_nestsTo maxDecodeNestingDepth base fuel path buf h levels depth cursor deepest t
      hnest hlevels⟩

/-- Witness of claim C7: under the ceiling 2 the document
with the entries "b":null and "a", whose value nests two more objects, fails at
the third object, at offset 19. -/
theorem depth_ceiling_witness :
    (nestedDecoder 2 smallNestedBase 2 3 ()
      [123, 34, 98, 34, 58, 110, 117, 108, 108, 44, 34, 97, 34, 58, 123, 34, 97, 34, 58, 123, 34, 97, 34, 58, 49, 125, 125, 125, 0] 0 0
      default).result = .error (.exceededMaxDepth 123 19) :=
  (depth_ceiling 2 smallMapDecoder (spanStreamOps 0) (fun s _ p => ⟨s, p, [], none⟩)
    (fun s _ p => ⟨s, p, [], none⟩) smallNestedBase 2 ()
    [123, 34, 98, 34, 58, 110, 117, 108, 108, 44, 34, 97, 34, 58, 123, 34, 97, 34, 58, 123, 34, 97, 34, 58, 49, 125, 125, 125, 0]
    0 2 0 0 19 default
    ⟨[], [], 34, [98, 34, 58, 110, 117, 108, 108, 44, 34, 97, 34, 58, 123, 34, 97, 34, 58, 123, 34, 97, 34, 58, 49, 125, 125, 125, 0], 1, 10, 13, [], [123, 34, 97, 34, 58, 123, 34, 97, 34, 58, 49, 125, 125, 125, 0],
      by decide, by decide, by decide, by decide, by decide,
      EntriesBefore.cons 1 4 9 [] [] [110, 117, 108, 108, 44, 34, 97, 34, 58, 123, 34, 97, 34, 58, 123, 34, 97, 34, 58, 49, 125, 125, 125, 0] [34, 97, 34, 58, 123, 34, 97, 34, 58, 123, 34, 97, 34, 58, 49, 125, 125, 125, 0] 0 10
        (by decide) (by decide) (by decide) (by decide) (by decide) (by decide)
        (EntriesBefore.none 10),
      by decide, by decide, by decide, by decide,
      ⟨[], [], 34, [97, 34, 58, 123, 34, 97, 34, 58, 49, 125, 125, 125, 0], 0, 15, 18, [], [123, 34, 97, 34, 58, 49, 125, 125, 125, 0],
        by decide, by decide, by decide, by decide, by decide, EntriesBefore.none 15,
        by decide, by decide, by decide, by decide, by decide, by decide⟩⟩
    (by decide)).2.2.2

/-! ## Claims about the text-unmarshal decoder -/

/-- Claim C8 fails for the buffer-mode operation.  On an input whose first
character after whitespace is the bracket or the brace, of which skipValue
returns the end and the stream holds the span, decodeStream returns the
UnmarshalTypeError for the array or the object without calling the hook, but
decode calls the hook with the raw bytes of the value, leaves in the target what
the hook wrote, and returns the end of the value when the hook returns nil. -/
theorem unmarshalText_decode_accepts_composite {ρ τ : Type}
    (skipValue : List Nat → Nat → Except DecodeError Nat) (ops : StreamOps ρ)
    (unmarshalText : List Nat → τ → τ × Option DecodeError) (buf : List Nat) (cursor : Nat)
    (p : τ) (s : Stream ρ) (ws : List Nat) (c : Nat) (tail rest : List Nat)
    (hws : IsWs ws) (hc : c = 91 ∨ c = 123)
    (hd : buf.drop cursor = ws ++ (c :: tail) ++ rest)
    (hskip : skipValue buf (cursor + ws.length) = .ok (cursor + ws.length + (c :: tail).length))
    (hstream : (ops.skipValue (ops.skipWhiteSpace s).1).2 = none)
    (hspan : (ops.skipWhiteSpace s).1.cursor ≤ (ops.skipValue (ops.skipWhiteSpace s).1).1.cursor ∧
      (ops.skipValue (ops.skipWhiteSpace s).1).1.cursor ≤
        (ops.skipValue (ops.skipWhiteSpace s).1).1.buf.length)
    (hsrc : ((ops.skipValue (ops.skipWhiteSpace s).1).1.buf.take
        (ops.skipValue (ops.skipWhiteSpace s).1).1.cursor).drop (ops.skipWhiteSpace s).1.cursor =
      c :: tail) :
    unmarshalTextDecoder.decodeStream ops unmarshalText s p =
        ⟨(ops.skipValue (ops.skipWhiteSpace s).1).1, p, [],
          some (if c = 91
            then .unmarshalTypeArray (ops.totalOffset (ops.skipValue (ops.skipWhiteSpace s).1).1)
            else .unmarshalTypeObject
              (ops.totalOffset (ops.skipValue (ops.skipWhiteSpace s).1).1))⟩ ∧
      (unmarshalTextDecoder.decode skipValue unmarshalText buf cursor p).calls =
        [.hook (c :: tail)] ∧
      (unmarshalTextDecoder.decode skipValue unmarshalText buf cursor p).target =
        (unmarshalText (c :: tail) p).1 ∧
      ((unmarshalText (c :: tail) p).2 = none →
        (unmarshalTextDecoder.decode skipValue unmarshalText buf cursor p).result =
          .ok (cursor + ws.length + (c :: tail).length)) := by
  have hne : c ≠ 34 := by rcases hc with rfl | rfl <;> decide
  have hnw : isWhiteSpace c = false := by rcases hc with rfl | rfl <;> decide
  have hd0 : buf.drop cursor = ws ++ c :: (tail ++ rest) := by simpa using hd
  have hsk := decoderSkipWhiteSpace_ws buf cursor ws hws c _ hd0 hnw
  have hd1 : buf.drop (cursor + ws.length) = (c :: tail) ++ rest := by
    have := drop_add_of_drop ws hd0
    simpa using this
  have hraw := take_drop_of_drop (c :: tail) hd1
  have hl := congrArg List.length hd1
  simp only [List.length_drop, List.length_append] at hl
  have hrange : cursor + ws.length ≤ cursor + ws.length + (c :: tail).length ∧
      cursor + ws.length + (c :: tail).length ≤ buf.length := by
    constructor
    · omega
    · simp only [List.length_cons] at hl ⊢
      omega
  refine ⟨?_, ?_⟩
  · simp only [unmarshalTextDecoder.decodeStream, hstream, hspan, hsrc, List.head?_cons]
    rcases hc with rfl | rfl <;> simp
  · simp only [unmarshalTextDecoder.decode, hsk, hskip, hrange, hraw,
      hookInput_unquoted c tail hne]
    cases h : (unmarshalText (c :: tail) p).2 <;> simp

/-- Witness of claim C8 failing: the array [1,2]; decodeStream rejects it, but
decode hands its five bytes to the hook, here one that stores the bytes it is
given, and returns the end of the array. -/
theorem unmarshalText_decode_accepts_composite_witness :
    unmarshalTextDecoder.decodeStream (spanStreamOps 5) (fun b _ => (b, none))
        ⟨[91, 49, 44, 50, 93, 0], 0, ()⟩ [] =
        ⟨⟨[91, 49, 44, 50, 93, 0], 5, ()⟩, [], [], some (.unmarshalTypeArray 5)⟩ ∧
      (unmarshalTextDecoder.decode (fun _ _ => .ok 5) (fun b _ => (b, none))
        [91, 49, 44, 50, 93, 0] 0 []).calls = [.hook [91, 49, 44, 50, 93]] ∧
      (unmarshalTextDecoder.decode (fun _ _ => .ok 5) (fun b _ => (b, none))
        [91, 49, 44, 50, 93, 0] 0 []).target = [91, 49, 44, 50, 93] ∧
      (unmarshalTextDecoder.decode (fun _ _ => .ok 5) (fun b _ => (b, none))
        [91, 49, 44, 50, 93, 0] 0 []).result = .ok 5 :=
  have h := unmarshalText_decode_accepts_composite (fun _ _ => .ok 5) (spanStreamOps 5)
    (fun b (_ : List Nat) => (b, none)) [91, 49, 44, 50, 93, 0] 0 [] ⟨[91, 49, 44, 50, 93, 0], 0, ()⟩
    [] 91 [49, 44, 50, 93] [0] (by decide) (by decide) (by decide) (by decide) (by decide)
    (by decide) (by decide)
  ⟨h.1, h.2.1, h.2.2.1, h.2.2.2 rfl⟩

/-! ## Claim about the two modes of the map decoder -/

/-- Claim C14 fails on an empty object written with a blank between the
braces.  mapDecoder.Decode, entered below the depth ceiling, skips the blank,
sees the closing brace and succeeds with the target map, no decoder invoked;
mapDecoder.DecodeStream tests the byte right after the opening brace only, so it
invokes the key decoder at the blank and returns the error of the key
decoder. -/
theorem DecodeStream_differs_on_blank_object {π ρ κ ν : Type} [DecidableEq κ] [Inhabited κ]
    [Inhabited ν] (maxDecodeNestingDepth : Nat) (d : mapDecoder π κ ν) (ops : StreamOps ρ)
    (keyDecoder : StreamDecoder ρ κ) (valueDecoder : StreamDecoder ρ ν) (fuel : Nat) (path : π)
    (s : Stream ρ) (depth : Nat) (p : Option (GoMap κ ν)) (e : DecodeError) (rest : List Nat)
    (hdepth : depth < maxDecodeNestingDepth)
    (hbuf : s.buf.drop s.cursor = 123 :: 32 :: 125 :: rest)
    (hsk : ops.skipWhiteSpace s = (s, 123))
    (hkey : (keyDecoder { s with cursor := s.cursor + 1 } (depth + 1) default).result = some e) :
    mapDecoder.Decode maxDecodeNestingDepth d fuel path s.buf s.cursor depth p =
        ⟨some (p.getD makemap), [], .ok (s.cursor + 3)⟩ ∧
      (mapDecoder.DecodeStream maxDecodeNestingDepth ops keyDecoder valueDecoder (fuel + 1) s
        depth p).result = some e ∧
      (mapDecoder.DecodeStream maxDecodeNestingDepth ops keyDecoder valueDecoder (fuel + 1) s
        depth p).calls = [.key (s.cursor + 1) (depth + 1)] := by
  have hg : ¬ (depth + 1 > maxDecodeNestingDepth) := by omega
  have hd0 : s.buf.drop s.cursor = [] ++ 123 :: (32 :: 125 :: rest) := by simpa using hbuf
  have hskip := decoderSkipWhiteSpace_ws s.buf s.cursor [] IsWs.nil 123 _ hd0 (by decide)
  have hl := congrArg List.length hbuf
  simp only [List.length_drop, List.length_cons] at hl
  have hlen : ¬ (s.buf.length < 2) := by omega
  have h0 := getElem?_of_drop hbuf
  have hd1 : s.buf.drop (s.cursor + 1) = [32] ++ 125 :: rest := drop_succ_of_drop hbuf
  have hskip2 : decoderSkipWhiteSpace s.buf (s.cursor + 1) = some (s.cursor + 2) :=
    decoderSkipWhiteSpace_ws s.buf (s.cursor + 1) [32] (by decide) 125 rest hd1 (by decide)
  have h1 : s.buf[s.cursor + 2]? = some 125 := getElem?_of_drop (drop_add_of_drop [32] hd1)
  have h2 : s.buf[s.cursor + 1]? = some 32 := getElem?_of_drop (drop_succ_of_drop hbuf)
  refine ⟨?_, ?_, ?_⟩
  · simp only [List.length_nil, Nat.add_zero] at hskip
    simp only [mapDecoder.Decode, if_neg hg, hskip, if_neg hlen, h0,
      if_neg (show ¬ (123 = 110) by decide), if_true, hskip2, h1]
  · simp only [mapDecoder.DecodeStream, if_neg hg, hsk, if_neg (show ¬ (123 = 110) by decide),
      if_true, h2, if_neg (show ¬ (32 = 125) by decide), mapDecoder.decodeStreamLoop, hkey]
  · simp only [mapDecoder.DecodeStream, if_neg hg, hsk, if_neg (show ¬ (123 = 110) by decide),
      if_true, h2, if_neg (show ¬ (32 = 125) by decide), mapDecoder.decodeStreamLoop, hkey]
    rfl

/-- Witness of claim C14 failing: the buffer holds an opening brace, a blank
and a closing brace; Decode returns the empty map and the cursor 3, DecodeStream
returns the error of the key decoder, which finds the blank where a key is
due. -/
theorem DecodeStream_differs_on_blank_object_witness :
    mapDecoder.Decode 10000 smallMapDecoder 1 () [123, 32, 125, 0] 0 0 none =
        ⟨some makemap, [], .ok 3⟩ ∧
      (mapDecoder.DecodeStream 10000 (spanStreamOps 0) charKeyStreamDecoder digitStreamDecoder 2
        ⟨[123, 32, 125, 0], 0, ()⟩ 0 (none : Option (GoMap Nat Nat))).result =
          some (.invalidCharacter 32 1) ∧
      (mapDecoder.DecodeStream 10000 (spanStreamOps 0) charKeyStreamDecoder digitStreamDecoder 2
        ⟨[123, 32, 125, 0], 0, ()⟩ 0 (none : Option (GoMap Nat Nat))).calls = [.key 1 1] :=
  DecodeStream_differs_on_blank_object 10000 smallMapDecoder (spanStreamOps 0)
    charKeyStreamDecoder digitStreamDecoder 1 () ⟨[123, 32, 125, 0], 0, ()⟩ 0 none
    (.invalidCharacter 32 1) [0] (by decide) rfl rfl rfl

/-! ## Claim about the bytes handed to the hook -/

/-- Claim C15 holds for the values that are neither arrays nor objects and
fails for arrays and objects.  On a value whose raw bytes both modes see, the
buffer-mode operation calls the hook with the bytes hookInput makes of the raw
bytes, the unescaped interior when unquoteBytes is ok and the raw bytes
otherwise; the stream-mode operation calls the hook with the same bytes when the
value does not start with the bracket or the brace, and does not call the hook
when it does. -/
theorem unmarshalText_hook_bytes {ρ τ : Type}
    (skipValue : List Nat → Nat → Except DecodeError Nat) (ops : StreamOps ρ)
    (unmarshalText : List Nat → τ → τ × Option DecodeError) (buf : List Nat) (cursor : Nat)
    (p : τ) (s : Stream ρ) (ws : List Nat) (c : Nat) (tail rest : List Nat)
    (hws : IsWs ws) (hc : isWhiteSpace c = false)
    (hd : buf.drop cursor = ws ++ (c :: tail) ++ rest)
    (hskip : skipValue buf (cursor + ws.length) = .ok (cursor + ws.length + (c :: tail).length))
    (hstream : (ops.skipValue (ops.skipWhiteSpace s).1).2 = none)
    (hspan : (ops.skipWhiteSpace s).1.cursor ≤ (ops.skipValue (ops.skipWhiteSpace s).1).1.cursor ∧
      (ops.skipValue (ops.skipWhiteSpace s).1).1.cursor ≤
        (ops.skipValue (ops.skipWhiteSpace s).1).1.buf.length)
    (hsrc : ((ops.skipValue (ops.skipWhiteSpace s).1).1.buf.take
        (ops.skipValue (ops.skipWhiteSpace s).1).1.cursor).drop (ops.skipWhiteSpace s).1.cursor =
      c :: tail) :
    (unmarshalTextDecoder.decode skipValue unmarshalText buf cursor p).calls =
        [.hook (hookInput (c :: tail))] ∧
      (c ≠ 91 ∧ c ≠ 123 →
        (unmarshalTextDecoder.decodeStream ops unmarshalText s p).calls =
          [.hook (hookInput (c :: tail))]) ∧
      (c = 91 ∨ c = 123 →
        (unmarshalTextDecoder.decodeStream ops unmarshalText s p).calls = []) := by
  have hd0 : buf.drop cursor = ws ++ c :: (tail ++ rest) := by simpa using hd
  have hsk := decoderSkipWhiteSpace_ws buf cursor ws hws c _ hd0 hc
  have hd1 : buf.drop (cursor + ws.length) = (c :: tail) ++ rest := by
    have := drop_add_of_drop ws hd0
    simpa using this
  have hraw := take_drop_of_drop (c :: tail) hd1
  have hl := congrArg List.length hd1
  simp only [List.length_drop, List.length_append] at hl
  have hrange : cursor + ws.length ≤ cursor + ws.length + (c :: tail).length ∧
      cursor + ws.length + (c :: tail).length ≤ buf.length := by
    constructor
    · omega
    · simp only [List.length_cons] at hl ⊢
      omega
  refine ⟨?_, ?_, ?_⟩
  · simp only [unmarshalTextDecoder.decode, hsk, hskip, hrange, hraw]
    cases h : (unmarshalText (hookInput (c :: tail)) p).2 <;> simp
  · rintro ⟨h91, h123⟩
    simp only [unmarshalTextDecoder.decodeStream, hstream, hspan, hsrc, List.head?_cons,
      if_neg h91, if_neg h123]
    cases h : (unmarshalText (hookInput (c :: tail)) p).2 <;> simp
  · intro h
    simp only [unmarshalTextDecoder.decodeStream, hstream, hspan, hsrc, List.head?_cons]
    rcases h with rfl | rfl <;> simp

/-- Witness of claim C15: on the string value "a\n" both modes hand the two
bytes of the letter a and the line feed to the hook; on the array [1,2] only
decode calls the hook. -/
theorem unmarshalText_hook_bytes_witness :
    ((unmarshalTextDecoder.decode (fun _ _ => .ok 5) (fun b _ => (b, none))
        [34, 97, 92, 110, 34, 44, 0] 0 []).calls = [.hook [97, 10]] ∧
      (unmarshalTextDecoder.decodeStream (spanStreamOps 5) (fun b _ => (b, none))
        ⟨[34, 97, 92, 110, 34, 44, 0], 0, ()⟩ []).calls = [.hook [97, 10]]) ∧
      ((unmarshalTextDecoder.decode (fun _ _ => .ok 5) (fun b _ => (b, none))
        [91, 49, 44, 50, 93, 0] 0 []).calls = [.hook [91, 49, 44, 50, 93]] ∧
      (unmarshalTextDecoder.decodeStream (spanStreamOps 5) (fun b _ => (b, none))
        ⟨[91, 49, 44, 50, 93, 0], 0, ()⟩ []).calls = []) :=
  have h1 := unmarshalText_hook_bytes (fun _ _ => .ok 5) (spanStreamOps 5)
    (fun b (_ : List Nat) => (b, none)) [34, 97, 92, 110, 34, 44, 0] 0 []
    ⟨[34, 97, 92, 110, 34, 44, 0], 0, ()⟩ [] 34 [97, 92, 110, 34] [44, 0] (by decide) (by decide)
    (by decide) (by decide) (by decide) (by decide) (by decide)
  have h2 := unmarshalText_hook_bytes (fun _ _ => .ok 5) (spanStreamOps 5)
    (fun b (_ : List Nat) => (b, none)) [91, 49, 44, 50, 93, 0] 0 []
    ⟨[91, 49, 44, 50, 93, 0], 0, ()⟩ [] 91 [49, 44, 50, 93] [0] (by decide) (by decide)
    (by decide) (by decide) (by decide) (by decide) (by decide)
  ⟨⟨h1.1, h1.2.1 (by decide)⟩, ⟨h2.1, h2.2.2 (by decide)⟩⟩

/-! ## Claims about the path-restricted decode -/

/-- Claim C16 as stated fails at the depth ceiling: on the buffer that holds
the object with the one key c and the value 2, whose key does not match the path
segment a, DecodePath entered at the depth ceiling (here 0) returns the depth
error for the byte at the cursor, although the object is one that the method
reads to the cursor 7 after its closing brace when entered below the ceiling. -/
theorem DecodePath_unmatched_at_ceiling :
    UnmatchedObject (pathMapDecoder 0 digitDecoder) [[97]] [123, 34, 99, 34, 58, 50, 125, 0] 1 0 1
        7 ∧
      (mapDecoder.DecodePath 0 (pathMapDecoder 0 digitDecoder) 8 [[97]]
        [123, 34, 99, 34, 58, 50, 125, 0] 0 0 7).result = .error (.exceededMaxDepth 123 0) ∧
      (mapDecoder.DecodePath 1 (pathMapDecoder 1 digitDecoder) 8 [[97]]
        [123, 34, 99, 34, 58, 50, 125, 0] 0 0 7).result = .ok 7 := by
  refine ⟨⟨[], [], 34, [99, 34, 58, 50, 125, 0], IsWs.nil, IsWs.nil, rfl, rfl, Or.inr
    ⟨by decide, charKeyBytes, rfl, ?_⟩⟩, by decide, by decide⟩
  exact UnmatchedEntries.last 1 4 6 [99] [] [] [50, 125, 0] [0] rfl IsWs.nil rfl rfl rfl
    IsWs.nil rfl

/-- Claim C16, amended: when DecodePath is entered below the depth ceiling
(depth < maxDecodeNestingDepth) on an object none of whose keys matches the
current path segment (an empty object, or entries whose keys the string key
decoder reads, whose lower-cased keys are not the field of the path and whose
values skipValue skips), and the loop may run once per entry, it returns no
error, leaves the target as it was, invokes the value decoder not once, and
returns the cursor after the closing brace of the object. -/
theorem DecodePath_unmatched {π κ ν : Type} (maxDecodeNestingDepth : Nat)
    (d : mapDecoder π κ ν) (fuel : Nat) (path : π) (buf : List Nat) (cursor depth : Nat) (p : ν)
    (count stop : Nat) (hobj : UnmatchedObject d path buf (depth + 1) cursor count stop)
    (hdepth : depth < maxDecodeNestingDepth) (hfuel : count ≤ fuel) :
    mapDecoder.DecodePath maxDecodeNestingDepth d fuel path buf cursor depth p =
      ⟨p, [], .ok stop⟩ := by
  obtain ⟨w0, w, c, tl, hw0, hw, hd, hc, hcase⟩ := hobj
  have hg : ¬ (depth + 1 > maxDecodeNestingDepth) := by omega
  have hskip := decoderSkipWhiteSpace_ws buf cursor w0 hw0 123 _ hd (by decide)
  have hl := congrArg List.length hd
  simp only [List.length_drop, List.length_append, List.length_cons] at hl
  have hlen : ¬ (buf.length < 2) := by omega
  have hd1 := drop_add_of_drop w0 hd
  have h0 := getElem?_of_drop hd1
  have hd2 : buf.drop (cursor + w0.length + 1) = w ++ c :: tl := drop_succ_of_drop hd1
  have hskip2 := decoderSkipWhiteSpace_ws buf _ w hw c tl hd2 hc
  have h1 := getElem?_of_drop (drop_add_of_drop w hd2)
  simp only [mapDecoder.DecodePath, if_neg hg, hskip, if_neg hlen, h0,
    if_neg (show ¬ (123 = 110) by decide), if_true, hskip2, h1]
  rcases hcase with ⟨rfl, rfl, rfl⟩ | ⟨hne, keyDecoder, hkey, hent⟩
  · simp only [if_true]
  · simp only [if_neg hne, hkey]
    exact decodePathLoop_unmatched d keyDecoder path buf (depth + 1) hent fuel p [] hfuel

/-- The object with the keys c and d and the values 2 and 3, after a blank,
with the path segment a: DecodePath returns the cursor 14 after the closing
brace, the target 7 and no invocation. -/
theorem DecodePath_unmatched_witness :
    mapDecoder.DecodePath 10000 (pathMapDecoder 10000 digitDecoder) 2 [[97]]
        [32, 123, 34, 99, 34, 58, 50, 44, 34, 100, 34, 58, 51, 125, 0] 0 0 7 =
      ⟨7, [], .ok 14⟩ := by
  refine DecodePath_unmatched 10000 (pathMapDecoder 10000 digitDecoder) 2 [[97]] _ 0 0 7 2 14 ?_
    (by decide) (by decide)
  refine ⟨[32], [], 34, [99, 34, 58, 50, 44, 34, 100, 34, 58, 51, 125, 0], ?_, IsWs.nil, rfl, rfl,
    Or.inr ⟨by decide, charKeyBytes, rfl, ?_⟩⟩
  · intro c hc
    simp only [List.mem_singleton] at hc
    subst hc
    rfl
  · refine UnmatchedEntries.more 2 5 7 [99] [] [] [50, 44, 34, 100, 34, 58, 51, 125, 0]
      [34, 100, 34, 58, 51, 125, 0] 1 14 rfl IsWs.nil rfl rfl rfl IsWs.nil rfl ?_
    exact UnmatchedEntries.last 8 11 13 [100] [] [] [51, 125, 0] [0] rfl IsWs.nil rfl rfl rfl
      IsWs.nil rfl

/-! ## Claim about what the path-restricted decode invokes -/

/-- Claim C17: a call of DecodePath invokes the value decoder at most once.
Either it invokes it not at all and leaves the target as it was; or it invokes
it once, at the cursor after the colon of a key that the string key decoder
read and whose lower-cased text is the field of the current path, and the
target holds what that one invocation left.  No other value reaches the value
decoder or the target. -/
theorem DecodePath_calls_once {π κ ν : Type} (maxDecodeNestingDepth : Nat)
    (d : mapDecoder π κ ν) (fuel : Nat) (path : π) (buf : List Nat) (cursor depth : Nat) (p : ν) :
    ((mapDecoder.DecodePath maxDecodeNestingDepth d fuel path buf cursor depth p).calls = [] ∧
      (mapDecoder.DecodePath maxDecodeNestingDepth d fuel path buf cursor depth p).target = p) ∨
    (∃ (keyDecoder : List Nat → Nat → Except DecodeError (List Nat × Nat)) (kcur : Nat)
        (key : List Nat) (kc c1 : Nat) (child : π),
      d.stringKey = some keyDecoder ∧
      keyDecoder buf kcur = .ok (key, kc) ∧ decoderSkipWhiteSpace buf kc = some c1 ∧
      buf[c1]? = some 58 ∧ d.pathField path (d.toLower key) = .ok (some child) ∧
      (mapDecoder.DecodePath maxDecodeNestingDepth d fuel path buf cursor depth p).calls =
        [.value (c1 + 1) (depth + 1)] ∧
      (mapDecoder.DecodePath maxDecodeNestingDepth d fuel path buf cursor depth p).target =
        (d.valueDecoder child buf (c1 + 1) (depth + 1) p).target) := by
  simp only [mapDecoder.DecodePath]
  repeat' split
  all_goals first
    | exact Or.inl ⟨rfl, rfl⟩
    | (rename_i keyDecoder hkey
       rcases decodePathLoop_calls d keyDecoder path buf (depth + 1) p fuel _ with h | h
       · exact Or.inl h
       · obtain ⟨kcur, key, kc, c1, child, h1, h2, h3, h4, h5, h6⟩ := h
         exact Or.inr ⟨keyDecoder, kcur, key, kc, c1, child, hkey, h1, h2, h3, h4, h5, h6⟩)

set_option maxRecDepth 10000 in
/-- The example of claim C17: on the object with the key a, whose value is the
object with the key b and the value 1, and the key c with the value 2, and with
the path a.b, DecodePath invokes the value decoder once, at the cursor 5 of the
value under a, and never at the cursor 17 of the value under c; the target
holds 1 and the cursor returned is 19, after the final closing brace.  The
invocation at the cursor 5 is the DecodePath of the inner object, which invokes
its value decoder once, at the cursor 10 of the value under b. -/
theorem DecodePath_calls_once_witness :
    mapDecoder.DecodePath 10000 (pathMapDecoder 10000 (pathValueDecoder 10000 8 1)) 8 [[97], [98]]
        [123, 34, 97, 34, 58, 123, 34, 98, 34, 58, 49, 125, 44, 34, 99, 34, 58, 50, 125, 0] 0 0
        0 = ⟨1, [.value 5 1], .ok 19⟩ ∧
      pathValueDecoder 10000 8 1 [[98]]
        [123, 34, 97, 34, 58, 123, 34, 98, 34, 58, 49, 125, 44, 34, 99, 34, 58, 50, 125, 0] 5 1
        0 = ⟨1, [.value 10 2], .ok 12⟩ ∧
      (((mapDecoder.DecodePath 10000 (pathMapDecoder 10000 (pathValueDecoder 10000 8 1)) 8
        [[97], [98]]
          [123, 34, 97, 34, 58, 123, 34, 98, 34, 58, 49, 125, 44, 34, 99, 34, 58, 50, 125, 0] 0 0
          0).calls = [] ∧
        (mapDecoder.DecodePath 10000 (pathMapDecoder 10000 (pathValueDecoder 10000 8 1)) 8
          [[97], [98]]
          [123, 34, 97, 34, 58, 123, 34, 98, 34, 58, 49, 125, 44, 34, 99, 34, 58, 50, 125, 0] 0 0
          0).target = 0) ∨
      (∃ (keyDecoder : List Nat → Nat → Except DecodeError (List Nat × Nat)) (kcur : Nat)
          (key : List Nat) (kc c1 : Nat) (child : List (List Nat)),
        (pathMapDecoder 10000 (pathValueDecoder 10000 8 1)).stringKey = some keyDecoder ∧
        keyDecoder
          [123, 34, 97, 34, 58, 123, 34, 98, 34, 58, 49, 125, 44, 34, 99, 34, 58, 50, 125, 0]
          kcur = .ok (key, kc) ∧
        decoderSkipWhiteSpace
          [123, 34, 97, 34, 58, 123, 34, 98, 34, 58, 49, 125, 44, 34, 99, 34, 58, 50, 125, 0]
          kc = some c1 ∧
        [123, 34, 97, 34, 58, 123, 34, 98, 34, 58, 49, 125, 44, 34, 99, 34, 58, 50, 125, 0][c1]? =
          some 58 ∧
        (pathMapDecoder 10000 (pathValueDecoder 10000 8 1)).pathField [[97], [98]]
          ((pathMapDecoder 10000 (pathValueDecoder 10000 8 1)).toLower key) = .ok (some child) ∧
        (mapDecoder.DecodePath 10000 (pathMapDecoder 10000 (pathValueDecoder 10000 8 1)) 8
          [[97], [98]]
          [123, 34, 97, 34, 58, 123, 34, 98, 34, 58, 49, 125, 44, 34, 99, 34, 58, 50, 125, 0] 0 0
          0).calls = [.value (c1 + 1) (0 + 1)] ∧
        (mapDecoder.DecodePath 10000 (pathMapDecoder 10000 (pathValueDecoder 10000 8 1)) 8
          [[97], [98]]
          [123, 34, 97, 34, 58, 123, 34, 98, 34, 58, 49, 125, 44, 34, 99, 34, 58, 50, 125, 0] 0 0
          0).target =
          ((pathMapDecoder 10000 (pathValueDecoder 10000 8 1)).valueDecoder child
            [123, 34, 97, 34, 58, 123, 34, 98, 34, 58, 49, 125, 44, 34, 99, 34, 58, 50, 125, 0]
            (c1 + 1) (0 + 1) 0).target)) :=
  ⟨rfl, rfl, DecodePath_calls_once 10000 (pathMapDecoder 10000 (pathValueDecoder 10000 8 1)) 8
    [[97], [98]]
    [123, 34, 97, 34, 58, 123, 34, 98, 34, 58, 49, 125, 44, 34, 99, 34, 58, 50, 125, 0] 0 0 0⟩

/-! ## Claim about a malformed null in ptrDecoder.decode -/

/-- Claim C18 as stated fails: on the buffer n x l l with its terminator and the
cursor 0, the mismatched character is at the index 1, and ptrDecoder.decode
fails with the invalid-character error for the byte x whose offset is 0, the
index of the n; on n u x l the mismatch is at the index 2 and on n u l x at the
index 3, and the offset is 0 again. -/
theorem ptrDecoder_decode_offset_of_n :
    (ptrDecoder.decode (failingRootDecoder : RootDecoder Nat) [110, 120, 108, 108, 0] 0
        (some 7)).result = .error (.invalidCharacter 120 0) ∧
      (ptrDecoder.decode (failingRootDecoder : RootDecoder Nat) [110, 117, 120, 108, 0] 0
        (some 7)).result = .error (.invalidCharacter 120 0) ∧
      (ptrDecoder.decode (failingRootDecoder : RootDecoder Nat) [110, 117, 108, 120, 0] 0
        (some 7)).result = .error (.invalidCharacter 120 0) := by
  decide

/-- Claim C18, amended: when ptrDecoder.decode finds, after whitespace, the
byte n at the index i, the target is not written and the inner decoder is not
invoked in any of these cases, and every error carries the offset i of the n.
When fewer than four bytes of the buffer remain from i on, the error is the
unexpected end.  Otherwise, when the byte after the n is not u, the error is the
invalid character with that byte; when it is u and the next byte is not l, with
that next byte; and when u and l follow and the third byte is not l, with the
third byte. -/
theorem ptrDecoder_decode_bad_null {τ : Type} [Inhabited τ] (dec : RootDecoder τ)
    (buf : List Nat) (cursor : Nat) (p : Option τ) (ws rest : List Nat) (hws : IsWs ws)
    (hd : buf.drop cursor = ws ++ 110 :: rest) :
    (rest.length < 3 →
      ptrDecoder.decode dec buf cursor p = ⟨p, [], .error (.unexpectedEnd (cursor + ws.length))⟩) ∧
    (∀ (a b c : Nat) (tl : List Nat), rest = a :: b :: c :: tl →
      (a ≠ 117 → ptrDecoder.decode dec buf cursor p =
        ⟨p, [], .error (.invalidCharacter a (cursor + ws.length))⟩) ∧
      (a = 117 → b ≠ 108 → ptrDecoder.decode dec buf cursor p =
        ⟨p, [], .error (.invalidCharacter b (cursor + ws.length))⟩) ∧
      (a = 117 → b = 108 → c ≠ 108 → ptrDecoder.decode dec buf cursor p =
        ⟨p, [], .error (.invalidCharacter c (cursor + ws.length))⟩)) := by
  have hskip := decoderSkipWhiteSpace_ws buf cursor ws hws 110 rest hd (by decide)
  have hd0 := drop_add_of_drop ws hd
  have h0 := getElem?_of_drop hd0
  have hl := congrArg List.length hd0
  simp only [List.length_drop, List.length_cons] at hl
  refine ⟨?_, ?_⟩
  · intro hshort
    have hge : cursor + ws.length + 3 ≥ buf.length := by omega
    simp only [ptrDecoder.decode, hskip, h0, if_true, if_pos hge]
  · intro a b c tl hrest
    subst hrest
    simp only [List.length_cons] at hl
    have hge : ¬ (cursor + ws.length + 3 ≥ buf.length) := by omega
    have hd1 := drop_succ_of_drop hd0
    have hd2 := drop_succ_of_drop hd1
    have hd3 := drop_succ_of_drop hd2
    have g1 : buf.getD (cursor + ws.length + 1) 0 = a := by
      rw [List.getD_eq_getElem?_getD, getElem?_of_drop hd1]; rfl
    have g2 : buf.getD (cursor + ws.length + 2) 0 = b := by
      rw [List.getD_eq_getElem?_getD, getElem?_of_drop hd2]; rfl
    have g3 : buf.getD (cursor + ws.length + 3) 0 = c := by
      rw [List.getD_eq_getElem?_getD, getElem?_of_drop hd3]; rfl
    refine ⟨?_, ?_, ?_⟩
    · intro ha
      simp only [ptrDecoder.decode, hskip, h0, if_true, if_neg hge, g1, if_pos ha]
    · intro ha hb
      have ha1 : ¬ (a ≠ 117) := by omega
      simp only [ptrDecoder.decode, hskip, h0, if_true, if_neg hge, g1, g2, if_neg ha1, if_pos hb]
    · intro ha hb hc
      have ha1 : ¬ (a ≠ 117) := by omega
      have hb1 : ¬ (b ≠ 108) := by omega
      simp only [ptrDecoder.decode, hskip, h0, if_true, if_neg hge, g1, g2, g3, if_neg ha1,
        if_neg hb1, if_pos hc]

/-- The buffers blank n u l x, with the terminator, and blank n u, without:
the first fails with the invalid character x at the offset 1 of the n, the
second with the unexpected end at the offset 1, and the target keeps its 7. -/
theorem ptrDecoder_decode_bad_null_witness :
    ptrDecoder.decode (failingRootDecoder : RootDecoder Nat) [32, 110, 117, 108, 120, 0] 0
        (some 7) = ⟨some 7, [], .error (.invalidCharacter 120 1)⟩ ∧
      ptrDecoder.decode (failingRootDecoder : RootDecoder Nat) [32, 110, 117] 0 (some 7) =
        ⟨some 7, [], .error (.unexpectedEnd 1)⟩ :=
  ⟨((ptrDecoder_decode_bad_null failingRootDecoder [32, 110, 117, 108, 120, 0] 0 (some 7) [32]
      [117, 108, 120, 0] (by intro c hc; simp only [List.mem_singleton] at hc; subst hc; rfl)
      rfl).2 117 108 120 [0] rfl).2.2 rfl rfl (by decide),
    (ptrDecoder_decode_bad_null failingRootDecoder [32, 110, 117] 0 (some 7) [32] [117]
      (by intro c hc; simp only [List.mem_singleton] at hc; subst hc; rfl) rfl).1 (by decide)⟩

end GoJson
